import Mathlib

/-!
# libbigint: a shallow embedding of `big_int.c`

Conventions of the embedding.

* A `big_int_t` is the record `big_int`; its digit buffer `slot` is a list of
  naturals, one per allocated 32-bit slot.  `rd` reads a slot; a read past the
  end of the buffer yields `0`, a write past the end is dropped (`List.set`).
  In the C code such an access is outside the allocated block; the functions
  of the section "Runs with the slot accesses checked against the blocks"
  redo the additions and products with these accesses checked against the
  size of the block, and end with `outcome.outside` at the first one that
  leaves it.
* Memory allocation always succeeds and hands out zero-filled buffers (heap
  buffers are zeroed by the code, pool pages are clean), so the `-1` / `NULL`
  exits are never taken; `__big_int_clean_slots` and the `free` calls act on a
  buffer that is dropped and have no counterpart here.
* `size_t`, `int` and `unsigned int` lengths and indices are naturals and
  their arithmetic is exact, except where it wraps for small operands: an
  unsigned subtraction that can go below zero is `size_sub`, and a 32-bit data
  word passed as an `int` is converted by `to_int`.
* Pointer equality `num1 == num2` is the Boolean argument `same`.
* Loops whose trip count depends on the data (`for (;;)`, `while`) take a fuel
  argument and return `none` when it runs out.
-/

namespace Libbigint

/-! ## Loops and buffers -/

/-- The loop `for (i = 0; i < n; i++) acc = f i acc`. -/
def for_up {α : Type} (n : Nat) (f : Nat → α → α) (init : α) : α :=
  (List.range n).foldl (fun acc i => f i acc) init

/-- The loop `for (i = a; i < b; i++) acc = f i acc`. -/
def for_range {α : Type} (a b : Nat) (f : Nat → α → α) (init : α) : α :=
  for_up (b - a) (fun k acc => f (a + k) acc) init

/-- The loop `for (i = n - 1; i >= 0; i--) acc = f i acc`. -/
def for_down {α : Type} (n : Nat) (f : Nat → α → α) (init : α) : α :=
  (List.range n).foldr (fun i acc => f i acc) init

/-- Read of `slot[i]`; `0` for an index past the end of the buffer, where the
C code reads outside the block. -/
def rd (s : List Nat) (i : Nat) : Nat := s.getD i 0

/-- A fresh buffer of `n` slots. -/
def alloc (n : Nat) : List Nat := List.replicate n 0

/-- Subtraction on `size_t`. -/
def size_sub (a b : Nat) : Nat := if b ≤ a then a - b else a + 2 ^ 64 - b

/-- Conversion of a 32-bit unsigned word to `int`. -/
def to_int (v : Nat) : Int := if v % 2 ^ 32 < 2 ^ 31 then (v % 2 ^ 32 : Nat) else (v % 2 ^ 32 : Nat) - 2 ^ 32

/-! ## Constants and macros -/

def ALLOCATE_SLOT_SIZE : Nat := 256
def BIT_PER_SLOT : Nat := 32
def BIG_NUMBER_POSITIVE : Int := 0
def BIG_NUMBER_NEGATIVE : Int := 1
def BIG_NUMBER_MUL_KARATSUBA_THRESHOLD : Nat := 768

def BIT_TO_SLOT (x : Nat) : Nat := x / 32 + (if x % 32 ≠ 0 then 1 else 0)
def BIT_TO_SLOT_FLOOR (x : Nat) : Nat := x / 32
def SLOT_TAIL (x : Nat) : Nat := x % 32
def MUL_SLOT (x : Nat) : Nat := x * 32

/-! ## The record -/

structure big_int where
  slot : List Nat
  bit_length : Nat
  slot_length : Nat
  allocated_slot_length : Nat
  sign : Int
deriving DecidableEq

/-! ## Highest set bit -/

def hbidx_16 (value : Nat) : Nat :=
  if value &&& 0xFF00 ≠ 0 then
    if value &&& 0xF000 ≠ 0 then
      if value &&& 0xC000 ≠ 0 then
        if value &&& 0x8000 ≠ 0 then 16 else 15
      else
        if value &&& 0x2000 ≠ 0 then 14 else 13
    else
      if value &&& 0x0C00 ≠ 0 then
        if value &&& 0x0800 ≠ 0 then 12 else 11
      else
        if value &&& 0x0200 ≠ 0 then 10 else 9
  else
    if value &&& 0xF0 ≠ 0 then
      if value &&& 0xC0 ≠ 0 then
        if value &&& 0x80 ≠ 0 then 8 else 7
      else
        if value &&& 0x20 ≠ 0 then 6 else 5
    else
      if value &&& 0x0C ≠ 0 then
        if value &&& 0x08 ≠ 0 then 4 else 3
      else
        if value &&& 0x02 ≠ 0 then 2
        else if value ≠ 0 then 1 else 0

def hbidx_32 (value : Nat) : Nat :=
  let test := hbidx_16 (value >>> 16)
  if test > 0 then test + 16 else hbidx_16 (value &&& 0xFFFF)

/-! ## Construction -/

/-- The record built by `__big_int_new` on a zero-filled buffer, as
`__big_int_new_zero` leaves it. -/
def __big_int_new_zero (bit_length : Nat) : big_int :=
  let bit_length := max bit_length 1
  let slot_length := BIT_TO_SLOT bit_length
  let allocated_slot_length := max slot_length ALLOCATE_SLOT_SIZE
  { slot := alloc allocated_slot_length,
    bit_length := bit_length,
    slot_length := slot_length,
    allocated_slot_length := allocated_slot_length,
    sign := BIG_NUMBER_POSITIVE }

/-- The scan `while ((((value >> bit_length) & 0x1) == 0) && bit_length >= 0) bit_length--;`
followed by `bit_length++`; the argument is `bit_length + 1`. -/
def new_from_int_scan (value : Nat) : Nat → Nat
  | 0 => 0
  | n + 1 => if (value >>> n) &&& 1 = 0 then new_from_int_scan value n else n + 1

def big_int_new_from_int (value : Nat) : big_int :=
  let bit_length := new_from_int_scan value BIT_PER_SLOT
  let new_int := __big_int_new_zero bit_length
  { new_int with slot := new_int.slot.set 0 value }

/-! ## Comparison -/

/-- The slot loop of `big_int_compare_raw`; the argument is `slot_idx + 1`. -/
def compare_raw_loop (s1 s2 : List Nat) : Nat → Int
  | 0 => 0
  | n + 1 =>
    if rd s1 n > rd s2 n then 1
    else if rd s1 n < rd s2 n then -1
    else compare_raw_loop s1 s2 n

def big_int_compare_raw (num1 num2 : big_int) : Int :=
  if num1.bit_length > num2.bit_length then 1
  else if num1.bit_length < num2.bit_length then -1
  else compare_raw_loop num1.slot num2.slot num1.slot_length

def big_int_compare (num1 num2 : big_int) : Int :=
  if num1.sign = BIG_NUMBER_POSITIVE then
    if num2.sign = BIG_NUMBER_POSITIVE then big_int_compare_raw num1 num2
    else 1
  else
    if num2.sign = BIG_NUMBER_NEGATIVE then big_int_compare_raw num2 num1
    else -1

/-! ## Copies -/

/-- A fresh buffer of `n` slots holding the first `used` slots of `old`. -/
def copy_slots (old : List Nat) (used n : Nat) : List Nat :=
  for_up used (fun idx s => s.set idx (rd old idx)) (alloc n)

def big_int_assign (num : big_int) : big_int :=
  { slot := copy_slots num.slot num.slot_length num.allocated_slot_length,
    allocated_slot_length := num.allocated_slot_length,
    bit_length := num.bit_length,
    slot_length := num.slot_length,
    sign := num.sign }

/-! ## Magnitude addition and subtraction -/

/-- The body of the loop of `big_int_add_to_raw`: `tmp = (uint64_t)(num1->slot[slot_idx]) +
num2->slot[slot_idx] + carry; carry = tmp >> BIT_PER_SLOT; num1->slot[slot_idx] = tmp & BIT_MASK_SLOT;`
on the pair of the buffer of `num1` and the carry. -/
def add_carry_step (slot2 : List Nat) (slot_idx : Nat) (p : List Nat × Nat) : List Nat × Nat :=
  let tmp := rd p.1 slot_idx + rd slot2 slot_idx + p.2
  (p.1.set slot_idx (tmp % 2 ^ 32), tmp / 2 ^ 32)

/-- The loop of `big_int_add_to_raw` over `operation_slot_length` slots. -/
def add_carry_loop (slot1 slot2 : List Nat) (operation_slot_length : Nat) : List Nat × Nat :=
  for_up operation_slot_length (add_carry_step slot2) (slot1, 0)

/-- The block `allocated space size check` of `big_int_add_to_raw`. -/
def add_grow (num1 : big_int) (neccessary_slot : Nat) : big_int :=
  if neccessary_slot > num1.allocated_slot_length then
    { num1 with
      slot := copy_slots num1.slot num1.slot_length (neccessary_slot + ALLOCATE_SLOT_SIZE),
      allocated_slot_length := neccessary_slot + ALLOCATE_SLOT_SIZE }
  else num1

/-- The tail of `big_int_add_to_raw`: the carry is stored in the next slot
and the lengths are recomputed. -/
def add_finish (num1 : big_int) (operation_slot_length : Nat) (r : List Nat × Nat) : big_int :=
  let carry := r.2
  let slot := r.1.set operation_slot_length carry
  let slot_length := operation_slot_length + carry
  let bit_length := MUL_SLOT (size_sub slot_length 1) + hbidx_32 (rd slot (size_sub slot_length 1))
  let bit_length := if bit_length = 0 then 1 else bit_length
  { num1 with slot := slot, slot_length := slot_length, bit_length := bit_length }

def big_int_add_to_raw (num1 num2 : big_int) : Int × big_int :=
  let neccessary_bit := max num1.bit_length num2.bit_length + 1
  let neccessary_slot := BIT_TO_SLOT neccessary_bit
  let num1 := add_grow num1 neccessary_slot
  let operation_slot_length := max num1.slot_length num2.slot_length
  (0, add_finish num1 operation_slot_length
        (add_carry_loop num1.slot num2.slot operation_slot_length))

/-- The scan `while (slot[slot_idx] == 0 && slot_idx >= 0) slot_idx--;`; the
argument is `slot_idx + 1` and so is the result (`0` stands for `-1`). -/
def trim_scan (s : List Nat) : Nat → Nat
  | 0 => 0
  | n + 1 => if rd s n = 0 then trim_scan s n else n + 1

/-- The body of the first loop of `big_int_sub_to_raw`:
`new_carry = (num1->slot[slot_idx] >= ((uint64_t)num2->slot[slot_idx] + carry)) ? 0 : 1;
num1->slot[slot_idx] = (uint64_t)num1->slot[slot_idx] + ((uint64_t)new_carry << BIT_PER_SLOT)
- (num2->slot[slot_idx] + carry); carry = new_carry;`. -/
def sub_borrow_step (slot2 : List Nat) (slot_idx : Nat) (p : List Nat × Nat) : List Nat × Nat :=
  let new_carry := if rd p.1 slot_idx ≥ rd slot2 slot_idx + p.2 then 0 else 1
  (p.1.set slot_idx
      ((rd p.1 slot_idx + new_carry * 2 ^ 32 - (rd slot2 slot_idx + p.2) % 2 ^ 32) % 2 ^ 32),
    new_carry)

/-- The first loop of `big_int_sub_to_raw`, over the slots of `num2`. -/
def sub_borrow_loop (slot1 slot2 : List Nat) (n : Nat) : List Nat × Nat :=
  for_up n (sub_borrow_step slot2) (slot1, 0)

/-- The body of the second loop of `big_int_sub_to_raw`:
`new_carry = (num1->slot[slot_idx] >= carry) ? 0 : 1; num1->slot[slot_idx] =
(uint64_t)num1->slot[slot_idx] + ((uint64_t)new_carry << BIT_PER_SLOT) - (carry); carry = new_carry;`. -/
def sub_tail_step (slot_idx : Nat) (p : List Nat × Nat) : List Nat × Nat :=
  let new_carry := if rd p.1 slot_idx ≥ p.2 then 0 else 1
  (p.1.set slot_idx ((rd p.1 slot_idx + new_carry * 2 ^ 32 - p.2) % 2 ^ 32), new_carry)

/-- The second loop of `big_int_sub_to_raw`, which carries the borrow through
the slots `n2 .. n1` of `num1`. -/
def sub_borrow_tail (n2 n1 : Nat) (p : List Nat × Nat) : List Nat × Nat :=
  for_range n2 n1 sub_tail_step p

/-- The block `Extend num1` of `big_int_sub_to_raw`. -/
def sub_grow (num1 num2 : big_int) : big_int :=
  if num2.slot_length + 1 > num1.allocated_slot_length then
    { num1 with
      slot := copy_slots num1.slot num1.slot_length (num2.allocated_slot_length + ALLOCATE_SLOT_SIZE),
      allocated_slot_length := num2.allocated_slot_length + ALLOCATE_SLOT_SIZE }
  else num1

/-- The tail of `big_int_sub_to_raw`: the scan for the top slot and the new
lengths. -/
def sub_trim (num1 : big_int) (slot : List Nat) : big_int :=
  let slot_idx := trim_scan slot num1.slot_length
  if slot_idx = 0 then
    { num1 with slot := slot, slot_length := 1, bit_length := 1 }
  else
    { num1 with
      slot := slot,
      slot_length := slot_idx,
      bit_length := MUL_SLOT (slot_idx - 1) + hbidx_32 (rd slot (slot_idx - 1)) }

/-- The block `X - X = 0`: the used slots are zeroed (the same block is the
`X % X = 0` of `big_int_mod_to` and the `min / max = 0` of `big_int_div_to`). -/
def clear_used (num1 : big_int) : big_int :=
  { num1 with slot := for_up num1.slot_length (fun slot_idx s => s.set slot_idx 0) num1.slot,
              slot_length := 1, bit_length := 1 }

def big_int_sub_to_raw (num1 num2 : big_int) : Int × big_int :=
  if num2.slot_length = 1 ∧ rd num2.slot 0 = 0 then
    (0, num1)
  else if big_int_compare num1 num2 = 0 then
    (0, clear_used num1)
  else
    let num1 := sub_grow num1 num2
    let r := sub_borrow_loop num1.slot num2.slot num2.slot_length
    let r := if r.2 = 1 then sub_borrow_tail num2.slot_length num1.slot_length r else r
    (0, sub_trim num1 r.1)

def big_int_is_zero (num : big_int) : Bool :=
  num.slot_length = 1 ∧ rd num.slot 0 = 0

/-! ## Signed addition and subtraction -/

/-- The block shared by `big_int_add_to` and `big_int_sub_to`:
`temp = big_int_assign(num2); ret = big_int_sub_to_raw(temp, num1);` after
which `num1` takes over the fields of `temp`. -/
def sub_swapped (num1 num2 : big_int) : Int × big_int :=
  let temp := big_int_assign num2
  let r := big_int_sub_to_raw temp num1
  let temp := r.2
  (r.1, { slot := temp.slot,
          slot_length := temp.slot_length,
          allocated_slot_length := temp.allocated_slot_length,
          bit_length := temp.bit_length,
          sign := temp.sign })

/-- The tail `num1->sign = sign; if (big_int_is_zero(num1)) num1->sign = BIG_NUMBER_POSITIVE;`. -/
def set_sign (sign : Int) (num1 : big_int) : big_int :=
  let num1 := { num1 with sign := sign }
  if big_int_is_zero num1 then { num1 with sign := BIG_NUMBER_POSITIVE } else num1

def big_int_add_to (num1 num2 : big_int) : Int × big_int :=
  let r : Int × (Int × big_int) :=
    if num1.sign = BIG_NUMBER_POSITIVE then
      if num2.sign = BIG_NUMBER_POSITIVE then
        (BIG_NUMBER_POSITIVE, big_int_add_to_raw num1 num2)
      else
        if big_int_compare_raw num1 num2 > 0 then
          (BIG_NUMBER_POSITIVE, big_int_sub_to_raw num1 num2)
        else
          (BIG_NUMBER_NEGATIVE, sub_swapped num1 num2)
    else
      if num2.sign = BIG_NUMBER_NEGATIVE then
        (BIG_NUMBER_NEGATIVE, big_int_add_to_raw num1 num2)
      else
        if big_int_compare_raw num1 num2 > 0 then
          (BIG_NUMBER_NEGATIVE, big_int_sub_to_raw num1 num2)
        else
          (BIG_NUMBER_POSITIVE, sub_swapped num1 num2)
  (r.2.1, set_sign r.1 r.2.2)

def big_int_sub_to (num1 num2 : big_int) : Int × big_int :=
  let r : Int × (Int × big_int) :=
    if num1.sign = BIG_NUMBER_POSITIVE then
      if num2.sign = BIG_NUMBER_POSITIVE then
        if big_int_compare_raw num1 num2 > 0 then
          (BIG_NUMBER_POSITIVE, big_int_sub_to_raw num1 num2)
        else
          (BIG_NUMBER_NEGATIVE, sub_swapped num1 num2)
      else
        (BIG_NUMBER_POSITIVE, big_int_add_to_raw num1 num2)
    else
      if num2.sign = BIG_NUMBER_POSITIVE then
        (BIG_NUMBER_NEGATIVE, big_int_add_to_raw num1 num2)
      else
        if big_int_compare_raw num1 num2 > 0 then
          (BIG_NUMBER_NEGATIVE, big_int_add_to_raw num1 num2)
        else
          (BIG_NUMBER_POSITIVE, sub_swapped num1 num2)
  (r.2.1, set_sign r.1 r.2.2)

/-! ## Values -/

/-- The number held in the first `n` slots, least significant first. -/
def val (s : List Nat) : Nat → Nat
  | 0 => 0
  | n + 1 => val s n + rd s n * 2 ^ (32 * n)

/-- Magnitude of a big integer. -/
def magnitude (x : big_int) : Nat := val x.slot x.slot_length

/-- The integer a big integer stands for. -/
def to_Int (x : big_int) : Int :=
  if x.sign = BIG_NUMBER_NEGATIVE then - (magnitude x : Int) else (magnitude x : Int)

/-! ## Squaring -/

/-- The helper `__u64_add`: `(carry, sum)`. -/
def __u64_add (num1 num2 : Nat) : Nat × Nat :=
  let num1_high := num1 >>> 32
  let num1_low := num1 &&& 0xFFFFFFFF
  let num2_high := num2 >>> 32
  let num2_low := num2 &&& 0xFFFFFFFF
  let sum_low := num1_low + num2_low
  let carry_low := sum_low >>> 32
  let sum_high := num1_high + num2_high + carry_low
  let carry_high := sum_high >>> 32
  let sum_low := sum_low &&& 0xFFFFFFFF
  let sum_high := sum_high &&& 0xFFFFFFFF
  (carry_high, (sum_high <<< 32) ||| sum_low)

/-- The helper `__u64_shift_1`: `(carry, result)`. -/
def __u64_shift_1 (num : Nat) : Nat × Nat :=
  (num >>> 63, (num <<< 1) % 2 ^ 64)

/-- State of the loops of `__big_int_square_plain`: the slots of `w`, the
array `c_fix_arr`, and the variables `u` and `c`. -/
structure square_state where
  w : List Nat
  c_fix_arr : List Nat
  u : Nat
  c : Nat

/-- One pass of the inner loop (step 2) of `__big_int_square_plain`. -/
def square_step2 (x : List Nat) (i j : Nat) (st : square_state) : square_state :=
  let sh := __u64_shift_1 (rd x j * rd x i)
  let carry := sh.1
  let sum := sh.2
  let a1 := __u64_add (rd st.w (i + j) ||| (rd st.c_fix_arr (i + j) <<< 32)) sum
  let carry := carry + a1.1
  let a2 := __u64_add a1.2 st.c
  let carry := carry + a2.1
  let sum := a2.2
  let u := (sum >>> 32) ||| ((carry <<< 32) % 2 ^ 64)
  let v := sum &&& 0xFFFFFFFF
  { w := st.w.set (i + j) (v &&& 0xFFFFFFFF),
    c_fix_arr := st.c_fix_arr.set (i + j) 0,
    u := u,
    c := u }

/-- One pass of the outer loop of `__big_int_square_plain`. -/
def square_row (x : List Nat) (t i : Nat) (st : square_state) : square_state :=
  let uv := ((rd st.w (i <<< 1) ||| (rd st.c_fix_arr (i <<< 1) <<< 32)) + rd x i * rd x i) % 2 ^ 64
  let u := uv >>> 32
  let v := uv &&& 0xFFFFFFFF
  let st : square_state :=
    { w := st.w.set (i <<< 1) (v &&& 0xFFFFFFFF),
      c_fix_arr := st.c_fix_arr.set (i <<< 1) 0,
      u := u,
      c := u }
  let st := for_range (i + 1) t (fun j st => square_step2 x i j st) st
  { st with
    w := st.w.set (i + t) (st.u &&& 0xFFFFFFFF),
    c_fix_arr := st.c_fix_arr.set (i + t) ((st.u >>> 32) % 2 ^ 32) }

def __big_int_square_plain (x : big_int) : big_int :=
  let t := x.slot_length
  let w := __big_int_new_zero (MUL_SLOT (t <<< 1))
  let st := for_up t (fun i st => square_row x.slot t i st)
    { w := w.slot, c_fix_arr := alloc (t <<< 1), u := 0, c := 0 }
  let i := trim_scan st.w w.slot_length
  if i = 0 then
    { w with slot := st.w, bit_length := 1, slot_length := 1 }
  else
    { w with slot := st.w, slot_length := i,
             bit_length := MUL_SLOT (i - 1) + hbidx_32 (rd st.w (i - 1)) }

/-! ## Schoolbook multiplication -/

/-- State of the outer loop of `__big_int_mul_plain`. -/
structure mul_plain_state where
  num_term : big_int
  num_final : big_int
  num_term_slot_idx_max : Nat

/-- The body of the inner loop of `__big_int_mul_plain`:
`tmp = (uint64_t)num1->slot[num1_slot_idx] * num2->slot[num2_slot_idx] + carry;
carry = tmp >> BIT_PER_SLOT; num_term->slot[num_term_slot_idx] = tmp & 0xFFFFFFFF;`
on the pair of the buffer of `num_term` and the carry. -/
def mul_plain_step (num1 num2 : big_int) (num1_slot_idx num2_slot_idx : Nat)
    (p : List Nat × Nat) : List Nat × Nat :=
  let tmp := rd num1.slot num1_slot_idx * rd num2.slot num2_slot_idx + p.2
  (p.1.set (num1_slot_idx + num2_slot_idx) (tmp &&& 0xFFFFFFFF), tmp >>> 32)

/-- The term `num1->slot[num1_slot_idx] * num2`, built in the cleared buffer
`term` of `num_term`. -/
def mul_plain_term (num1 num2 num_term : big_int) (num1_slot_idx : Nat) (term : List Nat) :
    big_int :=
  let r := for_up num2.slot_length (mul_plain_step num1 num2 num1_slot_idx) (term, 0)
  let carry := r.2
  let num_term_slot_idx := num1_slot_idx + num2.slot_length
  let term := r.1.set num_term_slot_idx carry
  let slot_length := num_term_slot_idx + (if carry ≠ 0 then 1 else 0)
  let bit_length := MUL_SLOT (size_sub slot_length 1) + hbidx_32 (rd term (size_sub slot_length 1))
  { num_term with slot := term, slot_length := slot_length, bit_length := bit_length }

/-- One pass of the outer loop of `__big_int_mul_plain`. -/
def mul_plain_row (num1 num2 : big_int) (num1_slot_idx : Nat) (st : mul_plain_state) :
    mul_plain_state :=
  let term := for_up st.num_term_slot_idx_max (fun idx s => s.set idx 0) st.num_term.slot
  if rd num1.slot num1_slot_idx ≠ 0 then
    let num_term := mul_plain_term num1 num2 st.num_term num1_slot_idx term
    { num_term := num_term,
      num_final := (big_int_add_to st.num_final num_term).2,
      num_term_slot_idx_max := num_term.slot_length }
  else
    { st with num_term := { st.num_term with slot := term } }

def __big_int_mul_plain (same : Bool) (num1 num2 : big_int) : big_int :=
  if same then __big_int_square_plain num1
  else
    let neccessary_bit := num1.bit_length + num2.bit_length
    let st := for_up num1.slot_length (fun idx st => mul_plain_row num1 num2 idx st)
      { num_term := __big_int_new_zero neccessary_bit,
        num_final := big_int_new_from_int 0,
        num_term_slot_idx_max := 0 }
    st.num_final

/-! ## Shifts -/

/-- The reallocation at the head of `big_int_left_shift`. -/
def left_shift_grow (num : big_int) (bit_length : Nat) : big_int :=
  let neccessary_bit := num.bit_length + bit_length
  let neccessary_slot := BIT_TO_SLOT neccessary_bit
  if neccessary_slot ≥ num.allocated_slot_length then
    { num with
      slot := copy_slots num.slot num.slot_length (neccessary_slot + ALLOCATE_SLOT_SIZE),
      allocated_slot_length := neccessary_slot + ALLOCATE_SLOT_SIZE }
  else num

/-- The two loops of the block `if (slot_delta > 0)` of `big_int_left_shift`:
the used slots move up by `slot_delta`, the low slots are cleared. -/
def shift_slots_up (s : List Nat) (slot_length slot_delta : Nat) : List Nat :=
  let s := for_down slot_length (fun slot_idx s => s.set (slot_idx + slot_delta) (rd s slot_idx)) s
  for_down slot_delta (fun slot_idx s => s.set slot_idx 0) s

/-- The block `if (slot_delta > 0)` of `big_int_left_shift`. -/
def left_shift_slots (num : big_int) (slot_delta : Nat) : big_int :=
  if slot_delta > 0 then
    { num with slot := shift_slots_up num.slot num.slot_length slot_delta,
               slot_length := num.slot_length + slot_delta,
               bit_length := num.bit_length + MUL_SLOT slot_delta }
  else num

/-- The body of the bit loop of `big_int_left_shift` at `slot_idx = k + 1`:
`num->slot[slot_idx] = ((num->slot[slot_idx] << bit_delta) & 0xFFFFFFFF) |
((num->slot[slot_idx - 1] >> (32 - bit_delta)) & ((1 << bit_delta) - 1));`. -/
def shift_bits_up_step (bit_delta : Nat) (k : Nat) (s : List Nat) : List Nat :=
  s.set (k + 1) ((((rd s (k + 1)) <<< bit_delta) &&& 0xFFFFFFFF) |||
                 ((rd s k >>> (32 - bit_delta)) &&& ((1 <<< bit_delta) - 1)))

/-- The slots after the block `if (bit_delta > 0)` of `big_int_left_shift`. -/
def shift_bits_up (s : List Nat) (slot_length bit_delta : Nat) : List Nat :=
  let s := s.set slot_length 0
  let s := for_down slot_length (shift_bits_up_step bit_delta) s
  s.set 0 ((rd s 0 <<< bit_delta) &&& 0xFFFFFFFF)

/-- The block `if (bit_delta > 0)` of `big_int_left_shift`. -/
def left_shift_bits (num : big_int) (bit_delta : Nat) : big_int :=
  if bit_delta > 0 then
    let s := shift_bits_up num.slot num.slot_length bit_delta
    { num with slot := s,
               bit_length := num.bit_length + bit_delta,
               slot_length := if rd s num.slot_length ≠ 0 then num.slot_length + 1 else num.slot_length }
  else num

/-- Body of `big_int_left_shift` for a count that is not negative. -/
def left_shift_core (num : big_int) (bit_length : Nat) : big_int :=
  left_shift_bits
    (left_shift_slots (left_shift_grow num bit_length) (BIT_TO_SLOT_FLOOR bit_length))
    (SLOT_TAIL bit_length)

/-- The function `big_int_left_shift`; a negative count makes the code index
far outside the buffer and has no result here. -/
def big_int_left_shift (num : big_int) (bit_length : Int) : Option big_int :=
  if bit_length < 0 then none else some (left_shift_core num bit_length.toNat)

/-- The block `if (slot_delta > 0)` of `big_int_right_shift`. -/
def right_shift_slots (num : big_int) (slot_delta : Nat) : big_int :=
  if slot_delta > 0 then
    let s := for_up (num.slot_length - slot_delta)
      (fun slot_idx s => s.set slot_idx (rd s (slot_idx + slot_delta))) num.slot
    let s := for_range (num.slot_length - slot_delta) num.slot_length
      (fun slot_idx s => s.set slot_idx 0) s
    let slot_length := size_sub num.slot_length slot_delta
    { num with slot := s,
               slot_length := if slot_length = 0 then 1 else slot_length,
               bit_length := size_sub num.bit_length (MUL_SLOT slot_delta) }
  else num

/-- The body of the bit loop of `big_int_right_shift`:
`num->slot[slot_idx] = (num->slot[slot_idx] >> bit_delta) |
((num->slot[slot_idx + 1] & ((1 << bit_delta) - 1)) << (BIT_PER_SLOT - bit_delta));`. -/
def shift_bits_down_step (bit_delta : Nat) (slot_idx : Nat) (s : List Nat) : List Nat :=
  s.set slot_idx ((rd s slot_idx >>> bit_delta) |||
    ((rd s (slot_idx + 1) &&& ((1 <<< bit_delta) - 1)) <<< (BIT_PER_SLOT - bit_delta)))

/-- The block `if (bit_delta > 0)` of `big_int_right_shift`. -/
def right_shift_bits (num : big_int) (bit_delta : Nat) : big_int :=
  if bit_delta > 0 then
    { num with slot := for_up num.slot_length (shift_bits_down_step bit_delta) num.slot }
  else num

/-- The tail of `big_int_right_shift`: `if (num->slot[num->slot_length - 1] == 0 &&
num->slot_length > 0) num->slot_length--;` and the new bit length. -/
def right_shift_trim (num : big_int) : big_int :=
  let slot_length :=
    if rd num.slot (size_sub num.slot_length 1) = 0 ∧ num.slot_length > 0 then size_sub num.slot_length 1
    else num.slot_length
  { num with slot_length := slot_length,
             bit_length := MUL_SLOT (size_sub slot_length 1) + hbidx_32 (rd num.slot (size_sub slot_length 1)) }

/-- Body of `big_int_right_shift` for a count that is not negative. -/
def right_shift_core (num : big_int) (bit_length : Nat) : big_int :=
  right_shift_trim
    (right_shift_bits (right_shift_slots num (BIT_TO_SLOT_FLOOR bit_length)) (SLOT_TAIL bit_length))

/-- The function `big_int_right_shift`; as for the left shift a negative
count has no result here. -/
def big_int_right_shift (num : big_int) (bit_length : Int) : Option big_int :=
  if bit_length < 0 then none else some (right_shift_core num bit_length.toNat)

/-! ## Karatsuba multiplication and the multiplication entry points -/

/-- The scan `while (slot[slot_idx] == 0 && slot_idx > 0) slot_idx--;`. -/
def trim_scan_pos (s : List Nat) : Nat → Nat
  | 0 => 0
  | n + 1 => if rd s (n + 1) = 0 then trim_scan_pos s n else n + 1

/-- Low part built by `__big_int_mul_karatsuba_split`. -/
def karatsuba_split_low (num : big_int) (shift : Nat) : big_int :=
  let new_low := __big_int_new_zero shift
  let s := for_up (shift / BIT_PER_SLOT) (fun slot_idx s => s.set slot_idx (rd num.slot slot_idx)) new_low.slot
  let slot_idx := trim_scan_pos s (shift / BIT_PER_SLOT - 1) + 1
  let bit_length := MUL_SLOT (slot_idx - 1) + hbidx_32 (rd s (slot_idx - 1))
  { new_low with slot := s, slot_length := slot_idx,
                 bit_length := if bit_length = 0 then 1 else bit_length }

/-- High part built by `__big_int_mul_karatsuba_split`. -/
def karatsuba_split_high (num : big_int) (shift : Nat) : big_int :=
  let high_bit_length := if num.bit_length ≤ shift then 0 else num.bit_length - shift
  if high_bit_length = 0 then big_int_new_from_int 0
  else
    let new_high := __big_int_new_zero high_bit_length
    let s := for_up (num.slot_length - shift / BIT_PER_SLOT)
      (fun slot_idx_2 s => s.set slot_idx_2 (rd num.slot (shift / BIT_PER_SLOT + slot_idx_2))) new_high.slot
    let slot_idx_2 := trim_scan_pos s (num.slot_length - shift / BIT_PER_SLOT - 1) + 1
    let bit_length := MUL_SLOT (slot_idx_2 - 1) + hbidx_32 (rd s (slot_idx_2 - 1))
    { new_high with slot := s, slot_length := slot_idx_2,
                    bit_length := if bit_length = 0 then 1 else bit_length }

/-- The function `__big_int_mul_karatsuba_split`: return code, high, low. -/
def __big_int_mul_karatsuba_split (num : big_int) (shift : Nat) : Option (big_int × big_int) :=
  if shift = 0 then none
  else some (karatsuba_split_high num shift, karatsuba_split_low num shift)

/-- The tail of `__big_int_mul_without_check`: the sign of the result, and
the zero check, which writes the sign of `num1`. -/
def mul_finish (num1 num2 result : big_int) : big_int × big_int :=
  let sign := if num1.sign = num2.sign then BIG_NUMBER_POSITIVE else BIG_NUMBER_NEGATIVE
  let result := { result with sign := sign }
  (if big_int_is_zero result then { num1 with sign := BIG_NUMBER_POSITIVE } else num1, result)

/-- The function `big_int_mul_to` over a given `__big_int_mul_without_check`. -/
def mul_to_with (mwc : Bool → big_int → big_int → Option (big_int × big_int))
    (same : Bool) (num1 num2 : big_int) : Option big_int :=
  if num1.slot_length = 1 ∧ rd num1.slot 0 = 0 then some num1
  else if same = false ∧ (num1.slot_length = 1 ∧ rd num1.slot 0 = 1 ∧ num1.sign = BIG_NUMBER_POSITIVE) then
    let num1 : big_int :=
      if num1.allocated_slot_length < num2.slot_length then
        { num1 with slot := (alloc num2.allocated_slot_length).set 0 1,
                    bit_length := 1,
                    allocated_slot_length := num2.allocated_slot_length,
                    slot_length := 1 }
      else num1
    let s := for_up num2.slot_length (fun idx s => s.set idx (rd num2.slot idx)) num1.slot
    let s := for_range num2.slot_length num1.slot_length (fun idx s => s.set idx 0) s
    some { num1 with slot := s, bit_length := num2.bit_length, slot_length := num2.slot_length,
                     sign := num2.sign }
  else if num2.slot_length = 1 ∧ rd num2.slot 0 = 1 ∧ num2.sign = BIG_NUMBER_POSITIVE then some num1
  else if num2.slot_length = 1 ∧ rd num2.slot 0 = 0 then
    some { num1 with slot := for_up num1.allocated_slot_length (fun idx s => s.set idx 0) num1.slot,
                     bit_length := 1, slot_length := 1, sign := BIG_NUMBER_POSITIVE }
  else
    (mwc same num1 num2).map (fun r =>
      let num_final := r.2
      { slot := num_final.slot,
        allocated_slot_length := num_final.allocated_slot_length,
        bit_length := num_final.bit_length,
        slot_length := num_final.slot_length,
        sign := num_final.sign })

/-- The steps `t0 = x1 - x0` and `t1 = y1 - y0` of `__big_int_mul_karatsuba`:
a copy of the high part minus the low part. -/
def karatsuba_diff (high low : big_int) : big_int :=
  (big_int_sub_to (big_int_assign high) low).2

/-- The step `z1 = z2 + z0 - t0 * t1` of `__big_int_mul_karatsuba`, once the
product `t0 * t1` is in `t0`. -/
def karatsuba_middle (z2 z0 t0 : big_int) : big_int :=
  let z1 := big_int_assign z2
  let z1 := (big_int_add_to z1 z0).2
  (big_int_sub_to z1 t0).2

/-- The step `Z = (z2 << (b << 1)) + (z1 << b) + z0` of
`__big_int_mul_karatsuba`. -/
def karatsuba_combine (z2 z1 z0 : big_int) (b : Nat) : Option big_int :=
  (big_int_left_shift z2 (b <<< 1 : Nat)).bind fun z2 =>
  (big_int_left_shift z1 (b : Nat)).bind fun z1 =>
  let result := big_int_assign z2
  let result := (big_int_add_to result z1).2
  let result := (big_int_add_to result z0).2
  some result

/-- The body of `__big_int_mul_karatsuba` once the operands are ordered: `x`
is the operand that is not longer than `y`. -/
def karatsuba_body (mwc : Bool → big_int → big_int → Option (big_int × big_int))
    (same : Bool) (x y : big_int) : Option big_int :=
  let b := ((y.bit_length >>> 1) ||| 31) + 1
  (__big_int_mul_karatsuba_split x b).bind fun (x1, x0) =>
  (if same then some (x1, x0) else __big_int_mul_karatsuba_split y b).bind fun (y1, y0) =>
  (mwc same x1 y1).bind fun (x1, z2) =>
  (mwc same x0 y0).bind fun (x0, z0) =>
  let t0 := karatsuba_diff x1 x0
  let t1 := if same then t0 else karatsuba_diff y1 y0
  (mul_to_with mwc same t0 t1).bind fun t0 =>
  karatsuba_combine z2 (karatsuba_middle z2 z0 t0) z0 b

/-- The function `__big_int_mul_karatsuba` over a given `__big_int_mul_without_check`. -/
def karatsuba_with (mwc : Bool → big_int → big_int → Option (big_int × big_int))
    (same : Bool) (num1 num2 : big_int) : Option big_int :=
  let x := if num1.bit_length > num2.bit_length then num2 else num1
  let y := if num1.bit_length > num2.bit_length then num1 else num2
  if (x.bit_length <<< 1) < y.bit_length then some (__big_int_mul_plain same num1 num2)
  else karatsuba_body mwc same x y

/-- The function `__big_int_mul_without_check`; the fuel bounds the depth of
the Karatsuba recursion.  The result is `num1` after the call and the product. -/
def __big_int_mul_without_check : Nat → Bool → big_int → big_int → Option (big_int × big_int)
  | 0 => fun same num1 num2 =>
    if min num1.bit_length num2.bit_length > BIG_NUMBER_MUL_KARATSUBA_THRESHOLD then none
    else some (mul_finish num1 num2 (__big_int_mul_plain same num1 num2))
  | fuel + 1 => fun same num1 num2 =>
    if min num1.bit_length num2.bit_length > BIG_NUMBER_MUL_KARATSUBA_THRESHOLD then
      (karatsuba_with (__big_int_mul_without_check fuel) same num1 num2).map (mul_finish num1 num2)
    else some (mul_finish num1 num2 (__big_int_mul_plain same num1 num2))

def __big_int_mul_karatsuba (fuel : Nat) (same : Bool) (num1 num2 : big_int) : Option big_int :=
  karatsuba_with (__big_int_mul_without_check fuel) same num1 num2

/-- The function `big_int_mul`: `num1` after the call and the new integer. -/
def big_int_mul (fuel : Nat) (same : Bool) (num1 num2 : big_int) : Option (big_int × big_int) :=
  if num1.slot_length = 1 ∧ rd num1.slot 0 = 0 then some (num1, big_int_new_from_int 0)
  else if num1.slot_length = 1 ∧ rd num1.slot 0 = 1 then some (num1, big_int_assign num2)
  else if num2.slot_length = 1 ∧ rd num2.slot 0 = 1 then some (num1, big_int_assign num1)
  else if num2.slot_length = 1 ∧ rd num2.slot 0 = 0 then some (num1, big_int_new_from_int 0)
  else __big_int_mul_without_check fuel same num1 num2

def big_int_mul_to (fuel : Nat) (same : Bool) (num1 num2 : big_int) : Option big_int :=
  mul_to_with (__big_int_mul_without_check fuel) same num1 num2

/-! ## Division and modulo -/

/-- Conversion of an `int` to `size_t`. -/
def to_size (i : Int) : Nat := if i < 0 then (i + 2 ^ 64).toNat else i.toNat

/-- The loop `while (big_int_compare(num1, divisor) == -1) { big_int_right_shift(divisor, 1);
bit_delta--; }` of `big_int_mod_to` and `big_int_div_to`. -/
def div_align : Nat → big_int → big_int → Int → Option (big_int × Int)
  | 0, _, _, _ => none
  | fuel + 1, num1, divisor, bit_delta =>
    if big_int_compare num1 divisor = -1 then
      (big_int_right_shift divisor 1).bind fun divisor => div_align fuel num1 divisor (bit_delta - 1)
    else some (divisor, bit_delta)

/-- The loop `while (((big_int_compare(divisor, num1)) == 1) && bit_delta > 0)
{ big_int_right_shift(divisor, 1); bit_delta--; }`. -/
def div_shift_down : Nat → big_int → big_int → Int → Option (big_int × Int)
  | 0, _, _, _ => none
  | fuel + 1, num1, divisor, bit_delta =>
    if big_int_compare divisor num1 = 1 ∧ bit_delta > 0 then
      (big_int_right_shift divisor 1).bind fun divisor => div_shift_down fuel num1 divisor (bit_delta - 1)
    else some (divisor, bit_delta)

/-- The loop `for (;;)` of `big_int_mod_to`; the result is `num1`. -/
def mod_loop (fuel0 : Nat) : Nat → big_int → big_int → Int → Option big_int
  | 0, _, _, _ => none
  | fuel + 1, num1, divisor, bit_delta =>
    let num1 := (big_int_sub_to num1 divisor).2
    (div_shift_down fuel0 num1 divisor bit_delta).bind fun (divisor, bit_delta) =>
    if bit_delta = 0 ∧ big_int_compare divisor num1 > 0 then some num1
    else mod_loop fuel0 fuel num1 divisor bit_delta

def big_int_mod_to (fuel : Nat) (num1 num2 : big_int) : Option big_int :=
  let ret := big_int_compare num1 num2
  if ret = 0 then some (clear_used num1)
  else if ret = -1 then some num1
  else
    let divisor := big_int_assign num2
    let bit_delta : Int := (num1.bit_length : Int) - (divisor.bit_length : Int)
    (big_int_left_shift divisor bit_delta).bind fun divisor =>
    (div_align fuel num1 divisor bit_delta).bind fun (divisor, bit_delta) =>
    mod_loop fuel fuel num1 divisor bit_delta

/-- The loop `for (;;)` of `big_int_div_to`; the result is the slots of the
quotient. -/
def div_loop (fuel0 : Nat) : Nat → List Nat → big_int → big_int → Int → Option (List Nat)
  | 0, _, _, _, _ => none
  | fuel + 1, quotient, num1, divisor, bit_delta =>
    let quotient := quotient.set (bit_delta / 32).toNat
      (rd quotient (bit_delta / 32).toNat ||| (1 <<< (bit_delta % 32).toNat))
    let num1 := (big_int_sub_to num1 divisor).2
    (div_shift_down fuel0 num1 divisor bit_delta).bind fun (divisor, bit_delta) =>
    if bit_delta = 0 ∧ big_int_compare divisor num1 > 0 then some quotient
    else div_loop fuel0 fuel quotient num1 divisor bit_delta

def big_int_div_to (fuel : Nat) (num1 num2 : big_int) : Option big_int :=
  let sign := if num1.sign = num2.sign then BIG_NUMBER_POSITIVE else BIG_NUMBER_NEGATIVE
  let ret := big_int_compare num1 num2
  if ret = 0 then
    let num1 := clear_used num1
    some { num1 with slot := num1.slot.set 0 1 }
  else if ret = -1 then some (clear_used num1)
  else
    let quotient := __big_int_new_zero num1.bit_length
    let divisor := big_int_assign num2
    let bit_delta : Int := (num1.bit_length : Int) - (divisor.bit_length : Int)
    (big_int_left_shift divisor bit_delta).bind fun divisor =>
    (div_align fuel num1 divisor bit_delta).bind fun (divisor, bit_delta) =>
    (div_loop fuel fuel quotient.slot num1 divisor bit_delta).bind fun slot =>
    some (set_sign sign
      { num1 with slot := slot,
                  slot_length := BIT_TO_SLOT (to_size (bit_delta + 1)),
                  bit_length := to_size bit_delta })

/-! ## Decrement and powers -/

/-- The loop of `big_int_dec`; the first argument counts the slots left. -/
def dec_loop : Nat → Nat → List Nat → List Nat
  | 0, _, s => s
  | n + 1, slot_idx, s =>
    if rd s slot_idx ≠ 0 then s.set slot_idx (rd s slot_idx - 1)
    else dec_loop n (slot_idx + 1) (s.set slot_idx 0xFFFFFFFF)

def big_int_dec (num : big_int) : big_int :=
  let s := dec_loop num.slot_length 0 num.slot
  let slot_length :=
    if rd s (size_sub num.slot_length 1) = 0 then
      (if size_sub num.slot_length 1 = 0 then 1 else size_sub num.slot_length 1)
    else num.slot_length
  { num with slot := s, slot_length := slot_length }

/-- The sign computed at the head of `big_int_pow_to` and `big_int_pow_mod_to`. -/
def pow_sign (num1 num2 : big_int) : Int :=
  if num1.sign = BIG_NUMBER_POSITIVE then BIG_NUMBER_POSITIVE
  else if rd num2.slot 0 &&& 1 = 0 then BIG_NUMBER_POSITIVE
  else BIG_NUMBER_NEGATIVE

/-- The loop of `big_int_pow_to` taken when `num1` is 2; the state is
`result` and `count`. -/
def pow_loop_two : Nat → big_int → big_int → Option big_int
  | 0, _, _ => none
  | fuel + 1, result, count =>
    if count.slot_length = 1 ∧ rd count.slot 0 = 0 then some result
    else if rd count.slot 0 ≠ 0 then
      (big_int_left_shift result (to_int (rd count.slot 0))).bind fun result =>
      let temp := big_int_new_from_int (rd count.slot 0)
      pow_loop_two fuel result (big_int_sub_to count temp).2
    else
      (big_int_left_shift result 1).bind fun result =>
      pow_loop_two fuel result (big_int_dec count)

/-- The general loop of `big_int_pow_to`. -/
def pow_loop (fuel0 : Nat) (num1 : big_int) : Nat → big_int → big_int → Option big_int
  | 0, _, _ => none
  | fuel + 1, result, count =>
    if count.slot_length = 1 ∧ rd count.slot 0 = 0 then some result
    else
      (big_int_mul_to fuel0 false result num1).bind fun result =>
      pow_loop fuel0 num1 fuel result (big_int_dec count)

def big_int_pow_to (fuel : Nat) (num1 num2 : big_int) : Option big_int :=
  let sign := pow_sign num1 num2
  let result : Option big_int :=
    if num1.slot_length = 1 ∧ rd num1.slot 0 = 0 then some (big_int_new_from_int 0)
    else if num1.slot_length = 1 ∧ rd num1.slot 0 = 1 then some (big_int_new_from_int 1)
    else
      let result := big_int_new_from_int 1
      let count := big_int_assign num2
      if num1.slot_length = 1 ∧ rd num1.slot 0 = 2 then pow_loop_two fuel result count
      else pow_loop fuel num1 fuel result count
  result.map fun result =>
    { slot := result.slot,
      allocated_slot_length := result.allocated_slot_length,
      bit_length := result.bit_length,
      slot_length := result.slot_length,
      sign := sign }

/-- State of the loops of `big_int_pow_mod_to`. -/
structure pow_mod_state where
  result : big_int
  num1 : big_int
  bit_count : Int

/-- The inner loop `for (bit_idx = 0; bit_idx != BIT_PER_SLOT; bit_idx++)` of
`big_int_pow_mod_to` on the exponent slot `w`; the first argument counts the
passes left. -/
def pow_mod_bits (fuel : Nat) (num3 : big_int) (w : Nat) :
    Nat → Nat → pow_mod_state → Option pow_mod_state
  | 0, _, st => some st
  | n + 1, bit_idx, st =>
    (if w &&& (1 <<< bit_idx) ≠ 0 then
        (big_int_mul_to fuel false st.result st.num1).bind fun r => big_int_mod_to fuel r num3
      else some st.result).bind fun result =>
    (big_int_mul_to fuel true st.num1 st.num1).bind fun num1 =>
    (big_int_mod_to fuel num1 num3).bind fun num1 =>
    let bit_count := st.bit_count - 1
    if bit_count = 0 then some { result := result, num1 := num1, bit_count := bit_count }
    else pow_mod_bits fuel num3 w n (bit_idx + 1) { result := result, num1 := num1, bit_count := bit_count }

def big_int_pow_mod_to (fuel : Nat) (num1 num2 num3 : big_int) : Option big_int :=
  let sign := pow_sign num1 num2
  let sign := if sign = num2.sign then BIG_NUMBER_POSITIVE else BIG_NUMBER_NEGATIVE
  let result : Option big_int :=
    if num1.slot_length = 1 ∧ rd num1.slot 0 = 0 then some (big_int_new_from_int 0)
    else if num1.slot_length = 1 ∧ rd num1.slot 0 = 1 then some (big_int_new_from_int 1)
    else
      (for_up num2.slot_length (fun slot_idx (st : Option pow_mod_state) =>
          st.bind fun st => pow_mod_bits fuel num3 (rd num2.slot slot_idx) BIT_PER_SLOT 0 st)
        (some { result := big_int_new_from_int 1, num1 := num1, bit_count := num2.bit_length })).map
        fun st => st.result
  result.map fun result =>
    { slot := result.slot,
      allocated_slot_length := result.allocated_slot_length,
      bit_length := result.bit_length,
      slot_length := result.slot_length,
      sign := sign }

/-! ## Specification vocabulary -/

/-- Bit length of a natural number by repeated halving; `0` for `0`. -/
def bit_width_aux : Nat → Nat → Nat
  | 0, _ => 0
  | fuel + 1, v => if v = 0 then 0 else bit_width_aux fuel (v / 2) + 1

/-- Bit length of a natural number: index of the highest set bit plus one. -/
def bit_width (v : Nat) : Nat := bit_width_aux v v

/-- The invariants of the data model that concern the magnitude: the capacity
is the size of the buffer, `1 ≤ used ≤ capacity`, every slot is a 32-bit word,
the unused slots are zero, the top used slot is non-zero unless the value is a
single zero slot, and `bits` is consistent with the digits (`1` for zero). -/
def magnitude_canonical (x : big_int) : Prop :=
  x.slot.length = x.allocated_slot_length ∧
  1 ≤ x.slot_length ∧ x.slot_length ≤ x.allocated_slot_length ∧
  (∀ v ∈ x.slot, v < 2 ^ 32) ∧
  (∀ i < x.slot.length, x.slot_length ≤ i → rd x.slot i = 0) ∧
  (x.slot_length = 1 ∨ rd x.slot (x.slot_length - 1) ≠ 0) ∧
  x.bit_length =
    (if rd x.slot (x.slot_length - 1) = 0 then 1
     else 32 * (x.slot_length - 1) + bit_width (rd x.slot (x.slot_length - 1)))

instance (x : big_int) : Decidable (magnitude_canonical x) := by
  unfold magnitude_canonical; infer_instance

/-- Canonical form of a signed big integer: the magnitude invariants, a sign
that is one of the two constants, and a positive sign for zero. -/
def canonical (x : big_int) : Prop :=
  magnitude_canonical x ∧
  (x.sign = BIG_NUMBER_POSITIVE ∨ x.sign = BIG_NUMBER_NEGATIVE) ∧
  (magnitude x = 0 → x.sign = BIG_NUMBER_POSITIVE)

instance (x : big_int) : Decidable (canonical x) := by
  unfold canonical; infer_instance

/-- Three-way comparison of naturals, with the return codes of the library. -/
def cmp_nat (a b : Nat) : Int := if a > b then 1 else if a < b then -1 else 0

/-! ## Text input, random integers and text output -/

/-- The record built by `__big_int_new`: the digit buffer is handed out as the
allocator left it, and `mem` is what that memory holds. -/
def __big_int_new (bit_length : Nat) (mem : List Nat) : big_int :=
  let slot_length := BIT_TO_SLOT bit_length
  let allocated_slot_length := max slot_length ALLOCATE_SLOT_SIZE
  { slot := (List.range allocated_slot_length).map (fun idx => rd mem idx),
    bit_length := bit_length,
    slot_length := slot_length,
    allocated_slot_length := allocated_slot_length,
    sign := BIG_NUMBER_POSITIVE }

def hex_to_int (ch : Char) : Nat :=
  if '0' ≤ ch ∧ ch ≤ '9' then ch.toNat - '0'.toNat
  else if 'a' ≤ ch ∧ ch ≤ 'f' then ch.toNat - 'a'.toNat + 10
  else if 'A' ≤ ch ∧ ch ≤ 'F' then ch.toNat - 'A'.toNat + 10
  else 0

/-- The scan `while ((*slot_length > 0) && (*slot_p == 0)) { (*slot_length)--; slot_p--; }`
of `__trim_tail`. -/
def trim_tail_scan (slot : List Nat) : Nat → Nat
  | 0 => 0
  | n + 1 => if rd slot n = 0 then trim_tail_scan slot n else n + 1

/-- The function `__trim_tail`: the new `slot_length` and `bit_length`. -/
def __trim_tail (slot : List Nat) (slot_length : Nat) : Nat × Nat :=
  let slot_length := trim_tail_scan slot slot_length
  (slot_length,
    (MUL_SLOT (size_sub slot_length 1) + hbidx_32 (rd slot (size_sub slot_length 1))) % 2 ^ 64)

/-- The character `*(value_p + k)` of a C string; the terminator is read at
and past the end. -/
def str_at (value : List Char) (k : Nat) : Char := value.getD k (Char.ofNat 0)

/-- The word assembled from the eight characters at `value_p` by
`big_int_new_from_str`. -/
def str_word (value : List Char) (value_p : Nat) : Nat :=
  ((hex_to_int (str_at value value_p) <<< 28) |||
   (hex_to_int (str_at value (value_p + 1)) <<< 24) |||
   (hex_to_int (str_at value (value_p + 2)) <<< 20) |||
   (hex_to_int (str_at value (value_p + 3)) <<< 16) |||
   (hex_to_int (str_at value (value_p + 4)) <<< 12) |||
   (hex_to_int (str_at value (value_p + 5)) <<< 8) |||
   (hex_to_int (str_at value (value_p + 6)) <<< 4) |||
   (hex_to_int (str_at value (value_p + 7)))) % 2 ^ 32

/-- The function `big_int_new_from_str` on the characters of `value`; `mem`
is the content of the buffer `__big_int_new` hands out. -/
def big_int_new_from_str (value : List Char) (mem : List Nat) : big_int :=
  let bit_length := value.length * 4
  let slot_length := bit_length / BIT_PER_SLOT
  let new_int := __big_int_new bit_length mem
  let slot := for_down slot_length
    (fun slot_idx s => s.set slot_idx (str_word value (8 * (slot_length - 1 - slot_idx))))
    new_int.slot
  let r := __trim_tail slot new_int.slot_length
  { new_int with slot := slot, slot_length := r.1, bit_length := r.2 }

/-- The first loop of `big_int_new_random`; `words` is the sequence of words
the random source delivers, the first argument counts the passes left. -/
def random_fill (words : List Nat) : Nat → Nat → Nat → List Nat → List Nat
  | 0, _, _, slot => slot
  | n + 1, idx, bit_length, slot =>
    let slot := slot.set idx (rd words idx % 2 ^ 32)
    if bit_length < BIT_PER_SLOT then slot.set idx (rd slot idx &&& ((1 <<< bit_length) - 1))
    else random_fill words n (idx + 1) (bit_length - BIT_PER_SLOT) slot

/-- The second loop of `big_int_new_random`: the arguments are `idx + 1` and
`new_int->bit_length`, the result is `slot_length` and `bit_length`. -/
def random_trim (slot : List Nat) : Nat → Nat → Nat × Nat
  | 0, bit_length => (0, bit_length)
  | n + 1, bit_length =>
    if rd slot n ≠ 0 then (n + 1, size_sub bit_length (BIT_PER_SLOT - hbidx_32 (rd slot n)))
    else random_trim slot n bit_length

/-- The function `big_int_new_random`; `words` is what the random source
delivers and `mem` the content of the fresh buffer. -/
def big_int_new_random (bit_length : Nat) (words mem : List Nat) : big_int :=
  let new_int := __big_int_new bit_length mem
  let slot := random_fill words new_int.slot_length 0 bit_length new_int.slot
  let r := random_trim slot new_int.slot_length new_int.bit_length
  if r.2 = 0 then { new_int with slot := slot, slot_length := 1, bit_length := 1 }
  else { new_int with slot := slot, slot_length := r.1, bit_length := r.2 }

/-- An upper-case hexadecimal digit. -/
def hex_upper (d : Nat) : Char := if d < 10 then Char.ofNat (48 + d) else Char.ofNat (55 + d)

/-- The digits of `v` in a field of `width` hexadecimal characters. -/
def hex_field : Nat → Nat → List Char
  | 0, _ => []
  | width + 1, v => hex_field width (v / 16) ++ [hex_upper (v % 16)]

/-- The text of `printf("%08X", v)` for a 32-bit word. -/
def printf_08X (v : Nat) : List Char := hex_field 8 (v % 2 ^ 32)

/-- The digits `big_int_print` emits after the prefix `0x`. -/
def print_slots (x : big_int) : List Char :=
  for_down x.slot_length (fun idx out => out ++ printf_08X (rd x.slot idx)) []

/-- The text written by `big_int_print`. -/
def big_int_print (x : big_int) : List Char :=
  (if x.sign = BIG_NUMBER_NEGATIVE then ['-'] else []) ++ ['0', 'x'] ++ print_slots x

/-! ## Barrett reduction -/

def big_int_barret_build (fuel : Nat) (num_divisor : big_int) : Option big_int :=
  let num_barret := big_int_new_from_int 1
  let n := num_divisor.bit_length
  (big_int_left_shift num_barret ((n <<< 1 : Nat) : Int)).bind fun num_barret =>
  big_int_div_to fuel num_barret num_divisor

/-- The loop `while (big_int_compare(num1, num2) >= 0) big_int_sub_to(num1, num2);`
of `big_int_mod_to_with_barret`. -/
def barret_adjust : Nat → big_int → big_int → Option big_int
  | 0, _, _ => none
  | fuel + 1, num1, num2 =>
    if big_int_compare num1 num2 ≥ 0 then barret_adjust fuel (big_int_sub_to num1 num2).2 num2
    else some num1

def big_int_mod_to_with_barret (fuel : Nat) (num1 num2 barret : big_int) : Option big_int :=
  let ret := big_int_compare num1 num2
  if ret = 0 then some (clear_used num1)
  else if ret = -1 then some num1
  else
    let n := num2.bit_length
    let q := big_int_assign num1
    (big_int_right_shift q ((n : Int) - 1)).bind fun q =>
    (big_int_mul_to fuel false q barret).bind fun q =>
    (big_int_right_shift q ((n : Int) + 1)).bind fun q =>
    (big_int_mul_to fuel false q num2).bind fun q =>
    let num1 := (big_int_sub_to num1 q).2
    barret_adjust fuel num1 num2

/-! ## Fibonacci numbers -/

/-- A matrix `big_int_t *m[2][2]`. -/
structure matrix_2 where
  m00 : big_int
  m01 : big_int
  m10 : big_int
  m11 : big_int

/-- The entry `m[i][j]`. -/
def matrix_2_get (m : matrix_2) (i j : Nat) : big_int :=
  if i = 0 then (if j = 0 then m.m00 else m.m01) else (if j = 0 then m.m10 else m.m11)

/-- The store `m[i][j] = v`. -/
def matrix_2_set (m : matrix_2) (i j : Nat) (v : big_int) : matrix_2 :=
  if i = 0 then (if j = 0 then { m with m00 := v } else { m with m01 := v })
  else (if j = 0 then { m with m10 := v } else { m with m11 := v })

/-- The macro `MATRIX_2_MUL_EXP` on the state `(result, a, b)`; `shared`
tells that `a` and `b` are one array, so that the sign `big_int_mul` may
write to its first operand is seen through both. -/
def MATRIX_2_MUL_EXP (fuel : Nat) (shared : Bool) (r1 r2 a1 a2 b1 b2 a3 a4 b3 b4 : Nat)
    (st : matrix_2 × matrix_2 × matrix_2) : Option (matrix_2 × matrix_2 × matrix_2) :=
  (big_int_mul fuel (shared && a1 == b1 && a2 == b2)
      (matrix_2_get st.2.1 a1 a2) (matrix_2_get st.2.2 b1 b2)).bind fun p1 =>
  let a := matrix_2_set st.2.1 a1 a2 p1.1
  let b := if shared then a else st.2.2
  (big_int_mul fuel (shared && a3 == b3 && a4 == b4)
      (matrix_2_get a a3 a4) (matrix_2_get b b3 b4)).bind fun p2 =>
  let a := matrix_2_set a a3 a4 p2.1
  let b := if shared then a else b
  let t1 := (big_int_add_to p1.2 p2.2).2
  some (matrix_2_set st.1 r1 r2 t1, a, b)

/-- The function `matrix_2_mul`; the entries of `result` are overwritten, so
the matrix passed for it does not matter. -/
def matrix_2_mul (fuel : Nat) (shared : Bool) (result a b : matrix_2) : Option matrix_2 :=
  (MATRIX_2_MUL_EXP fuel shared 0 0 0 0 0 0 0 1 1 0 (result, a, b)).bind fun st =>
  (MATRIX_2_MUL_EXP fuel shared 0 1 0 0 0 1 0 1 1 1 st).bind fun st =>
  (MATRIX_2_MUL_EXP fuel shared 1 0 1 0 0 0 1 1 1 0 st).bind fun st =>
  (MATRIX_2_MUL_EXP fuel shared 1 1 1 0 0 1 1 1 1 1 st).map fun st => st.1

/-- The loop `while (n != 0)` of `fibonacci` on the state `(a, r)`. -/
def fibonacci_loop (fuel0 : Nat) : Nat → Nat → matrix_2 → matrix_2 → Option (matrix_2 × matrix_2)
  | 0, _, _, _ => none
  | fuel + 1, n, a, r =>
    if n = 0 then some (a, r)
    else
      (if n &&& 1 = 1 then matrix_2_mul fuel0 false r r a else some r).bind fun r =>
      (matrix_2_mul fuel0 true a a a).bind fun a =>
      fibonacci_loop fuel0 fuel (n >>> 1) a r

def fibonacci (fuel : Nat) (n : Nat) : Option big_int :=
  if n = 0 then some (big_int_new_from_int 0)
  else if n = 1 ∨ n = 2 then some (big_int_new_from_int 1)
  else
    let n := n - 2
    let a : matrix_2 := ⟨big_int_new_from_int 1, big_int_new_from_int 1,
      big_int_new_from_int 1, big_int_new_from_int 0⟩
    let r : matrix_2 := ⟨big_int_new_from_int 1, big_int_new_from_int 0,
      big_int_new_from_int 0, big_int_new_from_int 1⟩
    (fibonacci_loop fuel fuel n a r).map fun st =>
      let final := big_int_assign (matrix_2_get st.2 0 0)
      (big_int_add_to final (matrix_2_get st.2 0 1)).2

/-! ## Key agreement -/

/-- The computation of `dh` once the modulus and the two private keys are
drawn: the passwords of Alice and of Bob. -/
def dh (fuel : Nat) (p private_alice private_bob : big_int) : Option (big_int × big_int) :=
  let g := big_int_new_from_int 2
  let public_alice := big_int_assign g
  (big_int_pow_mod_to fuel public_alice private_alice p).bind fun public_alice =>
  let public_bob := big_int_assign g
  (big_int_pow_mod_to fuel public_bob private_bob p).bind fun public_bob =>
  let password_alice := big_int_assign public_bob
  (big_int_pow_mod_to fuel password_alice private_alice p).bind fun password_alice =>
  let password_bob := big_int_assign public_alice
  (big_int_pow_mod_to fuel password_bob private_bob p).bind fun password_bob =>
  some (password_alice, password_bob)

/-! ## Signed construction, assignment in place and the demonstration program -/

def big_int_new_from_int_with_sign (sign : Int) (value : Nat) : big_int :=
  let new_int := big_int_new_from_int value
  { new_int with sign := sign }

/-- The function `big_int_assign_to`: the return code and `num_dst` after the
call.  `malloc_ok` tells whether `__big_int_mem_pool_malloc` returns a buffer;
the buffer it returns is zero-filled, and the pointer `NULL` is the empty
buffer. -/
def big_int_assign_to (malloc_ok : Bool) (num_dst num_src : big_int) : Int × big_int :=
  let grown : Option big_int :=
    if num_dst.allocated_slot_length < num_src.slot_length then
      if malloc_ok then
        some { num_dst with
          slot := for_range num_src.slot_length num_src.allocated_slot_length
            (fun idx s => s.set idx 0) (alloc num_src.allocated_slot_length),
          allocated_slot_length := num_src.allocated_slot_length }
      else none
    else
      some { num_dst with
        slot := for_range num_src.slot_length num_dst.slot_length
          (fun idx s => s.set idx 0) num_dst.slot }
  match grown with
  | none => (-1, { num_dst with slot := [] })
  | some dst =>
    (0, { dst with
      slot := for_up num_src.slot_length (fun idx s => s.set idx (rd num_src.slot idx)) dst.slot,
      bit_length := num_src.bit_length,
      slot_length := num_src.slot_length,
      sign := num_src.sign })

/-- The function `add_op` of the demonstration program: the text it writes.
`mem1` and `mem2` are the contents of the buffers handed to the two parsed
integers. -/
def add_op (s_num1 s_num2 : List Char) (mem1 mem2 : List Nat) : List Char :=
  let num1 := big_int_new_from_str s_num1 mem1
  let num2 := big_int_new_from_str s_num2 mem2
  let num1 := (big_int_add_to num1 num2).2
  big_int_print num1 ++ [Char.ofNat 10]

/-! ## The memory pool -/

def PAGE_SIZE : Nat := 4096
def PAGE_PER_BLOCK : Nat := 32
def BIT_PER_BITMAP : Nat := 8
def BLOCK_DATA_SIZE : Nat := PAGE_SIZE * PAGE_PER_BLOCK
def BLOCK_BITMAP_SIZE : Nat := PAGE_PER_BLOCK / BIT_PER_BITMAP

/-- The record `struct mem_block`; `data` is the address of the data area and
`bitmap` holds the bytes of the bitmap. -/
structure mem_block where
  data : Nat
  bitmap : List Nat
  bitmap_size : Nat
  page_count : Nat
  size_used : Nat
  size_free : Nat
  size_total : Nat
  deriving DecidableEq

/-- The record `struct mem_pool`; `blocks` holds the `block_count` blocks. -/
structure mem_pool where
  blocks : List mem_block
  size_used : Nat
  size_free : Nat
  size_total : Nat
  deriving DecidableEq

def POOL_BLOCK_COUNT (size : Nat) : Nat :=
  size / BLOCK_DATA_SIZE + (if size % BLOCK_DATA_SIZE ≠ 0 then 1 else 0)

/-- The block `mem_block_init` builds around the data area at address
`data`. -/
def mem_block_init (data : Nat) : mem_block :=
  { data := data,
    bitmap := List.replicate BLOCK_BITMAP_SIZE 0,
    bitmap_size := BLOCK_BITMAP_SIZE,
    page_count := PAGE_PER_BLOCK,
    size_used := 0,
    size_free := BLOCK_DATA_SIZE,
    size_total := BLOCK_DATA_SIZE }

/-- The pool `mem_pool_new` builds when every allocation succeeds; `data`
lists the addresses of the data areas of the blocks. -/
def mem_pool_new (size : Nat) (data : List Nat) : mem_pool :=
  let block_count := POOL_BLOCK_COUNT size
  let size := (block_count * BLOCK_DATA_SIZE) % 2 ^ 64
  { blocks := (List.range block_count).map (fun idx => mem_block_init (data.getD idx 0)),
    size_used := 0,
    size_free := size,
    size_total := size }

/-- The bit index `mem_pool_malloc` computes from a bitmap byte `x`. -/
def malloc_bit_idx (x : Nat) : Nat :=
  let bit_idx := ((x ^^^ (x + 1)) >>> 1) % 2 ^ 32
  let bit_idx := (bit_idx &&& 0x55) + ((bit_idx >>> 1) &&& 0x55)
  let bit_idx := (bit_idx &&& 0x33) + ((bit_idx >>> 2) &&& 0x33)
  (bit_idx &&& 0xf) + ((bit_idx >>> 4) &&& 0xf)

/-- The loop over `bitmap_idx` of `mem_pool_malloc`: the first index from
`bitmap_idx` on, among `n`, whose byte is not `0xFF`. -/
def malloc_bitmap_loop (bitmap : List Nat) : Nat → Nat → Option Nat
  | 0, _ => none
  | n + 1, bitmap_idx =>
    if rd bitmap bitmap_idx ≠ 0xFF then some bitmap_idx
    else malloc_bitmap_loop bitmap n (bitmap_idx + 1)

/-- The loop over `page_idx` of `mem_pool_malloc`, `n` passes left. -/
def malloc_page_loop (block : mem_block) : Nat → Option Nat
  | 0 => none
  | n + 1 =>
    if block.size_free ≥ PAGE_SIZE then
      match malloc_bitmap_loop block.bitmap block.bitmap_size 0 with
      | some bitmap_idx => some bitmap_idx
      | none => malloc_page_loop block n
    else none

/-- The body run by `mem_pool_malloc` at the byte `bitmap_idx` of a block: the
pointer returned and the block after the call. -/
def malloc_take (block : mem_block) (bitmap_idx : Nat) : Nat × mem_block :=
  let bit_idx := malloc_bit_idx (rd block.bitmap bitmap_idx)
  (block.data + ((bitmap_idx * BIT_PER_BITMAP + bit_idx) * PAGE_SIZE) % 2 ^ 32,
   { block with
     bitmap := block.bitmap.set bitmap_idx ((rd block.bitmap bitmap_idx ||| (1 <<< bit_idx)) % 256),
     size_used := (block.size_used + PAGE_SIZE) % 2 ^ 64,
     size_free := size_sub block.size_free PAGE_SIZE })

/-- The loop over `block_idx` of `mem_pool_malloc` on the blocks from
`block_idx` on: the block that serves the request, the pointer and the block
after the call. -/
def malloc_block_loop : List mem_block → Nat → Option (Nat × Nat × mem_block)
  | [], _ => none
  | block :: rest, block_idx =>
    match malloc_page_loop block block.page_count with
    | some bitmap_idx => some (block_idx, malloc_take block bitmap_idx)
    | none => malloc_block_loop rest (block_idx + 1)

/-- The function `mem_pool_malloc`: the pointer returned (`none` is `NULL`)
and the pool after the call. -/
def mem_pool_malloc (pool : mem_pool) (size : Nat) : Option Nat × mem_pool :=
  if size > PAGE_SIZE then (none, pool)
  else
    match malloc_block_loop pool.blocks 0 with
    | some (block_idx, p, block) =>
      (some p,
       { pool with
         blocks := pool.blocks.set block_idx block,
         size_used := (pool.size_used + PAGE_SIZE) % 2 ^ 64,
         size_free := size_sub pool.size_free PAGE_SIZE })
    | none => (none, pool)

/-- The body run by `mem_pool_free` in the block that holds `ptr`. -/
def free_give (block : mem_block) (ptr : Nat) : mem_block :=
  let page_idx := ((ptr - block.data) / PAGE_SIZE) % 2 ^ 32
  let bitmap_idx := page_idx / BIT_PER_BITMAP
  let bit_idx := page_idx % BIT_PER_BITMAP
  { block with
    bitmap := block.bitmap.set bitmap_idx (rd block.bitmap bitmap_idx &&& (0xFF ^^^ (1 <<< bit_idx))),
    size_used := size_sub block.size_used PAGE_SIZE,
    size_free := (block.size_free + PAGE_SIZE) % 2 ^ 64 }

/-- The loop over `block_idx` of `mem_pool_free` on the blocks from
`block_idx` on: the block that holds `ptr` and its state after the call. -/
def free_block_loop (ptr : Nat) : List mem_block → Nat → Option (Nat × mem_block)
  | [], _ => none
  | block :: rest, block_idx =>
    if block.data ≤ ptr ∧ ptr < block.data + BLOCK_DATA_SIZE then
      some (block_idx, free_give block ptr)
    else free_block_loop ptr rest (block_idx + 1)

/-- The function `mem_pool_free`: the return code and the pool after the
call. -/
def mem_pool_free (pool : mem_pool) (ptr : Nat) : Int × mem_pool :=
  match free_block_loop ptr pool.blocks 0 with
  | some (block_idx, block) =>
    (0,
     { pool with
       blocks := pool.blocks.set block_idx block,
       size_used := size_sub pool.size_used PAGE_SIZE,
       size_free := (pool.size_free + PAGE_SIZE) % 2 ^ 64 })
  | none => (-1, pool)

/-! ## Well-formed pools -/

/-- Occupancy bit of page `k` of a block. -/
def page_used (block : mem_block) (k : Nat) : Bool :=
  (rd block.bitmap (k / BIT_PER_BITMAP)).testBit (k % BIT_PER_BITMAP)

/-- Number of pages of a block whose occupancy bit is set. -/
def used_pages (block : mem_block) : Nat :=
  ((List.range PAGE_PER_BLOCK).filter (page_used block)).length

/-- A block as `mem_block_init` builds it and `mem_pool_malloc` and
`mem_pool_free` of its pages keep it: four bitmap bytes for thirty-two pages,
a data area inside the address space, and byte counters that agree with the
bitmap. -/
def mem_block_ok (block : mem_block) : Prop :=
  block.bitmap.length = BLOCK_BITMAP_SIZE ∧
  block.bitmap_size = BLOCK_BITMAP_SIZE ∧
  block.page_count = PAGE_PER_BLOCK ∧
  (∀ x ∈ block.bitmap, x < 256) ∧
  block.data + BLOCK_DATA_SIZE ≤ 2 ^ 64 ∧
  block.size_used = PAGE_SIZE * used_pages block ∧
  block.size_free = PAGE_SIZE * (PAGE_PER_BLOCK - used_pages block) ∧
  block.size_total = BLOCK_DATA_SIZE

instance (block : mem_block) : Decidable (mem_block_ok block) := by
  unfold mem_block_ok; infer_instance

/-- A pool as `mem_pool_new` builds it and `mem_pool_malloc` and
`mem_pool_free` of its pages keep it: well-formed blocks whose data areas do
not overlap, and global byte counters that are the sums of those of the
blocks. -/
def mem_pool_ok (pool : mem_pool) : Prop :=
  (∀ block ∈ pool.blocks, mem_block_ok block) ∧
  pool.blocks.Pairwise (fun b1 b2 =>
    b1.data + BLOCK_DATA_SIZE ≤ b2.data ∨ b2.data + BLOCK_DATA_SIZE ≤ b1.data) ∧
  pool.size_used = (pool.blocks.map (fun block => block.size_used)).sum ∧
  pool.size_free = (pool.blocks.map (fun block => block.size_free)).sum ∧
  pool.size_total = BLOCK_DATA_SIZE * pool.blocks.length ∧
  pool.size_total < 2 ^ 64

instance (pool : mem_pool) : Decidable (mem_pool_ok pool) := by
  unfold mem_pool_ok; infer_instance

/-! ## Addition of a small value and modular exponentiation with Barrett reduction -/

/-- The body of the loop of `big_int_add_to_u16`: `tmp = (uint64_t)num->slot[slot_idx] + carry;
carry = (uint64_t)num->slot[slot_idx] >> BIT_PER_SLOT; num->slot[slot_idx] = tmp & 0xFFFFFFFF;`
on the pair of the buffer and the carry. -/
def add_u16_step (slot_idx : Nat) (p : List Nat × Nat) : List Nat × Nat :=
  let tmp := (rd p.1 slot_idx + p.2) % 2 ^ 64
  let carry := (rd p.1 slot_idx >>> BIT_PER_SLOT) % 2 ^ 32
  (p.1.set slot_idx (tmp &&& 0xFFFFFFFF), carry)

def big_int_add_to_u16 (num : big_int) (value : Nat) : big_int :=
  let r := for_up num.slot_length add_u16_step (num.slot, value)
  if r.2 ≠ 0 then
    let slot := r.1.set num.slot_length 1
    let slot_length := num.slot_length + 1
    { num with slot := slot, slot_length := slot_length,
               bit_length := MUL_SLOT (size_sub slot_length 1) + 1 }
  else
    let t := __trim_tail r.1 num.slot_length
    { num with slot := r.1, slot_length := t.1, bit_length := t.2 }

/-- The inner loop `for (bit_idx = 0; bit_idx != BIT_PER_SLOT; bit_idx++)` of
`big_int_pow_mod_to_with_barret` on the exponent slot `w`; the first argument
counts the passes left. -/
def pow_mod_barret_bits (fuel : Nat) (num3 num3_barret : big_int) (w : Nat) :
    Nat → Nat → pow_mod_state → Option pow_mod_state
  | 0, _, st => some st
  | n + 1, bit_idx, st =>
    (if w &&& (1 <<< bit_idx) ≠ 0 then
        (big_int_mul_to fuel false st.result st.num1).bind fun r =>
          big_int_mod_to_with_barret fuel r num3 num3_barret
      else some st.result).bind fun result =>
    (big_int_mul_to fuel true st.num1 st.num1).bind fun num1 =>
    (big_int_mod_to_with_barret fuel num1 num3 num3_barret).bind fun num1 =>
    let bit_count := st.bit_count - 1
    if bit_count = 0 then some { result := result, num1 := num1, bit_count := bit_count }
    else pow_mod_barret_bits fuel num3 num3_barret w n (bit_idx + 1)
      { result := result, num1 := num1, bit_count := bit_count }

def big_int_pow_mod_to_with_barret (fuel : Nat) (num1 num2 num3 num3_barret : big_int) :
    Option big_int :=
  let sign := pow_sign num1 num2
  let sign := if sign = num2.sign then BIG_NUMBER_POSITIVE else BIG_NUMBER_NEGATIVE
  let result : Option big_int :=
    if num1.slot_length = 1 ∧ rd num1.slot 0 = 0 then some (big_int_new_from_int 0)
    else if num1.slot_length = 1 ∧ rd num1.slot 0 = 1 then some (big_int_new_from_int 1)
    else
      (for_up num2.slot_length (fun slot_idx (st : Option pow_mod_state) =>
          st.bind fun st =>
            pow_mod_barret_bits fuel num3 num3_barret (rd num2.slot slot_idx) BIT_PER_SLOT 0 st)
        (some { result := big_int_new_from_int 1, num1 := num1, bit_count := num2.bit_length })).map
        fun st => st.result
  result.map fun result =>
    { slot := result.slot,
      allocated_slot_length := result.allocated_slot_length,
      bit_length := result.bit_length,
      slot_length := result.slot_length,
      sign := sign }

/-! ## Runs with the slot accesses checked against the blocks

The definitions above read `0` past the end of a buffer and drop a store past
its end.  The definitions of this section follow the same code and check the
slot accesses that no test of the code keeps inside the block: a block has as
many slots as were requested for it from `__big_int_mem_pool_malloc`, which is
the length of the list `slot`. -/

/-- Outcome of a run with the slot accesses checked: `done` carries the result
of a run that stays inside its blocks, `outside` tells that the code read or
wrote a slot outside a block, and `no_result` that the embedding has no result
(the fuel ran out, or the code returned an error code). -/
inductive outcome (α : Type) where
  | done (a : α)
  | outside
  | no_result
  deriving DecidableEq

/-- Sequencing: the first `outside` or `no_result` ends the run. -/
def outcome.bind {α β : Type} (x : outcome α) (f : α → outcome β) : outcome β :=
  match x with
  | outcome.done a => f a
  | outcome.outside => outcome.outside
  | outcome.no_result => outcome.no_result

def outcome.map {α β : Type} (f : α → β) (x : outcome α) : outcome β :=
  x.bind fun a => outcome.done (f a)

/-- A step whose accesses stay inside the blocks: `none` is `no_result`. -/
def outcome.of_option {α : Type} (x : Option α) : outcome α :=
  match x with
  | some a => outcome.done a
  | none => outcome.no_result

/-- The function `big_int_add_to_raw` with its slot accesses checked.  With
`num1` the buffer after the reallocation, the loop reads `num1->slot[slot_idx]`
and `num2->slot[slot_idx]` for `slot_idx < operation_slot_length`, the
statement after the loop stores the carry in
`num1->slot[operation_slot_length]`, and the last one reads
`num1->slot[num1->slot_length - 1]`. -/
def big_int_add_to_raw_checked (num1 num2 : big_int) : outcome (Int × big_int) :=
  let neccessary_bit := max num1.bit_length num2.bit_length + 1
  let neccessary_slot := BIT_TO_SLOT neccessary_bit
  let grown := add_grow num1 neccessary_slot
  let operation_slot_length := max grown.slot_length num2.slot_length
  if operation_slot_length ≤ num2.slot.length ∧ operation_slot_length < grown.slot.length ∧
      0 < operation_slot_length then
    outcome.done (big_int_add_to_raw num1 num2)
  else outcome.outside

/-- The function `big_int_add_to` with the slot accesses of
`big_int_add_to_raw` checked. -/
def big_int_add_to_checked (num1 num2 : big_int) : outcome (Int × big_int) :=
  let r : outcome (Int × (Int × big_int)) :=
    if num1.sign = BIG_NUMBER_POSITIVE then
      if num2.sign = BIG_NUMBER_POSITIVE then
        (big_int_add_to_raw_checked num1 num2).map fun r => (BIG_NUMBER_POSITIVE, r)
      else
        if big_int_compare_raw num1 num2 > 0 then
          outcome.done (BIG_NUMBER_POSITIVE, big_int_sub_to_raw num1 num2)
        else
          outcome.done (BIG_NUMBER_NEGATIVE, sub_swapped num1 num2)
    else
      if num2.sign = BIG_NUMBER_NEGATIVE then
        (big_int_add_to_raw_checked num1 num2).map fun r => (BIG_NUMBER_NEGATIVE, r)
      else
        if big_int_compare_raw num1 num2 > 0 then
          outcome.done (BIG_NUMBER_NEGATIVE, big_int_sub_to_raw num1 num2)
        else
          outcome.done (BIG_NUMBER_POSITIVE, sub_swapped num1 num2)
  r.map fun r => (r.2.1, set_sign r.1 r.2.2)

/-- The function `big_int_sub_to` with the slot accesses of
`big_int_add_to_raw` checked. -/
def big_int_sub_to_checked (num1 num2 : big_int) : outcome (Int × big_int) :=
  let r : outcome (Int × (Int × big_int)) :=
    if num1.sign = BIG_NUMBER_POSITIVE then
      if num2.sign = BIG_NUMBER_POSITIVE then
        if big_int_compare_raw num1 num2 > 0 then
          outcome.done (BIG_NUMBER_POSITIVE, big_int_sub_to_raw num1 num2)
        else
          outcome.done (BIG_NUMBER_NEGATIVE, sub_swapped num1 num2)
      else
        (big_int_add_to_raw_checked num1 num2).map fun r => (BIG_NUMBER_POSITIVE, r)
    else
      if num2.sign = BIG_NUMBER_POSITIVE then
        (big_int_add_to_raw_checked num1 num2).map fun r => (BIG_NUMBER_NEGATIVE, r)
      else
        if big_int_compare_raw num1 num2 > 0 then
          (big_int_add_to_raw_checked num1 num2).map fun r => (BIG_NUMBER_NEGATIVE, r)
        else
          outcome.done (BIG_NUMBER_POSITIVE, sub_swapped num1 num2)
  r.map fun r => (r.2.1, set_sign r.1 r.2.2)

/-- One pass of the outer loop of `__big_int_mul_plain` with the slot accesses
checked: the inner loop writes `num_term->slot[num1_slot_idx + num2_slot_idx]`
for `num2_slot_idx < num2->slot_length`, the statement after it stores the
carry in `num_term->slot[num1_slot_idx + num2->slot_length]`, and
`big_int_add_to` adds the term to `num_final`. -/
def mul_plain_row_checked (num1 num2 : big_int) (num1_slot_idx : Nat) (st : mul_plain_state) :
    outcome mul_plain_state :=
  let term := for_up st.num_term_slot_idx_max (fun idx s => s.set idx 0) st.num_term.slot
  if rd num1.slot num1_slot_idx ≠ 0 then
    if num1_slot_idx + num2.slot_length < st.num_term.slot.length then
      let num_term := mul_plain_term num1 num2 st.num_term num1_slot_idx term
      (big_int_add_to_checked st.num_final num_term).map fun r =>
        { num_term := num_term,
          num_final := r.2,
          num_term_slot_idx_max := num_term.slot_length }
    else outcome.outside
  else outcome.done { st with num_term := { st.num_term with slot := term } }

/-- The function `__big_int_mul_plain` with the slot accesses checked. -/
def __big_int_mul_plain_checked (same : Bool) (num1 num2 : big_int) : outcome big_int :=
  if same then outcome.done (__big_int_square_plain num1)
  else
    let neccessary_bit := num1.bit_length + num2.bit_length
    let st := for_up num1.slot_length
      (fun idx (st : outcome mul_plain_state) => st.bind (mul_plain_row_checked num1 num2 idx))
      (outcome.done
        { num_term := __big_int_new_zero neccessary_bit,
          num_final := big_int_new_from_int 0,
          num_term_slot_idx_max := 0 })
    st.map fun st => st.num_final

/-- The function `__big_int_mul_karatsuba_split` with the slot accesses
checked: the loop of the low part reads `num->slot[slot_idx]` for
`slot_idx < shift / BIT_PER_SLOT`. -/
def __big_int_mul_karatsuba_split_checked (num : big_int) (shift : Nat) :
    outcome (big_int × big_int) :=
  if shift / BIT_PER_SLOT ≤ num.slot.length then
    outcome.of_option (__big_int_mul_karatsuba_split num shift)
  else outcome.outside

/-- The function `big_int_mul_to` over a given `__big_int_mul_without_check`,
with the slot accesses checked. -/
def mul_to_with_checked (mwc : Bool → big_int → big_int → outcome (big_int × big_int))
    (same : Bool) (num1 num2 : big_int) : outcome big_int :=
  if num1.slot_length = 1 ∧ rd num1.slot 0 = 0 then outcome.done num1
  else if same = false ∧ (num1.slot_length = 1 ∧ rd num1.slot 0 = 1 ∧ num1.sign = BIG_NUMBER_POSITIVE) then
    let num1 : big_int :=
      if num1.allocated_slot_length < num2.slot_length then
        { num1 with slot := (alloc num2.allocated_slot_length).set 0 1,
                    bit_length := 1,
                    allocated_slot_length := num2.allocated_slot_length,
                    slot_length := 1 }
      else num1
    let s := for_up num2.slot_length (fun idx s => s.set idx (rd num2.slot idx)) num1.slot
    let s := for_range num2.slot_length num1.slot_length (fun idx s => s.set idx 0) s
    outcome.done { num1 with slot := s, bit_length := num2.bit_length,
                             slot_length := num2.slot_length, sign := num2.sign }
  else if num2.slot_length = 1 ∧ rd num2.slot 0 = 1 ∧ num2.sign = BIG_NUMBER_POSITIVE then
    outcome.done num1
  else if num2.slot_length = 1 ∧ rd num2.slot 0 = 0 then
    outcome.done
      { num1 with slot := for_up num1.allocated_slot_length (fun idx s => s.set idx 0) num1.slot,
                  bit_length := 1, slot_length := 1, sign := BIG_NUMBER_POSITIVE }
  else
    (mwc same num1 num2).map (fun r =>
      let num_final := r.2
      { slot := num_final.slot,
        allocated_slot_length := num_final.allocated_slot_length,
        bit_length := num_final.bit_length,
        slot_length := num_final.slot_length,
        sign := num_final.sign })

/-- The steps `t0 = x1 - x0` and `t1 = y1 - y0` of `__big_int_mul_karatsuba`
with the slot accesses checked. -/
def karatsuba_diff_checked (high low : big_int) : outcome big_int :=
  (big_int_sub_to_checked (big_int_assign high) low).map fun r => r.2

/-- The step `z1 = z2 + z0 - t0 * t1` of `__big_int_mul_karatsuba` with the
slot accesses checked. -/
def karatsuba_middle_checked (z2 z0 t0 : big_int) : outcome big_int :=
  let z1 := big_int_assign z2
  (big_int_add_to_checked z1 z0).bind fun r =>
  (big_int_sub_to_checked r.2 t0).map fun r => r.2

/-- The step `Z = (z2 << (b << 1)) + (z1 << b) + z0` of
`__big_int_mul_karatsuba` with the slot accesses checked. -/
def karatsuba_combine_checked (z2 z1 z0 : big_int) (b : Nat) : outcome big_int :=
  (outcome.of_option (big_int_left_shift z2 (b <<< 1 : Nat))).bind fun z2 =>
  (outcome.of_option (big_int_left_shift z1 (b : Nat))).bind fun z1 =>
  let result := big_int_assign z2
  (big_int_add_to_checked result z1).bind fun r =>
  (big_int_add_to_checked r.2 z0).map fun r => r.2

/-- The body of `__big_int_mul_karatsuba` once the operands are ordered, with
the slot accesses checked. -/
def karatsuba_body_checked (mwc : Bool → big_int → big_int → outcome (big_int × big_int))
    (same : Bool) (x y : big_int) : outcome big_int :=
  let b := ((y.bit_length >>> 1) ||| 31) + 1
  (__big_int_mul_karatsuba_split_checked x b).bind fun (x1, x0) =>
  (if same then outcome.done (x1, x0) else __big_int_mul_karatsuba_split_checked y b).bind
    fun (y1, y0) =>
  (mwc same x1 y1).bind fun (x1, z2) =>
  (mwc same x0 y0).bind fun (x0, z0) =>
  (karatsuba_diff_checked x1 x0).bind fun t0 =>
  (if same then outcome.done t0 else karatsuba_diff_checked y1 y0).bind fun t1 =>
  (mul_to_with_checked mwc same t0 t1).bind fun t0 =>
  (karatsuba_middle_checked z2 z0 t0).bind fun z1 =>
  karatsuba_combine_checked z2 z1 z0 b

/-- The function `__big_int_mul_karatsuba` over a given
`__big_int_mul_without_check`, with the slot accesses checked. -/
def karatsuba_with_checked (mwc : Bool → big_int → big_int → outcome (big_int × big_int))
    (same : Bool) (num1 num2 : big_int) : outcome big_int :=
  let x := if num1.bit_length > num2.bit_length then num2 else num1
  let y := if num1.bit_length > num2.bit_length then num1 else num2
  if (x.bit_length <<< 1) < y.bit_length then __big_int_mul_plain_checked same num1 num2
  else karatsuba_body_checked mwc same x y

/-- The function `__big_int_mul_without_check` with the slot accesses checked;
the fuel bounds the depth of the Karatsuba recursion. -/
def __big_int_mul_without_check_checked :
    Nat → Bool → big_int → big_int → outcome (big_int × big_int)
  | 0 => fun same num1 num2 =>
    if min num1.bit_length num2.bit_length > BIG_NUMBER_MUL_KARATSUBA_THRESHOLD then
      outcome.no_result
    else (__big_int_mul_plain_checked same num1 num2).map (mul_finish num1 num2)
  | fuel + 1 => fun same num1 num2 =>
    if min num1.bit_length num2.bit_length > BIG_NUMBER_MUL_KARATSUBA_THRESHOLD then
      (karatsuba_with_checked (__big_int_mul_without_check_checked fuel) same num1 num2).map
        (mul_finish num1 num2)
    else (__big_int_mul_plain_checked same num1 num2).map (mul_finish num1 num2)

/-- The function `__big_int_mul_karatsuba` with the slot accesses checked. -/
def __big_int_mul_karatsuba_checked (fuel : Nat) (same : Bool) (num1 num2 : big_int) :
    outcome big_int :=
  karatsuba_with_checked (__big_int_mul_without_check_checked fuel) same num1 num2

/-- The function `big_int_mul_to` with the slot accesses checked. -/
def big_int_mul_to_checked (fuel : Nat) (same : Bool) (num1 num2 : big_int) : outcome big_int :=
  mul_to_with_checked (__big_int_mul_without_check_checked fuel) same num1 num2

/-- The inner loop of `big_int_pow_mod_to` on the exponent slot `w`, with the
slot accesses of the products checked. -/
def pow_mod_bits_checked (fuel : Nat) (num3 : big_int) (w : Nat) :
    Nat → Nat → pow_mod_state → outcome pow_mod_state
  | 0, _, st => outcome.done st
  | n + 1, bit_idx, st =>
    (if w &&& (1 <<< bit_idx) ≠ 0 then
        (big_int_mul_to_checked fuel false st.result st.num1).bind fun r =>
          outcome.of_option (big_int_mod_to fuel r num3)
      else outcome.done st.result).bind fun result =>
    (big_int_mul_to_checked fuel true st.num1 st.num1).bind fun num1 =>
    (outcome.of_option (big_int_mod_to fuel num1 num3)).bind fun num1 =>
    let bit_count := st.bit_count - 1
    if bit_count = 0 then
      outcome.done { result := result, num1 := num1, bit_count := bit_count }
    else pow_mod_bits_checked fuel num3 w n (bit_idx + 1)
      { result := result, num1 := num1, bit_count := bit_count }

/-- The function `big_int_pow_mod_to` with the slot accesses of the products
checked. -/
def big_int_pow_mod_to_checked (fuel : Nat) (num1 num2 num3 : big_int) : outcome big_int :=
  let sign := pow_sign num1 num2
  let sign := if sign = num2.sign then BIG_NUMBER_POSITIVE else BIG_NUMBER_NEGATIVE
  let result : outcome big_int :=
    if num1.slot_length = 1 ∧ rd num1.slot 0 = 0 then outcome.done (big_int_new_from_int 0)
    else if num1.slot_length = 1 ∧ rd num1.slot 0 = 1 then outcome.done (big_int_new_from_int 1)
    else
      (for_up num2.slot_length (fun slot_idx (st : outcome pow_mod_state) =>
          st.bind fun st =>
            pow_mod_bits_checked fuel num3 (rd num2.slot slot_idx) BIT_PER_SLOT 0 st)
        (outcome.done
          { result := big_int_new_from_int 1, num1 := num1, bit_count := num2.bit_length })).map
        fun st => st.result
  result.map fun result =>
    { slot := result.slot,
      allocated_slot_length := result.allocated_slot_length,
      bit_length := result.bit_length,
      slot_length := result.slot_length,
      sign := sign }

/-- The computation of `dh` with the slot accesses of the products checked. -/
def dh_checked (fuel : Nat) (p private_alice private_bob : big_int) :
    outcome (big_int × big_int) :=
  let g := big_int_new_from_int 2
  let public_alice := big_int_assign g
  (big_int_pow_mod_to_checked fuel public_alice private_alice p).bind fun public_alice =>
  let public_bob := big_int_assign g
  (big_int_pow_mod_to_checked fuel public_bob private_bob p).bind fun public_bob =>
  let password_alice := big_int_assign public_bob
  (big_int_pow_mod_to_checked fuel password_alice private_alice p).bind fun password_alice =>
  let password_bob := big_int_assign public_alice
  (big_int_pow_mod_to_checked fuel password_bob private_bob p).bind fun password_bob =>
  outcome.done (password_alice, password_bob)

/-- The function `big_int_mul` with the slot accesses checked. -/
def big_int_mul_checked (fuel : Nat) (same : Bool) (num1 num2 : big_int) :
    outcome (big_int × big_int) :=
  if num1.slot_length = 1 ∧ rd num1.slot 0 = 0 then outcome.done (num1, big_int_new_from_int 0)
  else if num1.slot_length = 1 ∧ rd num1.slot 0 = 1 then outcome.done (num1, big_int_assign num2)
  else if num2.slot_length = 1 ∧ rd num2.slot 0 = 1 then outcome.done (num1, big_int_assign num1)
  else if num2.slot_length = 1 ∧ rd num2.slot 0 = 0 then outcome.done (num1, big_int_new_from_int 0)
  else __big_int_mul_without_check_checked fuel same num1 num2

/-- The macro `MATRIX_2_MUL_EXP` with the slot accesses checked. -/
def MATRIX_2_MUL_EXP_checked (fuel : Nat) (shared : Bool)
    (r1 r2 a1 a2 b1 b2 a3 a4 b3 b4 : Nat) (st : matrix_2 × matrix_2 × matrix_2) :
    outcome (matrix_2 × matrix_2 × matrix_2) :=
  (big_int_mul_checked fuel (shared && a1 == b1 && a2 == b2)
      (matrix_2_get st.2.1 a1 a2) (matrix_2_get st.2.2 b1 b2)).bind fun p1 =>
  let a := matrix_2_set st.2.1 a1 a2 p1.1
  let b := if shared then a else st.2.2
  (big_int_mul_checked fuel (shared && a3 == b3 && a4 == b4)
      (matrix_2_get a a3 a4) (matrix_2_get b b3 b4)).bind fun p2 =>
  let a := matrix_2_set a a3 a4 p2.1
  let b := if shared then a else b
  (big_int_add_to_checked p1.2 p2.2).map fun t1 =>
  (matrix_2_set st.1 r1 r2 t1.2, a, b)

/-- The function `matrix_2_mul` with the slot accesses checked. -/
def matrix_2_mul_checked (fuel : Nat) (shared : Bool) (result a b : matrix_2) :
    outcome matrix_2 :=
  (MATRIX_2_MUL_EXP_checked fuel shared 0 0 0 0 0 0 0 1 1 0 (result, a, b)).bind fun st =>
  (MATRIX_2_MUL_EXP_checked fuel shared 0 1 0 0 0 1 0 1 1 1 st).bind fun st =>
  (MATRIX_2_MUL_EXP_checked fuel shared 1 0 1 0 0 0 1 1 1 0 st).bind fun st =>
  (MATRIX_2_MUL_EXP_checked fuel shared 1 1 1 0 0 1 1 1 1 1 st).map fun st => st.1

/-- The loop `while (n != 0)` of `fibonacci` with the slot accesses checked. -/
def fibonacci_loop_checked (fuel0 : Nat) :
    Nat → Nat → matrix_2 → matrix_2 → outcome (matrix_2 × matrix_2)
  | 0, _, _, _ => outcome.no_result
  | fuel + 1, n, a, r =>
    if n = 0 then outcome.done (a, r)
    else
      (if n &&& 1 = 1 then matrix_2_mul_checked fuel0 false r r a else outcome.done r).bind
        fun r =>
      (matrix_2_mul_checked fuel0 true a a a).bind fun a =>
      fibonacci_loop_checked fuel0 fuel (n >>> 1) a r

/-- The function `fibonacci` with the slot accesses checked. -/
def fibonacci_checked (fuel : Nat) (n : Nat) : outcome big_int :=
  if n = 0 then outcome.done (big_int_new_from_int 0)
  else if n = 1 ∨ n = 2 then outcome.done (big_int_new_from_int 1)
  else
    let n := n - 2
    let a : matrix_2 := ⟨big_int_new_from_int 1, big_int_new_from_int 1,
      big_int_new_from_int 1, big_int_new_from_int 0⟩
    let r : matrix_2 := ⟨big_int_new_from_int 1, big_int_new_from_int 0,
      big_int_new_from_int 0, big_int_new_from_int 1⟩
    (fibonacci_loop_checked fuel fuel n a r).bind fun st =>
      let final := big_int_assign (matrix_2_get st.2 0 0)
      (big_int_add_to_checked final (matrix_2_get st.2 0 1)).map fun r => r.2

/-! ## Auxiliary definitions of the proofs -/

/-- Slot `j` after a shift up by `r` bits. -/
def up_slot_val (s : List Nat) (r j : Nat) : Nat :=
  2 ^ r * (rd s j % 2 ^ (32 - r)) + (if j = 0 then 0 else rd s (j - 1) / 2 ^ (32 - r))

/-- Slot `j` after a shift down by `r` bits. -/
def down_slot_val (s : List Nat) (r j : Nat) : Nat :=
  rd s j / 2 ^ r + (rd s (j + 1) % 2 ^ r) * 2 ^ (32 - r)

/-- A canonical big integer with positive sign. -/
def pos_canonical (x : big_int) : Prop := magnitude_canonical x ∧ x.sign = BIG_NUMBER_POSITIVE

/-- All bits of the quotient buffer at positions `≤ δ` are clear. -/
def quotient_clear (q : List Nat) (δ : Nat) : Prop :=
  (∀ j, j < δ / 32 → rd q j = 0) ∧ rd q (δ / 32) % 2 ^ (δ % 32 + 1) = 0

/-- Buffer invariants of a big integer whose top used slots may be zero: the
bit length is an upper estimate that fits the used length. -/
def loose (x : big_int) : Prop :=
  x.slot.length = x.allocated_slot_length ∧
  1 ≤ x.slot_length ∧ x.slot_length ≤ x.allocated_slot_length ∧
  (∀ i, rd x.slot i < 2 ^ 32) ∧
  (∀ i, x.slot_length ≤ i → rd x.slot i = 0) ∧
  32 * (x.slot_length - 1) + bit_width (rd x.slot (x.slot_length - 1)) ≤ x.bit_length ∧
  x.bit_length ≤ 32 * x.slot_length

/-- The form left by `big_int_add_to_raw`: the bit length is computed from
the top used slot, which may be zero. -/
def weak_canonical (x : big_int) : Prop :=
  x.slot.length = x.allocated_slot_length ∧
  1 ≤ x.slot_length ∧ x.slot_length ≤ x.allocated_slot_length ∧
  (∀ i, rd x.slot i < 2 ^ 32) ∧
  (∀ i, x.slot_length ≤ i → rd x.slot i = 0) ∧
  x.bit_length = max 1 (32 * (x.slot_length - 1) + bit_width (rd x.slot (x.slot_length - 1)))

/-- Invariant of the outer loop of `__big_int_mul_plain` after `k` passes. -/
def mul_plain_inv (a b : big_int) (n k : Nat) (st : mul_plain_state) : Prop :=
  st.num_term.slot.length = n ∧ st.num_term.allocated_slot_length = n ∧
  st.num_term.sign = BIG_NUMBER_POSITIVE ∧
  (∀ j, st.num_term_slot_idx_max ≤ j → rd st.num_term.slot j = 0) ∧
  weak_canonical st.num_final ∧ st.num_final.sign = BIG_NUMBER_POSITIVE ∧
  magnitude st.num_final = val a.slot k * magnitude b ∧
  (magnitude b ≠ 0 → magnitude_canonical st.num_final) ∧
  (magnitude b = 0 → st.num_final.slot_length ≤ max 1 k)

/-- Value held by the result buffer of the squaring together with its
overflow words. -/
def square_val (st : square_state) (n : Nat) : Nat := val st.w n + 2 ^ 32 * val st.c_fix_arr n

/-- Value of the slots `i .. t` of a buffer. -/
def tail_val (s : List Nat) (t i : Nat) : Nat := val s t - val s i

/-- Invariant of step 2 in row `i` before index `j`. -/
def square_loop_inv (x : List Nat) (t i n m : Nat) (s : Nat) (j : Nat) (st : square_state) : Prop :=
  st.w.length = n ∧ st.c_fix_arr.length = m ∧
  (∀ p, rd st.w p < 2 ^ 32) ∧ (∀ p, rd st.c_fix_arr p < 2 ^ 32) ∧
  st.c < 2 ^ 64 ∧ st.u = st.c ∧
  (∀ p, i + t ≤ p → rd st.w p = 0) ∧
  (∀ p, p < i + j ∨ p + 1 ≠ i + t → rd st.c_fix_arr p = 0) ∧
  square_val st (2 * t) + st.c * 2 ^ (32 * (i + j)) +
      2 * (rd x i * 2 ^ (32 * i)) * tail_val x t j = s

/-- Invariant of the outer loop of the squaring before row `i`: the buffers
hold the products of all pairs with a member below `i`. -/
def square_row_inv (x : List Nat) (t n m : Nat) (i : Nat) (st : square_state) : Prop :=
  st.w.length = n ∧ st.c_fix_arr.length = m ∧
  (∀ p, rd st.w p < 2 ^ 32) ∧ (∀ p, rd st.c_fix_arr p < 2 ^ 32) ∧
  (∀ p, i + t ≤ p → rd st.w p = 0) ∧
  (∀ p, p + 1 ≠ i + t → rd st.c_fix_arr p = 0) ∧
  square_val st (2 * t) = val x i * (val x i + 2 * tail_val x t i)

/-- The used length is at most `k`, or the value needs that many slots. -/
def snug (x : big_int) (k : Nat) : Prop :=
  x.slot_length ≤ k ∨ 2 ^ (32 * (x.slot_length - 1)) ≤ magnitude x

/-- What `__big_int_mul_without_check` returns for operands `a` and `b`:
`num1` after the call and the product. -/
def mul_result (a b : big_int) (r : big_int × big_int) : Prop :=
  (r.1 = a ∨ r.1 = { a with sign := BIG_NUMBER_POSITIVE }) ∧
  weak_canonical r.2 ∧
  r.2.sign = (if a.sign = b.sign then BIG_NUMBER_POSITIVE else BIG_NUMBER_NEGATIVE) ∧
  magnitude r.2 = magnitude a * magnitude b ∧
  (magnitude b ≠ 0 → magnitude_canonical r.2) ∧
  (magnitude b = 0 → r.2.slot_length ≤ a.slot_length)

/-- A multiplication kernel that is right on operands of at most `n` bits. -/
def mwc_sound (mwc : Bool → big_int → big_int → Option (big_int × big_int)) (n : Nat) : Prop :=
  ∀ (same : Bool) (a b : big_int), magnitude_canonical a → magnitude_canonical b →
    (same = true → b = a) → a.bit_length ≤ n → b.bit_length ≤ n →
    ∃ r, mwc same a b = some r ∧ mul_result a b r

/-- Invariant of the loops of `big_int_pow_mod_to` once `k` bits of the
exponent `E` (of `B` bits) are consumed: `result` is `A ^ (E mod 2 ^ k) mod N`
and `num1` is congruent to `A ^ (2 ^ k)`. -/
def pow_mod_inv (A E N M B k : Nat) (st : pow_mod_state) : Prop :=
  pos_canonical st.result ∧ pos_canonical st.num1 ∧
  magnitude st.result = A ^ (E % 2 ^ k) % N ∧
  magnitude st.num1 % N = A ^ 2 ^ k % N ∧
  magnitude st.num1 < 2 ^ M ∧
  st.bit_count = (B : Int) - (k : Int)

/-- The number a string of hexadecimal digits stands for, most significant
digit first, read with `hex_to_int`. -/
def hex_value (cs : List Char) : Nat := cs.foldl (fun acc c => acc * 16 + hex_to_int c) 0

/-- The upper-case hexadecimal digits. -/
def hex_digits : List Char :=
  ['0', '1', '2', '3', '4', '5', '6', '7', '8', '9', 'A', 'B', 'C', 'D', 'E', 'F']

/-- The digits printed for the first `n` slots of `s`. -/
def print_groups (s : List Nat) (n : Nat) : List Char :=
  for_down n (fun idx out => out ++ printf_08X (rd s idx)) []

/-- The entry below the diagonal of the `k`-th power of the Fibonacci matrix:
`F(k - 1)`, and `1` for the identity. -/
def fib_prev (k : Nat) : Nat := if k = 0 then 1 else Nat.fib (k - 1)

/-- The matrix holds the `k`-th power of `[[1, 1], [1, 0]]` in non-negative
canonical entries. -/
def fib_matrix (m : matrix_2) (k : Nat) : Prop :=
  (pos_canonical m.m00 ∧ magnitude m.m00 = Nat.fib (k + 1)) ∧
  (pos_canonical m.m01 ∧ magnitude m.m01 = Nat.fib k) ∧
  (pos_canonical m.m10 ∧ magnitude m.m10 = Nat.fib k) ∧
  (pos_canonical m.m11 ∧ magnitude m.m11 = fib_prev k)

/-- Every entry is a non-negative canonical integer of at most `n` bits. -/
def matrix_pos (m : matrix_2) (n : Nat) : Prop :=
  ∀ i j, pos_canonical (matrix_2_get m i j) ∧ (matrix_2_get m i j).bit_length ≤ n

/-- Every page of the block is in use. -/
def block_full (block : mem_block) : Prop :=
  ∀ k, k < PAGE_PER_BLOCK → page_used block k = true

/-- Page `k` is the lowest free page of the block. -/
def lowest_free (block : mem_block) (k : Nat) : Prop :=
  k < PAGE_PER_BLOCK ∧ page_used block k = false ∧ ∀ j, j < k → page_used block j = true

/-- The block `mem_pool_malloc` leaves when it hands out page `k`. -/
def block_taken (block : mem_block) (k : Nat) : mem_block :=
  { block with
    bitmap := block.bitmap.set (k / 8) ((rd block.bitmap (k / 8) ||| (1 <<< (k % 8))) % 256),
    size_used := block.size_used + PAGE_SIZE,
    size_free := block.size_free - PAGE_SIZE }

/-- The pool `mem_pool_malloc` leaves when the block after `pre` hands out
its page `k`. -/
def pool_taken (pool : mem_pool) (pre : List mem_block) (block : mem_block)
    (post : List mem_block) (k : Nat) : mem_pool :=
  { pool with
    blocks := pre ++ block_taken block k :: post,
    size_used := pool.size_used + PAGE_SIZE,
    size_free := pool.size_free - PAGE_SIZE }

/-- A pool of two blocks: the first is full and eleven pages of the second are
in use. -/
def pool_two_blocks : mem_pool :=
  { blocks := [⟨0x80000, [0xFF, 0xFF, 0xFF, 0xFF], 4, 32, 131072, 0, 131072⟩,
               ⟨0x10000, [0xFF, 0x07, 0, 0], 4, 32, 45056, 86016, 131072⟩],
    size_used := 176128,
    size_free := 86016,
    size_total := 262144 }

/-- The block `mem_pool_free` leaves when it takes back page `k`. -/
def block_given (block : mem_block) (k : Nat) : mem_block :=
  { block with
    bitmap := block.bitmap.set (k / 8) (rd block.bitmap (k / 8) &&& (0xFF ^^^ (1 <<< (k % 8)))),
    size_used := block.size_used - PAGE_SIZE,
    size_free := block.size_free + PAGE_SIZE }

/-- The value `2 ^ 768` in a buffer of 26 slots: 769 bits, with a low half
that is all zero. -/
def karatsuba_operand_high : big_int := ⟨List.replicate 24 0 ++ [1, 0], 769, 25, 26, 0⟩

/-- A negative value of 770 bits in a buffer of 26 slots, every low slot `7`
and the top slot `3`. -/
def karatsuba_operand_full : big_int := ⟨List.replicate 24 7 ++ [3, 0], 770, 25, 26, 1⟩

/-- The value `7` in a buffer of 300 slots, a capacity a product of 9600 bits
leaves behind. -/
def seven_in_300_slots : big_int := ⟨7 :: List.replicate 299 0, 3, 1, 300, 0⟩

/-- The value `2 ^ 8192` as `big_int_left_shift` of `1` by `8192` leaves it:
257 used slots in a block of 513 slots. -/
def two_pow_8192 : big_int :=
  ⟨List.replicate 256 0 ++ 1 :: List.replicate 256 0, 8193, 257, 513, 0⟩

/-- The value `2 ^ 8160` in a block of 256 slots, all of them used. -/
def two_pow_8160 : big_int := ⟨List.replicate 255 0 ++ [1], 8161, 256, 256, 0⟩

/-- The value `2 ^ 8128` in a block of 256 slots, 255 of them used. -/
def two_pow_8128 : big_int := ⟨List.replicate 254 0 ++ [1, 0], 8129, 255, 256, 0⟩

/-- The value `2 ^ 32` in a block of 256 slots. -/
def two_pow_32 : big_int := ⟨0 :: 1 :: List.replicate 254 0, 33, 2, 256, 0⟩

/-- The value `2 ^ 8191` in a block of 256 slots, all of them used: 8192
bits. -/
def two_pow_8191 : big_int := ⟨List.replicate 255 0 ++ [0x80000000], 8192, 256, 256, 0⟩

/-- The value `2 ^ 16383` in a block of 512 slots, all of them used: 16384
bits. -/
def two_pow_16383 : big_int := ⟨List.replicate 511 0 ++ [0x80000000], 16384, 512, 512, 0⟩

/-- The value `2 ^ 8191 + 1` in a block of 256 slots, all of them used. -/
def two_pow_8191_plus_1 : big_int :=
  ⟨1 :: List.replicate 254 0 ++ [0x80000000], 8192, 256, 256, 0⟩

/-- The value `-(2 ^ 16383 + 1)` in a block of 512 slots, all of them used. -/
def neg_two_pow_16383_plus_1 : big_int :=
  ⟨1 :: List.replicate 510 0 ++ [0x80000000], 16384, 512, 512, 1⟩

/-- The value `2 ^ 4096` in a block of 256 slots, 129 of them used. -/
def two_pow_4096 : big_int := ⟨List.replicate 128 0 ++ 1 :: List.replicate 127 0, 4097, 129, 256, 0⟩

/-- The Mersenne prime `2 ^ 9689 - 1` in a block of 303 slots. -/
def mersenne_9689 : big_int :=
  ⟨List.replicate 302 0xFFFFFFFF ++ [0x1FFFFFF], 9689, 303, 303, 0⟩

/-- The value `2 ^ k` in a block of `cap` slots. -/
def pow2_rec (k cap : Nat) : big_int :=
  ⟨List.replicate (k / 32) 0 ++ 2 ^ (k % 32) :: List.replicate (cap - k / 32 - 1) 0,
    k + 1, k / 32 + 1, cap, 0⟩

/-- The value `0` in a block of 256 slots. -/
def zero_rec : big_int := ⟨List.replicate 256 0, 1, 1, 256, 0⟩

/-! ## Loops -/

theorem for_up_zero {α : Type} (f : Nat → α → α) (a : α) : for_up 0 f a = a := rfl

theorem for_up_succ {α : Type} (n : Nat) (f : Nat → α → α) (a : α) :
    for_up (n + 1) f a = f n (for_up n f a) := by
  simp [for_up, List.range_succ, List.foldl_append]

theorem for_down_zero {α : Type} (f : Nat → α → α) (a : α) : for_down 0 f a = a := rfl

theorem for_down_succ {α : Type} (n : Nat) (f : Nat → α → α) (a : α) :
    for_down (n + 1) f a = for_down n f (f n a) := by
  simp [for_down, List.range_succ, List.foldr_append]

theorem for_range_self {α : Type} (a : Nat) (f : Nat → α → α) (x : α) : for_range a a f x = x := by
  simp [for_range, for_up_zero]

theorem for_range_of_ge {α : Type} (a b : Nat) (h : b ≤ a) (f : Nat → α → α) (x : α) :
    for_range a b f x = x := by
  simp [for_range, Nat.sub_eq_zero_of_le h, for_up_zero]

theorem for_range_succ {α : Type} (a b : Nat) (h : a ≤ b) (f : Nat → α → α) (x : α) :
    for_range a (b + 1) f x = f b (for_range a b f x) := by
  unfold for_range
  have : b + 1 - a = (b - a) + 1 := by omega
  rw [this, for_up_succ]
  congr 1
  omega

/-- Invariant rule for `for_up`. -/
theorem for_up_induct {α : Type} (P : Nat → α → Prop) (n : Nat) (f : Nat → α → α) (a : α)
    (h0 : P 0 a) (hs : ∀ k x, k < n → P k x → P (k + 1) (f k x)) : P n (for_up n f a) := by
  have : ∀ k, k ≤ n → P k (for_up k f a) := by
    intro k
    induction k with
    | zero => intro _; exact h0
    | succ k ih =>
      intro hk
      rw [for_up_succ]
      exact hs k _ (by omega) (ih (by omega))
  exact this n le_rfl

/-- Invariant rule for `for_range`. -/
theorem for_range_induct {α : Type} (P : Nat → α → Prop) (a b : Nat) (hab : a ≤ b)
    (f : Nat → α → α) (x : α)
    (h0 : P a x) (hs : ∀ k y, a ≤ k → k < b → P k y → P (k + 1) (f k y)) :
    P b (for_range a b f x) := by
  unfold for_range
  have := for_up_induct (fun k y => P (a + k) y) (b - a) (fun k acc => f (a + k) acc) x
    (by simpa using h0) (by
      intro k y hk hP
      have := hs (a + k) y (by omega) (by omega) hP
      simpa [Nat.add_assoc] using this)
  have e : a + (b - a) = b := by omega
  simpa [e] using this

/-- Invariant rule for `for_down`: `P k` holds when the slots `k ..` are done. -/
theorem for_down_induct {α : Type} (P : Nat → α → Prop) (n : Nat) (f : Nat → α → α) (a : α)
    (h0 : P n a) (hs : ∀ k x, k < n → P (k + 1) x → P k (f k x)) : P 0 (for_down n f a) := by
  induction n generalizing a with
  | zero => exact h0
  | succ n ih =>
    rw [for_down_succ]
    apply ih
    · exact hs n a (by omega) h0
    · intro k x hk hP
      exact hs k x (by omega) hP

/-! ## Buffers -/

theorem rd_eq_getElem {s : List Nat} {i : Nat} (h : i < s.length) : rd s i = s[i] := by
  simp [rd, List.getD_eq_getElem?_getD, List.getElem?_eq_getElem h]

theorem rd_of_le {s : List Nat} {i : Nat} (h : s.length ≤ i) : rd s i = 0 := by
  simp [rd, List.getD_eq_getElem?_getD, List.getElem?_eq_none h]

theorem rd_set (s : List Nat) (i j v : Nat) :
    rd (s.set i v) j = if i = j ∧ i < s.length then v else rd s j := by
  unfold rd
  simp only [List.getD_eq_getElem?_getD, List.getElem?_set]
  by_cases hij : i = j
  · subst hij
    by_cases hl : i < s.length
    · simp [hl]
    · simp [hl, List.getElem?_eq_none (Nat.le_of_not_lt hl)]
  · simp [hij]

theorem rd_set_self {s : List Nat} {i : Nat} (v : Nat) (h : i < s.length) :
    rd (s.set i v) i = v := by
  simp [rd_set, h]

theorem rd_set_ne {s : List Nat} {i j : Nat} (v : Nat) (h : i ≠ j) :
    rd (s.set i v) j = rd s j := by
  simp [rd_set, h]

theorem rd_alloc (n i : Nat) : rd (alloc n) i = 0 := by
  unfold rd alloc
  simp only [List.getD_eq_getElem?_getD]
  by_cases h : i < n
  · simp [List.getElem?_replicate, h]
  · simp [List.getElem?_replicate, h]

theorem length_alloc (n : Nat) : (alloc n).length = n := by simp [alloc]

theorem rd_lt_of_forall_mem {s : List Nat} {b : Nat} (hb : 0 < b) (h : ∀ v ∈ s, v < b) (i : Nat) :
    rd s i < b := by
  by_cases hi : i < s.length
  · rw [rd_eq_getElem hi]; exact h _ (List.getElem_mem hi)
  · rw [rd_of_le (Nat.le_of_not_lt hi)]; exact hb

theorem forall_mem_of_rd_lt {s : List Nat} {b : Nat} (h : ∀ i, rd s i < b) : ∀ v ∈ s, v < b := by
  intro v hv
  obtain ⟨i, hi, rfl⟩ := List.getElem_of_mem hv
  rw [← rd_eq_getElem hi]; exact h i

/-! ## Values -/

theorem val_zero (s : List Nat) : val s 0 = 0 := rfl

theorem val_succ (s : List Nat) (n : Nat) : val s (n + 1) = val s n + rd s n * 2 ^ (32 * n) := rfl

theorem val_congr {s t : List Nat} {n : Nat} (h : ∀ i, i < n → rd s i = rd t i) :
    val s n = val t n := by
  induction n with
  | zero => rfl
  | succ n ih =>
    rw [val_succ, val_succ, ih (fun i hi => h i (by omega)), h n (by omega)]

theorem val_set_of_le (s : List Nat) {n i : Nat} (v : Nat) (h : n ≤ i) :
    val (s.set i v) n = val s n :=
  val_congr (fun j hj => rd_set_ne v (by omega))

theorem val_lt {s : List Nat} (h : ∀ i, rd s i < 2 ^ 32) (n : Nat) : val s n < 2 ^ (32 * n) := by
  induction n with
  | zero => simp [val]
  | succ n ih =>
    rw [val_succ]
    have h1 := h n
    have e : 2 ^ (32 * (n + 1)) = 2 ^ 32 * 2 ^ (32 * n) := by
      rw [← pow_add]; congr 1; omega
    rw [e]
    have : rd s n * 2 ^ (32 * n) ≤ (2 ^ 32 - 1) * 2 ^ (32 * n) :=
      Nat.mul_le_mul_right _ (by omega)
    have e2 : (2 ^ 32 - 1) * 2 ^ (32 * n) + 2 ^ (32 * n) = 2 ^ 32 * 2 ^ (32 * n) := by
      rw [Nat.sub_mul]; 
      have : 1 * 2 ^ (32 * n) ≤ 2 ^ 32 * 2 ^ (32 * n) := Nat.mul_le_mul_right _ (by norm_num)
      omega
    omega

theorem val_of_zero_above {s : List Nat} {n m : Nat} (hnm : n ≤ m)
    (h : ∀ i, n ≤ i → i < m → rd s i = 0) : val s m = val s n := by
  induction m with
  | zero =>
    have : n = 0 := by omega
    subst this; rfl
  | succ m ih =>
    by_cases hn : n = m + 1
    · subst hn; rfl
    · rw [val_succ, h m (by omega) (by omega), ih (by omega) (fun i h1 h2 => h i h1 (by omega))]
      simp

theorem val_eq_zero_of_forall {s : List Nat} {n : Nat} (h : ∀ i, i < n → rd s i = 0) :
    val s n = 0 := by
  have := val_of_zero_above (s := s) (n := 0) (m := n) (Nat.zero_le _) (fun i _ hi => h i hi)
  simpa [val] using this

theorem le_val_succ (s : List Nat) (n : Nat) : rd s n * 2 ^ (32 * n) ≤ val s (n + 1) := by
  rw [val_succ]; omega

/-! ## Bit width -/

theorem size_half (v : Nat) (hv : v ≠ 0) : Nat.size v = Nat.size (v / 2) + 1 := by
  apply le_antisymm
  · rw [Nat.size_le]
    have h := Nat.lt_size_self (v / 2)
    rw [pow_succ]
    omega
  · rw [Nat.succ_le_iff, Nat.lt_size]
    by_cases hk : Nat.size (v / 2) = 0
    · rw [hk]; simp; omega
    · have h : Nat.size (v / 2) - 1 < Nat.size (v / 2) := by omega
      rw [Nat.lt_size] at h
      have e : 2 ^ Nat.size (v / 2) = 2 ^ (Nat.size (v / 2) - 1) * 2 := by
        rw [← pow_succ]; congr 1; omega
      rw [e]; omega

theorem bit_width_aux_eq_size (fuel v : Nat) (h : v ≤ fuel) : bit_width_aux fuel v = Nat.size v := by
  induction fuel generalizing v with
  | zero =>
    have : v = 0 := by omega
    subst this; simp [bit_width_aux]
  | succ fuel ih =>
    unfold bit_width_aux
    by_cases hv : v = 0
    · simp [hv]
    · rw [if_neg hv, ih (v / 2) (by omega), size_half v hv]

theorem bit_width_eq_size (v : Nat) : bit_width v = Nat.size v :=
  bit_width_aux_eq_size v v le_rfl

theorem bit_width_zero : bit_width 0 = 0 := by simp [bit_width_eq_size]

theorem bit_width_le_iff {v n : Nat} : bit_width v ≤ n ↔ v < 2 ^ n := by
  rw [bit_width_eq_size]; exact Nat.size_le

theorem lt_bit_width_iff {v n : Nat} : n < bit_width v ↔ 2 ^ n ≤ v := by
  rw [bit_width_eq_size]; exact Nat.lt_size

theorem lt_two_pow_bit_width (v : Nat) : v < 2 ^ bit_width v := bit_width_le_iff.mp le_rfl

theorem bit_width_eq_zero_iff {v : Nat} : bit_width v = 0 ↔ v = 0 := by
  rw [bit_width_eq_size]; exact Nat.size_eq_zero

theorem bit_width_pos {v : Nat} (h : v ≠ 0) : 0 < bit_width v := by
  have := bit_width_eq_zero_iff (v := v)
  omega

theorem two_pow_le_of_bit_width {v : Nat} (h : v ≠ 0) : 2 ^ (bit_width v - 1) ≤ v := by
  have := bit_width_pos h
  exact lt_bit_width_iff.mp (by omega)

/-- The bit width is the only `k` with `2 ^ (k - 1) ≤ v < 2 ^ k`. -/
theorem bit_width_eq_of_bounds {v k : Nat} (hk : 0 < k) (h1 : 2 ^ (k - 1) ≤ v) (h2 : v < 2 ^ k) :
    bit_width v = k := by
  apply le_antisymm
  · exact bit_width_le_iff.mpr h2
  · have : k - 1 < bit_width v := lt_bit_width_iff.mpr h1
    omega

theorem bit_width_mono {a b : Nat} (h : a ≤ b) : bit_width a ≤ bit_width b := by
  rw [bit_width_eq_size, bit_width_eq_size]; exact Nat.size_le_size h

/-- Bit width of a number with a non-zero high part. -/
theorem bit_width_add_mul {lo hi n : Nat} (hlo : lo < 2 ^ n) (hhi : hi ≠ 0) :
    bit_width (lo + hi * 2 ^ n) = n + bit_width hi := by
  have hp := bit_width_pos hhi
  apply bit_width_eq_of_bounds (by omega)
  · have h1 := two_pow_le_of_bit_width hhi
    have e : n + bit_width hi - 1 = (bit_width hi - 1) + n := by omega
    rw [e, pow_add]
    calc 2 ^ (bit_width hi - 1) * 2 ^ n ≤ hi * 2 ^ n := Nat.mul_le_mul_right _ h1
      _ ≤ lo + hi * 2 ^ n := by omega
  · have h2 := lt_two_pow_bit_width hi
    have e : 2 ^ (n + bit_width hi) = 2 ^ bit_width hi * 2 ^ n := by rw [pow_add, mul_comm]
    rw [e]
    have : (hi + 1) * 2 ^ n ≤ 2 ^ bit_width hi * 2 ^ n := Nat.mul_le_mul_right _ (by omega)
    have e2 : (hi + 1) * 2 ^ n = hi * 2 ^ n + 2 ^ n := by ring
    omega

/-! ## The highest-set-bit routines -/

theorem land_mask (v lo w : Nat) : v &&& ((2 ^ w - 1) <<< lo) = (v / 2 ^ lo % 2 ^ w) * 2 ^ lo := by
  rw [← Nat.shiftRight_eq_div_pow, ← Nat.shiftLeft_eq]
  apply Nat.eq_of_testBit_eq
  intro i
  simp only [Nat.testBit_and, Nat.testBit_shiftLeft, Nat.testBit_two_pow_sub_one,
    Nat.testBit_mod_two_pow, Nat.testBit_shiftRight]
  by_cases h : lo ≤ i
  · have e : lo + (i - lo) = i := by omega
    simp [h, e, Bool.and_comm]
  · simp [h]

theorem hbidx_16_eq (v : Nat) (hv : v < 2 ^ 16) : hbidx_16 v = bit_width v := by
  have m1 : v &&& 0xFF00 = v / 256 % 256 * 256 := by simpa using land_mask v 8 8
  have m2 : v &&& 0xF000 = v / 4096 % 16 * 4096 := by simpa using land_mask v 12 4
  have m3 : v &&& 0xC000 = v / 16384 % 4 * 16384 := by simpa using land_mask v 14 2
  have m4 : v &&& 0x8000 = v / 32768 % 2 * 32768 := by simpa using land_mask v 15 1
  have m5 : v &&& 0x2000 = v / 8192 % 2 * 8192 := by simpa using land_mask v 13 1
  have m6 : v &&& 0x0C00 = v / 1024 % 4 * 1024 := by simpa using land_mask v 10 2
  have m7 : v &&& 0x0800 = v / 2048 % 2 * 2048 := by simpa using land_mask v 11 1
  have m8 : v &&& 0x0200 = v / 512 % 2 * 512 := by simpa using land_mask v 9 1
  have m9 : v &&& 0xF0 = v / 16 % 16 * 16 := by simpa using land_mask v 4 4
  have m10 : v &&& 0xC0 = v / 64 % 4 * 64 := by simpa using land_mask v 6 2
  have m11 : v &&& 0x80 = v / 128 % 2 * 128 := by simpa using land_mask v 7 1
  have m12 : v &&& 0x20 = v / 32 % 2 * 32 := by simpa using land_mask v 5 1
  have m13 : v &&& 0x0C = v / 4 % 4 * 4 := by simpa using land_mask v 2 2
  have m14 : v &&& 0x08 = v / 8 % 2 * 8 := by simpa using land_mask v 3 1
  have m15 : v &&& 0x02 = v / 2 % 2 * 2 := by simpa using land_mask v 1 1
  have hv' : v < 65536 := by simpa using hv
  unfold hbidx_16
  rw [m1, m2, m3, m4, m5, m6, m7, m8, m9, m10, m11, m12, m13, m14, m15]
  split_ifs <;> first
    | (symm; apply bit_width_eq_of_bounds (by norm_num) <;> norm_num <;> omega)
    | (have : v = 0 := by omega
       subst this; exact bit_width_zero.symm)

theorem hbidx_32_eq (v : Nat) (hv : v < 2 ^ 32) : hbidx_32 v = bit_width v := by
  have hv' : v < 4294967296 := by simpa using hv
  unfold hbidx_32
  have e1 : v >>> 16 = v / 65536 := by rw [Nat.shiftRight_eq_div_pow]
  have e2 : v &&& 0xFFFF = v % 65536 := by simpa using Nat.and_pow_two_sub_one_eq_mod v 16
  rw [e1, e2, hbidx_16_eq _ (by norm_num; omega), hbidx_16_eq _ (by norm_num; omega)]
  simp only
  by_cases hz : v / 65536 = 0
  · have hlt : v < 65536 := by omega
    rw [hz, bit_width_zero, Nat.mod_eq_of_lt hlt]; simp
  · have hp := bit_width_pos hz
    rw [if_pos hp]
    have hd : v = v % 65536 + v / 65536 * 2 ^ 16 := by norm_num; omega
    conv_rhs => rw [hd]
    rw [bit_width_add_mul (by norm_num; omega) hz]; omega

/-! ## Bit width of a slot sequence -/

theorem bit_width_val {s : List Nat} (h : ∀ i, rd s i < 2 ^ 32) (n : Nat) (htop : rd s n ≠ 0) :
    bit_width (val s (n + 1)) = 32 * n + bit_width (rd s n) := by
  rw [val_succ]
  exact bit_width_add_mul (val_lt h n) htop

/-! ## Consequences of the invariants -/

theorem BIT_TO_SLOT_eq (x : Nat) : BIT_TO_SLOT x = (x + 31) / 32 := by
  unfold BIT_TO_SLOT; split_ifs <;> omega

theorem size_sub_of_le {a b : Nat} (h : b ≤ a) : size_sub a b = a - b := by
  simp [size_sub, h]

namespace magnitude_canonical

variable {x : big_int}

theorem length_eq (h : magnitude_canonical x) : x.slot.length = x.allocated_slot_length := h.1
theorem one_le (h : magnitude_canonical x) : 1 ≤ x.slot_length := h.2.1
theorem le_alloc (h : magnitude_canonical x) : x.slot_length ≤ x.allocated_slot_length := h.2.2.1
theorem le_length (h : magnitude_canonical x) : x.slot_length ≤ x.slot.length := by
  rw [h.length_eq]; exact h.le_alloc

theorem rd_lt (h : magnitude_canonical x) (i : Nat) : rd x.slot i < 2 ^ 32 :=
  rd_lt_of_forall_mem (by norm_num) h.2.2.2.1 i

theorem zero_above (h : magnitude_canonical x) (i : Nat) (hi : x.slot_length ≤ i) :
    rd x.slot i = 0 := by
  by_cases hl : i < x.slot.length
  · exact h.2.2.2.2.1 i hl hi
  · exact rd_of_le (Nat.le_of_not_lt hl)

theorem top (h : magnitude_canonical x) :
    x.slot_length = 1 ∨ rd x.slot (x.slot_length - 1) ≠ 0 := h.2.2.2.2.2.1

theorem bits (h : magnitude_canonical x) :
    x.bit_length = (if rd x.slot (x.slot_length - 1) = 0 then 1
      else 32 * (x.slot_length - 1) + bit_width (rd x.slot (x.slot_length - 1))) := h.2.2.2.2.2.2

theorem magnitude_eq (h : magnitude_canonical x) :
    magnitude x = val x.slot (x.slot_length - 1) + rd x.slot (x.slot_length - 1) * 2 ^ (32 * (x.slot_length - 1)) := by
  have := h.one_le
  unfold magnitude
  conv_lhs => rw [show x.slot_length = (x.slot_length - 1) + 1 by omega]
  rw [val_succ]

theorem magnitude_eq_zero_iff (h : magnitude_canonical x) :
    magnitude x = 0 ↔ rd x.slot (x.slot_length - 1) = 0 := by
  constructor
  · intro hm
    rw [h.magnitude_eq] at hm
    have hp : 0 < 2 ^ (32 * (x.slot_length - 1)) := by positivity
    have : rd x.slot (x.slot_length - 1) * 2 ^ (32 * (x.slot_length - 1)) = 0 := by omega
    rcases Nat.mul_eq_zero.mp this with h1 | h1
    · exact h1
    · omega
  · intro ht
    rcases h.top with h1 | h1
    · unfold magnitude
      rw [h1] at ht ⊢
      simp [val, ht]
    · exact absurd ht h1

theorem is_zero_iff (h : magnitude_canonical x) :
    (x.slot_length = 1 ∧ rd x.slot 0 = 0) ↔ magnitude x = 0 := by
  rw [h.magnitude_eq_zero_iff]
  constructor
  · rintro ⟨h1, h2⟩; rw [h1]; exact h2
  · intro ht
    rcases h.top with h1 | h1
    · rw [h1] at ht; exact ⟨h1, ht⟩
    · exact absurd ht h1

theorem bits_of_zero (h : magnitude_canonical x) (hz : magnitude x = 0) : x.bit_length = 1 := by
  rw [h.bits, if_pos (h.magnitude_eq_zero_iff.mp hz)]

theorem bits_of_ne_zero (h : magnitude_canonical x) (hz : magnitude x ≠ 0) :
    x.bit_length = bit_width (magnitude x) := by
  have ht : rd x.slot (x.slot_length - 1) ≠ 0 := fun e => hz (h.magnitude_eq_zero_iff.mpr e)
  have := h.one_le
  rw [h.bits, if_neg ht]
  unfold magnitude
  conv_rhs => rw [show x.slot_length = (x.slot_length - 1) + 1 by omega]
  rw [bit_width_val h.rd_lt _ ht]

theorem bits_eq (h : magnitude_canonical x) : x.bit_length = max 1 (bit_width (magnitude x)) := by
  by_cases hz : magnitude x = 0
  · rw [h.bits_of_zero hz, hz, bit_width_zero]; rfl
  · rw [h.bits_of_ne_zero hz]
    have := bit_width_pos hz
    omega

theorem one_le_bits (h : magnitude_canonical x) : 1 ≤ x.bit_length := by
  rw [h.bits_eq]; omega

theorem magnitude_lt_bits (h : magnitude_canonical x) : magnitude x < 2 ^ x.bit_length := by
  by_cases hz : magnitude x = 0
  · rw [hz]; positivity
  · rw [h.bits_of_ne_zero hz]; exact lt_two_pow_bit_width _

theorem magnitude_lt (h : magnitude_canonical x) : magnitude x < 2 ^ (32 * x.slot_length) :=
  val_lt h.rd_lt _

/-- The used length is the number of slots the bit length needs. -/
theorem bits_bounds (h : magnitude_canonical x) :
    32 * (x.slot_length - 1) < x.bit_length ∧ x.bit_length ≤ 32 * x.slot_length := by
  have h1 := h.one_le
  rw [h.bits]
  split_ifs with ht
  · rcases h.top with h2 | h2
    · rw [h2]; omega
    · exact absurd ht h2
  · have hp := bit_width_pos ht
    have hle : bit_width (rd x.slot (x.slot_length - 1)) ≤ 32 := bit_width_le_iff.mpr (h.rd_lt _)
    omega

theorem slot_length_eq (h : magnitude_canonical x) : x.slot_length = BIT_TO_SLOT x.bit_length := by
  have := h.bits_bounds
  have := h.one_le
  rw [BIT_TO_SLOT_eq]; omega

theorem val_eq_magnitude (h : magnitude_canonical x) {n : Nat} (hn : x.slot_length ≤ n) :
    val x.slot n = magnitude x :=
  val_of_zero_above hn (fun i hi _ => h.zero_above i hi)

theorem two_pow_le_magnitude (h : magnitude_canonical x) (hn : 1 < x.slot_length) :
    2 ^ (32 * (x.slot_length - 1)) ≤ magnitude x := by
  rcases h.top with h1 | h1
  · omega
  · rw [h.magnitude_eq]
    have : 1 * 2 ^ (32 * (x.slot_length - 1)) ≤
        rd x.slot (x.slot_length - 1) * 2 ^ (32 * (x.slot_length - 1)) :=
      Nat.mul_le_mul_right _ (by omega)
    omega

end magnitude_canonical

/-- Building the invariants from a value-level description. -/
theorem magnitude_canonical_intro {x : big_int}
    (hlen : x.slot.length = x.allocated_slot_length)
    (h1 : 1 ≤ x.slot_length) (h2 : x.slot_length ≤ x.allocated_slot_length)
    (hlt : ∀ i, rd x.slot i < 2 ^ 32)
    (hz : ∀ i, x.slot_length ≤ i → rd x.slot i = 0)
    (htop : x.slot_length = 1 ∨ rd x.slot (x.slot_length - 1) ≠ 0)
    (hb : x.bit_length = (if rd x.slot (x.slot_length - 1) = 0 then 1
      else 32 * (x.slot_length - 1) + bit_width (rd x.slot (x.slot_length - 1)))) :
    magnitude_canonical x :=
  ⟨hlen, h1, h2, forall_mem_of_rd_lt hlt, fun i _ hi => hz i hi, htop, hb⟩

/-! ## Comparison -/

theorem cmp_nat_add_right (x y k : Nat) : cmp_nat (x + k) (y + k) = cmp_nat x y := by
  unfold cmp_nat; split_ifs <;> first | rfl | omega

theorem compare_raw_loop_eq {s1 s2 : List Nat} (h1 : ∀ i, rd s1 i < 2 ^ 32)
    (h2 : ∀ i, rd s2 i < 2 ^ 32) (n : Nat) :
    compare_raw_loop s1 s2 n = cmp_nat (val s1 n) (val s2 n) := by
  induction n with
  | zero => simp [compare_raw_loop, cmp_nat, val]
  | succ n ih =>
    unfold compare_raw_loop
    rw [val_succ, val_succ]
    have b1 := val_lt h1 n
    have b2 := val_lt h2 n
    have hp : 0 < 2 ^ (32 * n) := by positivity
    by_cases hgt : rd s1 n > rd s2 n
    · rw [if_pos hgt]
      have : (rd s2 n + 1) * 2 ^ (32 * n) ≤ rd s1 n * 2 ^ (32 * n) := Nat.mul_le_mul_right _ hgt
      have e : (rd s2 n + 1) * 2 ^ (32 * n) = rd s2 n * 2 ^ (32 * n) + 2 ^ (32 * n) := by ring
      unfold cmp_nat
      rw [if_pos (by omega)]
    · rw [if_neg hgt]
      by_cases hlt : rd s1 n < rd s2 n
      · rw [if_pos hlt]
        have : (rd s1 n + 1) * 2 ^ (32 * n) ≤ rd s2 n * 2 ^ (32 * n) := Nat.mul_le_mul_right _ hlt
        have e : (rd s1 n + 1) * 2 ^ (32 * n) = rd s1 n * 2 ^ (32 * n) + 2 ^ (32 * n) := by ring
        unfold cmp_nat
        rw [if_neg (by omega), if_pos (by omega)]
      · rw [if_neg hlt, ih]
        have e : rd s1 n = rd s2 n := by omega
        rw [e]
        exact (cmp_nat_add_right _ _ _).symm

theorem compare_raw_eq {a b : big_int} (ha : magnitude_canonical a) (hb : magnitude_canonical b) :
    big_int_compare_raw a b = cmp_nat (magnitude a) (magnitude b) := by
  unfold big_int_compare_raw
  have ba := ha.magnitude_lt_bits
  have bb := hb.magnitude_lt_bits
  by_cases hgt : a.bit_length > b.bit_length
  · rw [if_pos hgt]
    have hb1 := hb.one_le_bits
    have hnz : magnitude a ≠ 0 := by
      intro hz; have := ha.bits_of_zero hz; omega
    have h1 := two_pow_le_of_bit_width hnz
    rw [← ha.bits_of_ne_zero hnz] at h1
    have h2 : 2 ^ b.bit_length ≤ 2 ^ (a.bit_length - 1) :=
      Nat.pow_le_pow_right (by norm_num) (by omega)
    unfold cmp_nat
    rw [if_pos (by omega)]
  · rw [if_neg hgt]
    by_cases hlt : a.bit_length < b.bit_length
    · rw [if_pos hlt]
      have ha1 := ha.one_le_bits
      have hnz : magnitude b ≠ 0 := by
        intro hz; have := hb.bits_of_zero hz; omega
      have h1 := two_pow_le_of_bit_width hnz
      rw [← hb.bits_of_ne_zero hnz] at h1
      have h2 : 2 ^ a.bit_length ≤ 2 ^ (b.bit_length - 1) :=
        Nat.pow_le_pow_right (by norm_num) (by omega)
      unfold cmp_nat
      rw [if_neg (by omega), if_pos (by omega)]
    · rw [if_neg hlt]
      have e : a.bit_length = b.bit_length := by omega
      have el : a.slot_length = b.slot_length := by
        rw [ha.slot_length_eq, hb.slot_length_eq, e]
      rw [compare_raw_loop_eq ha.rd_lt hb.rd_lt]
      unfold magnitude
      rw [el]

theorem cmp_nat_pos_iff {a b : Nat} : cmp_nat a b > 0 ↔ a > b := by
  unfold cmp_nat; split_ifs <;> simp <;> omega

theorem cmp_nat_eq_zero_iff {a b : Nat} : cmp_nat a b = 0 ↔ a = b := by
  unfold cmp_nat; split_ifs <;> simp <;> omega

theorem cmp_nat_eq_one_iff {a b : Nat} : cmp_nat a b = 1 ↔ a > b := by
  unfold cmp_nat; split_ifs <;> simp <;> omega

theorem cmp_nat_eq_neg_one_iff {a b : Nat} : cmp_nat a b = -1 ↔ a < b := by
  unfold cmp_nat; split_ifs <;> simp <;> omega

/-! ## Copies -/

theorem copy_slots_spec (old : List Nat) (used n : Nat) :
    (copy_slots old used n).length = n ∧
    ∀ i, rd (copy_slots old used n) i = if i < used ∧ i < n then rd old i else 0 := by
  unfold copy_slots
  have := for_up_induct
    (fun k (s : List Nat) => s.length = n ∧ ∀ i, rd s i = if i < k ∧ i < n then rd old i else 0)
    used (fun idx s => s.set idx (rd old idx)) (alloc n)
    ⟨length_alloc n, fun i => by simp [rd_alloc]⟩
    (by
      rintro k s _ ⟨hl, hr⟩
      refine ⟨by simp [hl], fun i => ?_⟩
      rw [rd_set, hr, hl]
      by_cases h1 : k = i
      · subst h1
        by_cases h2 : k < n
        · simp [h2]
        · simp [h2]
      · by_cases h2 : i < k
        · have : i < k + 1 := by omega
          simp [h1, h2, this]
        · have : ¬ i < k + 1 := by omega
          simp [h1, h2, this])
  exact this

theorem length_copy_slots (old : List Nat) (used n : Nat) : (copy_slots old used n).length = n :=
  (copy_slots_spec old used n).1

theorem rd_copy_slots (old : List Nat) (used n i : Nat) :
    rd (copy_slots old used n) i = if i < used ∧ i < n then rd old i else 0 :=
  (copy_slots_spec old used n).2 i

theorem rd_copy_slots_of_canonical {x : big_int} (h : magnitude_canonical x) {n : Nat}
    (hn : x.slot_length ≤ n) (i : Nat) :
    rd (copy_slots x.slot x.slot_length n) i = rd x.slot i := by
  rw [rd_copy_slots]
  by_cases hi : i < x.slot_length
  · rw [if_pos ⟨hi, by omega⟩]
  · rw [if_neg (by omega), h.zero_above i (by omega)]

/-! ## The carry loop of `big_int_add_to_raw` -/

/-- Arithmetic of one step of a carry or borrow chain. -/
theorem chain_step {Vs V Va c P m x y nc B : Nat} (hv : Vs + V = Va + c * P)
    (hb : m + y + c = x + nc * B) :
    Vs + m * P + (V + y * P) = Va + x * P + nc * (B * P) := by
  zify at hv hb ⊢
  linear_combination hv + (P : Int) * hb

theorem two_pow_succ_slot (k : Nat) : 2 ^ (32 * (k + 1)) = 2 ^ 32 * 2 ^ (32 * k) := by
  rw [← pow_add]; congr 1; omega

theorem add_carry_step_spec (t : List Nat) (k : Nat) (s : List Nat) (c : Nat)
    (hx : rd s k < 2 ^ 32) (hy : rd t k < 2 ^ 32) (hc : c ≤ 1) :
    ∃ m c', add_carry_step t k (s, c) = (s.set k m, c') ∧ m < 2 ^ 32 ∧ c' ≤ 1 ∧
      m + c' * 2 ^ 32 = rd s k + rd t k + c :=
  ⟨(rd s k + rd t k + c) % 2 ^ 32, (rd s k + rd t k + c) / 2 ^ 32, rfl, by omega, by omega, by omega⟩

/-- Effect of one step that rewrites slot `k` on the invariant of a chain. -/
theorem rd_set_cases {s : List Nat} {k : Nat} (hk : k < s.length) (m : Nat) :
    rd (s.set k m) k = m ∧ ∀ i, i ≠ k → rd (s.set k m) i = rd s i :=
  ⟨rd_set_self _ hk, fun _ hi => rd_set_ne _ (fun e => hi e.symm)⟩

theorem add_loop_spec (s0 t : List Nat) (L : Nat) (hL : L ≤ s0.length)
    (h0 : ∀ i, rd s0 i < 2 ^ 32) (ht : ∀ i, rd t i < 2 ^ 32) :
    (add_carry_loop s0 t L).1.length = s0.length ∧
    (∀ i, L ≤ i → rd (add_carry_loop s0 t L).1 i = rd s0 i) ∧
    (∀ i, rd (add_carry_loop s0 t L).1 i < 2 ^ 32) ∧
    (add_carry_loop s0 t L).2 ≤ 1 ∧
    val (add_carry_loop s0 t L).1 L + (add_carry_loop s0 t L).2 * 2 ^ (32 * L) = val s0 L + val t L := by
  unfold add_carry_loop
  refine for_up_induct
    (fun k (p : List Nat × Nat) =>
      p.1.length = s0.length ∧ (∀ i, k ≤ i → rd p.1 i = rd s0 i) ∧ (∀ i, rd p.1 i < 2 ^ 32) ∧
      p.2 ≤ 1 ∧ val p.1 k + p.2 * 2 ^ (32 * k) = val s0 k + val t k)
    L (add_carry_step t) (s0, 0)
    ⟨rfl, fun _ _ => rfl, h0, by omega, by simp [val]⟩ ?_
  rintro k ⟨s, c⟩ hk ⟨hl, hsame, hlt, hc, hv⟩
  simp only at hl hsame hlt hc hv
  have hks : k < s.length := by omega
  obtain ⟨m, c', hr, q2, q3, q4⟩ := add_carry_step_spec t k s c (hlt k) (ht k) hc
  rw [hr]
  obtain ⟨hk1, hne⟩ := rd_set_cases hks m
  simp only
  refine ⟨by simp [hl], ?_, ?_, q3, ?_⟩
  · intro i hi
    rw [hne i (by omega)]
    exact hsame i (by omega)
  · intro i
    by_cases e : i = k
    · rw [e, hk1]; exact q2
    · rw [hne i e]; exact hlt i
  · rw [val_succ, val_succ, val_succ, val_congr (fun i hi => hne i (by omega)), two_pow_succ_slot, hk1]
    rw [hsame k le_rfl] at q4
    zify at hv q4 ⊢
    linear_combination hv + (2 ^ (32 * k) : Int) * q4

/-! ## Magnitude addition -/

theorem add_grow_spec {a : big_int} (ha : magnitude_canonical a) (ns : Nat) :
    (add_grow a ns).slot.length = (add_grow a ns).allocated_slot_length ∧
    (add_grow a ns).slot_length = a.slot_length ∧
    (add_grow a ns).sign = a.sign ∧
    (add_grow a ns).bit_length = a.bit_length ∧
    ns ≤ (add_grow a ns).slot.length ∧
    a.allocated_slot_length ≤ (add_grow a ns).allocated_slot_length ∧
    ∀ i, rd (add_grow a ns).slot i = rd a.slot i := by
  unfold add_grow
  split_ifs with h
  · refine ⟨by simp [length_copy_slots], rfl, rfl, rfl, by simp [length_copy_slots], ?_, ?_⟩
    · show a.allocated_slot_length ≤ ns + ALLOCATE_SLOT_SIZE
      omega
    · intro i
      exact rd_copy_slots_of_canonical ha (by
        have := ha.le_alloc; simp only [ALLOCATE_SLOT_SIZE]; omega) i
  · exact ⟨ha.length_eq, rfl, rfl, rfl, by rw [ha.length_eq]; omega, le_rfl, fun _ => rfl⟩

/-- The tail of `big_int_add_to_raw`, on a buffer `s` that holds the low
`L` slots of the sum and a carry `c`. -/
theorem add_finish_core (x : big_int) (s : List Nat) (c L A : Nat)
    (hlen : s.length = x.allocated_slot_length) (hL1 : 1 ≤ L)
    (hlt : ∀ i, rd s i < 2 ^ 32) (hz : ∀ i, L ≤ i → rd s i = 0) (hc : c ≤ 1)
    (hroom : c = 1 → L < s.length) (hLlen : L ≤ s.length)
    (hval : val s L + c * 2 ^ (32 * L) = A)
    (hlo : 1 < L → 2 ^ (32 * (L - 1)) ≤ A) :
    let slot := s.set L c
    let sl := L + c
    let bl := MUL_SLOT (size_sub sl 1) + hbidx_32 (rd slot (size_sub sl 1))
    let bl2 := if bl = 0 then 1 else bl
    let y : big_int := { x with slot := slot, slot_length := sl, bit_length := bl2 }
    magnitude_canonical y ∧ magnitude y = A ∧ y.sign = x.sign ∧
      y.allocated_slot_length = x.allocated_slot_length := by
  intro slot sl bl bl2 y
  have hss : size_sub sl 1 = sl - 1 := size_sub_of_le (by omega)
  have slot_rd : ∀ i, rd slot i = if i = L then c else rd s i := by
    intro i
    show rd (s.set L c) i = _
    rw [rd_set]
    by_cases h : L = i
    · subst h
      by_cases hl : L < s.length
      · simp [hl]
      · have : c = 0 := by
          by_contra hc0
          exact hl (hroom (by omega))
        simp [hl, this, hz L le_rfl]
    · have : ¬ i = L := fun e => h e.symm
      simp [h, this]
  have slot_lt : ∀ i, rd slot i < 2 ^ 32 := by
    intro i; rw [slot_rd]; split_ifs
    · have : (2:Nat) ≤ 2 ^ 32 := by norm_num
      omega
    · exact hlt i
  have hvalL : val slot L = val s L :=
    val_congr (fun i hi => by rw [slot_rd, if_neg (by omega)])
  have hmag : val slot sl = A := by
    rcases Nat.eq_zero_or_pos c with h0 | h1
    · have : sl = L := by omega
      rw [this, hvalL]; rw [h0] at hval; simpa using hval
    · have hc1 : c = 1 := by omega
      have : sl = L + 1 := by omega
      rw [this, val_succ, slot_rd, if_pos rfl, hvalL]; exact hval
  have htop : sl = 1 ∨ rd slot (sl - 1) ≠ 0 := by
    rcases Nat.eq_zero_or_pos c with h0 | h1
    · have hslL : sl = L := by omega
      by_cases h1 : L = 1
      · left; omega
      · right
        intro hzz
        have h2 := hlo (by omega)
        rw [← hmag] at h2
        have : val slot sl = val slot (sl - 1) := by
          conv_lhs => rw [show sl = (sl - 1) + 1 by omega]
          rw [val_succ, hzz]; simp
        have h3 := val_lt slot_lt (sl - 1)
        rw [hslL] at h2 this h3
        omega
    · right
      have : sl - 1 = L := by omega
      rw [this, slot_rd, if_pos rfl]; omega
  refine ⟨?_, hmag, rfl, rfl⟩
  apply magnitude_canonical_intro
  · show (s.set L c).length = x.allocated_slot_length
    simp [hlen]
  · show 1 ≤ sl
    omega
  · show sl ≤ x.allocated_slot_length
    rw [← hlen]
    rcases Nat.eq_zero_or_pos c with h0 | h1
    · omega
    · have := hroom (by omega); omega
  · exact slot_lt
  · intro i hi
    change sl ≤ i at hi
    show rd slot i = 0
    rw [slot_rd]
    split_ifs with h
    · omega
    · exact hz i (by omega)
  · exact htop
  · show bl2 =
      if rd slot (sl - 1) = 0 then 1 else 32 * (sl - 1) + bit_width (rd slot (sl - 1))
    have hbl : bl = 32 * (sl - 1) + bit_width (rd slot (sl - 1)) := by
      show MUL_SLOT (size_sub sl 1) + hbidx_32 (rd slot (size_sub sl 1)) = _
      rw [hss, hbidx_32_eq _ (slot_lt _)]; simp only [MUL_SLOT]; omega
    show (if bl = 0 then 1 else bl) = _
    rw [hbl]
    by_cases hzz : rd slot (sl - 1) = 0
    · have : sl = 1 := by
        rcases htop with h | h
        · exact h
        · exact absurd hzz h
      have hz0 : rd slot 0 = 0 := by simpa [this] using hzz
      simp [this, hz0, bit_width_zero]
    · have := bit_width_pos hzz
      rw [if_neg hzz, if_neg (by omega)]

theorem add_finish_spec (x : big_int) (s : List Nat) (c L A : Nat)
    (hlen : s.length = x.allocated_slot_length) (hL1 : 1 ≤ L)
    (hlt : ∀ i, rd s i < 2 ^ 32) (hz : ∀ i, L ≤ i → rd s i = 0) (hc : c ≤ 1)
    (hroom : c = 1 → L < s.length) (hLlen : L ≤ s.length)
    (hval : val s L + c * 2 ^ (32 * L) = A)
    (hlo : 1 < L → 2 ^ (32 * (L - 1)) ≤ A) :
    magnitude_canonical (add_finish x L (s, c)) ∧ magnitude (add_finish x L (s, c)) = A ∧
    (add_finish x L (s, c)).sign = x.sign ∧
    (add_finish x L (s, c)).allocated_slot_length = x.allocated_slot_length :=
  add_finish_core x s c L A hlen hL1 hlt hz hc hroom hLlen hval hlo

theorem add_to_raw_spec {a b : big_int} (ha : magnitude_canonical a) (hb : magnitude_canonical b) :
    (big_int_add_to_raw a b).1 = 0 ∧
    magnitude_canonical (big_int_add_to_raw a b).2 ∧
    magnitude (big_int_add_to_raw a b).2 = magnitude a + magnitude b ∧
    (big_int_add_to_raw a b).2.sign = a.sign ∧
    a.allocated_slot_length ≤ (big_int_add_to_raw a b).2.allocated_slot_length := by
  have ha1 := ha.one_le
  have hb1 := hb.one_le
  have hba := ha.bits_bounds
  have hbb := hb.bits_bounds
  have hns := BIT_TO_SLOT_eq (max a.bit_length b.bit_length + 1)
  obtain ⟨g_len, g_sl, g_sign, g_bits, g_ns, g_al, g_rd⟩ :=
    add_grow_spec ha (BIT_TO_SLOT (max a.bit_length b.bit_length + 1))
  have hunf : big_int_add_to_raw a b =
      (0, add_finish (add_grow a (BIT_TO_SLOT (max a.bit_length b.bit_length + 1)))
        (max a.slot_length b.slot_length)
        (add_carry_loop (add_grow a (BIT_TO_SLOT (max a.bit_length b.bit_length + 1))).slot b.slot
          (max a.slot_length b.slot_length))) := by
    unfold big_int_add_to_raw
    simp only [g_sl]
  rw [hunf]
  generalize add_grow a (BIT_TO_SLOT (max a.bit_length b.bit_length + 1)) = g at *
  generalize hLe : max a.slot_length b.slot_length = L at *
  have g_lt : ∀ i, rd g.slot i < 2 ^ 32 := fun i => by rw [g_rd]; exact ha.rd_lt i
  have hLns : L ≤ BIT_TO_SLOT (max a.bit_length b.bit_length + 1) := by
    rw [hns]; omega
  obtain ⟨r_len, r_same, r_lt, r_c, r_val⟩ :=
    add_loop_spec g.slot b.slot L (by omega) g_lt hb.rd_lt
  have hva : val g.slot L = magnitude a := by
    rw [val_congr (fun i _ => g_rd i)]
    exact ha.val_eq_magnitude (by omega)
  have hvb : val b.slot L = magnitude b := hb.val_eq_magnitude (by omega)
  rw [hva, hvb] at r_val
  generalize add_carry_loop g.slot b.slot L = r at *
  obtain ⟨s, c⟩ := r
  simp only at r_len r_same r_lt r_c r_val
  have key := add_finish_spec g s c L (magnitude a + magnitude b)
    (by rw [r_len]; exact g_len) (by omega) r_lt
    (fun i hi => by rw [r_same i hi, g_rd]; exact ha.zero_above i (by omega))
    r_c
    (by
      intro hc1
      rw [hc1] at r_val
      rw [r_len]
      have hbig : 2 ^ (32 * L) ≤ magnitude a + magnitude b := by omega
      have hmax : 32 * L ≤ max a.bit_length b.bit_length := by
        by_contra hcon
        have h1 : a.bit_length ≤ 32 * L - 1 := by omega
        have h2 : b.bit_length ≤ 32 * L - 1 := by omega
        have h3 := ha.magnitude_lt_bits
        have h4 := hb.magnitude_lt_bits
        have h5 : 2 ^ a.bit_length ≤ 2 ^ (32 * L - 1) := Nat.pow_le_pow_right (by norm_num) h1
        have h6 : 2 ^ b.bit_length ≤ 2 ^ (32 * L - 1) := Nat.pow_le_pow_right (by norm_num) h2
        have h7 : 2 ^ (32 * L) = 2 * 2 ^ (32 * L - 1) := by
          rw [← pow_succ']; congr 1; omega
        omega
      have : L + 1 ≤ BIT_TO_SLOT (max a.bit_length b.bit_length + 1) := by rw [hns]; omega
      omega)
    (by rw [r_len]; omega)
    r_val
    (by
      intro h1
      rcases Nat.le_total a.slot_length b.slot_length with h | h
      · have e : L = b.slot_length := by omega
        have := hb.two_pow_le_magnitude (by omega)
        rw [e]; omega
      · have e : L = a.slot_length := by omega
        have := ha.two_pow_le_magnitude (by omega)
        rw [e]; omega)
  exact ⟨rfl, key.1, key.2.1, by rw [key.2.2.1]; exact g_sign, by rw [key.2.2.2]; exact g_al⟩

/-! ## Magnitude subtraction -/

theorem trim_scan_spec (s : List Nat) (n : Nat) :
    trim_scan s n ≤ n ∧ (∀ i, trim_scan s n ≤ i → i < n → rd s i = 0) ∧
    (trim_scan s n = 0 ∨ rd s (trim_scan s n - 1) ≠ 0) := by
  induction n with
  | zero => simp [trim_scan]
  | succ n ih =>
    unfold trim_scan
    split_ifs with h
    · obtain ⟨h1, h2, h3⟩ := ih
      refine ⟨by omega, ?_, h3⟩
      intro i hi hin
      by_cases e : i = n
      · rw [e]; exact h
      · exact h2 i hi (by omega)
    · refine ⟨le_rfl, fun i hi hin => by omega, Or.inr ?_⟩
      simpa using h

theorem clear_loop_spec (s : List Nat) (n : Nat) :
    (for_up n (fun slot_idx s => s.set slot_idx 0) s).length = s.length ∧
    ∀ i, rd (for_up n (fun slot_idx s => s.set slot_idx 0) s) i = if i < n then 0 else rd s i := by
  have := for_up_induct
    (fun k (t : List Nat) => t.length = s.length ∧ ∀ i, rd t i = if i < k then 0 else rd s i)
    n (fun slot_idx s => s.set slot_idx 0) s ⟨rfl, fun i => by simp⟩
    (by
      rintro k t _ ⟨hl, hr⟩
      refine ⟨by simp [hl], fun i => ?_⟩
      rw [rd_set, hr]
      by_cases h1 : k = i
      · subst h1
        by_cases h2 : k < t.length
        · simp [h2]
        · simp [h2]
          exact rd_of_le (by omega)
      · by_cases h2 : i < k
        · have : i < k + 1 := by omega
          simp [h1, h2, this]
        · have : ¬ i < k + 1 := by omega
          simp [h1, h2, this])
  exact this

theorem clear_used_spec {a : big_int} (ha : magnitude_canonical a) :
    magnitude_canonical (clear_used a) ∧ magnitude (clear_used a) = 0 ∧
    (clear_used a).sign = a.sign ∧
    (clear_used a).allocated_slot_length = a.allocated_slot_length := by
  obtain ⟨hl, hr⟩ := clear_loop_spec a.slot a.slot_length
  have hz : ∀ i, rd (clear_used a).slot i = 0 := by
    intro i
    show rd (for_up a.slot_length (fun slot_idx s => s.set slot_idx 0) a.slot) i = 0
    rw [hr]
    split_ifs with h
    · rfl
    · exact ha.zero_above i (by omega)
  refine ⟨?_, ?_, rfl, rfl⟩
  · apply magnitude_canonical_intro
    · show (for_up a.slot_length (fun slot_idx s => s.set slot_idx 0) a.slot).length = _
      rw [hl]; exact ha.length_eq
    · exact le_rfl
    · show 1 ≤ a.allocated_slot_length
      have := ha.one_le; have := ha.le_alloc; omega
    · intro i; rw [hz]; norm_num
    · intro i _; exact hz i
    · exact Or.inl rfl
    · show 1 = _
      rw [hz]; simp
  · show val (clear_used a).slot 1 = 0
    exact val_eq_zero_of_forall (fun i _ => hz i)

theorem sub_grow_spec {a b : big_int} (ha : magnitude_canonical a) (hb : magnitude_canonical b) :
    (sub_grow a b).slot.length = (sub_grow a b).allocated_slot_length ∧
    (sub_grow a b).slot_length = a.slot_length ∧
    (sub_grow a b).sign = a.sign ∧
    (sub_grow a b).bit_length = a.bit_length ∧
    a.slot.length ≤ (sub_grow a b).slot.length ∧
    ∀ i, rd (sub_grow a b).slot i = rd a.slot i := by
  have h1 := ha.le_alloc
  have h2 := hb.le_alloc
  unfold sub_grow
  split_ifs with h
  · refine ⟨by simp [length_copy_slots], rfl, rfl, rfl, ?_, ?_⟩
    · simp only [length_copy_slots, ha.length_eq, ALLOCATE_SLOT_SIZE]; omega
    · intro i
      exact rd_copy_slots_of_canonical ha (by simp only [ALLOCATE_SLOT_SIZE]; omega) i
  · exact ⟨ha.length_eq, rfl, rfl, rfl, le_rfl, fun _ => rfl⟩

theorem sub_borrow_step_spec (t : List Nat) (k : Nat) (s : List Nat) (c : Nat)
    (hx : rd s k < 2 ^ 32) (hy : rd t k < 2 ^ 32) (hc : c ≤ 1) :
    ∃ m c', sub_borrow_step t k (s, c) = (s.set k m, c') ∧ m < 2 ^ 32 ∧ c' ≤ 1 ∧
      m + rd t k + c = rd s k + c' * 2 ^ 32 := by
  refine ⟨_, _, rfl, ?_, ?_, ?_⟩
  · simp only; omega
  · simp only; split_ifs <;> omega
  · simp only; split_ifs <;> omega

theorem sub_tail_step_spec (k : Nat) (s : List Nat) (c : Nat)
    (hx : rd s k < 2 ^ 32) (hc : c ≤ 1) :
    ∃ m c', sub_tail_step k (s, c) = (s.set k m, c') ∧ m < 2 ^ 32 ∧ c' ≤ 1 ∧
      m + c = rd s k + c' * 2 ^ 32 := by
  refine ⟨_, _, rfl, ?_, ?_, ?_⟩
  · simp only; omega
  · simp only; split_ifs <;> omega
  · simp only; split_ifs <;> omega

theorem sub_borrow_loop_spec (s0 t : List Nat) (n : Nat) (hn : n ≤ s0.length)
    (h0 : ∀ i, rd s0 i < 2 ^ 32) (ht : ∀ i, rd t i < 2 ^ 32) :
    (sub_borrow_loop s0 t n).1.length = s0.length ∧
    (∀ i, n ≤ i → rd (sub_borrow_loop s0 t n).1 i = rd s0 i) ∧
    (∀ i, rd (sub_borrow_loop s0 t n).1 i < 2 ^ 32) ∧
    (sub_borrow_loop s0 t n).2 ≤ 1 ∧
    val (sub_borrow_loop s0 t n).1 n + val t n =
      val s0 n + (sub_borrow_loop s0 t n).2 * 2 ^ (32 * n) := by
  unfold sub_borrow_loop
  refine for_up_induct
    (fun k (p : List Nat × Nat) =>
      p.1.length = s0.length ∧ (∀ i, k ≤ i → rd p.1 i = rd s0 i) ∧ (∀ i, rd p.1 i < 2 ^ 32) ∧
      p.2 ≤ 1 ∧ val p.1 k + val t k = val s0 k + p.2 * 2 ^ (32 * k))
    n (sub_borrow_step t) (s0, 0)
    ⟨rfl, fun _ _ => rfl, h0, by omega, by simp [val]⟩ ?_
  rintro k ⟨s, c⟩ hk ⟨hl, hsame, hlt, hc, hv⟩
  simp only at hl hsame hlt hc hv
  have hks : k < s.length := by omega
  obtain ⟨m, c', hr, q2, q3, q4⟩ := sub_borrow_step_spec t k s c (hlt k) (ht k) hc
  rw [hr]
  obtain ⟨hk1, hne⟩ := rd_set_cases hks m
  simp only
  refine ⟨by simp [hl], ?_, ?_, q3, ?_⟩
  · intro i hi
    rw [hne i (by omega)]
    exact hsame i (by omega)
  · intro i
    by_cases e : i = k
    · rw [e, hk1]; exact q2
    · rw [hne i e]; exact hlt i
  · rw [val_succ, val_succ, val_succ, val_congr (fun i hi => hne i (by omega)), two_pow_succ_slot, hk1]
    rw [hsame k le_rfl] at q4
    zify at hv q4 ⊢
    linear_combination hv + (2 ^ (32 * k) : Int) * q4

theorem sub_borrow_tail_spec (s0 a : List Nat) (n2 n1 c0 : Nat) (hn : n2 ≤ n1) (hl1 : n1 ≤ s0.length)
    (h0 : ∀ i, rd s0 i < 2 ^ 32) (hsame0 : ∀ i, n2 ≤ i → rd s0 i = rd a i) (hc0 : c0 ≤ 1)
    (V : Nat) (hv0 : val s0 n2 + V = val a n2 + c0 * 2 ^ (32 * n2)) :
    (sub_borrow_tail n2 n1 (s0, c0)).1.length = s0.length ∧
    (∀ i, n1 ≤ i → rd (sub_borrow_tail n2 n1 (s0, c0)).1 i = rd a i) ∧
    (∀ i, rd (sub_borrow_tail n2 n1 (s0, c0)).1 i < 2 ^ 32) ∧
    (sub_borrow_tail n2 n1 (s0, c0)).2 ≤ 1 ∧
    val (sub_borrow_tail n2 n1 (s0, c0)).1 n1 + V =
      val a n1 + (sub_borrow_tail n2 n1 (s0, c0)).2 * 2 ^ (32 * n1) := by
  unfold sub_borrow_tail
  refine for_range_induct
    (fun k (p : List Nat × Nat) =>
      p.1.length = s0.length ∧ (∀ i, k ≤ i → rd p.1 i = rd a i) ∧ (∀ i, rd p.1 i < 2 ^ 32) ∧
      p.2 ≤ 1 ∧ val p.1 k + V = val a k + p.2 * 2 ^ (32 * k))
    n2 n1 hn sub_tail_step (s0, c0)
    ⟨rfl, hsame0, h0, hc0, hv0⟩ ?_
  rintro k ⟨s, c⟩ hk1 hk2 ⟨hl, hsame, hlt, hc, hv⟩
  simp only at hl hsame hlt hc hv
  have hks : k < s.length := by omega
  obtain ⟨m, c', hr, q2, q3, q4⟩ := sub_tail_step_spec k s c (hlt k) hc
  rw [hr]
  obtain ⟨hk1, hne⟩ := rd_set_cases hks m
  simp only
  refine ⟨by simp [hl], ?_, ?_, q3, ?_⟩
  · intro i hi
    rw [hne i (by omega)]
    exact hsame i (by omega)
  · intro i
    by_cases e : i = k
    · rw [e, hk1]; exact q2
    · rw [hne i e]; exact hlt i
  · rw [val_succ, val_succ, val_congr (fun i hi => hne i (by omega)), two_pow_succ_slot, hk1]
    rw [hsame k le_rfl] at q4
    zify at hv q4 ⊢
    linear_combination hv + (2 ^ (32 * k) : Int) * q4

theorem sub_trim_spec (x : big_int) (s : List Nat) (A : Nat)
    (hlen : s.length = x.allocated_slot_length) (h1 : 1 ≤ x.slot_length)
    (hle : x.slot_length ≤ s.length)
    (hlt : ∀ i, rd s i < 2 ^ 32) (hz : ∀ i, x.slot_length ≤ i → rd s i = 0)
    (hval : val s x.slot_length = A) :
    magnitude_canonical (sub_trim x s) ∧ magnitude (sub_trim x s) = A ∧
    (sub_trim x s).sign = x.sign ∧
    (sub_trim x s).allocated_slot_length = x.allocated_slot_length := by
  obtain ⟨t1, t2, t3⟩ := trim_scan_spec s x.slot_length
  unfold sub_trim
  simp only
  generalize trim_scan s x.slot_length = m at t1 t2 t3 ⊢
  have hzm : ∀ i, m ≤ i → rd s i = 0 := by
    intro i hi
    by_cases h : i < x.slot_length
    · exact t2 i hi h
    · exact hz i (by omega)
  have hvm : val s m = A := by
    rw [← hval]; exact (val_of_zero_above t1 (fun i hi _ => hzm i hi)).symm
  split_ifs with h0
  · subst h0
    refine ⟨?_, ?_, rfl, rfl⟩
    · apply magnitude_canonical_intro
      · exact hlen
      · exact le_rfl
      · show 1 ≤ x.allocated_slot_length
        omega
      · exact hlt
      · intro i _; exact hzm i (Nat.zero_le _)
      · exact Or.inl rfl
      · show 1 = _
        simp [hzm 0 le_rfl]
    · show val s 1 = A
      rw [← hvm]; simp [val, hzm 0 le_rfl]
  · have htop : rd s (m - 1) ≠ 0 := by
      rcases t3 with h | h
      · exact absurd h h0
      · exact h
    refine ⟨?_, hvm, rfl, rfl⟩
    apply magnitude_canonical_intro
    · exact hlen
    · show 1 ≤ m
      omega
    · show m ≤ x.allocated_slot_length
      omega
    · exact hlt
    · intro i hi; exact hzm i hi
    · exact Or.inr htop
    · show MUL_SLOT (m - 1) + hbidx_32 (rd s (m - 1)) = _
      rw [if_neg htop, hbidx_32_eq _ (hlt _)]
      simp only [MUL_SLOT]; omega

theorem compare_eq_zero {a b : big_int} (ha : magnitude_canonical a) (hb : magnitude_canonical b)
    (h : big_int_compare a b = 0) : magnitude a = magnitude b := by
  unfold big_int_compare at h
  split_ifs at h
  · rw [compare_raw_eq ha hb] at h; exact cmp_nat_eq_zero_iff.mp h
  · exact absurd h (by norm_num)
  · rw [compare_raw_eq hb ha] at h; exact (cmp_nat_eq_zero_iff.mp h).symm

theorem val_add_of_same_above {s g : List Nat} {n2 : Nat} (h : ∀ i, n2 ≤ i → rd s i = rd g i)
    (n1 : Nat) (hn : n2 ≤ n1) : val s n1 + val g n2 = val g n1 + val s n2 := by
  induction n1 with
  | zero =>
    have : n2 = 0 := by omega
    subst this; simp [val]
  | succ n ih =>
    by_cases e : n2 = n + 1
    · subst e; omega
    · have := ih (by omega)
      rw [val_succ, val_succ, h n (by omega)]
      omega

theorem slot_length_le_of_magnitude_le {a b : big_int} (ha : magnitude_canonical a)
    (hb : magnitude_canonical b) (h : magnitude b ≤ magnitude a) :
    b.slot_length ≤ a.slot_length := by
  by_contra hcon
  have h1 := ha.one_le
  have h2 := hb.two_pow_le_magnitude (by omega)
  have h3 := ha.magnitude_lt
  have h4 : 2 ^ (32 * a.slot_length) ≤ 2 ^ (32 * (b.slot_length - 1)) :=
    Nat.pow_le_pow_right (by norm_num) (by omega)
  omega

theorem sub_to_raw_spec {a b : big_int} (ha : magnitude_canonical a) (hb : magnitude_canonical b)
    (hge : magnitude b ≤ magnitude a) :
    (big_int_sub_to_raw a b).1 = 0 ∧
    magnitude_canonical (big_int_sub_to_raw a b).2 ∧
    magnitude (big_int_sub_to_raw a b).2 = magnitude a - magnitude b ∧
    (big_int_sub_to_raw a b).2.sign = a.sign := by
  unfold big_int_sub_to_raw
  split_ifs with hz hc
  · have : magnitude b = 0 := hb.is_zero_iff.mp hz
    exact ⟨rfl, ha, by simp [this], rfl⟩
  · obtain ⟨c1, c2, c3, _⟩ := clear_used_spec ha
    have := compare_eq_zero ha hb hc
    exact ⟨rfl, c1, by rw [c2]; omega, c3⟩
  · obtain ⟨g_len, g_sl, g_sign, g_bits, g_ge, g_rd⟩ := sub_grow_spec ha hb
    have hn := slot_length_le_of_magnitude_le ha hb hge
    have hla := ha.le_length
    simp only [g_sl]
    generalize sub_grow a b = g at *
    have g_lt : ∀ i, rd g.slot i < 2 ^ 32 := fun i => by rw [g_rd]; exact ha.rd_lt i
    obtain ⟨r_len, r_same, r_lt, r_c, r_val⟩ :=
      sub_borrow_loop_spec g.slot b.slot b.slot_length (by omega) g_lt hb.rd_lt
    generalize sub_borrow_loop g.slot b.slot b.slot_length = r at *
    obtain ⟨s, c⟩ := r
    simp only at r_len r_same r_lt r_c r_val ⊢
    -- the state after the optional second loop
    have hfin : ∃ s' c', (if c = 1 then sub_borrow_tail b.slot_length a.slot_length (s, c) else (s, c)) = (s', c') ∧
        s'.length = g.slot.length ∧ (∀ i, a.slot_length ≤ i → rd s' i = rd g.slot i) ∧
        (∀ i, rd s' i < 2 ^ 32) ∧ c' ≤ 1 ∧
        val s' a.slot_length + magnitude b = val g.slot a.slot_length + c' * 2 ^ (32 * a.slot_length) := by
      split_ifs with hc1
      · obtain ⟨q1, q2, q3, q4, q5⟩ := sub_borrow_tail_spec s g.slot b.slot_length a.slot_length c hn
          (by omega) r_lt r_same r_c (magnitude b) r_val
        exact ⟨(sub_borrow_tail b.slot_length a.slot_length (s, c)).1,
          (sub_borrow_tail b.slot_length a.slot_length (s, c)).2, rfl,
          by rw [q1, r_len], q2, q3, q4, q5⟩
      · have hc0 : c = 0 := by omega
        refine ⟨s, c, rfl, r_len, fun i hi => r_same i (by omega), r_lt, r_c, ?_⟩
        have e1 := val_add_of_same_above r_same a.slot_length hn
        rw [hc0] at r_val ⊢
        have e2 : magnitude b = val b.slot b.slot_length := rfl
        simp only [zero_mul, add_zero] at r_val ⊢
        omega
    obtain ⟨s', c', hs', f_len, f_same, f_lt, f_c, f_val⟩ := hfin
    rw [hs']
    simp only
    have hva : val g.slot a.slot_length = magnitude a := val_congr (fun i _ => g_rd i)
    rw [hva] at f_val
    have hc0 : c' = 0 := by
      by_contra hne
      have : c' = 1 := by omega
      rw [this] at f_val
      have := val_lt f_lt a.slot_length
      omega
    rw [hc0] at f_val
    simp only [zero_mul, add_zero] at f_val
    obtain ⟨t1, t2, t3, t4⟩ := sub_trim_spec g s' (magnitude a - magnitude b)
      (by rw [f_len]; exact g_len) (by rw [g_sl]; exact ha.one_le) (by rw [g_sl, f_len]; omega)
      f_lt (fun i hi => by
        rw [g_sl] at hi
        rw [f_same i hi, g_rd]; exact ha.zero_above i hi)
      (by rw [g_sl]; omega)
    exact ⟨trivial, t1, t2, by rw [t3]; exact g_sign⟩

/-! ## Copies and signs -/

theorem assign_spec {a : big_int} (ha : magnitude_canonical a) :
    magnitude_canonical (big_int_assign a) ∧ magnitude (big_int_assign a) = magnitude a ∧
    (big_int_assign a).sign = a.sign ∧
    (big_int_assign a).slot_length = a.slot_length ∧
    (big_int_assign a).bit_length = a.bit_length ∧
    (big_int_assign a).allocated_slot_length = a.allocated_slot_length ∧
    ∀ i, rd (big_int_assign a).slot i = rd a.slot i := by
  have hrd : ∀ i, rd (big_int_assign a).slot i = rd a.slot i :=
    fun i => rd_copy_slots_of_canonical ha ha.le_alloc i
  refine ⟨?_, val_congr (fun i _ => hrd i), rfl, rfl, rfl, rfl, hrd⟩
  apply magnitude_canonical_intro
  · exact length_copy_slots _ _ _
  · exact ha.one_le
  · exact ha.le_alloc
  · intro i; rw [hrd]; exact ha.rd_lt i
  · intro i hi; rw [hrd]; exact ha.zero_above i hi
  · show a.slot_length = 1 ∨ rd (big_int_assign a).slot (a.slot_length - 1) ≠ 0
    rw [hrd]; exact ha.top
  · show a.bit_length = if rd (big_int_assign a).slot (a.slot_length - 1) = 0 then 1
      else 32 * (a.slot_length - 1) + bit_width (rd (big_int_assign a).slot (a.slot_length - 1))
    rw [hrd]; exact ha.bits

theorem canonical.mc {x : big_int} (h : canonical x) : magnitude_canonical x := h.1

theorem canonical.sign_cases {x : big_int} (h : canonical x) :
    x.sign = BIG_NUMBER_POSITIVE ∨ x.sign = BIG_NUMBER_NEGATIVE := h.2.1

theorem to_Int_of_pos {x : big_int} (h : x.sign = BIG_NUMBER_POSITIVE) :
    to_Int x = (magnitude x : Int) := by
  unfold to_Int; rw [h]; simp [BIG_NUMBER_POSITIVE, BIG_NUMBER_NEGATIVE]

theorem to_Int_of_neg {x : big_int} (h : x.sign = BIG_NUMBER_NEGATIVE) :
    to_Int x = -(magnitude x : Int) := by
  unfold to_Int; rw [h]; simp

theorem pos_ne_neg : BIG_NUMBER_POSITIVE ≠ BIG_NUMBER_NEGATIVE := by decide

/-- The sign written at the end of the signed operations, with the zero check. -/
theorem set_sign_spec {x : big_int} (hx : magnitude_canonical x) (sign : Int)
    (hs : sign = BIG_NUMBER_POSITIVE ∨ sign = BIG_NUMBER_NEGATIVE) :
    canonical (set_sign sign x) ∧ magnitude (set_sign sign x) = magnitude x ∧
    to_Int (set_sign sign x) =
      (if sign = BIG_NUMBER_NEGATIVE then -(magnitude x : Int) else (magnitude x : Int)) ∧
    (set_sign sign x).allocated_slot_length = x.allocated_slot_length := by
  have hz := hx.is_zero_iff
  unfold set_sign big_int_is_zero
  simp only [decide_eq_true_eq]
  split_ifs with h1 h2 h2
  · have hm : magnitude x = 0 := hz.mp h1
    refine ⟨⟨hx, Or.inl rfl, fun _ => rfl⟩, rfl, ?_, rfl⟩
    unfold to_Int
    show (if BIG_NUMBER_POSITIVE = BIG_NUMBER_NEGATIVE then _ else _) = _
    rw [if_neg pos_ne_neg]
    show (magnitude x : Int) = _
    rw [hm]; simp
  · have hm : magnitude x = 0 := hz.mp h1
    refine ⟨⟨hx, Or.inl rfl, fun _ => rfl⟩, rfl, ?_, rfl⟩
    unfold to_Int
    show (if BIG_NUMBER_POSITIVE = BIG_NUMBER_NEGATIVE then _ else _) = _
    rw [if_neg pos_ne_neg]; rfl
  · have hm : magnitude x ≠ 0 := fun e => h1 (hz.mpr e)
    refine ⟨⟨hx, hs, fun e => absurd e hm⟩, rfl, ?_, rfl⟩
    unfold to_Int
    show (if sign = BIG_NUMBER_NEGATIVE then _ else _) = _
    rw [if_pos h2]; rfl
  · have hm : magnitude x ≠ 0 := fun e => h1 (hz.mpr e)
    refine ⟨⟨hx, hs, fun e => absurd e hm⟩, rfl, ?_, rfl⟩
    unfold to_Int
    show (if sign = BIG_NUMBER_NEGATIVE then _ else _) = _
    rw [if_neg h2]; rfl

theorem sub_swapped_spec {a b : big_int} (ha : magnitude_canonical a) (hb : magnitude_canonical b)
    (hge : magnitude a ≤ magnitude b) :
    (sub_swapped a b).1 = 0 ∧
    magnitude_canonical (sub_swapped a b).2 ∧
    magnitude (sub_swapped a b).2 = magnitude b - magnitude a := by
  obtain ⟨c1, c2, _⟩ := assign_spec hb
  obtain ⟨s1, s2, s3, _⟩ := sub_to_raw_spec c1 ha (by rw [c2]; exact hge)
  unfold sub_swapped
  simp only
  refine ⟨s1, ?_, ?_⟩
  · exact s2
  · show magnitude (big_int_sub_to_raw (big_int_assign b) a).2 = _
    rw [s3, c2]

/-! ## Signed addition and subtraction -/

theorem add_to_spec {a b : big_int} (ha : canonical a) (hb : canonical b) :
    (big_int_add_to a b).1 = 0 ∧ canonical (big_int_add_to a b).2 ∧
    to_Int (big_int_add_to a b).2 = to_Int a + to_Int b := by
  have hcmp := compare_raw_eq ha.mc hb.mc
  unfold big_int_add_to
  rcases ha.sign_cases with sa | sa <;> rcases hb.sign_cases with sb | sb
  · -- + + +
    obtain ⟨r1, r2, r3, _⟩ := add_to_raw_spec ha.mc hb.mc
    obtain ⟨q1, q2, q3, _⟩ := set_sign_spec r2 BIG_NUMBER_POSITIVE (Or.inl rfl)
    rw [if_pos sa, if_pos sb]
    dsimp only
    refine ⟨r1, q1, ?_⟩
    rw [q3, if_neg pos_ne_neg, r3, to_Int_of_pos sa, to_Int_of_pos sb]; push_cast; rfl
  · -- + + -
    have sb' : ¬ b.sign = BIG_NUMBER_POSITIVE := by rw [sb]; exact pos_ne_neg.symm
    rw [if_pos sa, if_neg sb', hcmp]
    by_cases hgt : cmp_nat (magnitude a) (magnitude b) > 0
    · have hlt := cmp_nat_pos_iff.mp hgt
      obtain ⟨r1, r2, r3, _⟩ := sub_to_raw_spec ha.mc hb.mc (by omega)
      obtain ⟨q1, q2, q3, _⟩ := set_sign_spec r2 BIG_NUMBER_POSITIVE (Or.inl rfl)
      rw [if_pos hgt]
      dsimp only
      refine ⟨r1, q1, ?_⟩
      rw [q3, if_neg pos_ne_neg, r3, to_Int_of_pos sa, to_Int_of_neg sb]
      omega
    · have hle : magnitude a ≤ magnitude b := by
        by_contra hcon; exact hgt (cmp_nat_pos_iff.mpr (by omega))
      obtain ⟨r1, r2, r3⟩ := sub_swapped_spec ha.mc hb.mc hle
      obtain ⟨q1, q2, q3, _⟩ := set_sign_spec r2 BIG_NUMBER_NEGATIVE (Or.inr rfl)
      rw [if_neg hgt]
      dsimp only
      refine ⟨r1, q1, ?_⟩
      rw [q3, if_pos rfl, r3, to_Int_of_pos sa, to_Int_of_neg sb]
      omega
  · -- - + +
    have sa' : ¬ a.sign = BIG_NUMBER_POSITIVE := by rw [sa]; exact pos_ne_neg.symm
    have sb' : ¬ b.sign = BIG_NUMBER_NEGATIVE := by rw [sb]; exact pos_ne_neg
    rw [if_neg sa', if_neg sb', hcmp]
    by_cases hgt : cmp_nat (magnitude a) (magnitude b) > 0
    · have hlt := cmp_nat_pos_iff.mp hgt
      obtain ⟨r1, r2, r3, _⟩ := sub_to_raw_spec ha.mc hb.mc (by omega)
      obtain ⟨q1, q2, q3, _⟩ := set_sign_spec r2 BIG_NUMBER_NEGATIVE (Or.inr rfl)
      rw [if_pos hgt]
      dsimp only
      refine ⟨r1, q1, ?_⟩
      rw [q3, if_pos rfl, r3, to_Int_of_neg sa, to_Int_of_pos sb]
      omega
    · have hle : magnitude a ≤ magnitude b := by
        by_contra hcon; exact hgt (cmp_nat_pos_iff.mpr (by omega))
      obtain ⟨r1, r2, r3⟩ := sub_swapped_spec ha.mc hb.mc hle
      obtain ⟨q1, q2, q3, _⟩ := set_sign_spec r2 BIG_NUMBER_POSITIVE (Or.inl rfl)
      rw [if_neg hgt]
      dsimp only
      refine ⟨r1, q1, ?_⟩
      rw [q3, if_neg pos_ne_neg, r3, to_Int_of_neg sa, to_Int_of_pos sb]
      omega
  · -- - + -
    have sa' : ¬ a.sign = BIG_NUMBER_POSITIVE := by rw [sa]; exact pos_ne_neg.symm
    obtain ⟨r1, r2, r3, _⟩ := add_to_raw_spec ha.mc hb.mc
    obtain ⟨q1, q2, q3, _⟩ := set_sign_spec r2 BIG_NUMBER_NEGATIVE (Or.inr rfl)
    rw [if_neg sa', if_pos sb]
    dsimp only
    refine ⟨r1, q1, ?_⟩
    rw [q3, if_pos rfl, r3, to_Int_of_neg sa, to_Int_of_neg sb]; push_cast; ring

/-- Signed subtraction, outside the case of two negative operands with
`|a| > |b|`. -/
theorem sub_to_spec {a b : big_int} (ha : canonical a) (hb : canonical b)
    (hcase : ¬ (a.sign = BIG_NUMBER_NEGATIVE ∧ b.sign = BIG_NUMBER_NEGATIVE ∧
      magnitude a > magnitude b)) :
    (big_int_sub_to a b).1 = 0 ∧ canonical (big_int_sub_to a b).2 ∧
    to_Int (big_int_sub_to a b).2 = to_Int a - to_Int b := by
  have hcmp := compare_raw_eq ha.mc hb.mc
  unfold big_int_sub_to
  rcases ha.sign_cases with sa | sa <;> rcases hb.sign_cases with sb | sb
  · -- + - +
    rw [if_pos sa, if_pos sb, hcmp]
    by_cases hgt : cmp_nat (magnitude a) (magnitude b) > 0
    · have hlt := cmp_nat_pos_iff.mp hgt
      obtain ⟨r1, r2, r3, _⟩ := sub_to_raw_spec ha.mc hb.mc (by omega)
      obtain ⟨q1, q2, q3, _⟩ := set_sign_spec r2 BIG_NUMBER_POSITIVE (Or.inl rfl)
      rw [if_pos hgt]
      dsimp only
      refine ⟨r1, q1, ?_⟩
      rw [q3, if_neg pos_ne_neg, r3, to_Int_of_pos sa, to_Int_of_pos sb]
      omega
    · have hle : magnitude a ≤ magnitude b := by
        by_contra hcon; exact hgt (cmp_nat_pos_iff.mpr (by omega))
      obtain ⟨r1, r2, r3⟩ := sub_swapped_spec ha.mc hb.mc hle
      obtain ⟨q1, q2, q3, _⟩ := set_sign_spec r2 BIG_NUMBER_NEGATIVE (Or.inr rfl)
      rw [if_neg hgt]
      dsimp only
      refine ⟨r1, q1, ?_⟩
      rw [q3, if_pos rfl, r3, to_Int_of_pos sa, to_Int_of_pos sb]
      omega
  · -- + - -
    have sb' : ¬ b.sign = BIG_NUMBER_POSITIVE := by rw [sb]; exact pos_ne_neg.symm
    obtain ⟨r1, r2, r3, _⟩ := add_to_raw_spec ha.mc hb.mc
    obtain ⟨q1, q2, q3, _⟩ := set_sign_spec r2 BIG_NUMBER_POSITIVE (Or.inl rfl)
    rw [if_pos sa, if_neg sb']
    dsimp only
    refine ⟨r1, q1, ?_⟩
    rw [q3, if_neg pos_ne_neg, r3, to_Int_of_pos sa, to_Int_of_neg sb]; push_cast; ring
  · -- - - +
    have sa' : ¬ a.sign = BIG_NUMBER_POSITIVE := by rw [sa]; exact pos_ne_neg.symm
    obtain ⟨r1, r2, r3, _⟩ := add_to_raw_spec ha.mc hb.mc
    obtain ⟨q1, q2, q3, _⟩ := set_sign_spec r2 BIG_NUMBER_NEGATIVE (Or.inr rfl)
    rw [if_neg sa', if_pos sb]
    dsimp only
    refine ⟨r1, q1, ?_⟩
    rw [q3, if_pos rfl, r3, to_Int_of_neg sa, to_Int_of_pos sb]; push_cast; ring
  · -- - - -
    have sa' : ¬ a.sign = BIG_NUMBER_POSITIVE := by rw [sa]; exact pos_ne_neg.symm
    have sb' : ¬ b.sign = BIG_NUMBER_POSITIVE := by rw [sb]; exact pos_ne_neg.symm
    have hle : magnitude a ≤ magnitude b := by
      by_contra hcon; exact hcase ⟨sa, sb, by omega⟩
    have hgt : ¬ cmp_nat (magnitude a) (magnitude b) > 0 := fun h => by
      have := cmp_nat_pos_iff.mp h; omega
    obtain ⟨r1, r2, r3⟩ := sub_swapped_spec ha.mc hb.mc hle
    obtain ⟨q1, q2, q3, _⟩ := set_sign_spec r2 BIG_NUMBER_POSITIVE (Or.inl rfl)
    rw [if_neg sa', if_neg sb', hcmp, if_neg hgt]
    dsimp only
    refine ⟨r1, q1, ?_⟩
    rw [q3, if_neg pos_ne_neg, r3, to_Int_of_neg sa, to_Int_of_neg sb]
    omega

/-! ## Canonical form from a value -/

theorem magnitude_canonical_of_value {x : big_int}
    (hlen : x.slot.length = x.allocated_slot_length)
    (h1 : 1 ≤ x.slot_length) (h2 : x.slot_length ≤ x.allocated_slot_length)
    (hlt : ∀ i, rd x.slot i < 2 ^ 32)
    (hz : ∀ i, x.slot_length ≤ i → rd x.slot i = 0)
    (hb : x.bit_length = bit_width (magnitude x))
    (htight : 32 * (x.slot_length - 1) < x.bit_length) :
    magnitude_canonical x := by
  have htop : rd x.slot (x.slot_length - 1) ≠ 0 := by
    intro h0
    have e : magnitude x = val x.slot (x.slot_length - 1) := by
      unfold magnitude
      conv_lhs => rw [show x.slot_length = (x.slot_length - 1) + 1 by omega]
      rw [val_succ, h0]; simp
    have h3 := val_lt hlt (x.slot_length - 1)
    rw [← e] at h3
    have := bit_width_le_iff.mpr h3
    omega
  apply magnitude_canonical_intro hlen h1 h2 hlt hz (Or.inr htop)
  rw [if_neg htop, hb]
  unfold magnitude
  conv_lhs => rw [show x.slot_length = (x.slot_length - 1) + 1 by omega]
  rw [bit_width_val hlt _ htop]

theorem bit_width_mul_two_pow {m : Nat} (hm : m ≠ 0) (k : Nat) :
    bit_width (m * 2 ^ k) = bit_width m + k := by
  have := @bit_width_add_mul 0 m k (by positivity) hm
  simpa [Nat.add_comm] using this

/-! ## Bit identities of the shifts -/

theorem two_pow_32_split {r : Nat} (hr : r ≤ 32) : (2:Nat) ^ 32 = 2 ^ r * 2 ^ (32 - r) := by
  rw [← pow_add]; congr 1; omega

theorem shl_and_mask (x r : Nat) (hr : r ≤ 32) :
    (x <<< r) &&& 0xFFFFFFFF = 2 ^ r * (x % 2 ^ (32 - r)) := by
  have e : (0xFFFFFFFF : Nat) = 2 ^ 32 - 1 := by norm_num
  rw [e, Nat.and_pow_two_sub_one_eq_mod, Nat.shiftLeft_eq, two_pow_32_split hr, Nat.mul_comm x,
    Nat.mul_mod_mul_left]

theorem shr_and_mask (y r : Nat) (hy : y < 2 ^ 32) (hr : r ≤ 32) :
    (y >>> (32 - r)) &&& ((1 <<< r) - 1) = y / 2 ^ (32 - r) := by
  rw [Nat.one_shiftLeft, Nat.and_pow_two_sub_one_eq_mod, Nat.shiftRight_eq_div_pow]
  apply Nat.mod_eq_of_lt
  rw [Nat.div_lt_iff_lt_mul (by positivity), ← two_pow_32_split hr]
  exact hy

theorem up_slot (x y r : Nat) (hy : y < 2 ^ 32) (hr : r ≤ 32) :
    ((x <<< r) &&& 0xFFFFFFFF) ||| ((y >>> (32 - r)) &&& ((1 <<< r) - 1)) =
      2 ^ r * (x % 2 ^ (32 - r)) + y / 2 ^ (32 - r) := by
  rw [shl_and_mask x r hr, shr_and_mask y r hy hr]
  refine (Nat.mul_add_lt_is_or ?_ _).symm
  rw [Nat.div_lt_iff_lt_mul (by positivity), ← two_pow_32_split hr]
  exact hy

theorem up_slot_lt (x y r : Nat) (hy : y < 2 ^ 32) (hr : r ≤ 32) :
    2 ^ r * (x % 2 ^ (32 - r)) + y / 2 ^ (32 - r) < 2 ^ 32 := by
  have h1 : y / 2 ^ (32 - r) < 2 ^ r := by
    rw [Nat.div_lt_iff_lt_mul (by positivity), ← two_pow_32_split hr]
    exact hy
  have h2 : x % 2 ^ (32 - r) < 2 ^ (32 - r) := Nat.mod_lt _ (by positivity)
  have h3 : 2 ^ r * (x % 2 ^ (32 - r) + 1) ≤ 2 ^ r * 2 ^ (32 - r) := Nat.mul_le_mul_left _ h2
  rw [two_pow_32_split hr]
  have h4 : 2 ^ r * (x % 2 ^ (32 - r) + 1) = 2 ^ r * (x % 2 ^ (32 - r)) + 2 ^ r := by ring
  omega

theorem down_slot (x y r : Nat) (hx : x < 2 ^ 32) (hr : r ≤ 32) :
    (x >>> r) ||| ((y &&& ((1 <<< r) - 1)) <<< (BIT_PER_SLOT - r)) =
      x / 2 ^ r + (y % 2 ^ r) * 2 ^ (32 - r) := by
  rw [Nat.one_shiftLeft, Nat.and_pow_two_sub_one_eq_mod, Nat.shiftRight_eq_div_pow,
    Nat.shiftLeft_eq]
  show x / 2 ^ r ||| y % 2 ^ r * 2 ^ (32 - r) = _
  rw [Nat.lor_comm, Nat.mul_comm (y % 2 ^ r), Nat.add_comm]
  refine (Nat.mul_add_lt_is_or ?_ _).symm
  rw [Nat.div_lt_iff_lt_mul (by positivity), Nat.mul_comm, ← two_pow_32_split hr]
  exact hx

theorem down_slot_lt (x y r : Nat) (hx : x < 2 ^ 32) (hr : r ≤ 32) :
    x / 2 ^ r + (y % 2 ^ r) * 2 ^ (32 - r) < 2 ^ 32 := by
  have h1 : x / 2 ^ r < 2 ^ (32 - r) := by
    rw [Nat.div_lt_iff_lt_mul (by positivity), Nat.mul_comm, ← two_pow_32_split hr]
    exact hx
  have h2 : y % 2 ^ r < 2 ^ r := Nat.mod_lt _ (by positivity)
  have h3 : (y % 2 ^ r + 1) * 2 ^ (32 - r) ≤ 2 ^ r * 2 ^ (32 - r) := Nat.mul_le_mul_right _ h2
  rw [two_pow_32_split hr]
  have h4 : (y % 2 ^ r + 1) * 2 ^ (32 - r) = y % 2 ^ r * 2 ^ (32 - r) + 2 ^ (32 - r) := by ring
  omega

/-! ## Left shift: the slot phase -/

theorem shift_slots_up_spec (s : List Nat) (n d : Nat) (hroom : n + d ≤ s.length) :
    (shift_slots_up s n d).length = s.length ∧
    ∀ j, rd (shift_slots_up s n d) j =
      if j < d then 0 else if j < n + d then rd s (j - d) else rd s j := by
  unfold shift_slots_up
  simp only
  have l1 := for_down_induct
    (fun k (t : List Nat) => t.length = s.length ∧
      ∀ j, rd t j = if k + d ≤ j ∧ j < n + d then rd s (j - d) else rd s j)
    n (fun slot_idx s => s.set (slot_idx + d) (rd s slot_idx)) s
    ⟨rfl, fun j => by
      have : ¬ (n + d ≤ j ∧ j < n + d) := by omega
      rw [if_neg this]⟩
    (by
      rintro k t hk ⟨hl, hr⟩
      refine ⟨by simp [hl], fun j => ?_⟩
      have hrk : rd t k = rd s k := by
        rw [hr]; rw [if_neg (by omega)]
      rw [rd_set, hrk, hr, hl]
      by_cases e : k + d = j
      · subst e
        rw [if_pos ⟨rfl, by omega⟩, if_pos ⟨le_rfl, by omega⟩]; simp
      · rw [if_neg (fun h => e h.1)]
        by_cases c : k + 1 + d ≤ j ∧ j < n + d
        · rw [if_pos c, if_pos ⟨by omega, c.2⟩]
        · rw [if_neg c, if_neg (by omega)])
  obtain ⟨hl1, hr1⟩ := l1
  generalize for_down n (fun slot_idx s => s.set (slot_idx + d) (rd s slot_idx)) s = t1 at hl1 hr1 ⊢
  have l2 := for_down_induct
    (fun k (t : List Nat) => t.length = s.length ∧
      ∀ j, rd t j = if k ≤ j ∧ j < d then 0 else rd t1 j)
    d (fun slot_idx s => s.set slot_idx 0) t1
    ⟨hl1, fun j => by
      have : ¬ (d ≤ j ∧ j < d) := by omega
      rw [if_neg this]⟩
    (by
      rintro k t hk ⟨hl, hr⟩
      refine ⟨by simp [hl], fun j => ?_⟩
      rw [rd_set, hr, hl]
      by_cases e : k = j
      · subst e
        rw [if_pos ⟨rfl, by omega⟩, if_pos ⟨le_rfl, by omega⟩]
      · rw [if_neg (fun h => e h.1)]
        by_cases c : k + 1 ≤ j ∧ j < d
        · rw [if_pos c, if_pos ⟨by omega, c.2⟩]
        · rw [if_neg c, if_neg (by omega)])
  obtain ⟨hl2, hr2⟩ := l2
  refine ⟨hl2, fun j => ?_⟩
  rw [hr2, hr1]
  by_cases c1 : j < d
  · rw [if_pos ⟨Nat.zero_le _, c1⟩, if_pos c1]
  · rw [if_neg (fun h => c1 h.2), if_neg c1]
    by_cases c2 : j < n + d
    · rw [if_pos ⟨by omega, c2⟩, if_pos c2]
    · rw [if_neg (fun h => c2 h.2), if_neg c2]

theorem val_shifted {s t : List Nat} {d : Nat}
    (h : ∀ j, rd t j = if j < d then 0 else rd s (j - d)) (n : Nat) :
    val t (n + d) = val s n * 2 ^ (32 * d) := by
  induction n with
  | zero =>
    simp only [Nat.zero_add, val_zero, Nat.zero_mul]
    exact val_eq_zero_of_forall (fun i hi => by rw [h, if_pos hi])
  | succ n ih =>
    rw [Nat.add_right_comm, val_succ, val_succ, ih, h, if_neg (by omega), Nat.add_sub_cancel]
    have : 2 ^ (32 * (n + d)) = 2 ^ (32 * n) * 2 ^ (32 * d) := by rw [← pow_add]; congr 1; omega
    rw [this]; ring

/-! ## Left shift: the bit phase -/

theorem shift_bits_up_spec (s : List Nat) (n r : Nat) (hroom : n < s.length) (hr : r ≤ 32)
    (hlt : ∀ i, rd s i < 2 ^ 32) (hz : rd s n = 0) :
    (shift_bits_up s n r).length = s.length ∧
    ∀ j, rd (shift_bits_up s n r) j = if j ≤ n then up_slot_val s r j else rd s j := by
  unfold shift_bits_up
  simp only
  have e0 : ∀ j, rd (s.set n 0) j = rd s j := by
    intro j; rw [rd_set]; split_ifs with h
    · rw [← h.1, hz]
    · rfl
  have hl0 : (s.set n 0).length = s.length := by simp
  generalize s.set n 0 = s1 at e0 hl0 ⊢
  have l1 := for_down_induct
    (fun k (t : List Nat) => t.length = s.length ∧
      ∀ j, rd t j = if k < j ∧ j ≤ n then up_slot_val s r j else rd s j)
    n (shift_bits_up_step r) s1
    ⟨hl0, fun j => by
      have : ¬ (n < j ∧ j ≤ n) := by omega
      rw [if_neg this, e0]⟩
    (by
      rintro k t hk ⟨hl, hrd⟩
      unfold shift_bits_up_step
      refine ⟨by simp [hl], fun j => ?_⟩
      have h1 : rd t (k + 1) = rd s (k + 1) := by rw [hrd, if_neg (by omega)]
      have h2 : rd t k = rd s k := by rw [hrd, if_neg (by omega)]
      rw [rd_set, h1, h2, hl, up_slot _ _ _ (hlt k) hr, hrd]
      by_cases e : k + 1 = j
      · subst e
        rw [if_pos ⟨rfl, by omega⟩, if_pos ⟨by omega, by omega⟩]
        unfold up_slot_val
        rw [if_neg (by omega), Nat.add_sub_cancel]
      · rw [if_neg (fun h => e h.1)]
        by_cases c : k + 1 < j ∧ j ≤ n
        · rw [if_pos c, if_pos ⟨by omega, c.2⟩]
        · rw [if_neg c, if_neg (by omega)])
  obtain ⟨hl1, hr1⟩ := l1
  generalize for_down n (shift_bits_up_step r) s1 = t1 at hl1 hr1 ⊢
  refine ⟨by simp [hl1], fun j => ?_⟩
  rw [rd_set, hl1]
  by_cases e : 0 = j
  · subst e
    rw [if_pos ⟨rfl, by omega⟩, if_pos (Nat.zero_le _), hr1, if_neg (by omega), shl_and_mask _ _ hr]
    unfold up_slot_val
    simp
  · rw [if_neg (fun h => e h.1), hr1]
    by_cases c : j ≤ n
    · rw [if_pos ⟨by omega, c⟩, if_pos c]
    · rw [if_neg (fun h => c h.2), if_neg c]

theorem up_slot_val_lt (s : List Nat) (r j : Nat) (hr : r ≤ 32) (hlt : ∀ i, rd s i < 2 ^ 32) :
    up_slot_val s r j < 2 ^ 32 := by
  unfold up_slot_val
  split_ifs with h
  · have := up_slot_lt (rd s j) 0 r (by norm_num) hr
    simpa using this
  · exact up_slot_lt (rd s j) (rd s (j - 1)) r (hlt _) hr

theorem val_up_slot (s t : List Nat) (r : Nat) (hr : r ≤ 32) (m : Nat)
    (h : ∀ j, j < m → rd t j = up_slot_val s r j) :
    val t m + (if m = 0 then 0 else rd s (m - 1) / 2 ^ (32 - r)) * 2 ^ (32 * m) =
      2 ^ r * val s m := by
  induction m with
  | zero => simp [val]
  | succ m ih =>
    have ih' := ih (fun j hj => h j (by omega))
    rw [val_succ, val_succ, h m (by omega), if_neg (by omega), Nat.add_sub_cancel,
      two_pow_succ_slot, two_pow_32_split hr]
    unfold up_slot_val
    have hd := Nat.div_add_mod (rd s m) (2 ^ (32 - r))
    generalize rd s m / 2 ^ (32 - r) = q at hd ⊢
    generalize rd s m % 2 ^ (32 - r) = l at hd ⊢
    generalize (if m = 0 then 0 else rd s (m - 1) / 2 ^ (32 - r)) = c at ih' ⊢
    rw [← hd]
    zify at ih' ⊢
    linear_combination ih'

theorem left_shift_bits_spec {x : big_int} (hx : magnitude_canonical x) (hnz : magnitude x ≠ 0)
    (r : Nat) (hr : r < 32) (hroom : x.slot_length < x.slot.length) :
    magnitude_canonical (left_shift_bits x r) ∧
    magnitude (left_shift_bits x r) = magnitude x * 2 ^ r ∧
    (left_shift_bits x r).sign = x.sign ∧
    (left_shift_bits x r).slot.length = x.slot.length := by
  unfold left_shift_bits
  split_ifs with h0
  swap
  · have : r = 0 := by omega
    subst this
    exact ⟨hx, by simp, rfl, rfl⟩
  simp only
  obtain ⟨hl, hrd⟩ := shift_bits_up_spec x.slot x.slot_length r hroom (by omega) hx.rd_lt
    (hx.zero_above _ le_rfl)
  generalize shift_bits_up x.slot x.slot_length r = t at hl hrd ⊢
  have h1 := hx.one_le
  have hv := val_up_slot x.slot t r (by omega) (x.slot_length + 1)
    (fun j hj => by rw [hrd, if_pos (by omega)])
  have hz0 : rd x.slot x.slot_length = 0 := hx.zero_above _ le_rfl
  have e1 : val x.slot (x.slot_length + 1) = magnitude x := by
    rw [val_succ, hz0]; simp [magnitude]
  rw [if_neg (by omega), Nat.add_sub_cancel, hz0, Nat.zero_div, Nat.zero_mul, Nat.add_zero, e1] at hv
  have hmag : val t (x.slot_length + 1) = magnitude x * 2 ^ r := by
    rw [hv, Nat.mul_comm]
  have t_lt : ∀ i, rd t i < 2 ^ 32 := by
    intro i; rw [hrd]; split_ifs
    · exact up_slot_val_lt _ _ _ (by omega) hx.rd_lt
    · exact hx.rd_lt i
  have t_z : ∀ i, x.slot_length + 1 ≤ i → rd t i = 0 := by
    intro i hi; rw [hrd, if_neg (by omega)]; exact hx.zero_above i (by omega)
  have hbw : bit_width (magnitude x * 2 ^ r) = x.bit_length + r := by
    rw [bit_width_mul_two_pow hnz, hx.bits_of_ne_zero hnz]
  have hbb := hx.bits_bounds
  have hne : magnitude x * 2 ^ r ≠ 0 := Nat.mul_ne_zero hnz (by positivity)
  by_cases htop : rd t x.slot_length ≠ 0
  · rw [if_pos htop]
    refine ⟨?_, hmag, trivial, hl⟩
    apply magnitude_canonical_of_value
    · show t.length = _
      rw [hl]; exact hx.length_eq
    · show 1 ≤ x.slot_length + 1
      omega
    · show x.slot_length + 1 ≤ x.allocated_slot_length
      rw [← hx.length_eq]; omega
    · exact t_lt
    · exact t_z
    · show x.bit_length + r = bit_width (val t (x.slot_length + 1))
      rw [hmag, hbw]
    · show 32 * (x.slot_length + 1 - 1) < x.bit_length + r
      have h2 := le_val_succ t x.slot_length
      rw [hmag] at h2
      have h3 : 1 * 2 ^ (32 * x.slot_length) ≤ rd t x.slot_length * 2 ^ (32 * x.slot_length) :=
        Nat.mul_le_mul_right _ (by omega)
      have h4 : 32 * x.slot_length < bit_width (magnitude x * 2 ^ r) :=
        lt_bit_width_iff.mpr (by omega)
      omega
  · rw [if_neg htop]
    have htz : rd t x.slot_length = 0 := by omega
    have hmag' : val t x.slot_length = magnitude x * 2 ^ r := by
      rw [← hmag, val_succ, htz]; simp
    refine ⟨?_, hmag', trivial, hl⟩
    apply magnitude_canonical_of_value
    · show t.length = _
      rw [hl]; exact hx.length_eq
    · exact h1
    · exact hx.le_alloc
    · exact t_lt
    · intro i hi
      change x.slot_length ≤ i at hi
      by_cases e : i = x.slot_length
      · rw [e]; exact htz
      · exact t_z i (by omega)
    · show x.bit_length + r = bit_width (val t x.slot_length)
      rw [hmag', hbw]
    · show 32 * (x.slot_length - 1) < x.bit_length + r
      omega

/-! ## Left shift: the whole routine -/

theorem left_shift_slots_spec {x : big_int} (hx : magnitude_canonical x) (hnz : magnitude x ≠ 0)
    (d : Nat) (hroom : x.slot_length + d ≤ x.slot.length) :
    magnitude_canonical (left_shift_slots x d) ∧
    magnitude (left_shift_slots x d) = magnitude x * 2 ^ (32 * d) ∧
    (left_shift_slots x d).sign = x.sign ∧
    (left_shift_slots x d).slot.length = x.slot.length ∧
    (left_shift_slots x d).slot_length = x.slot_length + d := by
  unfold left_shift_slots
  split_ifs with h0
  swap
  · have : d = 0 := by omega
    subst this
    exact ⟨hx, by simp, rfl, rfl, rfl⟩
  obtain ⟨hl, hrd⟩ := shift_slots_up_spec x.slot x.slot_length d hroom
  generalize shift_slots_up x.slot x.slot_length d = t at hl hrd ⊢
  have hrd' : ∀ j, rd t j = if j < d then 0 else rd x.slot (j - d) := by
    intro j; rw [hrd]
    by_cases c1 : j < d
    · rw [if_pos c1, if_pos c1]
    · rw [if_neg c1, if_neg c1]
      split_ifs with c2
      · rfl
      · rw [hx.zero_above j (by omega), hx.zero_above (j - d) (by omega)]
  have hmag : val t (x.slot_length + d) = magnitude x * 2 ^ (32 * d) := val_shifted hrd' _
  have h1 := hx.one_le
  have hbb := hx.bits_bounds
  refine ⟨?_, hmag, rfl, hl, rfl⟩
  apply magnitude_canonical_of_value
  · show t.length = _
    rw [hl]; exact hx.length_eq
  · show 1 ≤ x.slot_length + d
    omega
  · show x.slot_length + d ≤ x.allocated_slot_length
    rw [← hx.length_eq]; exact hroom
  · intro i; show rd t i < 2 ^ 32
    rw [hrd']; split_ifs
    · norm_num
    · exact hx.rd_lt _
  · intro i hi
    change x.slot_length + d ≤ i at hi
    show rd t i = 0
    rw [hrd', if_neg (by omega)]; exact hx.zero_above _ (by omega)
  · show x.bit_length + MUL_SLOT d = bit_width (val t (x.slot_length + d))
    rw [hmag, bit_width_mul_two_pow hnz, hx.bits_of_ne_zero hnz]
    simp only [MUL_SLOT]; omega
  · show 32 * (x.slot_length + d - 1) < x.bit_length + MUL_SLOT d
    simp only [MUL_SLOT]; omega

theorem left_shift_grow_spec {x : big_int} (hx : magnitude_canonical x) (k : Nat) :
    magnitude_canonical (left_shift_grow x k) ∧
    magnitude (left_shift_grow x k) = magnitude x ∧
    (left_shift_grow x k).sign = x.sign ∧
    (left_shift_grow x k).slot_length = x.slot_length ∧
    (left_shift_grow x k).bit_length = x.bit_length ∧
    BIT_TO_SLOT (x.bit_length + k) < (left_shift_grow x k).slot.length := by
  unfold left_shift_grow
  simp only
  have h1 := hx.one_le
  have h2 := hx.le_alloc
  have hbb := hx.bits_bounds
  have hns := BIT_TO_SLOT_eq (x.bit_length + k)
  split_ifs with h
  · have hrd : ∀ i, rd (copy_slots x.slot x.slot_length
        (BIT_TO_SLOT (x.bit_length + k) + ALLOCATE_SLOT_SIZE)) i = rd x.slot i :=
      fun i => rd_copy_slots_of_canonical hx (by simp only [ALLOCATE_SLOT_SIZE]; omega) i
    refine ⟨?_, val_congr (fun i _ => hrd i), rfl, rfl, rfl, ?_⟩
    · apply magnitude_canonical_intro
      · exact length_copy_slots _ _ _
      · exact h1
      · show x.slot_length ≤ BIT_TO_SLOT (x.bit_length + k) + ALLOCATE_SLOT_SIZE
        simp only [ALLOCATE_SLOT_SIZE]; omega
      · intro i; show rd (copy_slots _ _ _) i < 2 ^ 32
        rw [hrd]; exact hx.rd_lt i
      · intro i hi; show rd (copy_slots _ _ _) i = 0
        rw [hrd]; exact hx.zero_above i hi
      · show x.slot_length = 1 ∨ rd (copy_slots _ _ _) (x.slot_length - 1) ≠ 0
        rw [hrd]; exact hx.top
      · show x.bit_length = if rd (copy_slots _ _ _) (x.slot_length - 1) = 0 then 1
          else 32 * (x.slot_length - 1) + bit_width (rd (copy_slots _ _ _) (x.slot_length - 1))
        rw [hrd]; exact hx.bits
    · show _ < (copy_slots _ _ _).length
      rw [length_copy_slots]; simp only [ALLOCATE_SLOT_SIZE]; omega
  · refine ⟨hx, rfl, rfl, rfl, rfl, ?_⟩
    rw [hx.length_eq]; omega

theorem left_shift_core_spec {x : big_int} (hx : magnitude_canonical x) (hnz : magnitude x ≠ 0)
    (k : Nat) :
    magnitude_canonical (left_shift_core x k) ∧
    magnitude (left_shift_core x k) = magnitude x * 2 ^ k ∧
    (left_shift_core x k).sign = x.sign := by
  unfold left_shift_core BIT_TO_SLOT_FLOOR SLOT_TAIL
  obtain ⟨g1, g2, g3, g4, g5, g6⟩ := left_shift_grow_spec hx k
  have hbb := hx.bits_bounds
  have h1 := hx.one_le
  have hns := BIT_TO_SLOT_eq (x.bit_length + k)
  generalize left_shift_grow x k = g at *
  have hroom : g.slot_length + k / 32 < g.slot.length := by rw [g4]; omega
  obtain ⟨s1, s2, s3, s4, s5⟩ := left_shift_slots_spec g1 (by rw [g2]; exact hnz) (k / 32) (by omega)
  generalize left_shift_slots g (k / 32) = y at *
  obtain ⟨b1, b2, b3, _⟩ := left_shift_bits_spec s1
    (by rw [s2]; exact Nat.mul_ne_zero (by rw [g2]; exact hnz) (by positivity))
    (k % 32) (Nat.mod_lt _ (by norm_num)) (by rw [s5, s4]; exact hroom)
  refine ⟨b1, ?_, by rw [b3, s3, g3]⟩
  rw [b2, s2, g2, Nat.mul_assoc, ← pow_add]
  congr 2
  omega

/-! ## Right shift by less than a slot -/

theorem shift_bits_down_spec (s : List Nat) (n r : Nat) (hn : n ≤ s.length) (hr : r ≤ 32)
    (hlt : ∀ i, rd s i < 2 ^ 32) :
    (for_up n (shift_bits_down_step r) s).length = s.length ∧
    ∀ j, rd (for_up n (shift_bits_down_step r) s) j =
      if j < n then down_slot_val s r j else rd s j := by
  refine for_up_induct
    (fun k (t : List Nat) => t.length = s.length ∧
      ∀ j, rd t j = if j < k then down_slot_val s r j else rd s j)
    n (shift_bits_down_step r) s ⟨rfl, fun j => by simp⟩ ?_
  rintro k t hk ⟨hl, hrd⟩
  unfold shift_bits_down_step
  refine ⟨by simp [hl], fun j => ?_⟩
  have h1 : rd t (k + 1) = rd s (k + 1) := by rw [hrd, if_neg (by omega)]
  have h2 : rd t k = rd s k := by rw [hrd, if_neg (by omega)]
  rw [rd_set, h1, h2, hl, down_slot _ _ _ (hlt k) hr, hrd]
  by_cases e : k = j
  · subst e
    rw [if_pos ⟨rfl, by omega⟩, if_pos (by omega)]
    rfl
  · rw [if_neg (fun h => e h.1)]
    by_cases c : j < k
    · rw [if_pos c, if_pos (by omega)]
    · rw [if_neg c, if_neg (by omega)]

theorem val_down_slot (s t : List Nat) (r : Nat) (hr : r ≤ 32) (m : Nat)
    (h : ∀ j, j < m → rd t j = down_slot_val s r j) :
    2 ^ r * val t m + rd s 0 % 2 ^ r = val s m + (rd s m % 2 ^ r) * 2 ^ (32 * m) := by
  induction m with
  | zero => simp [val]
  | succ m ih =>
    have ih' := ih (fun j hj => h j (by omega))
    rw [val_succ, val_succ, h m (by omega), two_pow_succ_slot, two_pow_32_split hr]
    unfold down_slot_val
    have hd := Nat.div_add_mod (rd s m) (2 ^ r)
    generalize rd s m / 2 ^ r = q at hd ⊢
    generalize rd s m % 2 ^ r = l at hd ih' ⊢
    rw [← hd]
    zify at ih' ⊢
    linear_combination ih'

theorem right_shift_trim_spec (x : big_int) (A : Nat)
    (hlen : x.slot.length = x.allocated_slot_length) (h1 : 1 ≤ x.slot_length)
    (hle : x.slot_length ≤ x.allocated_slot_length)
    (hlt : ∀ i, rd x.slot i < 2 ^ 32) (hz : ∀ i, x.slot_length ≤ i → rd x.slot i = 0)
    (hval : val x.slot x.slot_length = A)
    (htop : rd x.slot (x.slot_length - 1) = 0 → 1 < x.slot_length ∧ rd x.slot (x.slot_length - 2) ≠ 0) :
    magnitude_canonical (right_shift_trim x) ∧ magnitude (right_shift_trim x) = A ∧
    (right_shift_trim x).sign = x.sign ∧
    (right_shift_trim x).slot.length = x.slot.length := by
  unfold right_shift_trim
  simp only
  rw [size_sub_of_le h1]
  by_cases h0 : rd x.slot (x.slot_length - 1) = 0
  · obtain ⟨t1, t2⟩ := htop h0
    rw [if_pos ⟨h0, by omega⟩, size_sub_of_le (by omega)]
    have e : x.slot_length - 1 - 1 = x.slot_length - 2 := by omega
    rw [e]
    have hv : val x.slot (x.slot_length - 1) = A := by
      rw [← hval]
      conv_rhs => rw [show x.slot_length = (x.slot_length - 1) + 1 by omega]
      rw [val_succ, h0]; simp
    refine ⟨?_, hv, trivial, trivial⟩
    apply magnitude_canonical_intro
    · exact hlen
    · show 1 ≤ x.slot_length - 1
      omega
    · show x.slot_length - 1 ≤ x.allocated_slot_length
      omega
    · exact hlt
    · intro i hi
      change x.slot_length - 1 ≤ i at hi
      by_cases e : i = x.slot_length - 1
      · rw [e]; exact h0
      · exact hz i (by omega)
    · right
      show rd x.slot (x.slot_length - 1 - 1) ≠ 0
      rw [e]; exact t2
    · show MUL_SLOT (x.slot_length - 2) + hbidx_32 (rd x.slot (x.slot_length - 2)) =
        if rd x.slot (x.slot_length - 1 - 1) = 0 then 1
        else 32 * (x.slot_length - 1 - 1) + bit_width (rd x.slot (x.slot_length - 1 - 1))
      rw [e, if_neg t2, hbidx_32_eq _ (hlt _)]
      simp only [MUL_SLOT]; omega
  · rw [if_neg (fun h => h0 h.1), size_sub_of_le h1]
    refine ⟨?_, hval, trivial, trivial⟩
    apply magnitude_canonical_intro
    · exact hlen
    · exact h1
    · exact hle
    · exact hlt
    · exact hz
    · exact Or.inr h0
    show MUL_SLOT (x.slot_length - 1) + hbidx_32 (rd x.slot (x.slot_length - 1)) = _
    rw [if_neg h0, hbidx_32_eq _ (hlt _)]
    simp only [MUL_SLOT]; omega

theorem right_shift_core_spec {x : big_int} (hx : magnitude_canonical x) (k : Nat) (hk : k < 32)
    (hnz : magnitude x / 2 ^ k ≠ 0) :
    magnitude_canonical (right_shift_core x k) ∧
    magnitude (right_shift_core x k) = magnitude x / 2 ^ k ∧
    (right_shift_core x k).sign = x.sign ∧
    (right_shift_core x k).slot.length = x.slot.length := by
  have e1 : BIT_TO_SLOT_FLOOR k = 0 := by unfold BIT_TO_SLOT_FLOOR; omega
  have e2 : SLOT_TAIL k = k := by unfold SLOT_TAIL; omega
  have e3 : right_shift_slots x 0 = x := by unfold right_shift_slots; simp
  unfold right_shift_core
  rw [e1, e2, e3]
  have h1 := hx.one_le
  by_cases h0 : k = 0
  · subst h0
    have e4 : right_shift_bits x 0 = x := by unfold right_shift_bits; simp
    rw [e4]
    have hm : magnitude x ≠ 0 := by simpa using hnz
    have ht : rd x.slot (x.slot_length - 1) ≠ 0 := fun e => hm (hx.magnitude_eq_zero_iff.mpr e)
    have := right_shift_trim_spec x (magnitude x) hx.length_eq h1 hx.le_alloc hx.rd_lt
      hx.zero_above rfl (fun e => absurd e ht)
    simpa using this
  · obtain ⟨hl, hrd⟩ := shift_bits_down_spec x.slot x.slot_length k hx.le_length (by omega) hx.rd_lt
    have e4 : right_shift_bits x k =
        { x with slot := for_up x.slot_length (shift_bits_down_step k) x.slot } := by
      unfold right_shift_bits; rw [if_pos (by omega)]
    rw [e4]
    generalize for_up x.slot_length (shift_bits_down_step k) x.slot = t at hl hrd ⊢
    have hv := val_down_slot x.slot t k (by omega) x.slot_length
      (fun j hj => by rw [hrd, if_pos hj])
    rw [hx.zero_above _ le_rfl, Nat.zero_mod, Nat.zero_mul, Nat.add_zero] at hv
    have hmag : val t x.slot_length = magnitude x / 2 ^ k := by
      have hl2 : rd x.slot 0 % 2 ^ k < 2 ^ k := Nat.mod_lt _ (by positivity)
      have : magnitude x = val x.slot x.slot_length := rfl
      rw [this, ← hv]
      rw [Nat.mul_add_div (show 0 < 2 ^ k by positivity), Nat.div_eq_of_lt hl2]
      simp
    have t_lt : ∀ i, rd t i < 2 ^ 32 := by
      intro i; rw [hrd]; split_ifs
      · exact down_slot_lt _ _ _ (hx.rd_lt _) (by omega)
      · exact hx.rd_lt i
    have t_z : ∀ i, x.slot_length ≤ i → rd t i = 0 := by
      intro i hi; rw [hrd, if_neg (by omega)]; exact hx.zero_above i hi
    have key := right_shift_trim_spec { x with slot := t } (magnitude x / 2 ^ k)
      (by show t.length = _; rw [hl]; exact hx.length_eq) h1 hx.le_alloc t_lt t_z hmag
      (by
        intro htop0
        change rd t (x.slot_length - 1) = 0 at htop0
        show 1 < x.slot_length ∧ rd t (x.slot_length - 2) ≠ 0
        have hm : magnitude x ≠ 0 := by
          intro e; rw [e] at hnz; simp at hnz
        have hxt : rd x.slot (x.slot_length - 1) ≠ 0 :=
          fun e => hm (hx.magnitude_eq_zero_iff.mpr e)
        rw [hrd, if_pos (by omega)] at htop0
        unfold down_slot_val at htop0
        have e5 : x.slot_length - 1 + 1 = x.slot_length := by omega
        rw [e5, hx.zero_above _ le_rfl] at htop0
        simp only [Nat.zero_mod, Nat.zero_mul, Nat.add_zero] at htop0
        have hlt2 : rd x.slot (x.slot_length - 1) < 2 ^ k :=
          (Nat.div_eq_zero_iff (by positivity)).mp htop0
        have hgt : 1 < x.slot_length := by
          by_contra hcon
          have e6 : x.slot_length = 1 := by omega
          apply hnz
          rw [← hmag]
          exact val_eq_zero_of_forall (fun i hi => by
            have : i = x.slot_length - 1 := by omega
            rw [this, hrd, if_pos (by omega)]
            unfold down_slot_val
            rw [e5, hx.zero_above _ le_rfl, htop0]; simp)
        refine ⟨hgt, ?_⟩
        rw [hrd, if_pos (by omega)]
        unfold down_slot_val
        have e7 : x.slot_length - 2 + 1 = x.slot_length - 1 := by omega
        rw [e7, Nat.mod_eq_of_lt hlt2]
        have hp : 0 < 2 ^ (32 - k) := by positivity
        have := Nat.mul_pos (Nat.pos_of_ne_zero hxt) hp
        exact Nat.ne_of_gt (Nat.add_pos_right _ this))
    obtain ⟨k1, k2, k3, k4⟩ := key
    exact ⟨k1, k2, k3, by rw [k4]; exact hl⟩

theorem right_shift_one_spec {x : big_int} (hx : magnitude_canonical x)
    (hnz : 2 ≤ magnitude x) :
    big_int_right_shift x 1 = some (right_shift_core x 1) ∧
    magnitude_canonical (right_shift_core x 1) ∧
    magnitude (right_shift_core x 1) = magnitude x / 2 ∧
    (right_shift_core x 1).sign = x.sign := by
  obtain ⟨h1, h2, h3, _⟩ := right_shift_core_spec hx 1 (by norm_num) (by
    simp only [pow_one]; omega)
  exact ⟨rfl, h1, by simpa using h2, h3⟩

theorem left_shift_spec (x : big_int) (k : Nat) :
    big_int_left_shift x (k : Int) = some (left_shift_core x k) := by
  unfold big_int_left_shift
  rw [if_neg (by omega)]
  simp

/-! ## Positive canonical integers -/

theorem pos_canonical.canonical {x : big_int} (h : pos_canonical x) : canonical x :=
  ⟨h.1, Or.inl h.2, fun _ => h.2⟩

theorem pos_canonical.to_Int {x : big_int} (h : pos_canonical x) : to_Int x = (magnitude x : Int) :=
  to_Int_of_pos h.2

theorem pos_canonical_of_nonneg {x : big_int} (h : canonical x) (h0 : 0 ≤ to_Int x) :
    pos_canonical x := by
  refine ⟨h.1, ?_⟩
  rcases h.2.1 with s | s
  · exact s
  · rw [to_Int_of_neg s] at h0
    have : magnitude x = 0 := by omega
    exact h.2.2 this

theorem compare_pos {x y : big_int} (hx : pos_canonical x) (hy : pos_canonical y) :
    big_int_compare x y = cmp_nat (magnitude x) (magnitude y) := by
  unfold big_int_compare
  rw [if_pos hx.2, if_pos hy.2, compare_raw_eq hx.1 hy.1]

/-- Subtraction of a smaller positive integer. -/
theorem sub_to_pos {a d : big_int} (ha : pos_canonical a) (hd : pos_canonical d)
    (hle : magnitude d ≤ magnitude a) :
    pos_canonical (big_int_sub_to a d).2 ∧
    magnitude (big_int_sub_to a d).2 = magnitude a - magnitude d := by
  obtain ⟨_, h2, h3⟩ := sub_to_spec ha.canonical hd.canonical (by
    rintro ⟨h, _⟩; rw [ha.2] at h; exact pos_ne_neg h)
  rw [ha.to_Int, hd.to_Int] at h3
  have hp := pos_canonical_of_nonneg h2 (by rw [h3]; omega)
  refine ⟨hp, ?_⟩
  rw [hp.to_Int] at h3
  omega

/-! ## The shift loops of division -/

theorem div_shift_down_spec (b : Nat) (hb : 1 ≤ b) (a' : big_int) (ha : pos_canonical a') :
    ∀ (δ fuel : Nat) (D : big_int), δ + 1 ≤ fuel → pos_canonical D →
      magnitude D = b * 2 ^ δ →
      ∃ (D' : big_int) (δ' : Nat), div_shift_down fuel a' D (δ : Int) = some (D', (δ' : Int)) ∧
        pos_canonical D' ∧ magnitude D' = b * 2 ^ δ' ∧ δ' ≤ δ ∧
        (magnitude D' ≤ magnitude a' ∨ δ' = 0) ∧
        (δ' < δ → magnitude a' < 2 * magnitude D') ∧
        (δ' = δ → D' = D) := by
  intro δ
  induction δ with
  | zero =>
    intro fuel D hf hD hm
    obtain ⟨f, rfl⟩ : ∃ f, fuel = f + 1 := ⟨fuel - 1, by omega⟩
    refine ⟨D, 0, ?_, hD, hm, le_rfl, Or.inr rfl, fun h => absurd h (by omega), fun _ => rfl⟩
    unfold div_shift_down
    rw [if_neg (by simp)]
  | succ δ ih =>
    intro fuel D hf hD hm
    obtain ⟨f, rfl⟩ : ∃ f, fuel = f + 1 := ⟨fuel - 1, by omega⟩
    unfold div_shift_down
    rw [compare_pos hD ha]
    by_cases hgt : magnitude D > magnitude a'
    · rw [if_pos ⟨cmp_nat_eq_one_iff.mpr hgt, by omega⟩]
      have h2 : 2 ≤ magnitude D := by
        rw [hm, pow_succ]
        have : 1 ≤ 2 ^ δ := Nat.one_le_two_pow
        nlinarith
      obtain ⟨r1, r2, r3, r4⟩ := right_shift_one_spec hD.1 h2
      rw [r1]
      simp only [Option.bind_eq_bind, Option.some_bind]
      have hD1 : pos_canonical (right_shift_core D 1) := ⟨r2, by rw [r4]; exact hD.2⟩
      have hm1 : magnitude (right_shift_core D 1) = b * 2 ^ δ := by
        rw [r3, hm, pow_succ, ← Nat.mul_assoc, Nat.mul_div_cancel _ (by norm_num)]
      obtain ⟨D', δ', e1, e2, e3, e4, e5, e6, e7⟩ := ih f (right_shift_core D 1) (by omega) hD1 hm1
      have ecast : ((δ + 1 : Nat) : Int) - 1 = (δ : Int) := by push_cast; ring
      rw [ecast, e1]
      refine ⟨D', δ', rfl, e2, e3, by omega, e5, ?_, fun h => absurd h (by omega)⟩
      intro _
      by_cases c : δ' < δ
      · exact e6 c
      · have : δ' = δ := by omega
        have e8 : b * 2 ^ (δ + 1) = 2 * (b * 2 ^ δ) := by ring
        rw [e7 this, hm1]
        omega
    · rw [if_neg (fun h => hgt (cmp_nat_eq_one_iff.mp h.1))]
      exact ⟨D, δ + 1, rfl, hD, hm, le_rfl, Or.inl (by omega), fun h => absurd h (by omega),
        fun _ => rfl⟩

theorem div_align_spec (b : Nat) (hb : 1 ≤ b) (a : big_int) (ha : pos_canonical a)
    (hab : b ≤ magnitude a) :
    ∀ (δ fuel : Nat) (D : big_int), δ + 1 ≤ fuel → pos_canonical D →
      magnitude D = b * 2 ^ δ →
      ∃ (D' : big_int) (δ' : Nat), div_align fuel a D (δ : Int) = some (D', (δ' : Int)) ∧
        pos_canonical D' ∧ magnitude D' = b * 2 ^ δ' ∧ δ' ≤ δ ∧
        magnitude D' ≤ magnitude a ∧
        (δ' < δ → magnitude a < 2 * magnitude D') ∧
        (δ' = δ → D' = D) := by
  intro δ
  induction δ with
  | zero =>
    intro fuel D hf hD hm
    obtain ⟨f, rfl⟩ : ∃ f, fuel = f + 1 := ⟨fuel - 1, by omega⟩
    have hle : magnitude D ≤ magnitude a := by rw [hm]; simpa using hab
    refine ⟨D, 0, ?_, hD, hm, le_rfl, hle, fun h => absurd h (by omega), fun _ => rfl⟩
    unfold div_align
    rw [compare_pos ha hD, if_neg (fun h => by have := cmp_nat_eq_neg_one_iff.mp h; omega)]
  | succ δ ih =>
    intro fuel D hf hD hm
    obtain ⟨f, rfl⟩ : ∃ f, fuel = f + 1 := ⟨fuel - 1, by omega⟩
    unfold div_align
    rw [compare_pos ha hD]
    by_cases hgt : magnitude a < magnitude D
    · rw [if_pos (cmp_nat_eq_neg_one_iff.mpr hgt)]
      have h2 : 2 ≤ magnitude D := by
        rw [hm, pow_succ]
        have : 1 ≤ 2 ^ δ := Nat.one_le_two_pow
        nlinarith
      obtain ⟨r1, r2, r3, r4⟩ := right_shift_one_spec hD.1 h2
      rw [r1]
      simp only [Option.bind_eq_bind, Option.some_bind]
      have hD1 : pos_canonical (right_shift_core D 1) := ⟨r2, by rw [r4]; exact hD.2⟩
      have hm1 : magnitude (right_shift_core D 1) = b * 2 ^ δ := by
        rw [r3, hm, pow_succ, ← Nat.mul_assoc, Nat.mul_div_cancel _ (by norm_num)]
      obtain ⟨D', δ', e1, e2, e3, e4, e5, e6, e7⟩ := ih f (right_shift_core D 1) (by omega) hD1 hm1
      have ecast : ((δ + 1 : Nat) : Int) - 1 = (δ : Int) := by push_cast; ring
      rw [ecast, e1]
      refine ⟨D', δ', rfl, e2, e3, by omega, e5, ?_, fun h => absurd h (by omega)⟩
      intro _
      by_cases c : δ' < δ
      · exact e6 c
      · have : δ' = δ := by omega
        have e8 : b * 2 ^ (δ + 1) = 2 * (b * 2 ^ δ) := by ring
        rw [e7 this, hm1]
        omega
    · rw [if_neg (fun h => hgt (cmp_nat_eq_neg_one_iff.mp h))]
      exact ⟨D, δ + 1, rfl, hD, hm, le_rfl, by omega, fun h => absurd h (by omega), fun _ => rfl⟩

/-! ## Modulo -/

theorem mod_loop_spec (b : Nat) (hb : 1 ≤ b) (fuel0 : Nat) :
    ∀ (δ fuel : Nat) (a D : big_int), δ + 1 ≤ fuel0 → δ + 1 ≤ fuel →
      pos_canonical a → pos_canonical D → magnitude D = b * 2 ^ δ →
      magnitude D ≤ magnitude a → magnitude a < 2 * magnitude D →
      ∃ r, mod_loop fuel0 fuel a D (δ : Int) = some r ∧ pos_canonical r ∧
        magnitude r = magnitude a % b := by
  intro δ
  induction δ using Nat.strong_induction_on with
  | _ δ ih =>
    intro fuel a D hf0 hf ha hD hm hle hlt
    obtain ⟨f, rfl⟩ : ∃ f, fuel = f + 1 := ⟨fuel - 1, by omega⟩
    obtain ⟨ha', hma'⟩ := sub_to_pos ha hD hle
    obtain ⟨D', δ', e1, e2, e3, e4, e5, e6, e7⟩ :=
      div_shift_down_spec b hb _ ha' δ fuel0 D hf0 hD hm
    unfold mod_loop
    simp only
    rw [e1]
    simp only [Option.bind_eq_bind, Option.some_bind]
    rw [compare_pos e2 ha']
    have hmod : magnitude (big_int_sub_to a D).2 % b = magnitude a % b := by
      rw [hma', hm]
      have : b * 2 ^ δ ≤ magnitude a := by rw [← hm]; exact hle
      rw [Nat.sub_mul_mod this]
    by_cases hbrk : δ' = 0 ∧ magnitude D' > magnitude (big_int_sub_to a D).2
    · rw [if_pos ⟨by exact_mod_cast hbrk.1, cmp_nat_pos_iff.mpr hbrk.2⟩]
      refine ⟨_, rfl, ha', ?_⟩
      rw [← hmod]
      have : magnitude D' = b := by rw [e3, hbrk.1]; simp
      rw [Nat.mod_eq_of_lt (by omega)]
    · rw [if_neg (fun h => hbrk ⟨by exact_mod_cast h.1, cmp_nat_pos_iff.mp h.2⟩)]
      have hle' : magnitude D' ≤ magnitude (big_int_sub_to a D).2 := by
        rcases e5 with h | h
        · exact h
        · by_contra hcon
          exact hbrk ⟨h, by omega⟩
      have hlt' : δ' < δ := by
        by_contra hcon
        have : δ' = δ := by omega
        rw [e7 this] at hle'
        omega
      obtain ⟨r, r1, r2, r3⟩ := ih δ' hlt' f _ D' (by omega) (by omega) ha' e2 e3 hle' (e6 hlt')
      exact ⟨r, r1, r2, by rw [r3, hmod]⟩

theorem bits_le_of_magnitude_le {a b : big_int} (ha : magnitude_canonical a)
    (hb : magnitude_canonical b) (h : magnitude b ≤ magnitude a) :
    b.bit_length ≤ a.bit_length := by
  rw [ha.bits_eq, hb.bits_eq]
  have := bit_width_mono h
  omega

/-- The alignment at the head of `big_int_mod_to` and `big_int_div_to`. -/
theorem div_head_spec {a b : big_int} (ha : pos_canonical a) (hb : pos_canonical b)
    (hlt : magnitude b < magnitude a) (hb1 : 1 ≤ magnitude b) (fuel : Nat)
    (hf : a.bit_length + 1 ≤ fuel) :
    ∃ (D0 D : big_int) (δ : Nat),
      big_int_left_shift (big_int_assign b) ((a.bit_length : Int) - ((big_int_assign b).bit_length : Int))
        = some D0 ∧
      div_align fuel a D0 ((a.bit_length : Int) - ((big_int_assign b).bit_length : Int))
        = some (D, (δ : Int)) ∧
      pos_canonical D ∧ magnitude D = magnitude b * 2 ^ δ ∧ δ + 1 ≤ a.bit_length ∧
      magnitude D ≤ magnitude a ∧ magnitude a < 2 * magnitude D := by
  obtain ⟨c1, c2, c3, c4, c5, _⟩ := assign_spec hb.1
  have hbits := bits_le_of_magnitude_le ha.1 hb.1 (by omega)
  have ecast : (a.bit_length : Int) - ((big_int_assign b).bit_length : Int) =
      ((a.bit_length - b.bit_length : Nat) : Int) := by
    rw [c5]; omega
  rw [ecast]
  have hnzb : magnitude (big_int_assign b) ≠ 0 := by rw [c2]; omega
  obtain ⟨l1, l2, l3⟩ := left_shift_core_spec c1 hnzb (a.bit_length - b.bit_length)
  have hD0 : pos_canonical (left_shift_core (big_int_assign b) (a.bit_length - b.bit_length)) :=
    ⟨l1, by rw [l3, c3]; exact hb.2⟩
  rw [c2] at l2
  have hb1' := hb.1.one_le_bits
  obtain ⟨D, δ, e1, e2, e3, e4, e5, e6, e7⟩ :=
    div_align_spec (magnitude b) hb1 a ha (by omega) (a.bit_length - b.bit_length) fuel _
      (by omega) hD0 l2
  refine ⟨_, D, δ, left_shift_spec _ _, e1, e2, e3, by omega, e5, ?_⟩
  by_cases c : δ < a.bit_length - b.bit_length
  · exact e6 c
  · have hδ : δ = a.bit_length - b.bit_length := by omega
    rw [e7 hδ, l2]
    have hanz : magnitude a ≠ 0 := by omega
    have hbnz : magnitude b ≠ 0 := by omega
    have h1 := ha.1.magnitude_lt_bits
    have h2 : bit_width (magnitude b * 2 ^ (a.bit_length - b.bit_length)) = a.bit_length := by
      rw [bit_width_mul_two_pow hbnz, ← hb.1.bits_of_ne_zero hbnz]; omega
    have h3 := two_pow_le_of_bit_width
      (Nat.mul_ne_zero hbnz (show 2 ^ (a.bit_length - b.bit_length) ≠ 0 by positivity))
    rw [h2] at h3
    have h4 : 2 ^ a.bit_length = 2 * 2 ^ (a.bit_length - 1) := by
      rw [← pow_succ']; congr 1
      have := ha.1.one_le_bits
      omega
    omega

theorem mod_to_spec {a b : big_int} (ha : pos_canonical a) (hb : pos_canonical b)
    (hb1 : 1 ≤ magnitude b) (fuel : Nat) (hf : a.bit_length + 1 ≤ fuel) :
    ∃ r, big_int_mod_to fuel a b = some r ∧ pos_canonical r ∧
      magnitude r = magnitude a % magnitude b ∧ (magnitude a < magnitude b → r = a) := by
  unfold big_int_mod_to
  simp only
  rw [compare_pos ha hb]
  by_cases h0 : cmp_nat (magnitude a) (magnitude b) = 0
  · rw [if_pos h0]
    have heq := cmp_nat_eq_zero_iff.mp h0
    obtain ⟨c1, c2, c3, _⟩ := clear_used_spec ha.1
    exact ⟨_, rfl, ⟨c1, by rw [c3]; exact ha.2⟩, by rw [c2, heq, Nat.mod_self],
      fun h => absurd h (by omega)⟩
  · rw [if_neg h0]
    by_cases h1 : cmp_nat (magnitude a) (magnitude b) = -1
    · rw [if_pos h1]
      have hlt := cmp_nat_eq_neg_one_iff.mp h1
      exact ⟨a, rfl, ha, (Nat.mod_eq_of_lt hlt).symm, fun _ => rfl⟩
    · rw [if_neg h1]
      have hgt : magnitude b < magnitude a := by
        have e0 : ¬ magnitude a = magnitude b := fun e => h0 (cmp_nat_eq_zero_iff.mpr e)
        have e1 : ¬ magnitude a < magnitude b := fun e => h1 (cmp_nat_eq_neg_one_iff.mpr e)
        omega
      obtain ⟨D0, D, δ, e1, e2, e3, e4, e5, e6, e7⟩ := div_head_spec ha hb hgt hb1 fuel hf
      rw [e1]
      simp only [Option.bind_eq_bind, Option.some_bind]
      rw [e2]
      simp only [Option.some_bind]
      obtain ⟨r, r1, r2, r3⟩ := mod_loop_spec (magnitude b) hb1 fuel δ fuel a D (by omega) (by omega)
        ha e3 e4 e6 e7
      exact ⟨r, r1, r2, r3, fun h => absurd h (by omega)⟩

/-! ## Division -/

theorem val_set {s : List Nat} {i n : Nat} (v : Nat) (hi : i < n) (hl : i < s.length) :
    val (s.set i v) n + rd s i * 2 ^ (32 * i) = val s n + v * 2 ^ (32 * i) := by
  induction n with
  | zero => omega
  | succ n ih =>
    by_cases e : i = n
    · subst e
      rw [val_succ, val_succ, val_set_of_le _ _ le_rfl, rd_set_self _ hl]
      omega
    · have := ih (by omega)
      rw [val_succ, val_succ, rd_set_ne _ e]
      omega

theorem or_bit_eq_add {x r : Nat} (h : x % 2 ^ (r + 1) = 0) : x ||| (1 <<< r) = x + 2 ^ r := by
  have hd := Nat.div_add_mod x (2 ^ (r + 1))
  rw [h, Nat.add_zero] at hd
  rw [Nat.one_shiftLeft, ← hd]
  exact (Nat.mul_add_lt_is_or (Nat.pow_lt_pow_right (by norm_num) (by omega)) _).symm

theorem quotient_set_bit {q : List Nat} {δ N : Nat} (hN : δ / 32 < N) (hlen : N ≤ q.length)
    (hlt : ∀ i, rd q i < 2 ^ 32) (hc : quotient_clear q δ) :
    let q' := q.set (δ / 32) (rd q (δ / 32) ||| (1 <<< (δ % 32)))
    q'.length = q.length ∧ (∀ i, rd q' i < 2 ^ 32) ∧ val q' N = val q N + 2 ^ δ ∧
    (∀ i, N ≤ i → rd q' i = rd q i) ∧
    ∀ δ', δ' < δ → quotient_clear q' δ' := by
  intro q'
  obtain ⟨hc1, hc2⟩ := hc
  have hr : δ % 32 < 32 := Nat.mod_lt _ (by norm_num)
  have hor := or_bit_eq_add hc2
  have hx := hlt (δ / 32)
  have hnew : rd q' (δ / 32) = rd q (δ / 32) + 2 ^ (δ % 32) := by
    show rd (q.set _ _) _ = _
    rw [rd_set_self _ (by omega), hor]
  have hne : ∀ i, i ≠ δ / 32 → rd q' i = rd q i := fun i hi => rd_set_ne _ (fun e => hi e.symm)
  have hdvd : 2 ^ (δ % 32 + 1) ∣ rd q (δ / 32) := Nat.dvd_of_mod_eq_zero hc2
  have hlt32 : rd q (δ / 32) + 2 ^ (δ % 32) < 2 ^ 32 := by
    obtain ⟨c, hc⟩ := hdvd
    have h32 : (2:Nat) ^ 32 = 2 ^ (δ % 32 + 1) * 2 ^ (31 - δ % 32) := by
      rw [← pow_add]; congr 1; omega
    rw [hc, h32] at hx ⊢
    have hclt : c < 2 ^ (31 - δ % 32) := Nat.lt_of_mul_lt_mul_left hx
    have : 2 ^ (δ % 32 + 1) * (c + 1) ≤ 2 ^ (δ % 32 + 1) * 2 ^ (31 - δ % 32) :=
      Nat.mul_le_mul_left _ hclt
    have e2 : 2 ^ (δ % 32 + 1) * (c + 1) = 2 ^ (δ % 32 + 1) * c + 2 ^ (δ % 32 + 1) := by ring
    have e3 : 2 ^ (δ % 32) < 2 ^ (δ % 32 + 1) := Nat.pow_lt_pow_right (by norm_num) (by omega)
    omega
  refine ⟨by simp [q'], ?_, ?_, ?_, ?_⟩
  · intro i
    by_cases e : i = δ / 32
    · rw [e, hnew]; exact hlt32
    · rw [hne i e]; exact hlt i
  · have := val_set (s := q) (rd q (δ / 32) ||| (1 <<< (δ % 32))) hN (by omega)
    rw [hor] at this
    have e : 2 ^ δ = 2 ^ (δ % 32) * 2 ^ (32 * (δ / 32)) := by
      rw [← pow_add]; congr 1; omega
    rw [e]
    show val (q.set _ _) N = _
    rw [hor]
    have e4 : (rd q (δ / 32) + 2 ^ (δ % 32)) * 2 ^ (32 * (δ / 32)) =
        rd q (δ / 32) * 2 ^ (32 * (δ / 32)) + 2 ^ (δ % 32) * 2 ^ (32 * (δ / 32)) := by ring
    omega
  · intro i hi
    exact hne i (by omega)
  · intro δ' hδ'
    refine ⟨fun j hj => ?_, ?_⟩
    · rw [hne j (by omega)]
      exact hc1 j (by omega)
    · by_cases e : δ' / 32 = δ / 32
      · rw [e, hnew]
        have hr' : δ' % 32 < δ % 32 := by omega
        have d1 : 2 ^ (δ' % 32 + 1) ∣ 2 ^ (δ % 32 + 1) := Nat.pow_dvd_pow _ (by omega)
        have d2 : 2 ^ (δ' % 32 + 1) ∣ 2 ^ (δ % 32) := Nat.pow_dvd_pow _ (by omega)
        exact Nat.mod_eq_zero_of_dvd (Nat.dvd_add (Nat.dvd_trans d1 hdvd) d2)
      · rw [hne _ e, hc1 _ (by omega)]
        simp

theorem div_loop_spec (b : Nat) (hb : 1 ≤ b) (fuel0 N : Nat) :
    ∀ (δ fuel : Nat) (q : List Nat) (a D : big_int), δ + 1 ≤ fuel0 → δ + 1 ≤ fuel →
      pos_canonical a → pos_canonical D → magnitude D = b * 2 ^ δ →
      magnitude D ≤ magnitude a → magnitude a < 2 * magnitude D →
      δ / 32 < N → N ≤ q.length → (∀ i, rd q i < 2 ^ 32) → quotient_clear q δ →
      ∃ q', div_loop fuel0 fuel q a D (δ : Int) = some q' ∧ q'.length = q.length ∧
        (∀ i, rd q' i < 2 ^ 32) ∧ (∀ i, N ≤ i → rd q' i = rd q i) ∧
        val q' N = val q N + magnitude a / b := by
  intro δ
  induction δ using Nat.strong_induction_on with
  | _ δ ih =>
    intro fuel q a D hf0 hf ha hD hm hle hlt hN hlen hq hqc
    obtain ⟨f, rfl⟩ : ∃ f, fuel = f + 1 := ⟨fuel - 1, by omega⟩
    obtain ⟨ha', hma'⟩ := sub_to_pos ha hD hle
    obtain ⟨D', δ', e1, e2, e3, e4, e5, e6, e7⟩ :=
      div_shift_down_spec b hb _ ha' δ fuel0 D hf0 hD hm
    obtain ⟨s1, s2, s3, s4, s5⟩ := quotient_set_bit hN hlen hq hqc
    have ec1 : ((δ : Int) / 32).toNat = δ / 32 := by
      omega
    have ec2 : ((δ : Int) % 32).toNat = δ % 32 := by
      omega
    unfold div_loop
    simp only
    rw [ec1, ec2, e1]
    simp only [Option.bind_eq_bind, Option.some_bind]
    rw [compare_pos e2 ha']
    have hbpos : 0 < b := by omega
    have hdiv : magnitude a / b = 2 ^ δ + magnitude (big_int_sub_to a D).2 / b := by
      rw [hma', hm]
      have h1 : b * 2 ^ δ ≤ magnitude a := by rw [← hm]; exact hle
      rw [Nat.sub_mul_div _ _ _ h1]
      have h2 : 2 ^ δ ≤ magnitude a / b := by
        rw [Nat.le_div_iff_mul_le hbpos, Nat.mul_comm]; exact h1
      omega
    generalize q.set (δ / 32) (rd q (δ / 32) ||| 1 <<< (δ % 32)) = q1 at s1 s2 s3 s4 s5 ⊢
    by_cases hbrk : δ' = 0 ∧ magnitude D' > magnitude (big_int_sub_to a D).2
    · rw [if_pos ⟨by exact_mod_cast hbrk.1, cmp_nat_pos_iff.mpr hbrk.2⟩]
      refine ⟨q1, rfl, s1, s2, s4, ?_⟩
      have : magnitude D' = b := by rw [e3, hbrk.1]; simp
      rw [s3, hdiv, Nat.div_eq_of_lt (by omega)]
      omega
    · rw [if_neg (fun h => hbrk ⟨by exact_mod_cast h.1, cmp_nat_pos_iff.mp h.2⟩)]
      have hle' : magnitude D' ≤ magnitude (big_int_sub_to a D).2 := by
        rcases e5 with h | h
        · exact h
        · by_contra hcon
          exact hbrk ⟨h, by omega⟩
      have hlt' : δ' < δ := by
        by_contra hcon
        have : δ' = δ := by omega
        rw [e7 this] at hle'
        omega
      obtain ⟨q', r1, r2, r3, r4, r5⟩ := ih δ' hlt' f q1 _ D' (by omega) (by omega) ha' e2 e3 hle'
        (e6 hlt') (by omega) (by omega) s2 (s5 δ' hlt')
      refine ⟨q', r1, by rw [r2, s1], r3, fun i hi => by rw [r4 i hi, s4 i hi], ?_⟩
      rw [r5, s3, hdiv]
      omega

theorem magnitude_set_sign (sign : Int) (x : big_int) :
    magnitude (set_sign sign x) = magnitude x := by
  unfold set_sign
  simp only
  split_ifs <;> rfl

theorem div_to_spec {a b : big_int} (ha : pos_canonical a) (hb : pos_canonical b)
    (hb1 : 1 ≤ magnitude b) (fuel : Nat) (hf : a.bit_length + 1 ≤ fuel) :
    ∃ q, big_int_div_to fuel a b = some q ∧ magnitude q = magnitude a / magnitude b := by
  unfold big_int_div_to
  simp only
  rw [compare_pos ha hb]
  obtain ⟨c1, c2, c3, c4⟩ := clear_used_spec ha.1
  by_cases h0 : cmp_nat (magnitude a) (magnitude b) = 0
  · rw [if_pos h0]
    have heq := cmp_nat_eq_zero_iff.mp h0
    refine ⟨_, rfl, ?_⟩
    show val ((clear_used a).slot.set 0 1) 1 = _
    have hl : 0 < (clear_used a).slot.length := by
      rw [c1.length_eq]; have := c1.one_le; have := c1.le_alloc; omega
    rw [heq, Nat.div_self (by omega)]
    simp [val, rd_set_self _ hl]
  · rw [if_neg h0]
    by_cases h1 : cmp_nat (magnitude a) (magnitude b) = -1
    · rw [if_pos h1]
      have hlt := cmp_nat_eq_neg_one_iff.mp h1
      exact ⟨_, rfl, by rw [c2, Nat.div_eq_of_lt hlt]⟩
    · rw [if_neg h1]
      have hgt : magnitude b < magnitude a := by
        have e0 : ¬ magnitude a = magnitude b := fun e => h0 (cmp_nat_eq_zero_iff.mpr e)
        have e1 : ¬ magnitude a < magnitude b := fun e => h1 (cmp_nat_eq_neg_one_iff.mpr e)
        omega
      obtain ⟨D0, D, δ, e1, e2, e3, e4, e5, e6, e7⟩ := div_head_spec ha hb hgt hb1 fuel hf
      rw [e1]
      simp only [Option.bind_eq_bind, Option.some_bind]
      rw [e2]
      simp only [Option.some_bind]
      have hqlen : (__big_int_new_zero a.bit_length).slot.length =
          max (BIT_TO_SLOT (max a.bit_length 1)) ALLOCATE_SLOT_SIZE := length_alloc _
      have hq0 : ∀ i, rd (__big_int_new_zero a.bit_length).slot i = 0 := fun i => rd_alloc _ i
      obtain ⟨q', r1, r2, r3, r4, r5⟩ := div_loop_spec (magnitude b) hb1 fuel (δ / 32 + 1) δ fuel
        (__big_int_new_zero a.bit_length).slot a D (by omega) (by omega) ha e3 e4 e6 e7
        (by omega) (by rw [hqlen, BIT_TO_SLOT_eq]; omega) (fun i => by rw [hq0]; norm_num)
        ⟨fun j _ => hq0 j, by rw [hq0]; simp⟩
      rw [r1]
      simp only [Option.some_bind]
      refine ⟨_, rfl, ?_⟩
      rw [magnitude_set_sign]
      show val q' (BIT_TO_SLOT (to_size ((δ : Int) + 1))) = _
      have ets : to_size ((δ : Int) + 1) = δ + 1 := by
        unfold to_size
        rw [if_neg (by omega)]
        omega
      rw [ets, BIT_TO_SLOT_eq, show (δ + 1 + 31) / 32 = δ / 32 + 1 by omega, r5,
        val_eq_zero_of_forall (fun i _ => hq0 i)]
      simp

/-! ## Intermediate forms of the multiplication

The partial results of the Karatsuba recursion are not always trimmed: the
addition keeps a zero top slot when the longer operand had one.  `loose` is
the invariant all of them obey, `weak_canonical` the form `big_int_add_to_raw`
leaves. -/

theorem bit_width_slot_le {v : Nat} (h : v < 2 ^ 32) : bit_width v ≤ 32 := bit_width_le_iff.mpr h

theorem magnitude_canonical.weak {x : big_int} (h : magnitude_canonical x) : weak_canonical x := by
  refine ⟨h.length_eq, h.one_le, h.le_alloc, h.rd_lt, h.zero_above, ?_⟩
  rw [h.bits]
  split_ifs with ht
  · rcases h.top with h2 | h2
    · rw [ht, bit_width_zero, h2]; rfl
    · exact absurd ht h2
  · have := bit_width_pos ht
    omega

theorem weak_canonical.loose {x : big_int} (h : weak_canonical x) : loose x := by
  obtain ⟨h1, h2, h3, h4, h5, h6⟩ := h
  have := bit_width_slot_le (h4 (x.slot_length - 1))
  exact ⟨h1, h2, h3, h4, h5, by rw [h6]; omega, by rw [h6]; omega⟩

theorem magnitude_canonical.to_loose {x : big_int} (h : magnitude_canonical x) : loose x :=
  h.weak.loose

theorem weak_canonical.one_le_bit_length {x : big_int} (h : weak_canonical x) : 1 ≤ x.bit_length := by
  rw [h.2.2.2.2.2]; omega

theorem weak_canonical.canonical_of_top {x : big_int} (h : weak_canonical x)
    (ht : x.slot_length = 1 ∨ rd x.slot (x.slot_length - 1) ≠ 0) : magnitude_canonical x := by
  obtain ⟨h1, h2, h3, h4, h5, h6⟩ := h
  apply magnitude_canonical_intro h1 h2 h3 h4 h5 ht
  rw [h6]
  split_ifs with hz
  · rcases ht with e | e
    · rw [hz, bit_width_zero, e]; rfl
    · exact absurd hz e
  · have := bit_width_pos hz
    omega

namespace loose

variable {x : big_int}

theorem len_eq (h : loose x) : x.slot.length = x.allocated_slot_length := h.1
theorem used_pos (h : loose x) : 1 ≤ x.slot_length := h.2.1
theorem used_le_alloc (h : loose x) : x.slot_length ≤ x.allocated_slot_length := h.2.2.1
theorem used_le_len (h : loose x) : x.slot_length ≤ x.slot.length := by
  rw [h.len_eq]; exact h.used_le_alloc
theorem digit_lt (h : loose x) (i : Nat) : rd x.slot i < 2 ^ 32 := h.2.2.2.1 i
theorem zero_past (h : loose x) (i : Nat) (hi : x.slot_length ≤ i) : rd x.slot i = 0 :=
  h.2.2.2.2.1 i hi
theorem bits_lower (h : loose x) :
    32 * (x.slot_length - 1) + bit_width (rd x.slot (x.slot_length - 1)) ≤ x.bit_length :=
  h.2.2.2.2.2.1
theorem bits_upper (h : loose x) : x.bit_length ≤ 32 * x.slot_length := h.2.2.2.2.2.2

theorem val_eq (h : loose x) {n : Nat} (hn : x.slot_length ≤ n) :
    val x.slot n = magnitude x :=
  val_of_zero_above hn (fun i hi _ => h.zero_past i hi)

theorem lt_slots (h : loose x) : magnitude x < 2 ^ (32 * x.slot_length) :=
  val_lt h.digit_lt _

theorem lt_bits (h : loose x) : magnitude x < 2 ^ x.bit_length := by
  have h1 := h.used_pos
  have hb := h.bits_lower
  have e : magnitude x = val x.slot ((x.slot_length - 1) + 1) := by
    show val x.slot x.slot_length = _
    congr 1; omega
  apply lt_of_lt_of_le _ (Nat.pow_le_pow_right (by norm_num) hb)
  by_cases ht : rd x.slot (x.slot_length - 1) = 0
  · rw [e, val_succ, ht, bit_width_zero]
    simpa using val_lt h.digit_lt (x.slot_length - 1)
  · rw [e, ← bit_width_val h.digit_lt _ ht]
    exact lt_two_pow_bit_width _

/-- A value with at least as many slots as the used length has a non-zero
top slot. -/
theorem top_of_le (h : loose x) (hv : 2 ^ (32 * (x.slot_length - 1)) ≤ magnitude x) :
    rd x.slot (x.slot_length - 1) ≠ 0 := by
  intro hz
  have h1 := h.used_pos
  have e : magnitude x = val x.slot ((x.slot_length - 1) + 1) := by
    show val x.slot x.slot_length = _
    congr 1; omega
  rw [e, val_succ, hz] at hv
  have := val_lt h.digit_lt (x.slot_length - 1)
  omega

/-- A non-zero top slot bounds the used length by the size of the value. -/
theorem slot_length_le_of_top (h : loose x) (ht : x.slot_length = 1 ∨ rd x.slot (x.slot_length - 1) ≠ 0)
    {n : Nat} (hn : 1 ≤ n) (hv : magnitude x < 2 ^ (32 * n)) : x.slot_length ≤ n := by
  rcases ht with e | ht
  · omega
  · by_contra hcon
    have h1 := h.used_pos
    have e : magnitude x = val x.slot ((x.slot_length - 1) + 1) := by
      show val x.slot x.slot_length = _
      congr 1; omega
    have h2 := le_val_succ x.slot (x.slot_length - 1)
    rw [← e] at h2
    have h3 : 2 ^ (32 * n) ≤ 2 ^ (32 * (x.slot_length - 1)) :=
      Nat.pow_le_pow_right (by norm_num) (by omega)
    have h4 : 2 ^ (32 * (x.slot_length - 1)) ≤ rd x.slot (x.slot_length - 1) * 2 ^ (32 * (x.slot_length - 1)) :=
      Nat.le_mul_of_pos_left _ (by omega)
    omega

end loose

theorem loose_intro {x : big_int}
    (hlen : x.slot.length = x.allocated_slot_length)
    (h1 : 1 ≤ x.slot_length) (h2 : x.slot_length ≤ x.allocated_slot_length)
    (hlt : ∀ i, rd x.slot i < 2 ^ 32)
    (hz : ∀ i, x.slot_length ≤ i → rd x.slot i = 0)
    (hb1 : 32 * (x.slot_length - 1) + bit_width (rd x.slot (x.slot_length - 1)) ≤ x.bit_length)
    (hb2 : x.bit_length ≤ 32 * x.slot_length) : loose x :=
  ⟨hlen, h1, h2, hlt, hz, hb1, hb2⟩

/-- The low slots hold the whole value when it is small. -/
theorem val_eq_of_lt {s : List Nat} {m : Nat} :
    ∀ n, m ≤ n → val s n < 2 ^ (32 * m) → val s m = val s n ∧ ∀ i, m ≤ i → i < n → rd s i = 0 := by
  intro n
  induction n with
  | zero =>
    intro hm _
    have : m = 0 := by omega
    subst this
    exact ⟨rfl, fun i _ hi => by omega⟩
  | succ n ih =>
    intro hm hv
    by_cases e : m = n + 1
    · subst e
      exact ⟨rfl, fun i h1 h2 => by omega⟩
    · rw [val_succ] at hv
      have hz : rd s n = 0 := by
        by_contra hne
        have h3 : 2 ^ (32 * m) ≤ 2 ^ (32 * n) := Nat.pow_le_pow_right (by norm_num) (by omega)
        have h4 : 2 ^ (32 * n) ≤ rd s n * 2 ^ (32 * n) := Nat.le_mul_of_pos_left _ (by omega)
        omega
      rw [hz] at hv
      obtain ⟨i1, i2⟩ := ih (by omega) (by omega)
      refine ⟨by rw [val_succ, hz, i1]; simp, fun i h1 h2 => ?_⟩
      by_cases e2 : i = n
      · rw [e2]; exact hz
      · exact i2 i h1 (by omega)

/-! ## Magnitude addition on loose operands -/

theorem rd_copy_slots_of_loose {x : big_int} (h : loose x) {n : Nat}
    (hn : x.slot_length ≤ n) (i : Nat) :
    rd (copy_slots x.slot x.slot_length n) i = rd x.slot i := by
  rw [rd_copy_slots]
  by_cases hi : i < x.slot_length
  · rw [if_pos ⟨hi, by omega⟩]
  · rw [if_neg (by omega), h.zero_past i (by omega)]

theorem add_grow_loose {a : big_int} (ha : loose a) (ns : Nat) :
    (add_grow a ns).slot.length = (add_grow a ns).allocated_slot_length ∧
    (add_grow a ns).slot_length = a.slot_length ∧
    (add_grow a ns).sign = a.sign ∧
    (add_grow a ns).bit_length = a.bit_length ∧
    ns ≤ (add_grow a ns).slot.length ∧
    a.allocated_slot_length ≤ (add_grow a ns).allocated_slot_length ∧
    ∀ i, rd (add_grow a ns).slot i = rd a.slot i := by
  unfold add_grow
  split_ifs with h
  · refine ⟨by simp [length_copy_slots], rfl, rfl, rfl, by simp [length_copy_slots], ?_, ?_⟩
    · show a.allocated_slot_length ≤ ns + ALLOCATE_SLOT_SIZE
      omega
    · intro i
      exact rd_copy_slots_of_loose ha (by
        have := ha.used_le_alloc; simp only [ALLOCATE_SLOT_SIZE]; omega) i
  · exact ⟨ha.len_eq, rfl, rfl, rfl, by rw [ha.len_eq]; omega, le_rfl, fun _ => rfl⟩

/-- The tail of `big_int_add_to_raw` without a bound on the top slot. -/
theorem add_finish_weak_core (x : big_int) (s : List Nat) (c L A : Nat)
    (hlen : s.length = x.allocated_slot_length) (hL1 : 1 ≤ L)
    (hlt : ∀ i, rd s i < 2 ^ 32) (hz : ∀ i, L ≤ i → rd s i = 0) (hc : c ≤ 1)
    (hroom : c = 1 → L < s.length) (hLlen : L ≤ s.length)
    (hval : val s L + c * 2 ^ (32 * L) = A) :
    let slot := s.set L c
    let sl := L + c
    let bl := MUL_SLOT (size_sub sl 1) + hbidx_32 (rd slot (size_sub sl 1))
    let bl2 := if bl = 0 then 1 else bl
    let y : big_int := { x with slot := slot, slot_length := sl, bit_length := bl2 }
    weak_canonical y ∧ magnitude y = A ∧ y.sign = x.sign ∧
      y.allocated_slot_length = x.allocated_slot_length ∧
      (y.slot_length = L ∨ rd y.slot (y.slot_length - 1) ≠ 0) := by
  intro slot sl bl bl2 y
  have hss : size_sub sl 1 = sl - 1 := size_sub_of_le (by omega)
  have slot_rd : ∀ i, rd slot i = if i = L then c else rd s i := by
    intro i
    show rd (s.set L c) i = _
    rw [rd_set]
    by_cases h : L = i
    · subst h
      by_cases hl : L < s.length
      · simp [hl]
      · have : c = 0 := by
          by_contra hc0
          exact hl (hroom (by omega))
        simp [hl, this, hz L le_rfl]
    · have : ¬ i = L := fun e => h e.symm
      simp [h, this]
  have slot_lt : ∀ i, rd slot i < 2 ^ 32 := by
    intro i; rw [slot_rd]; split_ifs
    · have : (2:Nat) ≤ 2 ^ 32 := by norm_num
      omega
    · exact hlt i
  have hvalL : val slot L = val s L :=
    val_congr (fun i hi => by rw [slot_rd, if_neg (by omega)])
  have hmag : val slot sl = A := by
    rcases Nat.eq_zero_or_pos c with h0 | h1
    · have : sl = L := by omega
      rw [this, hvalL]; rw [h0] at hval; simpa using hval
    · have hc1 : c = 1 := by omega
      have : sl = L + 1 := by omega
      rw [this, val_succ, slot_rd, if_pos rfl, hvalL]; exact hval
  have htop : sl = L ∨ rd slot (sl - 1) ≠ 0 := by
    rcases Nat.eq_zero_or_pos c with h0 | h1
    · left; omega
    · right
      have : sl - 1 = L := by omega
      rw [this, slot_rd, if_pos rfl]; omega
  refine ⟨⟨?_, ?_, ?_, slot_lt, ?_, ?_⟩, hmag, rfl, rfl, htop⟩
  · show (s.set L c).length = x.allocated_slot_length
    simp [hlen]
  · show 1 ≤ sl
    omega
  · show sl ≤ x.allocated_slot_length
    rw [← hlen]
    rcases Nat.eq_zero_or_pos c with h0 | h1
    · omega
    · have := hroom (by omega); omega
  · intro i hi
    change sl ≤ i at hi
    show rd slot i = 0
    rw [slot_rd]
    split_ifs with h
    · omega
    · exact hz i (by omega)
  · show bl2 = max 1 (32 * (sl - 1) + bit_width (rd slot (sl - 1)))
    have hbl : bl = 32 * (sl - 1) + bit_width (rd slot (sl - 1)) := by
      show MUL_SLOT (size_sub sl 1) + hbidx_32 (rd slot (size_sub sl 1)) = _
      rw [hss, hbidx_32_eq _ (slot_lt _)]; simp only [MUL_SLOT]; omega
    show (if bl = 0 then 1 else bl) = _
    rw [hbl]
    split_ifs with h0
    · rw [h0]; rfl
    · omega

theorem add_finish_weak (x : big_int) (s : List Nat) (c L A : Nat)
    (hlen : s.length = x.allocated_slot_length) (hL1 : 1 ≤ L)
    (hlt : ∀ i, rd s i < 2 ^ 32) (hz : ∀ i, L ≤ i → rd s i = 0) (hc : c ≤ 1)
    (hroom : c = 1 → L < s.length) (hLlen : L ≤ s.length)
    (hval : val s L + c * 2 ^ (32 * L) = A) :
    weak_canonical (add_finish x L (s, c)) ∧ magnitude (add_finish x L (s, c)) = A ∧
    (add_finish x L (s, c)).sign = x.sign ∧
    (add_finish x L (s, c)).allocated_slot_length = x.allocated_slot_length ∧
    ((add_finish x L (s, c)).slot_length = L ∨
      rd (add_finish x L (s, c)).slot ((add_finish x L (s, c)).slot_length - 1) ≠ 0) :=
  add_finish_weak_core x s c L A hlen hL1 hlt hz hc hroom hLlen hval

theorem add_to_raw_loose {a b : big_int} (ha : loose a) (hb : loose b) :
    (big_int_add_to_raw a b).1 = 0 ∧
    weak_canonical (big_int_add_to_raw a b).2 ∧
    magnitude (big_int_add_to_raw a b).2 = magnitude a + magnitude b ∧
    (big_int_add_to_raw a b).2.sign = a.sign ∧
    ((big_int_add_to_raw a b).2.slot_length = max a.slot_length b.slot_length ∨
      rd (big_int_add_to_raw a b).2.slot ((big_int_add_to_raw a b).2.slot_length - 1) ≠ 0) := by
  have ha1 := ha.used_pos
  have hb1 := hb.used_pos
  have hba := ha.bits_lower
  have hbb := hb.bits_lower
  have hns := BIT_TO_SLOT_eq (max a.bit_length b.bit_length + 1)
  obtain ⟨g_len, g_sl, g_sign, g_bits, g_ns, g_al, g_rd⟩ :=
    add_grow_loose ha (BIT_TO_SLOT (max a.bit_length b.bit_length + 1))
  have hunf : big_int_add_to_raw a b =
      (0, add_finish (add_grow a (BIT_TO_SLOT (max a.bit_length b.bit_length + 1)))
        (max a.slot_length b.slot_length)
        (add_carry_loop (add_grow a (BIT_TO_SLOT (max a.bit_length b.bit_length + 1))).slot b.slot
          (max a.slot_length b.slot_length))) := by
    unfold big_int_add_to_raw
    simp only [g_sl]
  rw [hunf]
  generalize add_grow a (BIT_TO_SLOT (max a.bit_length b.bit_length + 1)) = g at *
  generalize hLe : max a.slot_length b.slot_length = L at *
  have g_lt : ∀ i, rd g.slot i < 2 ^ 32 := fun i => by rw [g_rd]; exact ha.digit_lt i
  have hLns : L ≤ BIT_TO_SLOT (max a.bit_length b.bit_length + 1) := by
    rw [hns]; omega
  obtain ⟨r_len, r_same, r_lt, r_c, r_val⟩ :=
    add_loop_spec g.slot b.slot L (by omega) g_lt hb.digit_lt
  have hva : val g.slot L = magnitude a := by
    rw [val_congr (fun i _ => g_rd i)]
    exact ha.val_eq (by omega)
  have hvb : val b.slot L = magnitude b := hb.val_eq (by omega)
  rw [hva, hvb] at r_val
  generalize add_carry_loop g.slot b.slot L = r at *
  obtain ⟨s, c⟩ := r
  simp only at r_len r_same r_lt r_c r_val
  have key := add_finish_weak g s c L (magnitude a + magnitude b)
    (by rw [r_len]; exact g_len) (by omega) r_lt
    (fun i hi => by rw [r_same i hi, g_rd]; exact ha.zero_past i (by omega))
    r_c
    (by
      intro hc1
      rw [hc1] at r_val
      rw [r_len]
      have hbig : 2 ^ (32 * L) ≤ magnitude a + magnitude b := by omega
      have hmax : 32 * L ≤ max a.bit_length b.bit_length := by
        by_contra hcon
        have h1 : a.bit_length ≤ 32 * L - 1 := by omega
        have h2 : b.bit_length ≤ 32 * L - 1 := by omega
        have h3 := ha.lt_bits
        have h4 := hb.lt_bits
        have h5 : 2 ^ a.bit_length ≤ 2 ^ (32 * L - 1) := Nat.pow_le_pow_right (by norm_num) h1
        have h6 : 2 ^ b.bit_length ≤ 2 ^ (32 * L - 1) := Nat.pow_le_pow_right (by norm_num) h2
        have h7 : 2 ^ (32 * L) = 2 * 2 ^ (32 * L - 1) := by
          rw [← pow_succ']; congr 1; omega
        omega
      have : L + 1 ≤ BIT_TO_SLOT (max a.bit_length b.bit_length + 1) := by rw [hns]; omega
      omega)
    (by rw [r_len]; omega)
    r_val
  exact ⟨rfl, key.1, key.2.1, by rw [key.2.2.1]; exact g_sign, key.2.2.2.2⟩

/-- What `set_sign` with the positive sign leaves. -/
theorem set_sign_pos_spec (x : big_int) :
    (set_sign BIG_NUMBER_POSITIVE x).slot = x.slot ∧
    (set_sign BIG_NUMBER_POSITIVE x).slot_length = x.slot_length ∧
    (set_sign BIG_NUMBER_POSITIVE x).bit_length = x.bit_length ∧
    (set_sign BIG_NUMBER_POSITIVE x).allocated_slot_length = x.allocated_slot_length ∧
    (set_sign BIG_NUMBER_POSITIVE x).sign = BIG_NUMBER_POSITIVE := by
  unfold set_sign
  simp only
  split_ifs <;> exact ⟨rfl, rfl, rfl, rfl, rfl⟩

theorem weak_canonical_congr {x y : big_int} (h : weak_canonical x) (e1 : y.slot = x.slot)
    (e2 : y.slot_length = x.slot_length) (e3 : y.bit_length = x.bit_length)
    (e4 : y.allocated_slot_length = x.allocated_slot_length) : weak_canonical y := by
  unfold weak_canonical
  rw [e1, e2, e3, e4]
  exact h

theorem loose_congr {x y : big_int} (h : loose x) (e1 : y.slot = x.slot)
    (e2 : y.slot_length = x.slot_length) (e3 : y.bit_length = x.bit_length)
    (e4 : y.allocated_slot_length = x.allocated_slot_length) : loose y := by
  unfold loose
  rw [e1, e2, e3, e4]
  exact h

theorem magnitude_congr {x y : big_int} (e1 : y.slot = x.slot)
    (e2 : y.slot_length = x.slot_length) : magnitude y = magnitude x := by
  unfold magnitude
  rw [e1, e2]

/-- Signed addition of two loose operands of positive sign. -/
theorem add_to_loose {a b : big_int} (ha : loose a) (hb : loose b)
    (hsa : a.sign = BIG_NUMBER_POSITIVE) (hsb : b.sign = BIG_NUMBER_POSITIVE) :
    weak_canonical (big_int_add_to a b).2 ∧
    (big_int_add_to a b).2.sign = BIG_NUMBER_POSITIVE ∧
    magnitude (big_int_add_to a b).2 = magnitude a + magnitude b ∧
    ((big_int_add_to a b).2.slot_length = max a.slot_length b.slot_length ∨
      rd (big_int_add_to a b).2.slot ((big_int_add_to a b).2.slot_length - 1) ≠ 0) := by
  obtain ⟨r1, r2, r3, r4, r5⟩ := add_to_raw_loose ha hb
  have e : (big_int_add_to a b).2 = set_sign BIG_NUMBER_POSITIVE (big_int_add_to_raw a b).2 := by
    unfold big_int_add_to
    rw [if_pos hsa, if_pos hsb]
  rw [e]
  generalize (big_int_add_to_raw a b).2 = y at r2 r3 r4 r5 ⊢
  obtain ⟨q1, q2, q3, q4, q5⟩ := set_sign_pos_spec y
  refine ⟨weak_canonical_congr r2 q1 q2 q3 q4, q5, ?_, ?_⟩
  · rw [magnitude_congr q1 q2, r3]
  · rw [q1, q2]; exact r5

/-! ## Schoolbook multiplication -/

theorem and_mask_32 (v : Nat) : v &&& 0xFFFFFFFF = v % 2 ^ 32 := by
  have := land_mask v 0 32
  simpa using this

theorem mul_plain_step_spec (a b : big_int) (i k : Nat) (s : List Nat) (c : Nat)
    (hx : rd a.slot i < 2 ^ 32) (hy : rd b.slot k < 2 ^ 32) (hc : c < 2 ^ 32) :
    ∃ m c', mul_plain_step a b i k (s, c) = (s.set (i + k) m, c') ∧ m < 2 ^ 32 ∧ c' < 2 ^ 32 ∧
      m + c' * 2 ^ 32 = rd a.slot i * rd b.slot k + c := by
  refine ⟨(rd a.slot i * rd b.slot k + c) % 2 ^ 32, (rd a.slot i * rd b.slot k + c) / 2 ^ 32,
    ?_, Nat.mod_lt _ (by norm_num), ?_, ?_⟩
  · unfold mul_plain_step
    simp only [and_mask_32, Nat.shiftRight_eq_div_pow]
  · have h1 : rd a.slot i * rd b.slot k ≤ (2 ^ 32 - 1) * (2 ^ 32 - 1) :=
      Nat.mul_le_mul (by omega) (by omega)
    have h2 : rd a.slot i * rd b.slot k + c < 2 ^ 32 * 2 ^ 32 := by
      norm_num at h1 hc ⊢
      omega
    exact Nat.div_lt_of_lt_mul h2
  · have := Nat.mod_add_div (rd a.slot i * rd b.slot k + c) (2 ^ 32)
    omega

theorem mul_plain_loop_spec (a b : big_int) (i n : Nat) (s0 : List Nat)
    (ha : ∀ j, rd a.slot j < 2 ^ 32) (hb : ∀ j, rd b.slot j < 2 ^ 32)
    (h0 : ∀ j, rd s0 j = 0) (hroom : i + n ≤ s0.length) :
    (for_up n (mul_plain_step a b i) (s0, 0)).1.length = s0.length ∧
    (∀ j, rd (for_up n (mul_plain_step a b i) (s0, 0)).1 j < 2 ^ 32) ∧
    (∀ j, j < i ∨ i + n ≤ j → rd (for_up n (mul_plain_step a b i) (s0, 0)).1 j = 0) ∧
    (for_up n (mul_plain_step a b i) (s0, 0)).2 < 2 ^ 32 ∧
    val (for_up n (mul_plain_step a b i) (s0, 0)).1 (i + n) +
        (for_up n (mul_plain_step a b i) (s0, 0)).2 * 2 ^ (32 * (i + n)) =
      rd a.slot i * val b.slot n * 2 ^ (32 * i) := by
  refine for_up_induct
    (fun k (p : List Nat × Nat) =>
      p.1.length = s0.length ∧ (∀ j, rd p.1 j < 2 ^ 32) ∧
      (∀ j, j < i ∨ i + k ≤ j → rd p.1 j = 0) ∧ p.2 < 2 ^ 32 ∧
      val p.1 (i + k) + p.2 * 2 ^ (32 * (i + k)) = rd a.slot i * val b.slot k * 2 ^ (32 * i))
    n (mul_plain_step a b i) (s0, 0)
    ⟨rfl, fun j => by rw [h0]; norm_num, fun j _ => h0 j, by norm_num, ?_⟩ ?_
  · simp only [Nat.add_zero, val_zero, Nat.mul_zero, Nat.zero_mul]
    exact val_eq_zero_of_forall (fun j _ => h0 j)
  rintro k ⟨s, c⟩ hk ⟨hl, hlt, hz, hc, hv⟩
  simp only at hl hlt hz hc hv
  have hks : i + k < s.length := by omega
  obtain ⟨m, c', hr, q2, q3, q4⟩ := mul_plain_step_spec a b i k s c (ha i) (hb k) hc
  rw [hr]
  obtain ⟨hk1, hne⟩ := rd_set_cases hks m
  simp only
  refine ⟨by simp [hl], ?_, ?_, q3, ?_⟩
  · intro j
    by_cases e : j = i + k
    · rw [e, hk1]; exact q2
    · rw [hne j e]; exact hlt j
  · intro j hj
    rw [hne j (by omega)]
    exact hz j (by omega)
  · rw [show i + (k + 1) = (i + k) + 1 by omega, val_succ, val_succ,
      val_congr (fun j hj => hne j (by omega)), two_pow_succ_slot, hk1]
    have e : (2:Nat) ^ (32 * (i + k)) = 2 ^ (32 * k) * 2 ^ (32 * i) := by
      rw [← pow_add]; congr 1; omega
    rw [e] at hv ⊢
    generalize (2:Nat) ^ (32 * k) = Pk at hv ⊢
    generalize (2:Nat) ^ (32 * i) = Pi at hv ⊢
    zify at hv q4 ⊢
    linear_combination hv + (Pk * Pi : Int) * q4

/-- The term built by one pass of `__big_int_mul_plain` on a cleared buffer. -/
theorem mul_plain_term_spec (a b t : big_int) (i : Nat) (s0 : List Nat)
    (ha : ∀ j, rd a.slot j < 2 ^ 32) (hb : loose b)
    (h0 : ∀ j, rd s0 j = 0) (hlen : s0.length = t.allocated_slot_length)
    (hroom : i + b.slot_length ≤ s0.length)
    (hfit : rd a.slot i * magnitude b * 2 ^ (32 * i) < 2 ^ (32 * s0.length)) :
    loose (mul_plain_term a b t i s0) ∧
    magnitude (mul_plain_term a b t i s0) = rd a.slot i * magnitude b * 2 ^ (32 * i) ∧
    (mul_plain_term a b t i s0).sign = t.sign ∧
    (mul_plain_term a b t i s0).slot.length = s0.length ∧
    (mul_plain_term a b t i s0).allocated_slot_length = t.allocated_slot_length ∧
    (mul_plain_term a b t i s0).slot_length ≤ i + b.slot_length + 1 ∧
    (rd (mul_plain_term a b t i s0).slot ((mul_plain_term a b t i s0).slot_length - 1) = 0 →
      (mul_plain_term a b t i s0).slot_length = i + b.slot_length) ∧
    (mul_plain_term a b t i s0).bit_length =
      32 * ((mul_plain_term a b t i s0).slot_length - 1) +
        bit_width (rd (mul_plain_term a b t i s0).slot ((mul_plain_term a b t i s0).slot_length - 1)) := by
  obtain ⟨r_len, r_lt, r_z, r_c, r_val⟩ :=
    mul_plain_loop_spec a b i b.slot_length s0 ha hb.digit_lt h0 hroom
  have hb1 := hb.used_pos
  unfold mul_plain_term
  generalize for_up b.slot_length (mul_plain_step a b i) (s0, 0) = r at *
  obtain ⟨s, c⟩ := r
  simp only at r_len r_lt r_z r_c r_val ⊢
  have hvb : val b.slot b.slot_length = magnitude b := rfl
  rw [hvb] at r_val
  generalize hL : i + b.slot_length = L at *
  have hcroom : c ≠ 0 → L < s.length := by
    intro hc
    by_contra hcon
    have h1 : 2 ^ (32 * s.length) ≤ 2 ^ (32 * L) := Nat.pow_le_pow_right (by norm_num) (by omega)
    have h2 : 2 ^ (32 * L) ≤ c * 2 ^ (32 * L) := Nat.le_mul_of_pos_left _ (by omega)
    rw [r_len] at h1
    omega
  have slot_rd : ∀ j, rd (s.set L c) j = if j = L then c else rd s j := by
    intro j
    rw [rd_set]
    by_cases h : L = j
    · subst h
      by_cases hl : L < s.length
      · simp [hl]
      · have : c = 0 := by
          by_contra hc0
          exact hl (hcroom hc0)
        simp [hl, this, r_z L (Or.inr le_rfl)]
    · have : ¬ j = L := fun e => h e.symm
      simp [h, this]
  generalize hs' : s.set L c = s' at slot_rd ⊢
  have s'_len : s'.length = s0.length := by rw [← hs']; simp [r_len]
  have s'_lt : ∀ j, rd s' j < 2 ^ 32 := by
    intro j; rw [slot_rd]; split_ifs
    · exact r_c
    · exact r_lt j
  generalize hsl : (L + if c ≠ 0 then 1 else 0) = sl at *
  have hsl1 : 1 ≤ sl := by rw [← hsl]; omega
  have hss : size_sub sl 1 = sl - 1 := size_sub_of_le hsl1
  rw [hss, hbidx_32_eq _ (s'_lt _)]
  have hvalL : val s' L = val s L :=
    val_congr (fun j hj => by rw [slot_rd, if_neg (by omega)])
  have hmag : val s' sl = rd a.slot i * magnitude b * 2 ^ (32 * i) := by
    by_cases hc : c = 0
    · have : sl = L := by rw [← hsl, if_neg (by simpa using hc)]; rfl
      rw [this, hvalL, ← r_val, hc]; simp
    · have : sl = L + 1 := by rw [← hsl, if_pos hc]
      rw [this, val_succ, slot_rd, if_pos rfl, hvalL]; exact r_val
  have hzabove : ∀ j, sl ≤ j → rd s' j = 0 := by
    intro j hj
    rw [slot_rd]
    by_cases hc : c = 0
    · split_ifs
      · exact hc
      · exact r_z j (Or.inr (by rw [← hsl, if_neg (by simpa using hc)] at hj; omega))
    · rw [← hsl, if_pos hc] at hj
      rw [if_neg (by omega)]
      exact r_z j (Or.inr (by omega))
  have hsl_le : sl ≤ s0.length := by
    by_cases hc : c = 0
    · rw [← hsl, if_neg (by simpa using hc)]; omega
    · have := hcroom hc
      rw [← hsl, if_pos hc]; omega
  have hw := bit_width_slot_le (s'_lt (sl - 1))
  refine ⟨?_, hmag, trivial, s'_len, trivial, ?_, ?_, ?_⟩
  · apply loose_intro
    · show s'.length = _
      rw [s'_len, hlen]
    · exact hsl1
    · show sl ≤ t.allocated_slot_length
      rw [← hlen]; exact hsl_le
    · exact s'_lt
    · exact hzabove
    · show _ ≤ MUL_SLOT (sl - 1) + bit_width (rd s' (sl - 1))
      simp only [MUL_SLOT]; omega
    · show MUL_SLOT (sl - 1) + bit_width (rd s' (sl - 1)) ≤ 32 * sl
      simp only [MUL_SLOT]; omega
  · show sl ≤ L + 1
    rw [← hsl]; split_ifs <;> omega
  · show rd s' (sl - 1) = 0 → sl = L
    intro hz
    by_cases hc : c = 0
    · rw [← hsl, if_neg (by simpa using hc)]; rfl
    · exfalso
      have e : sl - 1 = L := by rw [← hsl, if_pos hc]; omega
      rw [e, slot_rd, if_pos rfl] at hz
      exact hc hz
  · show MUL_SLOT (sl - 1) + bit_width (rd s' (sl - 1)) = _
    simp only [MUL_SLOT]; omega

/-! ## Construction from a machine integer -/

theorem new_from_int_scan_eq (v : Nat) : ∀ n, v < 2 ^ n → new_from_int_scan v n = bit_width v := by
  intro n
  induction n with
  | zero =>
    intro h
    have : v = 0 := by simpa using h
    subst this
    simp [new_from_int_scan, bit_width_zero]
  | succ n ih =>
    intro h
    unfold new_from_int_scan
    have e : (v >>> n) &&& 1 = v / 2 ^ n % 2 := by
      rw [Nat.shiftRight_eq_div_pow, Nat.and_one_is_mod]
    rw [e]
    have hq : v / 2 ^ n < 2 := by
      apply Nat.div_lt_of_lt_mul
      rw [pow_succ] at h
      omega
    generalize hqe : v / 2 ^ n = q at hq ⊢
    split_ifs with h0
    · apply ih
      have : v / 2 ^ n = 0 := by omega
      exact (Nat.div_eq_zero_iff (by positivity)).mp this
    · have h1 : q = 1 := by omega
      have h2 : 2 ^ n ≤ v := by
        by_contra hcon
        have := Nat.div_eq_of_lt (Nat.lt_of_not_le hcon)
        omega
      exact (bit_width_eq_of_bounds (by omega) (by simpa using h2) h).symm

theorem new_from_int_spec (v : Nat) (hv : v < 2 ^ 32) :
    pos_canonical (big_int_new_from_int v) ∧ magnitude (big_int_new_from_int v) = v ∧
    (big_int_new_from_int v).slot_length = 1 ∧ rd (big_int_new_from_int v).slot 0 = v := by
  have hscan : new_from_int_scan v BIT_PER_SLOT = bit_width v := new_from_int_scan_eq v 32 hv
  have hw := bit_width_slot_le hv
  have hbs : BIT_TO_SLOT (max (bit_width v) 1) = 1 := by rw [BIT_TO_SLOT_eq]; omega
  have hrd0 : rd ((alloc (max 1 ALLOCATE_SLOT_SIZE)).set 0 v) 0 = v :=
    rd_set_self _ (by simp [length_alloc, ALLOCATE_SLOT_SIZE])
  have hrd : ∀ i, 1 ≤ i → rd ((alloc (max 1 ALLOCATE_SLOT_SIZE)).set 0 v) i = 0 := by
    intro i hi
    rw [rd_set_ne _ (by omega), rd_alloc]
  unfold big_int_new_from_int __big_int_new_zero
  simp only [hscan, hbs]
  refine ⟨⟨?_, rfl⟩, ?_, trivial, hrd0⟩
  · apply magnitude_canonical_intro
    · simp [length_alloc]
    · exact le_rfl
    · show 1 ≤ max 1 ALLOCATE_SLOT_SIZE
      omega
    · intro i
      rcases Nat.eq_zero_or_pos i with h | h
      · rw [h]
        show rd ((alloc (max 1 ALLOCATE_SLOT_SIZE)).set 0 v) 0 < _
        rw [hrd0]; exact hv
      · show rd ((alloc (max 1 ALLOCATE_SLOT_SIZE)).set 0 v) i < _
        rw [hrd i h]; norm_num
    · intro i hi
      exact hrd i hi
    · exact Or.inl rfl
    · show max (bit_width v) 1 = if rd ((alloc (max 1 ALLOCATE_SLOT_SIZE)).set 0 v) (1 - 1) = 0 then 1
        else 32 * (1 - 1) + bit_width (rd ((alloc (max 1 ALLOCATE_SLOT_SIZE)).set 0 v) (1 - 1))
      rw [show (1 - 1 : Nat) = 0 by rfl, hrd0]
      split_ifs with h0
      · rw [h0, bit_width_zero]; rfl
      · have := bit_width_pos h0
        omega
  · show val ((alloc (max 1 ALLOCATE_SLOT_SIZE)).set 0 v) 1 = v
    rw [val_succ, hrd0]; simp [val]

theorem val_mono (s : List Nat) {m n : Nat} (h : m ≤ n) : val s m ≤ val s n := by
  induction n with
  | zero =>
    have : m = 0 := by omega
    rw [this]
  | succ n ih =>
    by_cases e : m = n + 1
    · rw [e]
    · have := ih (by omega)
      rw [val_succ]; omega

/-! ## The outer loop of `__big_int_mul_plain` -/

theorem mul_plain_row_spec {a b : big_int} (ha : magnitude_canonical a)
    (hb : magnitude_canonical b) (n : Nat) (hn : a.slot_length + b.slot_length ≤ n + 1)
    (hfit : magnitude a * magnitude b < 2 ^ (32 * n))
    (k : Nat) (hk : k < a.slot_length) (st : mul_plain_state)
    (h : mul_plain_inv a b n k st) : mul_plain_inv a b n (k + 1) (mul_plain_row a b k st) := by
  obtain ⟨i1, i2, i3, i4, i5, i6, i7, i8, i9⟩ := h
  obtain ⟨c_len, c_rd⟩ := clear_loop_spec st.num_term.slot st.num_term_slot_idx_max
  have c_zero : ∀ j, rd (for_up st.num_term_slot_idx_max (fun idx s => s.set idx 0)
      st.num_term.slot) j = 0 := by
    intro j
    rw [c_rd]
    split_ifs with hj
    · rfl
    · exact i4 j (by omega)
  unfold mul_plain_row
  simp only
  generalize for_up st.num_term_slot_idx_max (fun idx s => s.set idx 0) st.num_term.slot = s0
    at c_len c_zero ⊢
  split_ifs with hx
  · -- the slot of `num1` is not zero
    have hle : rd a.slot k * 2 ^ (32 * k) ≤ magnitude a := by
      have h1 := le_val_succ a.slot k
      have h2 : val a.slot (k + 1) ≤ val a.slot a.slot_length := val_mono _ (by omega)
      exact le_trans h1 h2
    have hfit' : rd a.slot k * magnitude b * 2 ^ (32 * k) < 2 ^ (32 * s0.length) := by
      rw [c_len, i1]
      calc rd a.slot k * magnitude b * 2 ^ (32 * k)
          = rd a.slot k * 2 ^ (32 * k) * magnitude b := by ring
        _ ≤ magnitude a * magnitude b := Nat.mul_le_mul_right _ hle
        _ < _ := hfit
    obtain ⟨t1, t2, t3, t4, t5, t6, t7, t8⟩ := mul_plain_term_spec a b st.num_term k s0 ha.rd_lt
      hb.to_loose c_zero (by rw [c_len, i1, i2]) (by rw [c_len, i1]; omega) hfit'
    generalize mul_plain_term a b st.num_term k s0 = t at t1 t2 t3 t4 t5 t6 t7 t8 ⊢
    obtain ⟨q1, q2, q3, q4⟩ := add_to_loose i5.loose t1 i6 (by rw [t3]; exact i3)
    have hval : magnitude (big_int_add_to st.num_final t).2 = val a.slot (k + 1) * magnitude b := by
      rw [q3, i7, t2, val_succ]; ring
    refine ⟨by rw [t4, c_len, i1], by rw [t5, i2], by rw [t3, i3], t1.zero_past, q1, q2, hval,
      ?_, ?_⟩
    · -- canonical when `num2` is not zero
      intro hb0
      have hf := i8 hb0
      have ht_top : rd t.slot (t.slot_length - 1) ≠ 0 := by
        intro hz
        have e := t7 hz
        apply t1.top_of_le _ hz
        rw [t2, e]
        have hB : 2 ^ (32 * (b.slot_length - 1)) ≤ magnitude b := by
          by_cases h1 : 1 < b.slot_length
          · exact hb.two_pow_le_magnitude h1
          · have : b.slot_length - 1 = 0 := by omega
            rw [this]; simp; omega
        have hb1 := hb.one_le
        have e2 : (2:Nat) ^ (32 * (k + b.slot_length - 1)) =
            2 ^ (32 * (b.slot_length - 1)) * 2 ^ (32 * k) := by
          rw [← pow_add]; congr 1; omega
        rw [e2]
        calc 2 ^ (32 * (b.slot_length - 1)) * 2 ^ (32 * k)
            ≤ magnitude b * 2 ^ (32 * k) := Nat.mul_le_mul_right _ hB
          _ ≤ rd a.slot k * magnitude b * 2 ^ (32 * k) := by
            apply Nat.mul_le_mul_right
            exact Nat.le_mul_of_pos_left _ (by omega)
      apply q1.canonical_of_top
      rcases q4 with e | e
      · by_cases h1 : (big_int_add_to st.num_final t).2.slot_length = 1
        · exact Or.inl h1
        · right
          apply q1.loose.top_of_le
          rw [q3, e]
          rcases Nat.le_total st.num_final.slot_length t.slot_length with h2 | h2
          · rw [max_eq_right h2]
            have := le_val_succ t.slot (t.slot_length - 1)
            have h3 : val t.slot (t.slot_length - 1 + 1) = magnitude t := by
              show _ = val t.slot t.slot_length
              congr 1
              have := t1.used_pos
              omega
            rw [h3] at this
            have h4 : 2 ^ (32 * (t.slot_length - 1)) ≤ rd t.slot (t.slot_length - 1) * 2 ^ (32 * (t.slot_length - 1)) :=
              Nat.le_mul_of_pos_left _ (by omega)
            omega
          · rw [max_eq_left h2]
            have : 1 < st.num_final.slot_length := by
              rw [e, max_eq_left h2] at h1
              have := hf.one_le
              omega
            have := hf.two_pow_le_magnitude this
            omega
      · exact Or.inr e
    · -- the used length when `num2` is zero
      intro hb0
      have hf := i9 hb0
      have hb1 : b.slot_length = 1 := by
        rcases hb.top with h1 | h1
        · exact h1
        · exact absurd (hb.magnitude_eq_zero_iff.mp hb0) h1
      have hzero : magnitude (big_int_add_to st.num_final t).2 = 0 := by rw [hval, hb0]; simp
      have ht0 : rd t.slot (t.slot_length - 1) = 0 := by
        by_contra hne
        have := le_val_succ t.slot (t.slot_length - 1)
        have h3 : val t.slot (t.slot_length - 1 + 1) = magnitude t := by
          show _ = val t.slot t.slot_length
          congr 1
          have := t1.used_pos
          omega
        rw [h3, t2, hb0] at this
        have h4 : 0 < rd t.slot (t.slot_length - 1) * 2 ^ (32 * (t.slot_length - 1)) :=
          Nat.mul_pos (by omega) (by positivity)
        simp at this
        omega
      have e := t7 ht0
      rcases q4 with e2 | e2
      · rw [e2, e, hb1]; omega
      · exfalso
        have := le_val_succ (big_int_add_to st.num_final t).2.slot
          ((big_int_add_to st.num_final t).2.slot_length - 1)
        have h3 : val (big_int_add_to st.num_final t).2.slot
            ((big_int_add_to st.num_final t).2.slot_length - 1 + 1) =
            magnitude (big_int_add_to st.num_final t).2 := by
          show _ = val _ _
          congr 1
          have := q1.2.1
          omega
        rw [h3, hzero] at this
        have h4 : 0 < rd (big_int_add_to st.num_final t).2.slot
            ((big_int_add_to st.num_final t).2.slot_length - 1) *
            2 ^ (32 * ((big_int_add_to st.num_final t).2.slot_length - 1)) :=
          Nat.mul_pos (by omega) (by positivity)
        omega
  · -- the slot of `num1` is zero
    have hx0 : rd a.slot k = 0 := by simpa using hx
    refine ⟨by rw [← i1, ← c_len], i2, i3, fun j _ => c_zero j, i5, i6, ?_, i8, ?_⟩
    · rw [val_succ, hx0, i7]; simp
    · intro hb0
      have := i9 hb0
      show st.num_final.slot_length ≤ max 1 (k + 1)
      omega

theorem mul_plain_spec {a b : big_int} (ha : magnitude_canonical a) (hb : magnitude_canonical b) :
    weak_canonical (__big_int_mul_plain false a b) ∧
    (__big_int_mul_plain false a b).sign = BIG_NUMBER_POSITIVE ∧
    magnitude (__big_int_mul_plain false a b) = magnitude a * magnitude b ∧
    (magnitude b ≠ 0 → magnitude_canonical (__big_int_mul_plain false a b)) ∧
    (magnitude b = 0 → (__big_int_mul_plain false a b).slot_length ≤ a.slot_length) := by
  have ha1 := ha.one_le
  have hb1 := hb.one_le
  have hba := ha.bits_bounds
  have hbb := hb.bits_bounds
  obtain ⟨z1, z2, z3, z4⟩ := new_from_int_spec 0 (by norm_num)
  have hn : (__big_int_new_zero (a.bit_length + b.bit_length)).slot.length =
      max (BIT_TO_SLOT (max (a.bit_length + b.bit_length) 1)) ALLOCATE_SLOT_SIZE := length_alloc _
  have hbs := BIT_TO_SLOT_eq (max (a.bit_length + b.bit_length) 1)
  have hfit : magnitude a * magnitude b <
      2 ^ (32 * (__big_int_new_zero (a.bit_length + b.bit_length)).slot.length) := by
    have h1 := ha.magnitude_lt_bits
    have h2 := hb.magnitude_lt_bits
    have h3 : magnitude a * magnitude b < 2 ^ a.bit_length * 2 ^ b.bit_length :=
      Nat.mul_lt_mul'' h1 h2
    rw [← pow_add] at h3
    exact lt_of_lt_of_le h3 (Nat.pow_le_pow_right (by norm_num) (by rw [hn, hbs]; omega))
  have key := for_up_induct
    (mul_plain_inv a b (__big_int_new_zero (a.bit_length + b.bit_length)).slot.length)
    a.slot_length (fun idx st => mul_plain_row a b idx st)
    { num_term := __big_int_new_zero (a.bit_length + b.bit_length),
      num_final := big_int_new_from_int 0,
      num_term_slot_idx_max := 0 }
    ⟨rfl, by rw [hn]; rfl, rfl, fun j _ => rd_alloc _ j, z1.1.weak, z1.2,
      by rw [z2]; simp [val], fun _ => z1.1, fun _ => by rw [z3]; exact le_max_left _ _⟩
    (fun k st hk h => mul_plain_row_spec ha hb _ (by rw [hn, hbs]; omega) hfit k hk st h)
  obtain ⟨_, _, _, _, i5, i6, i7, i8, i9⟩ := key
  have e : __big_int_mul_plain false a b =
      (for_up a.slot_length (fun idx st => mul_plain_row a b idx st)
        { num_term := __big_int_new_zero (a.bit_length + b.bit_length),
          num_final := big_int_new_from_int 0,
          num_term_slot_idx_max := 0 }).num_final := by
    unfold __big_int_mul_plain
    simp
  rw [e]
  refine ⟨i5, i6, i7, i8, fun h0 => ?_⟩
  have := i9 h0
  omega

/-! ## Squaring: the 64-bit helpers -/

theorem lor_shift_32 (lo hi : Nat) (h : lo < 2 ^ 32) : lo ||| (hi <<< 32) = lo + hi * 2 ^ 32 := by
  rw [Nat.lor_comm, Nat.shiftLeft_eq, Nat.mul_comm hi, ← Nat.mul_add_lt_is_or h]
  omega

theorem shl_32_lor (hi lo : Nat) (h : lo < 2 ^ 32) : (hi <<< 32) ||| lo = hi * 2 ^ 32 + lo := by
  rw [Nat.lor_comm, lor_shift_32 lo hi h]; omega

theorem u64_add_spec (a b : Nat) (ha : a < 2 ^ 64) (hb : b < 2 ^ 64) :
    (__u64_add a b).1 ≤ 1 ∧ (__u64_add a b).2 < 2 ^ 64 ∧
    (__u64_add a b).1 * 2 ^ 64 + (__u64_add a b).2 = a + b := by
  unfold __u64_add
  simp only [and_mask_32, Nat.shiftRight_eq_div_pow]
  rw [shl_32_lor _ _ (Nat.mod_lt _ (by norm_num))]
  norm_num at ha hb ⊢
  omega

theorem u64_shift_1_spec (n : Nat) (hn : n < 2 ^ 64) :
    (__u64_shift_1 n).1 ≤ 1 ∧ (__u64_shift_1 n).2 < 2 ^ 64 ∧
    (__u64_shift_1 n).1 * 2 ^ 64 + (__u64_shift_1 n).2 = 2 * n := by
  unfold __u64_shift_1
  simp only [Nat.shiftRight_eq_div_pow, Nat.shiftLeft_eq]
  norm_num at hn ⊢
  omega

theorem mul_slot_lt {x y : Nat} (hx : x < 2 ^ 32) (hy : y < 2 ^ 32) :
    x * y ≤ (2 ^ 32 - 1) * (2 ^ 32 - 1) :=
  Nat.mul_le_mul (by omega) (by omega)

/-- One pass of step 2 of the squaring: slot `i + j` takes the low word of
`w[i+j] + 2 * x[j] * x[i] + c` and `c` the rest. -/
theorem square_step2_spec (x : List Nat) (i j : Nat) (st : square_state)
    (hx : ∀ k, rd x k < 2 ^ 32) (hw : rd st.w (i + j) < 2 ^ 32)
    (hf : rd st.c_fix_arr (i + j) < 2 ^ 32) (hc : st.c < 2 ^ 64) :
    ∃ v u, square_step2 x i j st =
        { w := st.w.set (i + j) v, c_fix_arr := st.c_fix_arr.set (i + j) 0, u := u, c := u } ∧
      v < 2 ^ 32 ∧ u < 2 ^ 64 ∧
      u * 2 ^ 32 + v =
        rd st.w (i + j) + rd st.c_fix_arr (i + j) * 2 ^ 32 + 2 * (rd x j * rd x i) + st.c := by
  have hprod := mul_slot_lt (hx j) (hx i)
  have hprod' : rd x j * rd x i < 2 ^ 64 := by norm_num at hprod ⊢; omega
  obtain ⟨s1, s2, s3⟩ := u64_shift_1_spec (rd x j * rd x i) hprod'
  have hwf : rd st.w (i + j) ||| (rd st.c_fix_arr (i + j) <<< 32) =
      rd st.w (i + j) + rd st.c_fix_arr (i + j) * 2 ^ 32 := lor_shift_32 _ _ hw
  have hwf_lt : rd st.w (i + j) + rd st.c_fix_arr (i + j) * 2 ^ 32 < 2 ^ 64 := by
    norm_num at hw hf ⊢; omega
  obtain ⟨a1, a2, a3⟩ := u64_add_spec _ _ hwf_lt s2
  obtain ⟨b1, b2, b3⟩ := u64_add_spec _ _ a2 hc
  unfold square_step2
  simp only [hwf]
  generalize __u64_shift_1 (rd x j * rd x i) = sh at s1 s2 s3 a1 a2 a3 b1 b2 b3 ⊢
  generalize __u64_add (rd st.w (i + j) + rd st.c_fix_arr (i + j) * 2 ^ 32) sh.2 = r1
    at a1 a2 a3 b1 b2 b3 ⊢
  generalize __u64_add r1.2 st.c = r2 at b1 b2 b3 ⊢
  have hcar : sh.1 + r1.1 + r2.1 ≤ 3 := by omega
  have hshl : ((sh.1 + r1.1 + r2.1) <<< 32) % 2 ^ 64 = (sh.1 + r1.1 + r2.1) * 2 ^ 32 := by
    rw [Nat.shiftLeft_eq]
    apply Nat.mod_eq_of_lt
    norm_num; omega
  have hlow : r2.2 >>> 32 < 2 ^ 32 := by
    rw [Nat.shiftRight_eq_div_pow]
    apply Nat.div_lt_of_lt_mul
    norm_num at b2 ⊢; omega
  have hu : (r2.2 >>> 32) ||| (((sh.1 + r1.1 + r2.1) <<< 32) % 2 ^ 64) =
      r2.2 / 2 ^ 32 + (sh.1 + r1.1 + r2.1) * 2 ^ 32 := by
    rw [hshl, show (sh.1 + r1.1 + r2.1) * 2 ^ 32 = (sh.1 + r1.1 + r2.1) <<< 32 from
      (Nat.shiftLeft_eq _ _).symm, lor_shift_32 _ _ hlow, Nat.shiftRight_eq_div_pow,
      Nat.shiftLeft_eq]
  refine ⟨r2.2 % 2 ^ 32, r2.2 / 2 ^ 32 + (sh.1 + r1.1 + r2.1) * 2 ^ 32, ?_,
    Nat.mod_lt _ (by norm_num), ?_, ?_⟩
  · simp only [hu, and_mask_32, Nat.mod_mod]
  · rw [Nat.shiftRight_eq_div_pow] at hlow
    norm_num at hlow ⊢; omega
  · have := Nat.mod_add_div r2.2 (2 ^ 32)
    norm_num at this s3 a3 b3 ⊢
    omega

/-! ## Squaring: the invariants -/

theorem tail_val_add (s : List Nat) {t i : Nat} (h : i ≤ t) : val s i + tail_val s t i = val s t := by
  have := val_mono s h
  unfold tail_val; omega

theorem tail_val_self (s : List Nat) (t : Nat) : tail_val s t t = 0 := by
  unfold tail_val; omega

theorem tail_val_succ (s : List Nat) {t i : Nat} (h : i < t) :
    tail_val s t i = rd s i * 2 ^ (32 * i) + tail_val s t (i + 1) := by
  have h1 := tail_val_add s (show i ≤ t by omega)
  have h2 := tail_val_add s (show i + 1 ≤ t by omega)
  rw [val_succ] at h2
  omega

theorem le_val_of_lt (s : List Nat) {p n : Nat} (h : p < n) : rd s p * 2 ^ (32 * p) ≤ val s n :=
  le_trans (le_val_succ s p) (val_mono s (by omega))

/-- Rewriting slot `p` of the result and clearing its overflow word. -/
theorem square_val_set (w f : List Nat) (u c u' c' p n v : Nat) (hp : p < n) (hw : p < w.length)
    (hf : p < f.length) :
    square_val { w := w.set p v, c_fix_arr := f.set p 0, u := u', c := c' } n +
        (rd w p + rd f p * 2 ^ 32) * 2 ^ (32 * p) =
      square_val { w := w, c_fix_arr := f, u := u, c := c } n + v * 2 ^ (32 * p) := by
  have h1 := val_set (s := w) v hp hw
  have h2 := val_set (s := f) 0 hp hf
  unfold square_val
  simp only
  generalize val (w.set p v) n = A at h1 ⊢
  generalize val (f.set p 0) n = B at h2 ⊢
  generalize (2:Nat) ^ (32 * p) = P at h1 h2 ⊢
  zify at h1 h2 ⊢
  linear_combination h1 + (2 ^ 32 : Int) * h2

theorem square_step2_inv (x : List Nat) (t i n m s : Nat) (hx : ∀ k, rd x k < 2 ^ 32)
    (hn : 2 * t ≤ n) (hm : 2 * t ≤ m) (j : Nat) (hij : i < j) (hj : j < t) (st : square_state)
    (h : square_loop_inv x t i n m s j st) :
    square_loop_inv x t i n m s (j + 1) (square_step2 x i j st) := by
  obtain ⟨i1, i2, i3, i4, i5, i6, i7, i8, i9⟩ := h
  obtain ⟨v, u, hr, q1, q2, q3⟩ := square_step2_spec x i j st hx (i3 _) (i4 _) i5
  rw [hr]
  have hp1 : i + j < st.w.length := by omega
  have hp2 : i + j < st.c_fix_arr.length := by omega
  obtain ⟨w1, w2⟩ := rd_set_cases hp1 v
  obtain ⟨f1, f2⟩ := rd_set_cases hp2 0
  have hsv := square_val_set st.w st.c_fix_arr st.u st.c u u (i + j) (2 * t) v (by omega) hp1 hp2
  have e3 : square_val { w := st.w, c_fix_arr := st.c_fix_arr, u := st.u, c := st.c } (2 * t) =
      square_val st (2 * t) := rfl
  rw [e3] at hsv
  unfold square_loop_inv
  simp only
  generalize square_val
    { w := st.w.set (i + j) v, c_fix_arr := st.c_fix_arr.set (i + j) 0, u := u, c := u }
    (2 * t) = A at hsv ⊢
  refine ⟨by simp [i1], by simp [i2], ?_, ?_, q2, trivial, ?_, ?_, ?_⟩
  · intro p
    by_cases e : p = i + j
    · rw [e, w1]; exact q1
    · rw [w2 p e]; exact i3 p
  · intro p
    by_cases e : p = i + j
    · rw [e, f1]; norm_num
    · rw [f2 p e]; exact i4 p
  · intro p hp
    have e : p ≠ i + j := by omega
    rw [w2 p e]; exact i7 p hp
  · intro p hp
    by_cases e : p = i + j
    · rw [e, f1]
    · rw [f2 p e]
      apply i8
      rcases hp with h1 | h1
      · left; exact Nat.lt_of_le_of_ne (Nat.lt_succ_iff.mp h1) e
      · right; exact h1
  · have ht := tail_val_succ x hj
    rw [ht] at i9
    have e1 : (2:Nat) ^ (32 * (i + (j + 1))) = 2 ^ 32 * 2 ^ (32 * (i + j)) := by
      rw [← pow_add]; congr 1; omega
    have e2 : (2:Nat) ^ (32 * (i + j)) = 2 ^ (32 * i) * 2 ^ (32 * j) := by
      rw [Nat.mul_add, pow_add]
    rw [e1]
    rw [e2] at hsv i9 ⊢
    generalize square_val st (2 * t) = B at hsv i9
    generalize (2:Nat) ^ (32 * i) = Pi at hsv i9 ⊢
    generalize (2:Nat) ^ (32 * j) = Pj at hsv i9 ⊢
    generalize tail_val x t (j + 1) = T at i9 ⊢
    rw [← i9]
    zify at hsv q3 ⊢
    linear_combination hsv + (Pi * Pj : Int) * q3

theorem square_loop_spec (x : List Nat) (t i n m s : Nat) (hx : ∀ k, rd x k < 2 ^ 32)
    (hn : 2 * t ≤ n) (hm : 2 * t ≤ m) (hi : i < t) (st : square_state)
    (h : square_loop_inv x t i n m s (i + 1) st) :
    square_loop_inv x t i n m s t (for_range (i + 1) t (fun j st => square_step2 x i j st) st) :=
  for_range_induct (fun j st => square_loop_inv x t i n m s j st) (i + 1) t (by omega)
    (fun j st => square_step2 x i j st) st h
    (fun j y h1 h2 hy => square_step2_inv x t i n m s hx hn hm j (by omega) h2 y hy)

theorem shl_one (i : Nat) : i <<< 1 = i + i := by
  rw [Nat.shiftLeft_eq]; omega

/-- Step 1 of a row does not overflow 64 bits. -/
theorem square_step1_fits (x : List Nat) (t n m i : Nat) (hx : ∀ k, rd x k < 2 ^ 32)
    (hi : i < t) (st : square_state) (h : square_row_inv x t n m i st) :
    rd st.w (i + i) + rd st.c_fix_arr (i + i) * 2 ^ 32 + rd x i * rd x i < 2 ^ 64 := by
  obtain ⟨i1, i2, i3, i4, i5, i6, i7⟩ := h
  have hprod := mul_slot_lt (hx i) (hx i)
  have hw := i3 (i + i)
  by_cases hc : (i + i) + 1 = i + t
  · have ht : t = i + 1 := by omega
    have h1 := le_val_of_lt st.w (show i + i < 2 * t by omega)
    have h2 := le_val_of_lt st.c_fix_arr (show i + i < 2 * t by omega)
    have h3 := tail_val_succ x hi
    have h4 : tail_val x t (i + 1) = 0 := by rw [ht]; exact tail_val_self _ _
    have h5 := tail_val_add x (show i ≤ t by omega)
    have h6 := val_lt hx t
    have e1 : (2:Nat) ^ (32 * (i + i)) = 2 ^ (32 * i) * 2 ^ (32 * i) := by
      rw [Nat.mul_add, pow_add]
    have e2 : (2:Nat) ^ (32 * t) = 2 ^ 32 * 2 ^ (32 * i) := by
      rw [ht, ← pow_add]; congr 1; omega
    unfold square_val at i7
    rw [h3, h4, Nat.add_zero] at i7 h5
    rw [e1] at h1 h2
    rw [e2] at h6
    generalize (2:Nat) ^ (32 * i) = P at h1 h2 h5 h6 i7
    have hX : val x t * val x t < (2 ^ 32 * P) * (2 ^ 32 * P) := Nat.mul_lt_mul'' h6 h6
    have key : (rd st.w (i + i) + rd st.c_fix_arr (i + i) * 2 ^ 32 + rd x i * rd x i) * (P * P) ≤
        val x t * val x t := by
      have e3 : val x t * val x t =
          val x i * (val x i + 2 * (rd x i * P)) + rd x i * rd x i * (P * P) := by
        rw [← h5]; ring
      rw [e3, ← i7]
      have e4 : (rd st.w (i + i) + rd st.c_fix_arr (i + i) * 2 ^ 32 + rd x i * rd x i) * (P * P) =
          rd st.w (i + i) * (P * P) + 2 ^ 32 * (rd st.c_fix_arr (i + i) * (P * P)) +
            rd x i * rd x i * (P * P) := by ring
      rw [e4]
      have := Nat.mul_le_mul_left (2 ^ 32) h2
      omega
    by_contra hcon
    have h7 : 2 ^ 64 * (P * P) ≤
        (rd st.w (i + i) + rd st.c_fix_arr (i + i) * 2 ^ 32 + rd x i * rd x i) * (P * P) :=
      Nat.mul_le_mul_right _ (by omega)
    have e5 : (2 ^ 32 * P) * (2 ^ 32 * P) = 2 ^ 64 * (P * P) := by ring
    omega
  · rw [i6 _ hc]
    norm_num at hprod hw ⊢
    omega

theorem square_val_set_zero (st : square_state) (p n v f : Nat) (hp : p < n)
    (hw : p < st.w.length) (hf : p < st.c_fix_arr.length) (hw0 : rd st.w p = 0)
    (hf0 : rd st.c_fix_arr p = 0) :
    square_val { w := st.w.set p v, c_fix_arr := st.c_fix_arr.set p f, u := st.u, c := st.c } n =
      square_val st n + (v + f * 2 ^ 32) * 2 ^ (32 * p) := by
  have h1 := val_set (s := st.w) v hp hw
  have h2 := val_set (s := st.c_fix_arr) f hp hf
  rw [hw0] at h1
  rw [hf0] at h2
  unfold square_val
  simp only
  generalize val (st.w.set p v) n = A at h1 ⊢
  generalize val (st.c_fix_arr.set p f) n = B at h2 ⊢
  generalize (2:Nat) ^ (32 * p) = P at h1 h2 ⊢
  zify at h1 h2 ⊢
  linear_combination h1 + (2 ^ 32 : Int) * h2

theorem square_row_spec (x : List Nat) (t n m i : Nat) (hx : ∀ k, rd x k < 2 ^ 32)
    (hn : 2 * t ≤ n) (hm : 2 * t ≤ m) (hi : i < t)
    (st : square_state) (h : square_row_inv x t n m i st) :
    square_row_inv x t n m (i + 1) (square_row x t i st) := by
  have hfit := square_step1_fits x t n m i hx hi st h
  obtain ⟨i1, i2, i3, i4, i5, i6, i7⟩ := h
  have hwf : rd st.w (i + i) ||| (rd st.c_fix_arr (i + i) <<< 32) =
      rd st.w (i + i) + rd st.c_fix_arr (i + i) * 2 ^ 32 := lor_shift_32 _ _ (i3 _)
  unfold square_row
  simp only [shl_one, hwf, Nat.mod_eq_of_lt hfit, and_mask_32, Nat.shiftRight_eq_div_pow,
    Nat.mod_mod]
  generalize htot : rd st.w (i + i) + rd st.c_fix_arr (i + i) * 2 ^ 32 + rd x i * rd x i = tot
    at hfit ⊢
  have hp1 : i + i < st.w.length := by omega
  have hp2 : i + i < st.c_fix_arr.length := by omega
  -- the state after step 1
  have hl1 : square_loop_inv x t i n m (val x (i + 1) * (val x (i + 1) + 2 * tail_val x t (i + 1)))
      (i + 1)
      { w := st.w.set (i + i) (tot % 2 ^ 32), c_fix_arr := st.c_fix_arr.set (i + i) 0,
        u := tot / 2 ^ 32, c := tot / 2 ^ 32 } := by
    obtain ⟨w1, w2⟩ := rd_set_cases hp1 (tot % 2 ^ 32)
    obtain ⟨f1, f2⟩ := rd_set_cases hp2 0
    have hsv := square_val_set st.w st.c_fix_arr st.u st.c (tot / 2 ^ 32) (tot / 2 ^ 32) (i + i)
      (2 * t) (tot % 2 ^ 32) (by omega) hp1 hp2
    have e3 : square_val { w := st.w, c_fix_arr := st.c_fix_arr, u := st.u, c := st.c } (2 * t) =
        square_val st (2 * t) := rfl
    rw [e3, i7] at hsv
    unfold square_loop_inv
    simp only
    generalize square_val
      { w := st.w.set (i + i) (tot % 2 ^ 32), c_fix_arr := st.c_fix_arr.set (i + i) 0,
        u := tot / 2 ^ 32, c := tot / 2 ^ 32 }
      (2 * t) = A at hsv ⊢
    refine ⟨by simp [i1], by simp [i2], ?_, ?_, ?_, trivial, ?_, ?_, ?_⟩
    · intro p
      by_cases e : p = i + i
      · rw [e, w1]; exact Nat.mod_lt _ (by norm_num)
      · rw [w2 p e]; exact i3 p
    · intro p
      by_cases e : p = i + i
      · rw [e, f1]; norm_num
      · rw [f2 p e]; exact i4 p
    · apply Nat.div_lt_of_lt_mul
      norm_num at hfit ⊢; omega
    · intro p hp
      have e : p ≠ i + i := by omega
      rw [w2 p e]; exact i5 p hp
    · intro p hp
      by_cases e : p = i + i
      · rw [e, f1]
      · rw [f2 p e]
        apply i6
        rcases hp with h1 | h1
        · omega
        · exact h1
    · have ht := tail_val_succ x hi
      have hd := Nat.mod_add_div tot (2 ^ 32)
      rw [ht] at hsv
      rw [val_succ]
      have e1 : (2:Nat) ^ (32 * (i + (i + 1))) = 2 ^ 32 * (2 ^ (32 * i) * 2 ^ (32 * i)) := by
        rw [← pow_add, ← pow_add]; congr 1; omega
      have e2 : (2:Nat) ^ (32 * (i + i)) = 2 ^ (32 * i) * 2 ^ (32 * i) := by
        rw [Nat.mul_add, pow_add]
      rw [e1]
      rw [e2] at hsv
      generalize (2:Nat) ^ (32 * i) = P at hsv ⊢
      generalize tail_val x t (i + 1) = T at hsv ⊢
      generalize tot / 2 ^ 32 = q at hd hsv ⊢
      generalize tot % 2 ^ 32 = r at hd hsv ⊢
      zify at hsv hd htot ⊢
      linear_combination hsv + (P * P : Int) * hd - (P * P : Int) * htot
  have hl2 := square_loop_spec x t i n m _ hx hn hm hi _ hl1
  generalize for_range (i + 1) t (fun j st => square_step2 x i j st)
    { w := st.w.set (i + i) (tot % 2 ^ 32), c_fix_arr := st.c_fix_arr.set (i + i) 0,
      u := tot / 2 ^ 32, c := tot / 2 ^ 32 } = st2 at hl2 ⊢
  obtain ⟨l1, l2, l3, l4, l5, l6, l7, l8, l9⟩ := hl2
  rw [tail_val_self, Nat.mul_zero, Nat.add_zero] at l9
  have hq1 : i + t < st2.w.length := by omega
  have hq2 : i + t < st2.c_fix_arr.length := by omega
  obtain ⟨w1, w2⟩ := rd_set_cases hq1 (st2.u % 2 ^ 32)
  obtain ⟨f1, f2⟩ := rd_set_cases hq2 (st2.u / 2 ^ 32 % 2 ^ 32)
  have hu : st2.u / 2 ^ 32 < 2 ^ 32 := by
    apply Nat.div_lt_of_lt_mul
    rw [l6]
    norm_num at l5 ⊢; omega
  have hsv := square_val_set_zero st2 (i + t) (2 * t) (st2.u % 2 ^ 32) (st2.u / 2 ^ 32 % 2 ^ 32)
    (by omega) hq1 hq2 (l7 _ le_rfl) (l8 _ (Or.inr (by omega)))
  unfold square_row_inv
  simp only
  refine ⟨by simp [l1], by simp [l2], ?_, ?_, ?_, ?_, ?_⟩
  · intro p
    by_cases e : p = i + t
    · rw [e, w1]; exact Nat.mod_lt _ (by norm_num)
    · rw [w2 p e]; exact l3 p
  · intro p
    by_cases e : p = i + t
    · rw [e, f1]; exact Nat.mod_lt _ (by norm_num)
    · rw [f2 p e]; exact l4 p
  · intro p hp
    have e : p ≠ i + t := by omega
    rw [w2 p e]; exact l7 p (by omega)
  · intro p hp
    have e : p ≠ i + t := by omega
    rw [f2 p e]
    apply l8
    by_cases h1 : p < i + t
    · exact Or.inl h1
    · exact Or.inr (by omega)
  · rw [hsv, Nat.mod_eq_of_lt hu, ← l9, l6]
    have hd := Nat.mod_add_div st2.c (2 ^ 32)
    rw [← l6] at hd ⊢
    generalize st2.u / 2 ^ 32 = q at hd ⊢
    generalize st2.u % 2 ^ 32 = r at hd ⊢
    generalize (2:Nat) ^ (32 * (i + t)) = P
    zify at hd ⊢
    linear_combination (P : Int) * hd

theorem square_plain_eq (x : big_int) :
    __big_int_square_plain x =
      sub_trim (__big_int_new_zero (MUL_SLOT (x.slot_length <<< 1)))
        (for_up x.slot_length (fun i st => square_row x.slot x.slot_length i st)
          { w := (__big_int_new_zero (MUL_SLOT (x.slot_length <<< 1))).slot,
            c_fix_arr := alloc (x.slot_length <<< 1), u := 0, c := 0 }).w := rfl

theorem square_plain_spec {x : big_int} (h1 : 1 ≤ x.slot_length)
    (hlt : ∀ k, rd x.slot k < 2 ^ 32) :
    pos_canonical (__big_int_square_plain x) ∧
    magnitude (__big_int_square_plain x) = magnitude x * magnitude x := by
  rw [square_plain_eq]
  generalize ht : x.slot_length = t at h1 ⊢
  have hX : magnitude x = val x.slot t := by rw [← ht]; rfl
  have hbits : max (MUL_SLOT (t <<< 1)) 1 = 64 * t := by
    rw [shl_one]; simp only [MUL_SLOT]; omega
  have hsl : (__big_int_new_zero (MUL_SLOT (t <<< 1))).slot_length = 2 * t := by
    show BIT_TO_SLOT (max (MUL_SLOT (t <<< 1)) 1) = 2 * t
    rw [hbits, BIT_TO_SLOT_eq]; omega
  have hal : (__big_int_new_zero (MUL_SLOT (t <<< 1))).allocated_slot_length =
      max (2 * t) ALLOCATE_SLOT_SIZE := by
    show max (BIT_TO_SLOT (max (MUL_SLOT (t <<< 1)) 1)) ALLOCATE_SLOT_SIZE = _
    rw [hbits, BIT_TO_SLOT_eq]
    congr 1; omega
  have hlen : (__big_int_new_zero (MUL_SLOT (t <<< 1))).slot.length = max (2 * t) ALLOCATE_SLOT_SIZE := by
    rw [← hal]; exact length_alloc _
  have hsign : (__big_int_new_zero (MUL_SLOT (t <<< 1))).sign = BIG_NUMBER_POSITIVE := rfl
  have hzero : ∀ p, rd (__big_int_new_zero (MUL_SLOT (t <<< 1))).slot p = 0 := fun p => rd_alloc _ p
  have key := for_up_induct
    (square_row_inv x.slot t (max (2 * t) ALLOCATE_SLOT_SIZE) (2 * t))
    t (fun i st => square_row x.slot t i st)
    { w := (__big_int_new_zero (MUL_SLOT (t <<< 1))).slot,
      c_fix_arr := alloc (t <<< 1), u := 0, c := 0 }
    ⟨hlen, by rw [length_alloc, shl_one]; omega, fun p => by rw [hzero]; norm_num,
      fun p => by rw [rd_alloc]; norm_num, fun p _ => hzero p, fun p _ => rd_alloc _ p, by
        unfold square_val
        simp only [val_zero, Nat.zero_mul]
        rw [val_eq_zero_of_forall (fun i _ => hzero i),
          val_eq_zero_of_forall (fun i _ => rd_alloc _ i)]
        rfl⟩
    (fun k st hk h => square_row_spec x.slot t _ _ k hlt (le_max_left _ _) le_rfl hk st h)
  generalize for_up t (fun i st => square_row x.slot t i st)
    { w := (__big_int_new_zero (MUL_SLOT (t <<< 1))).slot,
      c_fix_arr := alloc (t <<< 1), u := 0, c := 0 } = st at key ⊢
  obtain ⟨k1, k2, k3, k4, k5, k6, k7⟩ := key
  rw [tail_val_self, Nat.mul_zero, Nat.add_zero] at k7
  have hXlt := val_lt hlt t
  -- the overflow words are all zero at the end
  have hcfix : val st.c_fix_arr (2 * t) = 0 := by
    have h0 : val st.c_fix_arr (2 * t - 1) = 0 :=
      val_eq_zero_of_forall (fun p hp => k6 p (by omega))
    have hc2 : val st.c_fix_arr (2 * t) =
        rd st.c_fix_arr (2 * t - 1) * 2 ^ (32 * (2 * t - 1)) := by
      have e : val st.c_fix_arr (2 * t) = val st.c_fix_arr ((2 * t - 1) + 1) := by
        congr 1; omega
      rw [e, val_succ, h0, Nat.zero_add]
    by_contra hne
    rw [hc2] at hne
    have hpos : 1 ≤ rd st.c_fix_arr (2 * t - 1) := by
      rcases Nat.eq_zero_or_pos (rd st.c_fix_arr (2 * t - 1)) with hz | hz
      · rw [hz] at hne; simp at hne
      · exact hz
    unfold square_val at k7
    rw [hc2] at k7
    have hsq : val x.slot t * val x.slot t < 2 ^ (32 * t) * 2 ^ (32 * t) :=
      Nat.mul_lt_mul'' hXlt hXlt
    have e2 : (2:Nat) ^ (32 * t) * 2 ^ (32 * t) = 2 ^ 32 * 2 ^ (32 * (2 * t - 1)) := by
      rw [← pow_add, ← pow_add]; congr 1; omega
    have h3 : 2 ^ (32 * (2 * t - 1)) ≤ rd st.c_fix_arr (2 * t - 1) * 2 ^ (32 * (2 * t - 1)) :=
      Nat.le_mul_of_pos_left _ hpos
    have h4 := Nat.mul_le_mul_left (2 ^ 32) h3
    omega
  have hval : val st.w (2 * t) = magnitude x * magnitude x := by
    unfold square_val at k7
    rw [hcfix] at k7
    rw [hX]; omega
  obtain ⟨t1, t2, t3, t4⟩ := sub_trim_spec (__big_int_new_zero (MUL_SLOT (t <<< 1))) st.w
    (magnitude x * magnitude x) (by rw [k1, hal]) (by rw [hsl]; omega)
    (by rw [hsl, k1]; exact le_max_left _ _) k3
    (fun i hi => k5 i (by rw [hsl] at hi; omega)) (by rw [hsl]; exact hval)
  exact ⟨⟨t1, by rw [t3, hsign]⟩, t2⟩

/-! ## The Karatsuba split -/

theorem fill_loop_spec (g : Nat → Nat) (k : Nat) (dst : List Nat) :
    (for_up k (fun idx s => s.set idx (g idx)) dst).length = dst.length ∧
    ∀ j, rd (for_up k (fun idx s => s.set idx (g idx)) dst) j =
      if j < k ∧ j < dst.length then g j else rd dst j := by
  have := for_up_induct
    (fun n (t : List Nat) => t.length = dst.length ∧
      ∀ j, rd t j = if j < n ∧ j < dst.length then g j else rd dst j)
    k (fun idx s => s.set idx (g idx)) dst ⟨rfl, fun j => by simp⟩
    (by
      rintro n t _ ⟨hl, hr⟩
      refine ⟨by simp [hl], fun j => ?_⟩
      rw [rd_set, hr, hl]
      by_cases h1 : n = j
      · subst h1
        by_cases h2 : n < dst.length
        · simp [h2]
        · simp [h2]
      · by_cases h2 : j < n
        · have : j < n + 1 := by omega
          simp [h1, h2, this]
        · have : ¬ j < n + 1 := by omega
          simp [h1, h2, this])
  exact this

theorem trim_scan_pos_spec (s : List Nat) (n : Nat) :
    trim_scan_pos s n ≤ n ∧ (∀ i, trim_scan_pos s n < i → i ≤ n → rd s i = 0) ∧
    (trim_scan_pos s n = 0 ∨ rd s (trim_scan_pos s n) ≠ 0) := by
  induction n with
  | zero => exact ⟨le_rfl, fun i h1 h2 => by simp [trim_scan_pos] at h1; omega, Or.inl rfl⟩
  | succ n ih =>
    unfold trim_scan_pos
    split_ifs with h
    · obtain ⟨h1, h2, h3⟩ := ih
      refine ⟨by omega, ?_, h3⟩
      intro i hi hin
      by_cases e : i = n + 1
      · rw [e]; exact h
      · exact h2 i hi (by omega)
    · exact ⟨le_rfl, fun i hi hin => by omega, Or.inr h⟩

/-- The record left by the trimming scan at the end of each half of the
split. -/
theorem split_trim_spec (r : big_int) (s : List Nat) (n : Nat)
    (hlen : s.length = r.allocated_slot_length) (hn : n + 1 ≤ s.length)
    (hlt : ∀ i, rd s i < 2 ^ 32) (hz : ∀ i, n < i → rd s i = 0) :
    let m := trim_scan_pos s n + 1
    let bl := MUL_SLOT (m - 1) + hbidx_32 (rd s (m - 1))
    let y : big_int := { r with slot := s, slot_length := m, bit_length := if bl = 0 then 1 else bl }
    magnitude_canonical y ∧ magnitude y = val s (n + 1) ∧ y.sign = r.sign ∧
      y.slot_length ≤ n + 1 := by
  intro m bl y
  obtain ⟨t1, t2, t3⟩ := trim_scan_pos_spec s n
  have hm : m - 1 = trim_scan_pos s n := by omega
  have hzm : ∀ i, m ≤ i → rd s i = 0 := by
    intro i hi
    by_cases h : i ≤ n
    · exact t2 i (by omega) h
    · exact hz i (by omega)
  have hmag : val s m = val s (n + 1) :=
    (val_of_zero_above (show m ≤ n + 1 by omega) (fun i hi _ => hzm i hi)).symm
  refine ⟨?_, hmag, rfl, by show m ≤ n + 1; omega⟩
  apply magnitude_canonical_intro
  · exact hlen
  · show 1 ≤ m
    omega
  · show m ≤ r.allocated_slot_length
    omega
  · exact hlt
  · exact hzm
  · show m = 1 ∨ rd s (m - 1) ≠ 0
    rw [hm]
    rcases t3 with h | h
    · left; omega
    · right; exact h
  · show (if bl = 0 then 1 else bl) =
      if rd s (m - 1) = 0 then 1 else 32 * (m - 1) + bit_width (rd s (m - 1))
    have hbl : bl = 32 * (m - 1) + bit_width (rd s (m - 1)) := by
      show MUL_SLOT (m - 1) + hbidx_32 (rd s (m - 1)) = _
      rw [hbidx_32_eq _ (hlt _)]; simp only [MUL_SLOT]; omega
    rw [hbl]
    by_cases hzz : rd s (m - 1) = 0
    · have hm0 : trim_scan_pos s n = 0 := by
        rcases t3 with h | h
        · exact h
        · rw [hm] at hzz; exact absurd hzz h
      rw [if_pos hzz, hzz, bit_width_zero, hm, hm0]
      rfl
    · have := bit_width_pos hzz
      rw [if_neg hzz, if_neg (by omega)]

theorem val_split (s h : List Nat) (d : Nat) :
    ∀ k, (∀ j, j < k → rd h j = rd s (d + j)) → val s (d + k) = val s d + val h k * 2 ^ (32 * d) := by
  intro k
  induction k with
  | zero => intro _; simp [val]
  | succ k ih =>
    intro hh
    have := ih (fun j hj => hh j (by omega))
    rw [← Nat.add_assoc, val_succ, val_succ, this, hh k (by omega)]
    have e : (2:Nat) ^ (32 * (d + k)) = 2 ^ (32 * k) * 2 ^ (32 * d) := by
      rw [← pow_add]; congr 1; omega
    rw [e]; ring

theorem split_low_spec {x : big_int} (hx : magnitude_canonical x) (d : Nat) (hd : 1 ≤ d) :
    pos_canonical (karatsuba_split_low x (32 * d)) ∧
    magnitude (karatsuba_split_low x (32 * d)) = magnitude x % 2 ^ (32 * d) ∧
    (karatsuba_split_low x (32 * d)).slot_length ≤ d := by
  have hdiv : 32 * d / BIT_PER_SLOT = d := by simp [BIT_PER_SLOT]
  have hal : (__big_int_new_zero (32 * d)).allocated_slot_length = max d ALLOCATE_SLOT_SIZE := by
    show max (BIT_TO_SLOT (max (32 * d) 1)) ALLOCATE_SLOT_SIZE = _
    rw [BIT_TO_SLOT_eq]; congr 1; omega
  have hlen : (__big_int_new_zero (32 * d)).slot.length = max d ALLOCATE_SLOT_SIZE := by
    rw [← hal]; exact length_alloc _
  obtain ⟨f1, f2⟩ := fill_loop_spec (fun idx => rd x.slot idx) d (__big_int_new_zero (32 * d)).slot
  have hrd : ∀ j, rd (for_up d (fun slot_idx s => s.set slot_idx (rd x.slot slot_idx))
      (__big_int_new_zero (32 * d)).slot) j = if j < d then rd x.slot j else 0 := by
    intro j
    rw [f2, hlen]
    by_cases h : j < d
    · rw [if_pos ⟨h, by omega⟩, if_pos h]
    · rw [if_neg (by omega), if_neg h]; exact rd_alloc _ _
  have key := split_trim_spec (__big_int_new_zero (32 * d))
    (for_up d (fun slot_idx s => s.set slot_idx (rd x.slot slot_idx)) (__big_int_new_zero (32 * d)).slot)
    (d - 1) (by rw [f1, hlen, hal]) (by rw [f1, hlen]; omega)
    (fun i => by rw [hrd]; split_ifs; exact hx.rd_lt i; norm_num)
    (fun i hi => by rw [hrd, if_neg (by omega)])
  have hval : val (for_up d (fun slot_idx s => s.set slot_idx (rd x.slot slot_idx))
      (__big_int_new_zero (32 * d)).slot) (d - 1 + 1) = magnitude x % 2 ^ (32 * d) := by
    have hv : val (for_up d (fun slot_idx s => s.set slot_idx (rd x.slot slot_idx))
        (__big_int_new_zero (32 * d)).slot) d = val x.slot d :=
      val_congr (fun j hj => by rw [hrd, if_pos hj])
    rw [show d - 1 + 1 = d by omega, hv]
    rcases Nat.le_total d x.slot_length with h | h
    · obtain ⟨k, hk⟩ : ∃ k, x.slot_length = d + k := ⟨x.slot_length - d, by omega⟩
      have e := val_split x.slot (x.slot.drop d) d k (fun j _ => by
        simp [rd, List.getD_eq_getElem?_getD, List.getElem?_drop])
      show _ = val x.slot x.slot_length % _
      rw [hk, e, Nat.add_mul_mod_self_right, Nat.mod_eq_of_lt (val_lt hx.rd_lt d)]
    · rw [hx.val_eq_magnitude h, Nat.mod_eq_of_lt]
      exact lt_of_lt_of_le hx.magnitude_lt (Nat.pow_le_pow_right (by norm_num) (by omega))
  unfold karatsuba_split_low
  simp only [hdiv]
  exact ⟨⟨key.1, key.2.2.1⟩, by rw [key.2.1, hval],
    le_trans key.2.2.2 (by omega : d - 1 + 1 ≤ d)⟩

theorem split_high_spec {x : big_int} (hx : magnitude_canonical x) (d : Nat) :
    pos_canonical (karatsuba_split_high x (32 * d)) ∧
    magnitude (karatsuba_split_high x (32 * d)) = magnitude x / 2 ^ (32 * d) := by
  have hdiv : 32 * d / BIT_PER_SLOT = d := by simp [BIT_PER_SLOT]
  unfold karatsuba_split_high
  simp only [hdiv]
  by_cases hb : x.bit_length ≤ 32 * d
  · rw [if_pos hb, if_pos rfl]
    obtain ⟨z1, z2, _, _⟩ := new_from_int_spec 0 (by norm_num)
    refine ⟨z1, ?_⟩
    rw [z2, Nat.div_eq_of_lt]
    exact lt_of_lt_of_le hx.magnitude_lt_bits (Nat.pow_le_pow_right (by norm_num) hb)
  · rw [if_neg hb, if_neg (by omega)]
    have hbb := hx.bits_bounds
    have h1 := hx.one_le
    obtain ⟨k, hk⟩ : ∃ k, x.slot_length = d + (k + 1) := ⟨x.slot_length - d - 1, by omega⟩
    have hk' : x.slot_length - d = k + 1 := by omega
    rw [hk']
    have hal : (__big_int_new_zero (x.bit_length - 32 * d)).allocated_slot_length =
        max (k + 1) ALLOCATE_SLOT_SIZE := by
      show max (BIT_TO_SLOT (max (x.bit_length - 32 * d) 1)) ALLOCATE_SLOT_SIZE = _
      rw [BIT_TO_SLOT_eq]; congr 1; omega
    have hlen : (__big_int_new_zero (x.bit_length - 32 * d)).slot.length =
        max (k + 1) ALLOCATE_SLOT_SIZE := by
      rw [← hal]; exact length_alloc _
    obtain ⟨f1, f2⟩ := fill_loop_spec (fun idx => rd x.slot (d + idx)) (k + 1)
      (__big_int_new_zero (x.bit_length - 32 * d)).slot
    generalize for_up (k + 1) (fun slot_idx_2 s => s.set slot_idx_2 (rd x.slot (d + slot_idx_2)))
      (__big_int_new_zero (x.bit_length - 32 * d)).slot = s at f1 f2 ⊢
    have hrd : ∀ j, rd s j = if j < k + 1 then rd x.slot (d + j) else 0 := by
      intro j
      rw [f2, hlen]
      by_cases h : j < k + 1
      · rw [if_pos ⟨h, by omega⟩, if_pos h]
      · rw [if_neg (by omega), if_neg h]; exact rd_alloc _ _
    have key := split_trim_spec (__big_int_new_zero (x.bit_length - 32 * d)) s k
      (by rw [f1, hlen, hal]) (by rw [f1, hlen]; omega)
      (fun i => by rw [hrd]; split_ifs; exact hx.rd_lt _; norm_num)
      (fun i hi => by rw [hrd, if_neg (by omega)])
    have hval : val s (k + 1) = magnitude x / 2 ^ (32 * d) := by
      have e := val_split x.slot s d (k + 1) (fun j hj => by rw [hrd, if_pos hj])
      have hm : magnitude x = val x.slot (d + (k + 1)) := by rw [← hk]; rfl
      rw [hm, e, Nat.add_mul_div_right _ _ (by positivity),
        Nat.div_eq_of_lt (val_lt hx.rd_lt d), Nat.zero_add]
    rw [show k + 1 - 1 = k by omega]
    exact ⟨⟨key.1, key.2.2.1⟩, by rw [key.2.1, hval]⟩

/-! ## Subtraction from a weakly canonical operand -/

theorem snug_of_canonical {x : big_int} (hx : magnitude_canonical x) : snug x 1 := by
  by_cases h : 1 < x.slot_length
  · exact Or.inr (hx.two_pow_le_magnitude h)
  · exact Or.inl (by omega)

theorem snug_mono {x : big_int} {k k' : Nat} (h : snug x k) (hk : k ≤ k') : snug x k' := by
  rcases h with h | h
  · exact Or.inl (by omega)
  · exact Or.inr h

theorem snug_of_top {x : big_int} (hx : loose x) (ht : rd x.slot (x.slot_length - 1) ≠ 0)
    (k : Nat) : snug x k := by
  right
  have h1 := hx.used_pos
  have h2 := le_val_succ x.slot (x.slot_length - 1)
  have e : val x.slot (x.slot_length - 1 + 1) = magnitude x := by
    show _ = val x.slot x.slot_length
    congr 1; omega
  rw [e] at h2
  exact le_trans (Nat.le_mul_of_pos_left _ (by omega)) h2

theorem snug_of_eq {x y : big_int} {k : Nat} (h : snug x k) (e : y.slot_length = x.slot_length)
    (hv : magnitude x ≤ magnitude y) : snug y k := by
  rcases h with h | h
  · exact Or.inl (by omega)
  · exact Or.inr (by rw [e]; exact le_trans h hv)

theorem assign_loose {a : big_int} (ha : loose a) :
    loose (big_int_assign a) ∧ magnitude (big_int_assign a) = magnitude a ∧
    (big_int_assign a).sign = a.sign ∧
    (big_int_assign a).slot_length = a.slot_length ∧
    (big_int_assign a).bit_length = a.bit_length ∧
    ∀ i, rd (big_int_assign a).slot i = rd a.slot i := by
  have hrd : ∀ i, rd (big_int_assign a).slot i = rd a.slot i :=
    fun i => rd_copy_slots_of_loose ha ha.used_le_alloc i
  refine ⟨?_, val_congr (fun i _ => hrd i), rfl, rfl, rfl, hrd⟩
  apply loose_intro
  · exact length_copy_slots _ _ _
  · exact ha.used_pos
  · exact ha.used_le_alloc
  · intro i; rw [hrd]; exact ha.digit_lt i
  · intro i hi; rw [hrd]; exact ha.zero_past i hi
  · show 32 * (a.slot_length - 1) + bit_width (rd (big_int_assign a).slot (a.slot_length - 1)) ≤
      a.bit_length
    rw [hrd]; exact ha.bits_lower
  · exact ha.bits_upper

theorem clear_used_loose {a : big_int} (ha : loose a) :
    magnitude_canonical (clear_used a) ∧ magnitude (clear_used a) = 0 ∧
    (clear_used a).sign = a.sign := by
  obtain ⟨hl, hr⟩ := clear_loop_spec a.slot a.slot_length
  have hz : ∀ i, rd (clear_used a).slot i = 0 := by
    intro i
    show rd (for_up a.slot_length (fun slot_idx s => s.set slot_idx 0) a.slot) i = 0
    rw [hr]
    split_ifs with h
    · rfl
    · exact ha.zero_past i (by omega)
  refine ⟨?_, ?_, rfl⟩
  · apply magnitude_canonical_intro
    · show (for_up a.slot_length (fun slot_idx s => s.set slot_idx 0) a.slot).length = _
      rw [hl]; exact ha.len_eq
    · exact le_rfl
    · show 1 ≤ a.allocated_slot_length
      have := ha.used_pos; have := ha.used_le_alloc; omega
    · intro i; rw [hz]; norm_num
    · intro i _; exact hz i
    · exact Or.inl rfl
    · show 1 = _
      rw [hz]; simp
  · show val (clear_used a).slot 1 = 0
    exact val_eq_zero_of_forall (fun i _ => hz i)

theorem sub_grow_loose {a b : big_int} (ha : loose a) (hb : loose b) :
    (sub_grow a b).slot.length = (sub_grow a b).allocated_slot_length ∧
    (sub_grow a b).slot_length = a.slot_length ∧
    (sub_grow a b).sign = a.sign ∧
    (sub_grow a b).bit_length = a.bit_length ∧
    a.slot.length ≤ (sub_grow a b).slot.length ∧
    ∀ i, rd (sub_grow a b).slot i = rd a.slot i := by
  have h1 := ha.used_le_alloc
  have h2 := hb.used_le_alloc
  unfold sub_grow
  split_ifs with h
  · refine ⟨by simp [length_copy_slots], rfl, rfl, rfl, ?_, ?_⟩
    · simp only [length_copy_slots, ha.len_eq, ALLOCATE_SLOT_SIZE]; omega
    · intro i
      exact rd_copy_slots_of_loose ha (by simp only [ALLOCATE_SLOT_SIZE]; omega) i
  · exact ⟨ha.len_eq, rfl, rfl, rfl, le_rfl, fun _ => rfl⟩

/-- Comparison of a loose operand with a canonical one that is not larger. -/
theorem compare_raw_weak {a b : big_int} (ha : loose a) (h1 : 1 ≤ a.bit_length)
    (hb : magnitude_canonical b) (hle : magnitude b ≤ magnitude a) :
    big_int_compare_raw a b > 0 ∨
      (big_int_compare_raw a b = 0 ∧ magnitude a = magnitude b ∧ a.bit_length = b.bit_length) := by
  have hbits : b.bit_length ≤ a.bit_length := by
    by_cases hz : magnitude b = 0
    · rw [hb.bits_of_zero hz]; exact h1
    · rw [hb.bits_of_ne_zero hz]
      exact le_trans (bit_width_mono hle) (bit_width_le_iff.mpr ha.lt_bits)
  unfold big_int_compare_raw
  by_cases hgt : a.bit_length > b.bit_length
  · left; rw [if_pos hgt]; norm_num
  · have e : a.bit_length = b.bit_length := by omega
    rw [if_neg hgt, if_neg (by omega), compare_raw_loop_eq ha.digit_lt hb.rd_lt]
    have hl : b.slot_length ≤ a.slot_length := by
      have := ha.bits_upper
      rw [hb.slot_length_eq, BIT_TO_SLOT_eq]; omega
    rw [hb.val_eq_magnitude hl]
    show cmp_nat (magnitude a) (magnitude b) > 0 ∨ _
    by_cases hlt : magnitude b < magnitude a
    · left; exact cmp_nat_pos_iff.mpr hlt
    · right
      have : magnitude a = magnitude b := by omega
      exact ⟨cmp_nat_eq_zero_iff.mpr this, this, e⟩

theorem compare_pos_pos {a b : big_int} (hsa : a.sign = BIG_NUMBER_POSITIVE)
    (hsb : b.sign = BIG_NUMBER_POSITIVE) : big_int_compare a b = big_int_compare_raw a b := by
  unfold big_int_compare
  rw [if_pos hsa, if_pos hsb]

/-- Magnitude subtraction of a canonical operand from a loose one that the
comparison found larger. -/
theorem sub_to_raw_weak {a b : big_int} (ha : loose a) (hb : magnitude_canonical b)
    (hsa : a.sign = BIG_NUMBER_POSITIVE) (hsb : b.sign = BIG_NUMBER_POSITIVE)
    (hge : magnitude b ≤ magnitude a) (hcmp : big_int_compare_raw a b > 0) :
    magnitude (big_int_sub_to_raw a b).2 = magnitude a - magnitude b ∧
    (big_int_sub_to_raw a b).2.sign = a.sign ∧
    ((big_int_sub_to_raw a b).2 = a ∨ magnitude_canonical (big_int_sub_to_raw a b).2) := by
  unfold big_int_sub_to_raw
  split_ifs with hz hc
  · have : magnitude b = 0 := hb.is_zero_iff.mp hz
    exact ⟨by simp [this], rfl, Or.inl rfl⟩
  · rw [compare_pos_pos hsa hsb] at hc
    omega
  · obtain ⟨g_len, g_sl, g_sign, g_bits, g_ge, g_rd⟩ := sub_grow_loose ha hb.to_loose
    have hn : b.slot_length ≤ a.slot_length := by
      by_contra hcon
      have h1 := ha.used_pos
      have h2 := hb.two_pow_le_magnitude (by omega)
      have h3 := ha.lt_slots
      have h4 : 2 ^ (32 * a.slot_length) ≤ 2 ^ (32 * (b.slot_length - 1)) :=
        Nat.pow_le_pow_right (by norm_num) (by omega)
      omega
    have hla := ha.used_le_len
    simp only [g_sl]
    generalize sub_grow a b = g at *
    have g_lt : ∀ i, rd g.slot i < 2 ^ 32 := fun i => by rw [g_rd]; exact ha.digit_lt i
    obtain ⟨r_len, r_same, r_lt, r_c, r_val⟩ :=
      sub_borrow_loop_spec g.slot b.slot b.slot_length (by omega) g_lt hb.rd_lt
    generalize sub_borrow_loop g.slot b.slot b.slot_length = r at *
    obtain ⟨s, c⟩ := r
    simp only at r_len r_same r_lt r_c r_val ⊢
    have hfin : ∃ s' c', (if c = 1 then sub_borrow_tail b.slot_length a.slot_length (s, c) else (s, c)) = (s', c') ∧
        s'.length = g.slot.length ∧ (∀ i, a.slot_length ≤ i → rd s' i = rd g.slot i) ∧
        (∀ i, rd s' i < 2 ^ 32) ∧ c' ≤ 1 ∧
        val s' a.slot_length + magnitude b = val g.slot a.slot_length + c' * 2 ^ (32 * a.slot_length) := by
      split_ifs with hc1
      · obtain ⟨q1, q2, q3, q4, q5⟩ := sub_borrow_tail_spec s g.slot b.slot_length a.slot_length c hn
          (by omega) r_lt r_same r_c (magnitude b) r_val
        exact ⟨(sub_borrow_tail b.slot_length a.slot_length (s, c)).1,
          (sub_borrow_tail b.slot_length a.slot_length (s, c)).2, rfl,
          by rw [q1, r_len], q2, q3, q4, q5⟩
      · have hc0 : c = 0 := by omega
        refine ⟨s, c, rfl, r_len, fun i hi => r_same i (by omega), r_lt, r_c, ?_⟩
        have e1 := val_add_of_same_above r_same a.slot_length hn
        rw [hc0] at r_val ⊢
        have e2 : magnitude b = val b.slot b.slot_length := rfl
        simp only [zero_mul, add_zero] at r_val ⊢
        omega
    obtain ⟨s', c', hs', f_len, f_same, f_lt, f_c, f_val⟩ := hfin
    rw [hs']
    simp only
    have hva : val g.slot a.slot_length = magnitude a := val_congr (fun i _ => g_rd i)
    rw [hva] at f_val
    have hc0 : c' = 0 := by
      by_contra hne
      have : c' = 1 := by omega
      rw [this] at f_val
      have := val_lt f_lt a.slot_length
      omega
    rw [hc0] at f_val
    simp only [zero_mul, add_zero] at f_val
    obtain ⟨t1, t2, t3, t4⟩ := sub_trim_spec g s' (magnitude a - magnitude b)
      (by rw [f_len]; exact g_len) (by rw [g_sl]; exact ha.used_pos) (by rw [g_sl, f_len]; omega)
      f_lt (fun i hi => by
        rw [g_sl] at hi
        rw [f_same i hi, g_rd]; exact ha.zero_past i hi)
      (by rw [g_sl]; omega)
    exact ⟨t2, by rw [t3]; exact g_sign, Or.inr t1⟩

/-- Magnitude subtraction of a loose operand from a canonical one of the same
value and bit length: the result is a canonical zero. -/
theorem sub_to_raw_equal {c a : big_int} (hc : magnitude_canonical c) (ha : loose a)
    (hsc : c.sign = BIG_NUMBER_POSITIVE) (hsa : a.sign = BIG_NUMBER_POSITIVE)
    (hv : magnitude c = magnitude a) (hbits : c.bit_length = a.bit_length) :
    magnitude_canonical (big_int_sub_to_raw c a).2 ∧ magnitude (big_int_sub_to_raw c a).2 = 0 := by
  unfold big_int_sub_to_raw
  split_ifs with hz h0
  · refine ⟨hc, ?_⟩
    rw [hv]
    show val a.slot a.slot_length = 0
    rw [hz.1, val_succ, hz.2]; simp [val]
  · obtain ⟨c1, c2, _⟩ := clear_used_spec hc
    exact ⟨c1, c2⟩
  · exfalso
    apply h0
    rw [compare_pos_pos hsc hsa]
    unfold big_int_compare_raw
    rw [if_neg (by omega), if_neg (by omega), compare_raw_loop_eq hc.rd_lt ha.digit_lt]
    apply cmp_nat_eq_zero_iff.mpr
    have hl : c.slot_length ≤ a.slot_length := by
      have := ha.bits_upper
      rw [hc.slot_length_eq, BIT_TO_SLOT_eq]; omega
    have hlt : val a.slot a.slot_length < 2 ^ (32 * c.slot_length) := by
      show magnitude a < _
      rw [← hv]; exact hc.magnitude_lt
    rw [(val_eq_of_lt a.slot_length hl hlt).1]
    exact hv

theorem snug_congr {x y : big_int} {k : Nat} (h : snug x k) (e1 : y.slot = x.slot)
    (e2 : y.slot_length = x.slot_length) : snug y k := by
  unfold snug at h ⊢
  rw [magnitude_congr e1 e2, e2]
  exact h

theorem sub_swapped_eq (a b : big_int) :
    (sub_swapped a b).2 = (big_int_sub_to_raw (big_int_assign b) a).2 := rfl

/-- Signed subtraction of a canonical operand from a weakly canonical one of
positive sign, when the difference is not negative. -/
theorem sub_to_weak {a b : big_int} (ha : weak_canonical a) (hsa : a.sign = BIG_NUMBER_POSITIVE)
    (hb : canonical b) (hle : b.sign = BIG_NUMBER_POSITIVE → magnitude b ≤ magnitude a) :
    weak_canonical (big_int_sub_to a b).2 ∧
    (big_int_sub_to a b).2.sign = BIG_NUMBER_POSITIVE ∧
    (magnitude (big_int_sub_to a b).2 : Int) = magnitude a - to_Int b ∧
    ∀ k, 1 ≤ k → snug a k → snug (big_int_sub_to a b).2 k := by
  rcases hb.sign_cases with sb | sb
  · -- '+' - '+'
    have hge := hle sb
    rw [to_Int_of_pos sb]
    rcases compare_raw_weak ha.loose ha.one_le_bit_length hb.mc hge with hgt | ⟨h0, hv, hbt⟩
    · have e : (big_int_sub_to a b).2 = set_sign BIG_NUMBER_POSITIVE (big_int_sub_to_raw a b).2 := by
        unfold big_int_sub_to
        rw [if_pos hsa, if_pos sb, if_pos hgt]
      obtain ⟨r1, r2, r3⟩ := sub_to_raw_weak ha.loose hb.mc hsa sb hge hgt
      rw [e]
      generalize (big_int_sub_to_raw a b).2 = y at r1 r2 r3 ⊢
      obtain ⟨q1, q2, q3, q4, q5⟩ := set_sign_pos_spec y
      have hy : weak_canonical y := by
        rcases r3 with h | h
        · rw [h]; exact ha
        · exact h.weak
      refine ⟨weak_canonical_congr hy q1 q2 q3 q4, q5, ?_, ?_⟩
      · rw [magnitude_congr q1 q2, r1]
        omega
      · intro k hk hs
        apply snug_congr _ q1 q2
        rcases r3 with h | h
        · rw [h]; exact hs
        · exact snug_mono (snug_of_canonical h) hk
    · have e : (big_int_sub_to a b).2 =
          set_sign BIG_NUMBER_NEGATIVE (big_int_sub_to_raw (big_int_assign b) a).2 := by
        unfold big_int_sub_to
        rw [if_pos hsa, if_pos sb, if_neg (by omega)]
        rfl
      obtain ⟨c1, c2, c3, c4, c5, _⟩ := assign_spec hb.mc
      obtain ⟨z1, z2⟩ := sub_to_raw_equal c1 ha.loose (by rw [c3]; exact sb) hsa
        (by rw [c2]; exact hv.symm) (by rw [c5]; exact hbt.symm)
      rw [e]
      generalize (big_int_sub_to_raw (big_int_assign b) a).2 = y at z1 z2 ⊢
      obtain ⟨q1, q2, q3, _⟩ := set_sign_spec z1 BIG_NUMBER_NEGATIVE (Or.inr rfl)
      refine ⟨q1.mc.weak, q1.2.2 (by rw [q2, z2]), ?_, ?_⟩
      · rw [q2, z2, hv]; simp
      · intro k hk _
        exact snug_mono (snug_of_canonical q1.mc) hk
  · -- '+' - '-'
    have sb' : ¬ b.sign = BIG_NUMBER_POSITIVE := by rw [sb]; exact pos_ne_neg.symm
    have e : (big_int_sub_to a b).2 = set_sign BIG_NUMBER_POSITIVE (big_int_add_to_raw a b).2 := by
      unfold big_int_sub_to
      rw [if_pos hsa, if_neg sb']
    obtain ⟨r1, r2, r3, r4, r5⟩ := add_to_raw_loose ha.loose hb.mc.to_loose
    rw [e, to_Int_of_neg sb]
    generalize (big_int_add_to_raw a b).2 = y at r2 r3 r4 r5 ⊢
    obtain ⟨q1, q2, q3, q4, q5⟩ := set_sign_pos_spec y
    refine ⟨weak_canonical_congr r2 q1 q2 q3 q4, q5, ?_, ?_⟩
    · rw [magnitude_congr q1 q2, r3]
      push_cast; ring
    · intro k hk hs
      apply snug_congr _ q1 q2
      rcases r5 with h | h
      · rcases Nat.le_total b.slot_length a.slot_length with h2 | h2
        · exact snug_of_eq hs (by rw [h, max_eq_left h2]) (by omega)
        · exact snug_of_eq (snug_mono (snug_of_canonical hb.mc) hk)
            (by rw [h, max_eq_right h2]) (by omega)
      · exact snug_of_top r2.loose h k

/-- Signed addition of loose operands of positive sign keeps the used length
snug. -/
theorem add_to_snug {a b : big_int} (ha : loose a) (hb : loose b)
    (hsa : a.sign = BIG_NUMBER_POSITIVE) (hsb : b.sign = BIG_NUMBER_POSITIVE)
    (k : Nat) (h1 : snug a k) (h2 : snug b k) : snug (big_int_add_to a b).2 k := by
  obtain ⟨q1, q2, q3, q4⟩ := add_to_loose ha hb hsa hsb
  rcases q4 with h | h
  · rcases Nat.le_total b.slot_length a.slot_length with h3 | h3
    · exact snug_of_eq h1 (by rw [h, max_eq_left h3]) (by omega)
    · exact snug_of_eq h2 (by rw [h, max_eq_right h3]) (by omega)
  · exact snug_of_top q1.loose h k

/-! ## Left shift by whole slots of a loose operand -/

theorem left_shift_grow_loose {x : big_int} (hx : loose x) (k : Nat) :
    loose (left_shift_grow x k) ∧
    magnitude (left_shift_grow x k) = magnitude x ∧
    (left_shift_grow x k).sign = x.sign ∧
    (left_shift_grow x k).slot_length = x.slot_length ∧
    (left_shift_grow x k).bit_length = x.bit_length ∧
    BIT_TO_SLOT (x.bit_length + k) < (left_shift_grow x k).slot.length := by
  unfold left_shift_grow
  simp only
  have h1 := hx.used_pos
  have h2 := hx.used_le_alloc
  have hbl := hx.bits_lower
  have hbu := hx.bits_upper
  have hns := BIT_TO_SLOT_eq (x.bit_length + k)
  split_ifs with h
  · have hrd : ∀ i, rd (copy_slots x.slot x.slot_length
        (BIT_TO_SLOT (x.bit_length + k) + ALLOCATE_SLOT_SIZE)) i = rd x.slot i :=
      fun i => rd_copy_slots_of_loose hx (by simp only [ALLOCATE_SLOT_SIZE]; omega) i
    refine ⟨?_, val_congr (fun i _ => hrd i), rfl, rfl, rfl, ?_⟩
    · apply loose_intro
      · exact length_copy_slots _ _ _
      · exact h1
      · show x.slot_length ≤ BIT_TO_SLOT (x.bit_length + k) + ALLOCATE_SLOT_SIZE
        simp only [ALLOCATE_SLOT_SIZE]; omega
      · intro i; show rd (copy_slots _ _ _) i < 2 ^ 32
        rw [hrd]; exact hx.digit_lt i
      · intro i hi; show rd (copy_slots _ _ _) i = 0
        rw [hrd]; exact hx.zero_past i hi
      · show 32 * (x.slot_length - 1) + bit_width (rd (copy_slots _ _ _) (x.slot_length - 1)) ≤
          x.bit_length
        rw [hrd]; exact hbl
      · exact hbu
    · show _ < (copy_slots _ _ _).length
      rw [length_copy_slots]; simp only [ALLOCATE_SLOT_SIZE]; omega
  · refine ⟨hx, rfl, rfl, rfl, rfl, ?_⟩
    rw [hx.len_eq]; omega

theorem left_shift_slots_loose {x : big_int} (hx : loose x) (d : Nat)
    (hroom : x.slot_length + d ≤ x.slot.length) :
    loose (left_shift_slots x d) ∧
    magnitude (left_shift_slots x d) = magnitude x * 2 ^ (32 * d) ∧
    (left_shift_slots x d).sign = x.sign ∧
    (left_shift_slots x d).slot_length = x.slot_length + d := by
  unfold left_shift_slots
  split_ifs with h0
  swap
  · have : d = 0 := by omega
    subst this
    exact ⟨hx, by simp, rfl, rfl⟩
  obtain ⟨hl, hrd⟩ := shift_slots_up_spec x.slot x.slot_length d hroom
  generalize shift_slots_up x.slot x.slot_length d = t at hl hrd ⊢
  have hrd' : ∀ j, rd t j = if j < d then 0 else rd x.slot (j - d) := by
    intro j; rw [hrd]
    by_cases c1 : j < d
    · rw [if_pos c1, if_pos c1]
    · rw [if_neg c1, if_neg c1]
      split_ifs with c2
      · rfl
      · rw [hx.zero_past j (by omega), hx.zero_past (j - d) (by omega)]
  have hmag : val t (x.slot_length + d) = magnitude x * 2 ^ (32 * d) := val_shifted hrd' _
  have h1 := hx.used_pos
  have hbl := hx.bits_lower
  have hbu := hx.bits_upper
  refine ⟨?_, hmag, rfl, rfl⟩
  apply loose_intro
  · show t.length = _
    rw [hl]; exact hx.len_eq
  · show 1 ≤ x.slot_length + d
    omega
  · show x.slot_length + d ≤ x.allocated_slot_length
    rw [← hx.len_eq]; exact hroom
  · intro i; show rd t i < 2 ^ 32
    rw [hrd']; split_ifs
    · norm_num
    · exact hx.digit_lt _
  · intro i hi
    change x.slot_length + d ≤ i at hi
    show rd t i = 0
    rw [hrd', if_neg (by omega)]
    exact hx.zero_past _ (by omega)
  · show 32 * (x.slot_length + d - 1) + bit_width (rd t (x.slot_length + d - 1)) ≤
      x.bit_length + MUL_SLOT d
    rw [hrd', if_neg (by omega), show x.slot_length + d - 1 - d = x.slot_length - 1 by omega]
    simp only [MUL_SLOT]; omega
  · show x.bit_length + MUL_SLOT d ≤ 32 * (x.slot_length + d)
    simp only [MUL_SLOT]; omega

theorem left_shift_bits_zero (x : big_int) : left_shift_bits x 0 = x := by
  unfold left_shift_bits
  rw [if_neg (by omega)]

/-- The function `big_int_left_shift` by `d` whole slots on a loose operand. -/
theorem left_shift_loose {x : big_int} (hx : loose x) (d : Nat) :
    loose (left_shift_core x (32 * d)) ∧
    magnitude (left_shift_core x (32 * d)) = magnitude x * 2 ^ (32 * d) ∧
    (left_shift_core x (32 * d)).sign = x.sign ∧
    ∀ k, snug x k → snug (left_shift_core x (32 * d)) (k + d) := by
  obtain ⟨g1, g2, g3, g4, g5, g6⟩ := left_shift_grow_loose hx (32 * d)
  have hfl : BIT_TO_SLOT_FLOOR (32 * d) = d := by simp [BIT_TO_SLOT_FLOOR]
  have htl : SLOT_TAIL (32 * d) = 0 := by simp [SLOT_TAIL]
  have hroom : (left_shift_grow x (32 * d)).slot_length + d ≤
      (left_shift_grow x (32 * d)).slot.length := by
    have := hx.bits_lower
    have := hx.used_pos
    rw [BIT_TO_SLOT_eq] at g6
    rw [g4]; omega
  obtain ⟨s1, s2, s3, s4⟩ := left_shift_slots_loose g1 d hroom
  unfold left_shift_core
  rw [hfl, htl, left_shift_bits_zero]
  refine ⟨s1, by rw [s2, g2], by rw [s3, g3], ?_⟩
  intro k hs
  unfold snug at hs ⊢
  rw [s4, g4, s2, g2]
  rcases hs with h | h
  · left; omega
  · right
    have h1 := hx.used_pos
    have e : (2:Nat) ^ (32 * (x.slot_length + d - 1)) =
        2 ^ (32 * (x.slot_length - 1)) * 2 ^ (32 * d) := by
      rw [← pow_add]; congr 1; omega
    rw [e]
    exact Nat.mul_le_mul_right _ h

/-! ## The steps of the Karatsuba multiplication -/

theorem magnitude_eq_natAbs (x : big_int) : magnitude x = (to_Int x).natAbs := by
  unfold to_Int
  split_ifs <;> simp

theorem karatsuba_diff_spec {h l : big_int} (hh : pos_canonical h) (hl : pos_canonical l) :
    canonical (karatsuba_diff h l) ∧
    to_Int (karatsuba_diff h l) = (magnitude h : Int) - magnitude l ∧
    magnitude (karatsuba_diff h l) ≤ max (magnitude h) (magnitude l) := by
  obtain ⟨c1, c2, c3, _⟩ := assign_spec hh.1
  have hc : canonical (big_int_assign h) := ⟨c1, Or.inl (by rw [c3]; exact hh.2), fun _ => by rw [c3]; exact hh.2⟩
  obtain ⟨s1, s2, s3⟩ := sub_to_spec hc hl.canonical (fun hcon => by
    have := hcon.1
    rw [c3, hh.2] at this
    exact pos_ne_neg this)
  have e : to_Int (karatsuba_diff h l) = (magnitude h : Int) - magnitude l := by
    show to_Int (big_int_sub_to (big_int_assign h) l).2 = _
    rw [s3, to_Int_of_pos (by rw [c3]; exact hh.2), c2, hl.to_Int]
  refine ⟨s2, e, ?_⟩
  rw [magnitude_eq_natAbs, e]
  omega

theorem karatsuba_middle_spec {z2 z0 t0 : big_int} (h2 : pos_canonical z2)
    (h0 : weak_canonical z0) (hs0 : z0.sign = BIG_NUMBER_POSITIVE)
    (ht : canonical t0) (hle : to_Int t0 ≤ (magnitude z2 : Int) + magnitude z0)
    (d : Nat) (hd : 1 ≤ d) (hsn : snug z0 d) :
    weak_canonical (karatsuba_middle z2 z0 t0) ∧
    (karatsuba_middle z2 z0 t0).sign = BIG_NUMBER_POSITIVE ∧
    (magnitude (karatsuba_middle z2 z0 t0) : Int) = (magnitude z2 : Int) + magnitude z0 - to_Int t0 ∧
    snug (karatsuba_middle z2 z0 t0) d := by
  obtain ⟨c1, c2, c3, _⟩ := assign_spec h2.1
  have hcs : (big_int_assign z2).sign = BIG_NUMBER_POSITIVE := by rw [c3]; exact h2.2
  obtain ⟨q1, q2, q3, _⟩ := add_to_loose c1.to_loose h0.loose hcs hs0
  have q5 := add_to_snug c1.to_loose h0.loose hcs hs0 d (snug_mono (snug_of_canonical c1) hd) hsn
  rw [c2] at q3
  obtain ⟨r1, r2, r3, r4⟩ := sub_to_weak q1 q2 ht (fun hp => by
    rw [to_Int_of_pos hp] at hle
    rw [q3]
    exact_mod_cast hle)
  unfold karatsuba_middle
  refine ⟨r1, r2, ?_, r4 d hd q5⟩
  rw [r3, q3]
  push_cast; ring

theorem shl_one_mul (d : Nat) : (32 * d) <<< 1 = 32 * (2 * d) := by
  rw [shl_one]; omega

theorem karatsuba_combine_spec {z2 z1 z0 : big_int} (h2 : pos_canonical z2)
    (h1 : weak_canonical z1) (hs1 : z1.sign = BIG_NUMBER_POSITIVE)
    (h0 : weak_canonical z0) (hs0 : z0.sign = BIG_NUMBER_POSITIVE)
    (d : Nat) (hd : 1 ≤ d) (hsn1 : snug z1 d) (hsn0 : snug z0 d)
    (hbig : 2 ^ (64 * d) ≤
      magnitude z2 * 2 ^ (64 * d) + magnitude z1 * 2 ^ (32 * d) + magnitude z0) :
    ∃ r, karatsuba_combine z2 z1 z0 (32 * d) = some r ∧ pos_canonical r ∧
      magnitude r = magnitude z2 * 2 ^ (64 * d) + magnitude z1 * 2 ^ (32 * d) + magnitude z0 := by
  obtain ⟨a1, a2, a3, a4⟩ := left_shift_loose h2.1.to_loose (2 * d)
  obtain ⟨b1, b2, b3, b4⟩ := left_shift_loose h1.loose d
  have a5 := a4 1 (snug_of_canonical h2.1)
  have b5 := b4 d hsn1
  rw [h2.2] at a3
  rw [hs1] at b3
  have e64 : 32 * (2 * d) = 64 * d := by omega
  have a2' : magnitude (left_shift_core z2 (32 * (2 * d))) = magnitude z2 * 2 ^ (64 * d) := by
    rw [a2, e64]
  clear a2
  unfold karatsuba_combine
  rw [shl_one_mul, left_shift_spec, left_shift_spec]
  simp only [Option.some_bind]
  generalize left_shift_core z2 (32 * (2 * d)) = s2 at a1 a2' a3 a5 ⊢
  generalize left_shift_core z1 (32 * d) = s1 at b1 b2 b3 b5 ⊢
  obtain ⟨c1, c2, c3, c4, _⟩ := assign_loose a1
  have c5 : snug (big_int_assign s2) (1 + 2 * d) := by
    unfold snug at a5 ⊢
    rw [c4, c2]; exact a5
  rw [a3] at c3
  generalize big_int_assign s2 = r0 at c1 c2 c3 c4 c5 ⊢
  obtain ⟨p1, p2, p3, _⟩ := add_to_loose c1 b1 c3 b3
  have p5 := add_to_snug c1 b1 c3 b3 (1 + 2 * d) c5 (snug_mono b5 (by omega))
  generalize (big_int_add_to r0 s1).2 = r1 at p1 p2 p3 p5 ⊢
  obtain ⟨q1, q2, q3, _⟩ := add_to_loose p1.loose h0.loose p2 hs0
  have q5 := add_to_snug p1.loose h0.loose p2 hs0 (1 + 2 * d) p5 (snug_mono hsn0 (by omega))
  generalize (big_int_add_to r1 z0).2 = r2 at q1 q2 q3 q5 ⊢
  have hval : magnitude r2 =
      magnitude z2 * 2 ^ (64 * d) + magnitude z1 * 2 ^ (32 * d) + magnitude z0 := by
    rw [q3, p3, c2, a2', b2]
  refine ⟨r2, rfl, ⟨?_, q2⟩, hval⟩
  apply q1.canonical_of_top
  by_cases hl1 : r2.slot_length = 1
  · exact Or.inl hl1
  · right
    apply q1.loose.top_of_le
    rcases q5 with h | h
    · rw [hval]
      refine le_trans (Nat.pow_le_pow_right (by norm_num) ?_) hbig
      omega
    · exact h

/-! ## The multiplication kernel and `big_int_mul_to` -/

theorem slot_length_of_zero {x : big_int} (hx : magnitude_canonical x) (h0 : magnitude x = 0) :
    x.slot_length = 1 := by
  rcases hx.top with h | h
  · exact h
  · exact absurd (hx.magnitude_eq_zero_iff.mp h0) h

theorem plain_product_spec {same : Bool} {a b : big_int} (ha : magnitude_canonical a)
    (hb : magnitude_canonical b) (hsame : same = true → b = a) :
    weak_canonical (__big_int_mul_plain same a b) ∧
    magnitude (__big_int_mul_plain same a b) = magnitude a * magnitude b ∧
    (magnitude b ≠ 0 → magnitude_canonical (__big_int_mul_plain same a b)) ∧
    (magnitude b = 0 → (__big_int_mul_plain same a b).slot_length ≤ a.slot_length) := by
  cases same with
  | true =>
    have hba := hsame rfl
    subst hba
    obtain ⟨s1, s2⟩ := square_plain_spec hb.one_le hb.rd_lt
    have e : __big_int_mul_plain true b b = __big_int_square_plain b := by
      unfold __big_int_mul_plain; simp
    rw [e]
    refine ⟨s1.1.weak, s2, fun _ => s1.1, fun h0 => ?_⟩
    rw [slot_length_of_zero s1.1 (by rw [s2, h0])]
    exact hb.one_le
  | false =>
    obtain ⟨m1, _, m3, m4, m5⟩ := mul_plain_spec ha hb
    exact ⟨m1, m3, m4, m5⟩

theorem mul_finish_spec (a b p : big_int) (h1 : weak_canonical p)
    (h2 : magnitude p = magnitude a * magnitude b)
    (h3 : magnitude b ≠ 0 → magnitude_canonical p)
    (h4 : magnitude b = 0 → p.slot_length ≤ a.slot_length) :
    mul_result a b (mul_finish a b p) := by
  unfold mul_finish mul_result
  simp only
  refine ⟨?_, h1, trivial, h2, h3, h4⟩
  split_ifs <;> first | exact Or.inl rfl | exact Or.inr rfl

/-- A record with the digits, lengths and sign of a canonical big integer is
canonical and has the same value. -/
theorem canonical_of_same_digits {x y : big_int} (hx : canonical x)
    (hlen : y.slot.length = y.allocated_slot_length)
    (hl : y.slot_length = x.slot_length) (hle : y.slot_length ≤ y.allocated_slot_length)
    (hb : y.bit_length = x.bit_length) (hs : y.sign = x.sign)
    (hrd : ∀ i, rd y.slot i = rd x.slot i) : canonical y ∧ to_Int y = to_Int x := by
  have hmag : magnitude y = magnitude x := by
    unfold magnitude
    rw [hl]
    exact val_congr (fun i _ => hrd i)
  have hmc : magnitude_canonical y := by
    apply magnitude_canonical_intro hlen
    · rw [hl]; exact hx.mc.one_le
    · exact hle
    · intro i; rw [hrd]; exact hx.mc.rd_lt i
    · intro i hi; rw [hrd]; exact hx.mc.zero_above i (by omega)
    · rw [hl, hrd]; exact hx.mc.top
    · rw [hl, hrd, hb]; exact hx.mc.bits
  refine ⟨⟨hmc, by rw [hs]; exact hx.2.1, fun h0 => by rw [hs]; exact hx.2.2 (by rw [← hmag]; exact h0)⟩, ?_⟩
  unfold to_Int
  rw [hs, hmag]

theorem to_Int_of_zero {x : big_int} (h0 : magnitude x = 0) : to_Int x = 0 := by
  unfold to_Int
  rw [h0]; simp

theorem to_Int_of_one {x : big_int} (h1 : x.slot_length = 1)
    (h2 : rd x.slot 0 = 1) (h3 : x.sign = BIG_NUMBER_POSITIVE) : to_Int x = 1 := by
  rw [to_Int_of_pos h3]
  show ((val x.slot x.slot_length : Nat) : Int) = 1
  rw [h1, val_succ, h2]; simp [val]

/-- The short cut `1 * X == X` of `big_int_mul_to`: the digits of `num2` are
copied into a buffer that holds one used slot. -/
theorem mul_to_copy_spec (base : big_int) {b : big_int} (hb : canonical b)
    (e1 : base.slot.length = base.allocated_slot_length) (e2 : base.slot_length = 1)
    (e3 : b.slot_length ≤ base.allocated_slot_length) (e4 : ∀ i, 1 ≤ i → rd base.slot i = 0) :
    canonical { base with
        slot := for_range b.slot_length base.slot_length (fun idx s => s.set idx 0)
          (for_up b.slot_length (fun idx s => s.set idx (rd b.slot idx)) base.slot),
        bit_length := b.bit_length, slot_length := b.slot_length, sign := b.sign } ∧
    to_Int { base with
        slot := for_range b.slot_length base.slot_length (fun idx s => s.set idx 0)
          (for_up b.slot_length (fun idx s => s.set idx (rd b.slot idx)) base.slot),
        bit_length := b.bit_length, slot_length := b.slot_length, sign := b.sign } = to_Int b := by
  have hb1 := hb.mc.one_le
  obtain ⟨f1, f2⟩ := fill_loop_spec (fun idx => rd b.slot idx) b.slot_length base.slot
  rw [for_range_of_ge _ _ (by omega)]
  generalize for_up b.slot_length (fun idx s => s.set idx (rd b.slot idx)) base.slot = s0 at f1 f2 ⊢
  apply canonical_of_same_digits hb
  · show s0.length = base.allocated_slot_length
    rw [f1, e1]
  · rfl
  · exact e3
  · rfl
  · rfl
  · intro i
    show rd s0 i = rd b.slot i
    rw [f2]
    by_cases h : i < b.slot_length
    · rw [if_pos ⟨h, by omega⟩]
    · rw [if_neg (by omega), e4 i (by omega), hb.mc.zero_above i (by omega)]

theorem mul_to_with_spec {mwc : Bool → big_int → big_int → Option (big_int × big_int)} {n : Nat}
    (hm : mwc_sound mwc n) {same : Bool} {a b : big_int} (ha : canonical a) (hb : canonical b)
    (hsame : same = true → b = a) (han : a.bit_length ≤ n) (hbn : b.bit_length ≤ n) :
    ∃ r, mul_to_with mwc same a b = some r ∧ canonical r ∧ to_Int r = to_Int a * to_Int b := by
  unfold mul_to_with
  by_cases c1 : a.slot_length = 1 ∧ rd a.slot 0 = 0
  · rw [if_pos c1]
    have h0 := ha.mc.is_zero_iff.mp c1
    exact ⟨a, rfl, ha, by rw [to_Int_of_zero h0]; simp⟩
  rw [if_neg c1]
  by_cases c2 : same = false ∧ (a.slot_length = 1 ∧ rd a.slot 0 = 1 ∧ a.sign = BIG_NUMBER_POSITIVE)
  · rw [if_pos c2]
    have hbl := hb.mc.le_alloc
    simp only
    split_ifs with h
    · obtain ⟨k1, k2⟩ := mul_to_copy_spec
        { a with slot := (alloc b.allocated_slot_length).set 0 1, bit_length := 1, allocated_slot_length := b.allocated_slot_length, slot_length := 1 }
        hb (by simp [length_alloc]) rfl hbl
        (fun i hi => by
          show rd ((alloc b.allocated_slot_length).set 0 1) i = 0
          rw [rd_set_ne _ (by omega), rd_alloc])
      refine ⟨_, rfl, k1, ?_⟩
      rw [k2, to_Int_of_one c2.2.1 c2.2.2.1 c2.2.2.2]; simp
    · obtain ⟨k1, k2⟩ := mul_to_copy_spec a hb ha.mc.length_eq c2.2.1
        (by omega) (fun i hi => ha.mc.zero_above i (by omega))
      refine ⟨_, rfl, k1, ?_⟩
      rw [k2, to_Int_of_one c2.2.1 c2.2.2.1 c2.2.2.2]; simp
  rw [if_neg c2]
  by_cases c3 : b.slot_length = 1 ∧ rd b.slot 0 = 1 ∧ b.sign = BIG_NUMBER_POSITIVE
  · rw [if_pos c3]
    exact ⟨a, rfl, ha, by rw [to_Int_of_one c3.1 c3.2.1 c3.2.2]; simp⟩
  rw [if_neg c3]
  by_cases c4 : b.slot_length = 1 ∧ rd b.slot 0 = 0
  · rw [if_pos c4]
    have h0 := hb.mc.is_zero_iff.mp c4
    obtain ⟨hl, hr⟩ := clear_loop_spec a.slot a.allocated_slot_length
    have hz : ∀ i, rd (for_up a.allocated_slot_length (fun idx s => s.set idx 0) a.slot) i = 0 := by
      intro i
      rw [hr]
      split_ifs with h
      · rfl
      · exact rd_of_le (by rw [ha.mc.length_eq]; omega)
    have hmag : magnitude { a with slot := for_up a.allocated_slot_length (fun idx s => s.set idx 0) a.slot, bit_length := 1, slot_length := 1, sign := BIG_NUMBER_POSITIVE } = 0 :=
      val_eq_zero_of_forall (fun i _ => hz i)
    refine ⟨_, rfl, ⟨?_, Or.inl rfl, fun _ => rfl⟩, ?_⟩
    · apply magnitude_canonical_intro
      · show (for_up a.allocated_slot_length (fun idx s => s.set idx 0) a.slot).length = _
        rw [hl]; exact ha.mc.length_eq
      · exact le_rfl
      · show 1 ≤ a.allocated_slot_length
        have := ha.mc.one_le; have := ha.mc.le_alloc; omega
      · intro i
        show rd (for_up a.allocated_slot_length (fun idx s => s.set idx 0) a.slot) i < _
        rw [hz]; norm_num
      · intro i _; exact hz i
      · exact Or.inl rfl
      · show 1 = if rd (for_up a.allocated_slot_length (fun idx s => s.set idx 0) a.slot) (1 - 1) = 0
          then 1 else _
        rw [hz]; simp
    · rw [to_Int_of_zero hmag, to_Int_of_zero h0]; simp
  rw [if_neg c4]
  have ha0 : magnitude a ≠ 0 := fun h => c1 (ha.mc.is_zero_iff.mpr h)
  have hb0 : magnitude b ≠ 0 := fun h => c4 (hb.mc.is_zero_iff.mpr h)
  obtain ⟨r, hr, _, m2, m3, m4, m5, _⟩ := hm same a b ha.mc hb.mc hsame han hbn
  rw [hr]
  have hmc := m5 hb0
  refine ⟨r.2, rfl, ⟨hmc, ?_, fun h0 => ?_⟩, ?_⟩
  · rw [m3]; split_ifs
    · exact Or.inl rfl
    · exact Or.inr rfl
  · exfalso
    rw [m4] at h0
    rcases Nat.mul_eq_zero.mp h0 with h | h
    · exact ha0 h
    · exact hb0 h
  · rcases ha.sign_cases with sa | sa <;> rcases hb.sign_cases with sb | sb
    · rw [to_Int_of_pos sa, to_Int_of_pos sb, to_Int_of_pos (by rw [m3, sa, sb]; rfl), m4]
      push_cast; ring
    · rw [to_Int_of_pos sa, to_Int_of_neg sb,
        to_Int_of_neg (by rw [m3, sa, sb]; rfl), m4]
      push_cast; ring
    · rw [to_Int_of_neg sa, to_Int_of_pos sb,
        to_Int_of_neg (by rw [m3, sa, sb]; rfl), m4]
      push_cast; ring
    · rw [to_Int_of_neg sa, to_Int_of_neg sb, to_Int_of_pos (by rw [m3, sa, sb]; rfl), m4]
      push_cast; ring

/-! ## The Karatsuba multiplication -/

theorem or_31 (v : Nat) : (v ||| 31) + 1 = 32 * (v / 32 + 1) := by
  have hr : v % 32 < 32 := Nat.mod_lt _ (by norm_num)
  have e1 : v = 2 ^ 5 * (v / 32) + v % 32 := by
    have := Nat.div_add_mod v 32
    omega
  have e2 : v % 32 ||| 31 = 31 := by
    generalize v % 32 = r at hr
    interval_cases r <;> rfl
  have e3 : 2 ^ 5 * (v / 32) + v % 32 = 2 ^ 5 * (v / 32) ||| v % 32 :=
    Nat.mul_add_lt_is_or (by simpa using hr) _
  have e4 : 2 ^ 5 * (v / 32) + 31 = 2 ^ 5 * (v / 32) ||| 31 :=
    Nat.mul_add_lt_is_or (by norm_num) _
  have e5 : v ||| 31 = 2 ^ 5 * (v / 32) + 31 := by
    conv_lhs => rw [e1, e3]
    rw [Nat.lor_assoc, e2, ← e4]
  rw [e5]; omega

theorem bits_le_of_lt {x : big_int} (hx : magnitude_canonical x) {n : Nat} (hn : 1 ≤ n)
    (h : magnitude x < 2 ^ n) : x.bit_length ≤ n := by
  rw [hx.bits_eq]
  have := bit_width_le_iff.mpr h
  omega

theorem two_pow_le_of_bits {x : big_int} (hx : magnitude_canonical x) (h : 1 < x.bit_length) :
    2 ^ (x.bit_length - 1) ≤ magnitude x := by
  have hnz : magnitude x ≠ 0 := by
    intro h0
    have := hx.bits_of_zero h0
    omega
  rw [hx.bits_of_ne_zero hnz]
  exact two_pow_le_of_bit_width hnz

theorem with_sign_self (x : big_int) (s : Int) (h : x.sign = s) : { x with sign := s } = x := by
  cases x
  simp only at h
  simp [h]

theorem mul_result_fst {a b : big_int} {r : big_int × big_int} (h : mul_result a b r)
    (hs : a.sign = BIG_NUMBER_POSITIVE) : r.1 = a := by
  rcases h.1 with e | e
  · exact e
  · rw [e]; exact with_sign_self a _ hs

theorem split_eq (x : big_int) (d : Nat) (hd : 1 ≤ d) :
    __big_int_mul_karatsuba_split x (32 * d) =
      some (karatsuba_split_high x (32 * d), karatsuba_split_low x (32 * d)) := by
  unfold __big_int_mul_karatsuba_split
  rw [if_neg (by omega)]

theorem karatsuba_cross_le (a b c e : Nat) :
    ((a : Int) - b) * ((c : Int) - e) ≤ ((a * c : Nat) : Int) + ((b * e : Nat) : Int) := by
  have h1 : (0:Int) ≤ (a : Int) * e := by positivity
  have h2 : (0:Int) ≤ (b : Int) * c := by positivity
  push_cast
  nlinarith

theorem karatsuba_body_spec {mwc : Bool → big_int → big_int → Option (big_int × big_int)}
    {n : Nat} (hm : mwc_sound mwc n) {same : Bool} {x y : big_int}
    (hx : magnitude_canonical x) (hy : magnitude_canonical y) (hsame : same = true → y = x)
    (hxy : x.bit_length ≤ y.bit_length)
    (h768 : 768 < x.bit_length) (hmax : y.bit_length ≤ n + 1) :
    ∃ r, karatsuba_body mwc same x y = some r ∧ pos_canonical r ∧
      magnitude r = magnitude x * magnitude y := by
  -- the split point
  obtain ⟨d, hd⟩ : ∃ d, d = y.bit_length / 2 / 32 + 1 := ⟨_, rfl⟩
  have hb : ((y.bit_length >>> 1) ||| 31) + 1 = 32 * d := by
    rw [or_31, Nat.shiftRight_eq_div_pow, hd]
  have hd1 : 1 ≤ d := by omega
  have hdB : 32 * d + 1 ≤ y.bit_length := by omega
  have hBd : y.bit_length < 64 * d := by omega
  -- the four parts
  obtain ⟨x1c, x1v⟩ := split_high_spec hx d
  obtain ⟨x0c, x0v, x0l⟩ := split_low_spec hx d hd1
  obtain ⟨y1c, y1v⟩ := split_high_spec hy d
  obtain ⟨y0c, y0v, _⟩ := split_low_spec hy d hd1
  have hP : 0 < 2 ^ (32 * d) := by positivity
  have hX := Nat.div_add_mod (magnitude x) (2 ^ (32 * d))
  have hY := Nat.div_add_mod (magnitude y) (2 ^ (32 * d))
  rw [← x1v, ← x0v] at hX
  rw [← y1v, ← y0v] at hY
  have hx0lt : magnitude (karatsuba_split_low x (32 * d)) < 2 ^ (32 * d) := by
    rw [x0v]; exact Nat.mod_lt _ hP
  have hy0lt : magnitude (karatsuba_split_low y (32 * d)) < 2 ^ (32 * d) := by
    rw [y0v]; exact Nat.mod_lt _ hP
  have hxlow := two_pow_le_of_bits hx (by omega)
  have hylow := two_pow_le_of_bits hy (by omega)
  have hxup := hx.magnitude_lt_bits
  have hyup := hy.magnitude_lt_bits
  have hn1 : 1 ≤ n := by omega
  have hpn : 2 ^ (32 * d) ≤ 2 ^ n := Nat.pow_le_pow_right (by norm_num) (by omega)
  have hhalf : ∀ v b, v < 2 ^ b → 1 ≤ b → b ≤ n + 1 → v / 2 ^ (32 * d) < 2 ^ n := by
    intro v b hv h1 hbn
    have h3 : v / 2 ^ (32 * d) ≤ v / 2 :=
      Nat.div_le_div_left (by
        calc 2 = 2 ^ 1 := rfl
          _ ≤ 2 ^ (32 * d) := Nat.pow_le_pow_right (by norm_num) (by omega)) (by norm_num)
    have h4 : 2 ^ b ≤ 2 ^ (n + 1) := Nat.pow_le_pow_right (by norm_num) hbn
    rw [pow_succ] at h4
    omega
  have hx1n : magnitude (karatsuba_split_high x (32 * d)) < 2 ^ n := by
    rw [x1v]; exact hhalf _ _ hxup (by omega) (by omega)
  have hy1n : magnitude (karatsuba_split_high y (32 * d)) < 2 ^ n := by
    rw [y1v]; exact hhalf _ _ hyup (by omega) hmax
  have hy1nz : magnitude (karatsuba_split_high y (32 * d)) ≠ 0 := by
    rw [y1v]
    have h3 : 2 ^ (32 * d) ≤ 2 ^ (y.bit_length - 1) :=
      Nat.pow_le_pow_right (by norm_num) (by omega)
    have := Nat.div_pos (le_trans h3 hylow) hP
    omega
  -- the second split gives the same parts when the operands are one object
  have hsplit_y : (if same = true then
      some (karatsuba_split_high x (32 * d), karatsuba_split_low x (32 * d))
      else __big_int_mul_karatsuba_split y (32 * d)) =
      some (karatsuba_split_high y (32 * d), karatsuba_split_low y (32 * d)) := by
    split_ifs with hs
    · rw [hsame hs]
    · exact split_eq y d hd1
  have hsame_hi : same = true →
      karatsuba_split_high y (32 * d) = karatsuba_split_high x (32 * d) :=
    fun hs => by rw [hsame hs]
  have hsame_lo : same = true →
      karatsuba_split_low y (32 * d) = karatsuba_split_low x (32 * d) :=
    fun hs => by rw [hsame hs]
  unfold karatsuba_body
  simp only [hb]
  rw [split_eq x d hd1]
  simp only [Option.some_bind]
  rw [hsplit_y]
  simp only [Option.some_bind]
  generalize karatsuba_split_high x (32 * d) = x1 at *
  generalize karatsuba_split_low x (32 * d) = x0 at *
  generalize karatsuba_split_high y (32 * d) = y1 at *
  generalize karatsuba_split_low y (32 * d) = y0 at *
  -- the products of the parts
  obtain ⟨r2, hr2, m2⟩ := hm same x1 y1 x1c.1 y1c.1 hsame_hi
    (bits_le_of_lt x1c.1 hn1 hx1n) (bits_le_of_lt y1c.1 hn1 hy1n)
  obtain ⟨r0, hr0, m0⟩ := hm same x0 y0 x0c.1 y0c.1 hsame_lo
    (bits_le_of_lt x0c.1 hn1 (lt_of_lt_of_le hx0lt hpn))
    (bits_le_of_lt y0c.1 hn1 (lt_of_lt_of_le hy0lt hpn))
  have e2 := mul_result_fst m2 x1c.2
  have e0 := mul_result_fst m0 x0c.2
  rw [hr2]
  simp only [Option.some_bind]
  rw [hr0]
  simp only [Option.some_bind]
  rw [e2, e0]
  obtain ⟨_, z2w, z2s, z2v, z2c, _⟩ := m2
  obtain ⟨_, z0w, z0s, z0v, z0c, z0l⟩ := m0
  have z2mc := z2c hy1nz
  rw [x1c.2, y1c.2, if_pos rfl] at z2s
  rw [x0c.2, y0c.2, if_pos rfl] at z0s
  have z0snug : snug r0.2 d := by
    by_cases h0 : magnitude y0 = 0
    · exact Or.inl (le_trans (z0l h0) x0l)
    · exact snug_mono (snug_of_canonical (z0c h0)) hd1
  generalize r2.2 = z2 at *
  generalize r0.2 = z0 at *
  -- the differences and their product
  obtain ⟨t0c, t0v, t0m⟩ := karatsuba_diff_spec x1c x0c
  obtain ⟨t1c, t1v, t1m⟩ := karatsuba_diff_spec y1c y0c
  have ht1 : (if same = true then karatsuba_diff x1 x0 else karatsuba_diff y1 y0) =
      karatsuba_diff y1 y0 := by
    split_ifs with hs
    · rw [hsame_hi hs, hsame_lo hs]
    · rfl
  rw [ht1]
  have ht0n : magnitude (karatsuba_diff x1 x0) < 2 ^ n :=
    lt_of_le_of_lt t0m (max_lt hx1n (lt_of_lt_of_le hx0lt hpn))
  have ht1n : magnitude (karatsuba_diff y1 y0) < 2 ^ n :=
    lt_of_le_of_lt t1m (max_lt hy1n (lt_of_lt_of_le hy0lt hpn))
  obtain ⟨t, ht, tc, tv⟩ := mul_to_with_spec hm t0c t1c
    (fun hs => by rw [hsame_hi hs, hsame_lo hs])
    (bits_le_of_lt t0c.mc hn1 ht0n) (bits_le_of_lt t1c.mc hn1 ht1n)
  rw [ht]
  simp only [Option.some_bind]
  rw [t0v, t1v] at tv
  -- the middle term
  have hle : to_Int t ≤ (magnitude z2 : Int) + magnitude z0 := by
    rw [tv, z2v, z0v]
    exact karatsuba_cross_le _ _ _ _
  obtain ⟨q1, q2, q3, q4⟩ := karatsuba_middle_spec ⟨z2mc, z2s⟩ z0w z0s tc hle d hd1 z0snug
  have hz1 : magnitude (karatsuba_middle z2 z0 t) =
      magnitude x1 * magnitude y0 + magnitude x0 * magnitude y1 := by
    have : (magnitude (karatsuba_middle z2 z0 t) : Int) =
        ((magnitude x1 * magnitude y0 + magnitude x0 * magnitude y1 : Nat) : Int) := by
      rw [q3, tv, z2v, z0v]
      push_cast; ring
    exact_mod_cast this
  generalize karatsuba_middle z2 z0 t = z1 at q1 q2 q4 hz1 ⊢
  -- the sum
  have e64 : (2:Nat) ^ (64 * d) = 2 ^ (32 * d) * 2 ^ (32 * d) := by
    rw [← pow_add]; congr 1; omega
  have htotal : magnitude z2 * 2 ^ (64 * d) + magnitude z1 * 2 ^ (32 * d) + magnitude z0 =
      magnitude x * magnitude y := by
    rw [z2v, z0v, hz1, e64, ← hX, ← hY]
    ring
  have hbig : 2 ^ (64 * d) ≤
      magnitude z2 * 2 ^ (64 * d) + magnitude z1 * 2 ^ (32 * d) + magnitude z0 := by
    rw [htotal]
    have h3 : 2 ^ (x.bit_length - 1) * 2 ^ (y.bit_length - 1) ≤ magnitude x * magnitude y :=
      Nat.mul_le_mul hxlow hylow
    rw [← pow_add] at h3
    exact le_trans (Nat.pow_le_pow_right (by norm_num) (by omega)) h3
  obtain ⟨r, hr, rc, rv⟩ := karatsuba_combine_spec ⟨z2mc, z2s⟩ q1 q2 z0w z0s d hd1 q4 z0snug hbig
  exact ⟨r, hr, rc, by rw [rv, htotal]⟩

theorem karatsuba_with_spec {mwc : Bool → big_int → big_int → Option (big_int × big_int)}
    {n : Nat} (hm : mwc_sound mwc n) {same : Bool} {a b : big_int}
    (ha : magnitude_canonical a) (hb : magnitude_canonical b) (hsame : same = true → b = a)
    (ha768 : 768 < a.bit_length) (hb768 : 768 < b.bit_length)
    (han : a.bit_length ≤ n + 1) (hbn : b.bit_length ≤ n + 1) :
    ∃ r, karatsuba_with mwc same a b = some r ∧ magnitude_canonical r ∧
      magnitude r = magnitude a * magnitude b := by
  have hb0 : magnitude b ≠ 0 := by
    intro h0
    have := hb.bits_of_zero h0
    omega
  unfold karatsuba_with
  simp only
  split_ifs with hgt hfall hfall
  · obtain ⟨p1, p2, p3, _⟩ := plain_product_spec ha hb hsame
    exact ⟨_, rfl, p3 hb0, p2⟩
  · obtain ⟨r, hr, rc, rv⟩ := karatsuba_body_spec hm hb ha (fun hs => (hsame hs).symm)
      (by omega) hb768 han
    exact ⟨r, hr, rc.1, by rw [rv, Nat.mul_comm]⟩
  · obtain ⟨p1, p2, p3, _⟩ := plain_product_spec ha hb hsame
    exact ⟨_, rfl, p3 hb0, p2⟩
  · obtain ⟨r, hr, rc, rv⟩ := karatsuba_body_spec hm ha hb hsame (by omega) ha768 hbn
    exact ⟨r, hr, rc.1, rv⟩

/-- The kernel `__big_int_mul_without_check` with `fuel` levels of recursion
is right on operands of at most `768 + fuel` bits. -/
theorem mwc_sound_fuel : ∀ fuel, mwc_sound (__big_int_mul_without_check fuel) (768 + fuel) := by
  intro fuel
  induction fuel with
  | zero =>
    intro same a b ha hb hsame han hbn
    obtain ⟨p1, p2, p3, p4⟩ := plain_product_spec ha hb hsame
    refine ⟨mul_finish a b (__big_int_mul_plain same a b), ?_, mul_finish_spec a b _ p1 p2 p3 p4⟩
    unfold __big_int_mul_without_check
    rw [if_neg (by simp only [BIG_NUMBER_MUL_KARATSUBA_THRESHOLD]; omega)]
  | succ fuel ih =>
    intro same a b ha hb hsame han hbn
    unfold __big_int_mul_without_check
    split_ifs with hk
    · simp only [BIG_NUMBER_MUL_KARATSUBA_THRESHOLD] at hk
      obtain ⟨r, hr, rc, rv⟩ := karatsuba_with_spec ih ha hb hsame (by omega) (by omega)
        (by omega) (by omega)
      rw [hr]
      exact ⟨mul_finish a b r, rfl, mul_finish_spec a b r rc.weak rv (fun _ => rc)
        (fun h0 => by
          have : magnitude r = 0 := by rw [rv, h0]; simp
          rw [slot_length_of_zero rc this]
          exact ha.one_le)⟩
    · obtain ⟨p1, p2, p3, p4⟩ := plain_product_spec ha hb hsame
      exact ⟨mul_finish a b (__big_int_mul_plain same a b), rfl,
        mul_finish_spec a b _ p1 p2 p3 p4⟩

/-- The function `big_int_mul_to` on canonical signed operands, distinct or one
object: enough fuel gives the canonical product. -/
theorem mul_to_spec {same : Bool} {a b : big_int} (ha : canonical a) (hb : canonical b)
    (hsame : same = true → b = a) (fuel : Nat) (hfa : a.bit_length ≤ 768 + fuel)
    (hfb : b.bit_length ≤ 768 + fuel) :
    ∃ r, big_int_mul_to fuel same a b = some r ∧ canonical r ∧
      to_Int r = to_Int a * to_Int b :=
  mul_to_with_spec (mwc_sound_fuel fuel) ha hb hsame hfa hfb

/-! ## Modular exponentiation -/

/-- The bit test `w & (1 << i)` of the exponent loop. -/
theorem and_bit_ne_zero_iff (w i : Nat) : w &&& (1 <<< i) ≠ 0 ↔ w / 2 ^ i % 2 = 1 := by
  have h := land_mask w i 1
  rw [show (2 ^ 1 - 1 : Nat) = 1 from rfl, pow_one] at h
  rw [h]
  have hp : 0 < 2 ^ i := by positivity
  rcases Nat.mod_two_eq_zero_or_one (w / 2 ^ i) with e | e
  · rw [e]; simp
  · rw [e]; simp

theorem val_tail (s : List Nat) (m : Nat) :
    ∀ k, ∃ H, val s (m + k) = val s m + 2 ^ (32 * m) * H := by
  intro k
  induction k with
  | zero => exact ⟨0, by simp⟩
  | succ k ih =>
    obtain ⟨H, e⟩ := ih
    refine ⟨H + rd s (m + k) * 2 ^ (32 * k), ?_⟩
    rw [← Nat.add_assoc, val_succ, e, Nat.mul_add 32 m k, pow_add]
    ring

/-- Bit `32 * j + i` of the number held in `n` slots is bit `i` of slot `j`. -/
theorem val_bit {s : List Nat} (h : ∀ i, rd s i < 2 ^ 32) (n j i : Nat) (hj : j < n)
    (hi : i < 32) : val s n / 2 ^ (32 * j + i) % 2 = rd s j / 2 ^ i % 2 := by
  obtain ⟨H, e⟩ := val_tail s (j + 1) (n - (j + 1))
  rw [show j + 1 + (n - (j + 1)) = n by omega, val_succ] at e
  have hlt := val_lt h j
  have e1 : val s n = val s j + 2 ^ (32 * j) * (rd s j + 2 ^ 32 * H) := by
    rw [e, show 32 * (j + 1) = 32 * j + 32 by omega, pow_add]; ring
  have hp : 0 < 2 ^ (32 * j) := by positivity
  rw [pow_add, ← Nat.div_div_eq_div_mul, e1, Nat.add_mul_div_left _ _ hp,
    Nat.div_eq_of_lt hlt, Nat.zero_add]
  have e2 : (2 : Nat) ^ 32 = 2 ^ i * (2 * 2 ^ (31 - i)) := by
    rw [← pow_succ', ← pow_add]; congr 1; omega
  rw [e2, show 2 ^ i * (2 * 2 ^ (31 - i)) * H = 2 ^ i * (2 * (2 ^ (31 - i) * H)) by ring,
    Nat.add_mul_div_left _ _ (by positivity : 0 < 2 ^ i), Nat.add_mul_mod_self_left]

theorem pow_mod_result_step (A P Y N e0 : Nat) (hY : Y % N = A ^ P % N) :
    (A ^ e0 % N * Y) % N = A ^ (e0 + P) % N := by
  calc (A ^ e0 % N * Y) % N = ((A ^ e0 % N) % N * (Y % N)) % N := Nat.mul_mod _ _ _
    _ = ((A ^ e0 % N) * (A ^ P % N)) % N := by rw [Nat.mod_mod, hY]
    _ = (A ^ e0 * A ^ P) % N := (Nat.mul_mod _ _ N).symm
    _ = A ^ (e0 + P) % N := by rw [pow_add]

theorem pow_mod_square_step (A P Y N : Nat) (hY : Y % N = A ^ P % N) :
    (Y * Y) % N % N = A ^ (P * 2) % N := by
  calc (Y * Y) % N % N = (Y * Y) % N := Nat.mod_mod _ _
    _ = ((Y % N) * (Y % N)) % N := Nat.mul_mod _ _ _
    _ = ((A ^ P % N) * (A ^ P % N)) % N := by rw [hY]
    _ = (A ^ P * A ^ P) % N := (Nat.mul_mod _ _ N).symm
    _ = A ^ (P * 2) % N := by rw [← pow_add, Nat.mul_two]

/-- A product followed by a reduction, as the exponent loop does twice. -/
theorem mul_mod_spec (same : Bool) {x y n : big_int} (hx : pos_canonical x)
    (hy : pos_canonical y) (hn : pos_canonical n) (hN : 1 ≤ magnitude n)
    (hsame : same = true → y = x) {M : Nat} (hM : 1 ≤ M) (hxM : magnitude x < 2 ^ M)
    (hyM : magnitude y < 2 ^ M) (fuel : Nat) (hf : 2 * M + 1 ≤ fuel) :
    ∃ r, ((big_int_mul_to fuel same x y).bind fun r => big_int_mod_to fuel r n) = some r ∧
      pos_canonical r ∧ magnitude r = magnitude x * magnitude y % magnitude n := by
  have bx := bits_le_of_lt hx.1 hM hxM
  have by1 := bits_le_of_lt hy.1 hM hyM
  obtain ⟨p, p1, p2, p3⟩ := mul_to_spec hx.canonical hy.canonical hsame fuel (by omega) (by omega)
  rw [hx.to_Int, hy.to_Int] at p3
  have pp : pos_canonical p := pos_canonical_of_nonneg p2 (by rw [p3]; positivity)
  have pm : magnitude p = magnitude x * magnitude y := by
    have := pp.to_Int; rw [p3] at this; exact_mod_cast this.symm
  have plt : magnitude p < 2 ^ (2 * M) := by
    rw [pm, Nat.two_mul, pow_add]
    exact Nat.mul_lt_mul'' hxM hyM
  have bp := bits_le_of_lt pp.1 (by omega : 1 ≤ 2 * M) plt
  obtain ⟨r, r1, r2, r3, _⟩ := mod_to_spec pp hn hN fuel (by omega)
  refine ⟨r, ?_, r2, by rw [r3, pm]⟩
  rw [p1]; exact r1

/-- The inner loop of `big_int_pow_mod_to` on slot `s` of the exponent. -/
theorem pow_mod_bits_spec {e n : big_int} (he : magnitude_canonical e) (hn : pos_canonical n)
    (hN : 2 ≤ magnitude n) {A M : Nat} (hM : n.bit_length ≤ M) (fuel : Nat)
    (hf : 2 * M + 1 ≤ fuel) (s : Nat) (hs : s < e.slot_length) :
    ∀ cnt bit_idx st, cnt + bit_idx = 32 → 32 * s + bit_idx ≤ e.bit_length →
      (cnt ≠ 0 → 32 * s + bit_idx < e.bit_length) →
      pow_mod_inv A (magnitude e) (magnitude n) M e.bit_length (32 * s + bit_idx) st →
      ∃ st1, pow_mod_bits fuel n (rd e.slot s) cnt bit_idx st = some st1 ∧
        pow_mod_inv A (magnitude e) (magnitude n) M e.bit_length
          (min (32 * (s + 1)) e.bit_length) st1 := by
  have hM1 : 1 ≤ M := le_trans hn.1.one_le_bits hM
  have hNM : magnitude n < 2 ^ M :=
    lt_of_lt_of_le hn.1.magnitude_lt_bits (Nat.pow_le_pow_right (by norm_num) hM)
  intro cnt
  induction cnt with
  | zero =>
    intro bit_idx st h32 hle _ hinv
    refine ⟨st, rfl, ?_⟩
    rw [show min (32 * (s + 1)) e.bit_length = 32 * s + bit_idx by omega]
    exact hinv
  | succ cnt ih =>
    intro bit_idx st h32 _ hlt hinv
    have hlt := hlt (by omega)
    obtain ⟨i1, i2, i3, i4, i5, i6⟩ := hinv
    have hbit : magnitude e / 2 ^ (32 * s + bit_idx) % 2 = rd e.slot s / 2 ^ bit_idx % 2 :=
      val_bit he.rd_lt e.slot_length s bit_idx hs (by omega)
    have hsucc : magnitude e % 2 ^ (32 * s + bit_idx + 1) =
        magnitude e % 2 ^ (32 * s + bit_idx) +
          2 ^ (32 * s + bit_idx) * (magnitude e / 2 ^ (32 * s + bit_idx) % 2) := Nat.mod_pow_succ
    have irM : magnitude st.result < 2 ^ M := by
      rw [i3]; exact lt_trans (Nat.mod_lt _ (by omega)) hNM
    -- the new `result`
    have hres : ∃ r, (if rd e.slot s &&& (1 <<< bit_idx) ≠ 0 then
          (big_int_mul_to fuel false st.result st.num1).bind fun r => big_int_mod_to fuel r n
        else some st.result) = some r ∧ pos_canonical r ∧
        magnitude r = A ^ (magnitude e % 2 ^ (32 * s + bit_idx + 1)) % magnitude n := by
      by_cases hb : rd e.slot s &&& (1 <<< bit_idx) ≠ 0
      · rw [if_pos hb]
        have hb1 := (and_bit_ne_zero_iff _ _).mp hb
        obtain ⟨r, r1, r2, r3⟩ := mul_mod_spec false i1 i2 hn (by omega) (fun h => by cases h) hM1
          irM i5 fuel hf
        refine ⟨r, r1, r2, ?_⟩
        rw [r3, i3, hsucc, hbit, hb1, Nat.mul_one]
        exact pow_mod_result_step A _ _ _ _ i4
      · rw [if_neg hb]
        have hb0 : rd e.slot s / 2 ^ bit_idx % 2 = 0 := by
          rcases Nat.mod_two_eq_zero_or_one (rd e.slot s / 2 ^ bit_idx) with h0 | h1
          · exact h0
          · exact absurd ((and_bit_ne_zero_iff _ _).mpr h1) hb
        refine ⟨st.result, rfl, i1, ?_⟩
        rw [i3, hsucc, hbit, hb0, Nat.mul_zero, Nat.add_zero]
    obtain ⟨r, r1, r2, r3⟩ := hres
    -- the new `num1`
    obtain ⟨q, q1, q2, q3⟩ := mul_mod_spec true i2 i2 hn (by omega) (fun _ => rfl) hM1 i5 i5 fuel hf
    have q4 : magnitude q % magnitude n = A ^ 2 ^ (32 * s + bit_idx + 1) % magnitude n := by
      rw [q3, pow_succ 2]
      exact pow_mod_square_step A _ _ _ i4
    have q5 : magnitude q < 2 ^ M := by
      rw [q3]; exact lt_trans (Nat.mod_lt _ (by omega)) hNM
    have hinv1 : pow_mod_inv A (magnitude e) (magnitude n) M e.bit_length (32 * s + bit_idx + 1)
        { result := r, num1 := q, bit_count := st.bit_count - 1 } :=
      ⟨r2, q2, r3, q4, q5, by show st.bit_count - 1 = _; rw [i6]; push_cast; ring⟩
    unfold pow_mod_bits
    rw [r1]
    simp only [Option.some_bind]
    cases hmul : big_int_mul_to fuel true st.num1 st.num1 with
    | none => rw [hmul] at q1; cases q1
    | some v =>
      rw [hmul] at q1
      simp only [Option.some_bind] at q1 ⊢
      rw [q1]
      simp only [Option.some_bind]
      by_cases hz : st.bit_count - 1 = 0
      · rw [if_pos hz]
        refine ⟨_, rfl, ?_⟩
        have : 32 * s + bit_idx + 1 = e.bit_length := by rw [i6] at hz; omega
        rw [show min (32 * (s + 1)) e.bit_length = 32 * s + bit_idx + 1 by omega]
        exact hinv1
      · rw [if_neg hz]
        have hne : 32 * s + bit_idx + 1 ≠ e.bit_length := by
          intro h; apply hz; rw [i6]; omega
        exact ih (bit_idx + 1) _ (by omega) (by omega) (fun _ => by omega) hinv1

/-- The slot loop of `big_int_pow_mod_to`. -/
theorem pow_mod_slots_spec {e n : big_int} (he : magnitude_canonical e) (hn : pos_canonical n)
    (hN : 2 ≤ magnitude n) {A M : Nat} (hM : n.bit_length ≤ M) (fuel : Nat)
    (hf : 2 * M + 1 ≤ fuel) (st0 : pow_mod_state)
    (h0 : pow_mod_inv A (magnitude e) (magnitude n) M e.bit_length 0 st0) :
    ∃ st1, for_up e.slot_length (fun slot_idx (st : Option pow_mod_state) =>
          st.bind fun st => pow_mod_bits fuel n (rd e.slot slot_idx) BIT_PER_SLOT 0 st)
        (some st0) = some st1 ∧
      pow_mod_inv A (magnitude e) (magnitude n) M e.bit_length e.bit_length st1 := by
  have hb := he.bits_bounds
  have key := for_up_induct
    (fun k (x : Option pow_mod_state) => ∃ st, x = some st ∧
      pow_mod_inv A (magnitude e) (magnitude n) M e.bit_length (min (32 * k) e.bit_length) st)
    e.slot_length (fun slot_idx (st : Option pow_mod_state) =>
          st.bind fun st => pow_mod_bits fuel n (rd e.slot slot_idx) BIT_PER_SLOT 0 st)
    (some st0) ⟨st0, rfl, by simpa using h0⟩
    (by
      rintro k x hk ⟨st, rfl, hinv⟩
      have hk1 : 32 * k < e.bit_length := by omega
      rw [show min (32 * k) e.bit_length = 32 * k + 0 by omega] at hinv
      obtain ⟨st1, s1, s2⟩ := pow_mod_bits_spec he hn hN hM fuel hf k hk 32 0 st rfl
        (by omega) (fun _ => by omega) hinv
      exact ⟨st1, s1, s2⟩)
  obtain ⟨st1, s1, s2⟩ := key
  rw [show min (32 * e.slot_length) e.bit_length = e.bit_length by omega] at s2
  exact ⟨st1, s1, s2⟩

theorem rebuild_pos (x : big_int) (s : Int) (h : x.sign = s) :
    ({ slot := x.slot, allocated_slot_length := x.allocated_slot_length,
       bit_length := x.bit_length, slot_length := x.slot_length, sign := s } : big_int) = x := by
  cases x
  simp only at h
  subst h
  rfl

/-- Modular exponentiation of non-negative canonical operands. -/
theorem pow_mod_to_spec {a e n : big_int} (ha : pos_canonical a) (he : pos_canonical e)
    (hE : 1 ≤ magnitude e) (hn : pos_canonical n) (hN : 2 ≤ magnitude n) (fuel : Nat)
    (hf : 2 * (a.bit_length + n.bit_length) + 1 ≤ fuel) :
    ∃ r, big_int_pow_mod_to fuel a e n = some r ∧ pos_canonical r ∧
      magnitude r = magnitude a ^ magnitude e % magnitude n := by
  have hsign : (if pow_sign a e = e.sign then BIG_NUMBER_POSITIVE else BIG_NUMBER_NEGATIVE) =
      BIG_NUMBER_POSITIVE := by
    unfold pow_sign
    rw [if_pos ha.2, he.2, if_pos rfl]
  unfold big_int_pow_mod_to
  simp only
  rw [hsign]
  by_cases h0 : a.slot_length = 1 ∧ rd a.slot 0 = 0
  · rw [if_pos h0]
    obtain ⟨z1, z2, _, _⟩ := new_from_int_spec 0 (by norm_num)
    refine ⟨big_int_new_from_int 0, ?_, z1, ?_⟩
    · rw [Option.map_some', rebuild_pos _ _ z1.2]
    · have hA : magnitude a = 0 := by
        show val a.slot a.slot_length = 0
        rw [h0.1, val_succ, h0.2]; simp [val]
      rw [z2, hA, zero_pow (by omega), Nat.zero_mod]
  · rw [if_neg h0]
    by_cases h1 : a.slot_length = 1 ∧ rd a.slot 0 = 1
    · rw [if_pos h1]
      obtain ⟨z1, z2, _, _⟩ := new_from_int_spec 1 (by norm_num)
      refine ⟨big_int_new_from_int 1, ?_, z1, ?_⟩
      · rw [Option.map_some', rebuild_pos _ _ z1.2]
      · have hA : magnitude a = 1 := by
          show val a.slot a.slot_length = 1
          rw [h1.1, val_succ, h1.2]; simp [val]
        rw [z2, hA, one_pow, Nat.mod_eq_of_lt (by omega)]
    · rw [if_neg h1]
      obtain ⟨z1, z2, _, _⟩ := new_from_int_spec 1 (by norm_num)
      have hinit : pow_mod_inv (magnitude a) (magnitude e) (magnitude n)
          (a.bit_length + n.bit_length) e.bit_length 0
          { result := big_int_new_from_int 1, num1 := a, bit_count := e.bit_length } := by
        refine ⟨z1, ha, ?_, ?_, ?_, ?_⟩
        · show magnitude (big_int_new_from_int 1) = _
          rw [z2, pow_zero, Nat.mod_one, pow_zero, Nat.mod_eq_of_lt (by omega)]
        · show magnitude a % magnitude n = _
          rw [pow_zero, pow_one]
        · exact lt_of_lt_of_le ha.1.magnitude_lt_bits
            (Nat.pow_le_pow_right (by norm_num) (by omega))
        · show ((e.bit_length : Nat) : Int) = _
          simp
      obtain ⟨st1, s1, s2⟩ := pow_mod_slots_spec he.1 hn hN
        (by omega : n.bit_length ≤ a.bit_length + n.bit_length) fuel hf _ hinit
      rw [s1]
      refine ⟨st1.result, ?_, s2.1, ?_⟩
      · rw [Option.map_some', Option.map_some', rebuild_pos _ _ s2.1.2]
      · rw [s2.2.2.1, Nat.mod_eq_of_lt he.1.magnitude_lt_bits]

/-! ## Signed comparison -/

theorem cmp_nat_cases (x y : Nat) :
    (cmp_nat x y = 1 ∧ y < x) ∨ (cmp_nat x y = 0 ∧ x = y) ∨ (cmp_nat x y = -1 ∧ x < y) := by
  unfold cmp_nat
  split_ifs with h1 h2
  · exact Or.inl ⟨rfl, h1⟩
  · exact Or.inr (Or.inr ⟨rfl, h2⟩)
  · exact Or.inr (Or.inl ⟨rfl, by omega⟩)

theorem neg_magnitude_ne_zero {x : big_int} (hx : canonical x)
    (hs : x.sign = BIG_NUMBER_NEGATIVE) : magnitude x ≠ 0 := fun h0 =>
  pos_ne_neg ((hx.2.2 h0).symm.trans hs)

/-- The value `big_int_compare` returns on canonical operands. -/
theorem compare_eq {a b : big_int} (ha : canonical a) (hb : canonical b) :
    big_int_compare a b =
      (if to_Int b < to_Int a then 1 else if to_Int a = to_Int b then 0 else -1) := by
  have hpn := pos_ne_neg
  unfold big_int_compare
  rcases ha.2.1 with sa | sa <;> rcases hb.2.1 with sb | sb
  · rw [if_pos sa, if_pos sb, compare_raw_eq ha.1 hb.1, to_Int_of_pos sa, to_Int_of_pos sb]
    rcases cmp_nat_cases (magnitude a) (magnitude b) with ⟨e, h⟩ | ⟨e, h⟩ | ⟨e, h⟩
    · rw [e, if_pos (by omega)]
    · rw [e, if_neg (by omega), if_pos (by omega)]
    · rw [e, if_neg (by omega), if_neg (by omega)]
  · have hb0 := neg_magnitude_ne_zero hb sb
    rw [if_pos sa, if_neg (by rw [sb]; exact hpn.symm), to_Int_of_pos sa, to_Int_of_neg sb,
      if_pos (by omega)]
  · have ha0 := neg_magnitude_ne_zero ha sa
    rw [if_neg (by rw [sa]; exact hpn.symm), if_neg (by rw [sb]; exact hpn), to_Int_of_neg sa,
      to_Int_of_pos sb, if_neg (by omega), if_neg (by omega)]
  · rw [if_neg (by rw [sa]; exact hpn.symm), if_pos sb, compare_raw_eq hb.1 ha.1,
      to_Int_of_neg sa, to_Int_of_neg sb]
    rcases cmp_nat_cases (magnitude b) (magnitude a) with ⟨e, h⟩ | ⟨e, h⟩ | ⟨e, h⟩
    · rw [e, if_pos (by omega)]
    · rw [e, if_neg (by omega), if_pos (by omega)]
    · rw [e, if_neg (by omega), if_neg (by omega)]

/-! ## Hexadecimal output -/

theorem hex_to_int_hex_upper (d : Nat) (h : d < 16) : hex_to_int (hex_upper d) = d := by
  interval_cases d <;> rfl

theorem hex_upper_mem (d : Nat) (h : d < 16) : hex_upper d ∈ hex_digits := by
  interval_cases d <;> decide

theorem hex_value_append (cs : List Char) (c : Char) :
    hex_value (cs ++ [c]) = hex_value cs * 16 + hex_to_int c := by
  simp [hex_value, List.foldl_append]

theorem length_hex_field (w v : Nat) : (hex_field w v).length = w := by
  induction w generalizing v with
  | zero => rfl
  | succ w ih => simp [hex_field, ih]

theorem hex_field_mem (w v : Nat) : ∀ c ∈ hex_field w v, c ∈ hex_digits := by
  induction w generalizing v with
  | zero => intro c hc; simp [hex_field] at hc
  | succ w ih =>
    intro c hc
    simp only [hex_field, List.mem_append, List.mem_singleton] at hc
    rcases hc with hc | hc
    · exact ih _ c hc
    · rw [hc]; exact hex_upper_mem _ (Nat.mod_lt _ (by norm_num))

theorem hex_value_hex_field (w v : Nat) : hex_value (hex_field w v) = v % 16 ^ w := by
  induction w generalizing v with
  | zero => simp [hex_field, hex_value, Nat.mod_one]
  | succ w ih =>
    rw [hex_field, hex_value_append, ih, hex_to_int_hex_upper _ (Nat.mod_lt _ (by norm_num)),
      pow_succ', Nat.mod_mul]
    ring

theorem hex_value_printf_08X (v : Nat) (hv : v < 2 ^ 32) : hex_value (printf_08X v) = v := by
  unfold printf_08X
  rw [hex_value_hex_field, show (16 : Nat) ^ 8 = 2 ^ 32 by norm_num, Nat.mod_mod,
    Nat.mod_eq_of_lt hv]

theorem print_loop_append (s : List Nat) (n : Nat) (init : List Char) :
    for_down n (fun idx out => out ++ printf_08X (rd s idx)) init = init ++ print_groups s n := by
  induction n generalizing init with
  | zero => simp [print_groups, for_down_zero]
  | succ n ih =>
    unfold print_groups
    rw [for_down_succ, for_down_succ, ih, ih ([] ++ printf_08X (rd s n))]
    simp [print_groups]

theorem print_groups_succ (s : List Nat) (n : Nat) :
    print_groups s (n + 1) = printf_08X (rd s n) ++ print_groups s n := by
  unfold print_groups
  rw [for_down_succ, print_loop_append]
  simp [print_groups]

theorem length_print_groups (s : List Nat) (n : Nat) : (print_groups s n).length = 8 * n := by
  induction n with
  | zero => rfl
  | succ n ih =>
    rw [print_groups_succ, List.length_append, ih]
    unfold printf_08X
    rw [length_hex_field]; ring

theorem print_groups_mem (s : List Nat) (n : Nat) : ∀ c ∈ print_groups s n, c ∈ hex_digits := by
  induction n with
  | zero => intro c hc; simp [print_groups, for_down_zero] at hc
  | succ n ih =>
    intro c hc
    rw [print_groups_succ, List.mem_append] at hc
    rcases hc with hc | hc
    · exact hex_field_mem _ _ c hc
    · exact ih c hc

/-- The group printed for slot `i` stands eight characters per slot below the
top. -/
theorem print_groups_group (s : List Nat) (n i : Nat) (hi : i < n) :
    ((print_groups s n).drop (8 * (n - 1 - i))).take 8 = printf_08X (rd s i) := by
  induction n with
  | zero => omega
  | succ n ih =>
    rw [print_groups_succ]
    have hl : (printf_08X (rd s n)).length = 8 := by unfold printf_08X; rw [length_hex_field]
    by_cases e : i = n
    · subst e
      rw [show 8 * (i + 1 - 1 - i) = 0 by omega, List.drop_zero, List.take_append_of_le_length
        (by omega), List.take_of_length_le (by omega)]
    · have hi2 : i < n := by omega
      rw [show 8 * (n + 1 - 1 - i) = (printf_08X (rd s n)).length + 8 * (n - 1 - i) by
        rw [hl]; omega, List.drop_append]
      exact ih hi2

/-! ## Fresh buffers and the text input -/

theorem rd_map_range (mem : List Nat) (n idx : Nat) (h : idx < n) :
    rd ((List.range n).map (fun i => rd mem i)) idx = rd mem idx := by
  unfold rd
  rw [List.getD_eq_getElem _ _ (by simpa using h)]
  simp [rd]

theorem length_map_range (mem : List Nat) (n : Nat) :
    ((List.range n).map (fun i => rd mem i)).length = n := by simp

/-! ## Key agreement -/

theorem assign_pos {a : big_int} (ha : pos_canonical a) :
    pos_canonical (big_int_assign a) ∧ magnitude (big_int_assign a) = magnitude a := by
  obtain ⟨h1, h2, h3, _⟩ := assign_spec ha.1
  exact ⟨⟨h1, by rw [h3]; exact ha.2⟩, h2⟩

theorem pow_mod_pow (g x y n : Nat) : (g ^ x % n) ^ y % n = g ^ (x * y) % n := by
  rw [← Nat.pow_mod, ← pow_mul]

/-- Modular exponentiation of a copy of a non-negative base. -/
theorem pow_mod_copy_spec {x e n : big_int} (hx : pos_canonical x) (he : pos_canonical e)
    (hE : 1 ≤ magnitude e) (hn : pos_canonical n) (hN : 2 ≤ magnitude n) (fuel : Nat)
    (hf : 2 * (x.bit_length + n.bit_length) + 1 ≤ fuel) :
    ∃ r, big_int_pow_mod_to fuel (big_int_assign x) e n = some r ∧ pos_canonical r ∧
      magnitude r = magnitude x ^ magnitude e % magnitude n := by
  obtain ⟨c1, c2⟩ := assign_pos hx
  have c3 : (big_int_assign x).bit_length = x.bit_length := (assign_spec hx.1).2.2.2.2.1
  obtain ⟨r, r1, r2, r3⟩ := pow_mod_to_spec c1 he hE hn hN fuel (by rw [c3]; exact hf)
  exact ⟨r, r1, r2, by rw [r3, c2]⟩

/-- The two passwords of `dh` are the same power of the generator. -/
theorem dh_spec {p a b : big_int} (hp : pos_canonical p) (hP : 2 ≤ magnitude p)
    (ha : pos_canonical a) (hA : 1 ≤ magnitude a) (hb : pos_canonical b) (hB : 1 ≤ magnitude b)
    (fuel : Nat) (hf : 4 * p.bit_length + 5 ≤ fuel) :
    ∃ ka kb, dh fuel p a b = some (ka, kb) ∧ pos_canonical ka ∧ pos_canonical kb ∧
      magnitude ka = 2 ^ (magnitude a * magnitude b) % magnitude p ∧
      magnitude kb = 2 ^ (magnitude a * magnitude b) % magnitude p := by
  obtain ⟨g1, g2, _, _⟩ := new_from_int_spec 2 (by norm_num)
  have gb : (big_int_new_from_int 2).bit_length ≤ 2 := bits_le_of_lt g1.1 (by norm_num) (by
    rw [g2]; norm_num)
  have hpb := hp.1.one_le_bits
  have hlt : ∀ {x : big_int}, pos_canonical x → ∀ y : Nat, magnitude x = y % magnitude p →
      x.bit_length ≤ p.bit_length := by
    intro x hx y hy
    apply bits_le_of_lt hx.1 hpb
    rw [hy]
    exact lt_trans (Nat.mod_lt _ (by omega)) hp.1.magnitude_lt_bits
  obtain ⟨pa, a1, a2, a3⟩ := pow_mod_copy_spec g1 ha hA hp hP fuel (by omega)
  obtain ⟨pb, b1, b2, b3⟩ := pow_mod_copy_spec g1 hb hB hp hP fuel (by omega)
  have hpa := hlt a2 _ a3
  have hpb2 := hlt b2 _ b3
  obtain ⟨ka, k1, k2, k3⟩ := pow_mod_copy_spec b2 ha hA hp hP fuel (by omega)
  obtain ⟨kb, l1, l2, l3⟩ := pow_mod_copy_spec a2 hb hB hp hP fuel (by omega)
  refine ⟨ka, kb, ?_, k2, l2, ?_, ?_⟩
  · unfold dh
    simp only
    rw [a1]; simp only [Option.some_bind]
    rw [b1]; simp only [Option.some_bind]
    rw [k1]; simp only [Option.some_bind]
    rw [l1]; simp only [Option.some_bind]
  · rw [k3, b3, g2, pow_mod_pow, Nat.mul_comm]
  · rw [l3, a3, g2, pow_mod_pow]

/-! ## The allocating multiplication on non-negative operands -/

theorem magnitude_of_one_slot {x : big_int} (h1 : x.slot_length = 1) : magnitude x = rd x.slot 0 := by
  show val x.slot x.slot_length = _
  rw [h1, val_succ]; simp [val]

theorem one_slot_zero_of_magnitude {x : big_int} (hx : magnitude_canonical x)
    (h0 : magnitude x = 0) : x.slot_length = 1 ∧ rd x.slot 0 = 0 := by
  have h1 := slot_length_of_zero hx h0
  have := hx.magnitude_eq_zero_iff.mp h0
  rw [h1] at this
  exact ⟨h1, this⟩

/-- The function `big_int_mul` on non-negative canonical operands: the first
operand is left as it was and the new integer is the product. -/
theorem mul_pos_spec (same : Bool) {a b : big_int} (ha : pos_canonical a) (hb : pos_canonical b)
    (hsame : same = true → b = a) (fuel : Nat) (hfa : a.bit_length ≤ 768 + fuel)
    (hfb : b.bit_length ≤ 768 + fuel) :
    ∃ r, big_int_mul fuel same a b = some r ∧ r.1 = a ∧ pos_canonical r.2 ∧
      magnitude r.2 = magnitude a * magnitude b := by
  obtain ⟨z1, z2, _, _⟩ := new_from_int_spec 0 (by norm_num)
  unfold big_int_mul
  by_cases h0 : a.slot_length = 1 ∧ rd a.slot 0 = 0
  · rw [if_pos h0]
    refine ⟨_, rfl, rfl, z1, ?_⟩
    rw [z2, magnitude_of_one_slot h0.1, h0.2, Nat.zero_mul]
  rw [if_neg h0]
  by_cases h1 : a.slot_length = 1 ∧ rd a.slot 0 = 1
  · rw [if_pos h1]
    obtain ⟨c1, c2⟩ := assign_pos hb
    refine ⟨_, rfl, rfl, c1, ?_⟩
    rw [c2, magnitude_of_one_slot h1.1, h1.2, Nat.one_mul]
  rw [if_neg h1]
  by_cases h2 : b.slot_length = 1 ∧ rd b.slot 0 = 1
  · rw [if_pos h2]
    obtain ⟨c1, c2⟩ := assign_pos ha
    refine ⟨_, rfl, rfl, c1, ?_⟩
    rw [c2, magnitude_of_one_slot h2.1, h2.2, Nat.mul_one]
  rw [if_neg h2]
  by_cases h3 : b.slot_length = 1 ∧ rd b.slot 0 = 0
  · rw [if_pos h3]
    refine ⟨_, rfl, rfl, z1, ?_⟩
    rw [z2, magnitude_of_one_slot h3.1, h3.2, Nat.mul_zero]
  rw [if_neg h3]
  have hbnz : magnitude b ≠ 0 := fun h => h3 (one_slot_zero_of_magnitude hb.1 h)
  obtain ⟨r, r1, r2, r3, r4, r5, r6, _⟩ := mwc_sound_fuel fuel same a b ha.1 hb.1 hsame hfa hfb
  refine ⟨r, r1, ?_, ⟨r6 hbnz, ?_⟩, r5⟩
  · rcases r2 with e | e
    · exact e
    · rw [e, with_sign_self a _ ha.2]
  · rw [r4, ha.2, hb.2, if_pos rfl]

/-! ## Fibonacci numbers by powers of a matrix -/

theorem fib_le_two_pow (k : Nat) : Nat.fib k ≤ 2 ^ k := by
  induction k using Nat.strong_induction_on with
  | _ k ih =>
    match k with
    | 0 => simp
    | 1 => simp
    | k + 2 =>
      rw [Nat.fib_add_two]
      have h1 := ih k (by omega)
      have h2 := ih (k + 1) (by omega)
      have e : 2 ^ (k + 2) = 2 ^ k * 4 := by rw [pow_add]; norm_num
      have e1 : 2 ^ (k + 1) = 2 ^ k * 2 := by rw [pow_succ]
      omega

theorem fib_prev_le (k : Nat) : fib_prev k ≤ Nat.fib (k + 1) := by
  unfold fib_prev
  split_ifs with h
  · subst h; simp
  · exact Nat.fib_mono (by omega)

theorem fib_prev_succ (k : Nat) : fib_prev (k + 1) = Nat.fib k := by
  simp [fib_prev]

theorem fib_mul_01 (j k : Nat) :
    Nat.fib (j + 1) * Nat.fib k + Nat.fib j * fib_prev k = Nat.fib (j + k) := by
  cases k with
  | zero => simp [fib_prev]
  | succ k =>
    rw [fib_prev_succ, show j + (k + 1) = j + k + 1 by omega, Nat.fib_add]
    ring

theorem fib_mul_10 (j k : Nat) :
    Nat.fib j * Nat.fib (k + 1) + fib_prev j * Nat.fib k = Nat.fib (j + k) := by
  cases j with
  | zero => simp [fib_prev]
  | succ j =>
    rw [fib_prev_succ, show j + 1 + k = j + k + 1 by omega, Nat.fib_add]
    ring

theorem fib_mul_11 (j k : Nat) :
    Nat.fib j * Nat.fib k + fib_prev j * fib_prev k = fib_prev (j + k) := by
  cases j with
  | zero => simp [fib_prev]
  | succ j =>
    cases k with
    | zero => simp [fib_prev]
    | succ k =>
      rw [fib_prev_succ, fib_prev_succ, show j + 1 + (k + 1) = (j + k + 1) + 1 by omega,
        fib_prev_succ, Nat.fib_add]
      ring

theorem fib_mul_00 (j k : Nat) :
    Nat.fib (j + 1) * Nat.fib (k + 1) + Nat.fib j * Nat.fib k = Nat.fib (j + k + 1) := by
  rw [Nat.fib_add]; ring

/-! ## The product of two matrices -/

theorem matrix_2_set_get (m : matrix_2) (i j : Nat) :
    matrix_2_set m i j (matrix_2_get m i j) = m := by
  unfold matrix_2_set matrix_2_get
  split_ifs <;> rfl

theorem sum_pos_spec {x y : big_int} (hx : pos_canonical x) (hy : pos_canonical y) :
    pos_canonical (big_int_add_to x y).2 ∧
      magnitude (big_int_add_to x y).2 = magnitude x + magnitude y := by
  obtain ⟨_, h2, h3⟩ := add_to_spec hx.canonical hy.canonical
  rw [hx.to_Int, hy.to_Int] at h3
  have hp := pos_canonical_of_nonneg h2 (by rw [h3]; positivity)
  refine ⟨hp, ?_⟩
  rw [hp.to_Int] at h3
  exact_mod_cast h3

/-- One use of the macro `MATRIX_2_MUL_EXP` on non-negative matrices: the
operands are left as they were and the entry written is the sum of the two
products. -/
theorem matrix_mul_exp_spec {a b : matrix_2} {n : Nat} (ha : matrix_pos a n)
    (hb : matrix_pos b n) (shared : Bool) (hsh : shared = true → b = a) (fuel : Nat)
    (hf : n ≤ 768 + fuel) (res : matrix_2) (r1 r2 a1 a2 b1 b2 a3 a4 b3 b4 : Nat) :
    ∃ t, MATRIX_2_MUL_EXP fuel shared r1 r2 a1 a2 b1 b2 a3 a4 b3 b4 (res, a, b) =
        some (matrix_2_set res r1 r2 t, a, b) ∧ pos_canonical t ∧
      magnitude t = magnitude (matrix_2_get a a1 a2) * magnitude (matrix_2_get b b1 b2) +
        magnitude (matrix_2_get a a3 a4) * magnitude (matrix_2_get b b3 b4) := by
  have hsame : ∀ i j k l, (shared && i == k && j == l) = true →
      matrix_2_get b k l = matrix_2_get a i j := by
    intro i j k l h
    simp only [Bool.and_eq_true, beq_iff_eq] at h
    rw [hsh h.1.1, h.1.2, h.2]
  have hbb : (if shared = true then a else b) = b := by
    by_cases h : shared = true
    · rw [if_pos h, hsh h]
    · rw [if_neg h]
  obtain ⟨p1, e1, f1, c1, m1⟩ := mul_pos_spec (shared && a1 == b1 && a2 == b2) (ha a1 a2).1
    (hb b1 b2).1 (hsame a1 a2 b1 b2) fuel (le_trans (ha a1 a2).2 hf) (le_trans (hb b1 b2).2 hf)
  obtain ⟨p2, e2, f2, c2, m2⟩ := mul_pos_spec (shared && a3 == b3 && a4 == b4) (ha a3 a4).1
    (hb b3 b4).1 (hsame a3 a4 b3 b4) fuel (le_trans (ha a3 a4).2 hf) (le_trans (hb b3 b4).2 hf)
  obtain ⟨s1, s2⟩ := sum_pos_spec c1 c2
  refine ⟨(big_int_add_to p1.2 p2.2).2, ?_, s1, by rw [s2, m1, m2]⟩
  unfold MATRIX_2_MUL_EXP
  simp only
  rw [e1]
  simp only [Option.some_bind]
  rw [f1, matrix_2_set_get, hbb, e2]
  simp only [Option.some_bind]
  rw [f2, matrix_2_set_get, hbb]

/-- The entries of the product computed by `matrix_2_mul`. -/
theorem matrix_2_mul_spec {a b : matrix_2} {n : Nat} (ha : matrix_pos a n)
    (hb : matrix_pos b n) (shared : Bool) (hsh : shared = true → b = a) (fuel : Nat)
    (hf : n ≤ 768 + fuel) (res : matrix_2) :
    ∃ m, matrix_2_mul fuel shared res a b = some m ∧
      (pos_canonical m.m00 ∧
        magnitude m.m00 = magnitude a.m00 * magnitude b.m00 + magnitude a.m01 * magnitude b.m10) ∧
      (pos_canonical m.m01 ∧
        magnitude m.m01 = magnitude a.m00 * magnitude b.m01 + magnitude a.m01 * magnitude b.m11) ∧
      (pos_canonical m.m10 ∧
        magnitude m.m10 = magnitude a.m10 * magnitude b.m00 + magnitude a.m11 * magnitude b.m10) ∧
      (pos_canonical m.m11 ∧
        magnitude m.m11 = magnitude a.m10 * magnitude b.m01 + magnitude a.m11 * magnitude b.m11) := by
  obtain ⟨t00, e00, c00, m00⟩ := matrix_mul_exp_spec ha hb shared hsh fuel hf res 0 0 0 0 0 0 0 1 1 0
  obtain ⟨t01, e01, c01, m01⟩ := matrix_mul_exp_spec ha hb shared hsh fuel hf
    (matrix_2_set res 0 0 t00) 0 1 0 0 0 1 0 1 1 1
  obtain ⟨t10, e10, c10, m10⟩ := matrix_mul_exp_spec ha hb shared hsh fuel hf
    (matrix_2_set (matrix_2_set res 0 0 t00) 0 1 t01) 1 0 1 0 0 0 1 1 1 0
  obtain ⟨t11, e11, c11, m11⟩ := matrix_mul_exp_spec ha hb shared hsh fuel hf
    (matrix_2_set (matrix_2_set (matrix_2_set res 0 0 t00) 0 1 t01) 1 0 t10) 1 1 1 0 0 1 1 1 1 1
  refine ⟨⟨t00, t01, t10, t11⟩, ?_, ⟨c00, m00⟩, ⟨c01, m01⟩, ⟨c10, m10⟩, ⟨c11, m11⟩⟩
  unfold matrix_2_mul
  rw [e00]
  simp only [Option.some_bind]
  rw [e01]
  simp only [Option.some_bind]
  rw [e10]
  simp only [Option.some_bind]
  rw [e11]
  rfl

theorem fib_matrix_pos {m : matrix_2} {k : Nat} (h : fib_matrix m k) : matrix_pos m (k + 1) := by
  obtain ⟨⟨p00, v00⟩, ⟨p01, v01⟩, ⟨p10, v10⟩, ⟨p11, v11⟩⟩ := h
  have hF1 : Nat.fib (k + 1) < 2 ^ (k + 1) := by
    rcases Nat.eq_zero_or_pos k with h0 | h0
    · subst h0; norm_num
    · have h1 := fib_le_two_pow (k - 1)
      have h2 := fib_le_two_pow k
      have e : k + 1 = (k - 1) + 2 := by omega
      have e2 : k = (k - 1) + 1 := by omega
      have e3 : 2 ^ k = 2 ^ (k - 1) * 2 := by rw [← pow_succ, ← e2]
      have hk : Nat.fib k < 2 ^ k := by
        rcases Nat.eq_zero_or_pos (k - 1) with h3 | h3
        · have : k = 1 := by omega
          subst this; norm_num
        · have h4 := fib_le_two_pow (k - 1 - 1)
          have e4 : k = (k - 1 - 1) + 2 := by omega
          have e5 : 2 ^ (k - 1) = 2 ^ (k - 1 - 1) * 2 := by
            rw [← pow_succ]; congr 1; omega
          have : Nat.fib k = Nat.fib (k - 1 - 1) + Nat.fib (k - 1) := by
            conv_lhs => rw [e4, Nat.fib_add_two]
            congr 2; omega
          have hp : 0 < 2 ^ (k - 1 - 1) := by positivity
          omega
      have : Nat.fib (k + 1) = Nat.fib (k - 1) + Nat.fib k := by
        conv_lhs => rw [e, Nat.fib_add_two]
        congr 2; omega
      rw [pow_succ]
      omega
  have hle : Nat.fib k ≤ Nat.fib (k + 1) := Nat.fib_le_fib_succ
  have hpl := fib_prev_le k
  have hb : ∀ x : big_int, pos_canonical x → magnitude x ≤ Nat.fib (k + 1) →
      x.bit_length ≤ k + 1 := fun x hx hm =>
    bits_le_of_lt hx.1 (by omega) (lt_of_le_of_lt hm hF1)
  intro i j
  unfold matrix_2_get
  split_ifs
  · exact ⟨p00, hb _ p00 (by rw [v00])⟩
  · exact ⟨p01, hb _ p01 (by rw [v01]; exact hle)⟩
  · exact ⟨p10, hb _ p10 (by rw [v10]; exact hle)⟩
  · exact ⟨p11, hb _ p11 (by rw [v11]; exact hpl)⟩

theorem matrix_pos_mono {m : matrix_2} {n n1 : Nat} (h : matrix_pos m n) (hn : n ≤ n1) :
    matrix_pos m n1 := fun i j => ⟨(h i j).1, le_trans (h i j).2 hn⟩

/-- The product of the `j`-th and the `k`-th power is the power `j + k`. -/
theorem fib_matrix_mul {a b : matrix_2} {j k : Nat} (ha : fib_matrix a j) (hb : fib_matrix b k)
    (shared : Bool) (hsh : shared = true → b = a) (fuel : Nat) (hj : j + 1 ≤ 768 + fuel)
    (hk : k + 1 ≤ 768 + fuel) (res : matrix_2) :
    ∃ m, matrix_2_mul fuel shared res a b = some m ∧ fib_matrix m (j + k) := by
  obtain ⟨m, e, ⟨c00, m00⟩, ⟨c01, m01⟩, ⟨c10, m10⟩, ⟨c11, m11⟩⟩ := matrix_2_mul_spec
    (matrix_pos_mono (fib_matrix_pos ha) (le_max_left (j + 1) (k + 1)))
    (matrix_pos_mono (fib_matrix_pos hb) (le_max_right (j + 1) (k + 1)))
    shared hsh fuel (max_le hj hk) res
  obtain ⟨⟨_, a00⟩, ⟨_, a01⟩, ⟨_, a10⟩, ⟨_, a11⟩⟩ := ha
  obtain ⟨⟨_, b00⟩, ⟨_, b01⟩, ⟨_, b10⟩, ⟨_, b11⟩⟩ := hb
  refine ⟨m, e, ⟨c00, ?_⟩, ⟨c01, ?_⟩, ⟨c10, ?_⟩, ⟨c11, ?_⟩⟩
  · rw [m00, a00, b00, a01, b10]; exact fib_mul_00 j k
  · rw [m01, a00, b01, a01, b11]; exact fib_mul_01 j k
  · rw [m10, a10, b00, a11, b10]; exact fib_mul_10 j k
  · rw [m11, a10, b01, a11, b11]; exact fib_mul_11 j k

/-! ## The loop of `fibonacci` -/

/-- The loop `while (n != 0)` of `fibonacci`: with `a` the power `α` and `r`
the power `ρ` of the matrix, it ends with `r` the power `ρ + α * n`. -/
theorem fibonacci_loop_spec (fuel0 T : Nat) (hT : T + 1 ≤ 768 + fuel0) :
    ∀ fuel n a r α ρ, n + 1 ≤ fuel → fib_matrix a α → fib_matrix r ρ → ρ + α * n = T →
      ∃ st, fibonacci_loop fuel0 fuel n a r = some st ∧ fib_matrix st.2 T := by
  intro fuel
  induction fuel with
  | zero => intro n a r α ρ hf; omega
  | succ fuel ih =>
    intro n a r α ρ hf ha hr hinv
    unfold fibonacci_loop
    by_cases hn : n = 0
    · rw [if_pos hn]
      subst hn
      have : ρ = T := by rw [Nat.mul_zero] at hinv; omega
      subst this
      exact ⟨_, rfl, hr⟩
    · rw [if_neg hn]
      have hαn : α ≤ α * n := Nat.le_mul_of_pos_right α (by omega)
      have hα : α ≤ T := by omega
      have hρ : ρ ≤ T := by omega
      have hdm := Nat.div_add_mod n 2
      have hexp : α * n = (α + α) * (n / 2) + α * (n % 2) := by
        conv_lhs => rw [← hdm]
        ring
      -- the new `r`
      have hres : ∃ r1, (if n &&& 1 = 1 then matrix_2_mul fuel0 false r r a else some r) = some r1 ∧
          fib_matrix r1 (ρ + α * (n % 2)) := by
        rw [Nat.and_one_is_mod]
        by_cases hodd : n % 2 = 1
        · rw [if_pos hodd, hodd, Nat.mul_one]
          exact fib_matrix_mul hr ha false (fun h => by cases h) fuel0 (by omega) (by omega) r
        · rw [if_neg hodd]
          have : n % 2 = 0 := by omega
          rw [this, Nat.mul_zero, Nat.add_zero]
          exact ⟨r, rfl, hr⟩
      obtain ⟨r1, e1, hr1⟩ := hres
      obtain ⟨a1, e2, ha1⟩ := fib_matrix_mul ha ha true (fun _ => rfl) fuel0 (by omega)
        (by omega) a
      rw [e1]
      simp only [Option.some_bind]
      rw [e2]
      simp only [Option.some_bind]
      rw [Nat.shiftRight_eq_div_pow, pow_one]
      exact ih (n / 2) a1 r1 (α + α) (ρ + α * (n % 2)) (by omega) ha1 hr1 (by omega)

/-- The function `fibonacci` returns the `n`-th Fibonacci number. -/
theorem fibonacci_spec (n fuel : Nat) (hf : n ≤ fuel) :
    ∃ r, fibonacci fuel n = some r ∧ pos_canonical r ∧ magnitude r = Nat.fib n := by
  obtain ⟨z1, z2, _, _⟩ := new_from_int_spec 0 (by norm_num)
  obtain ⟨o1, o2, _, _⟩ := new_from_int_spec 1 (by norm_num)
  unfold fibonacci
  by_cases h0 : n = 0
  · rw [if_pos h0]
    subst h0
    exact ⟨_, rfl, z1, by rw [z2]; rfl⟩
  rw [if_neg h0]
  by_cases h1 : n = 1 ∨ n = 2
  · rw [if_pos h1]
    refine ⟨_, rfl, o1, ?_⟩
    rcases h1 with h | h <;> subst h <;> rw [o2] <;> rfl
  rw [if_neg h1]
  have ha : fib_matrix ⟨big_int_new_from_int 1, big_int_new_from_int 1, big_int_new_from_int 1,
      big_int_new_from_int 0⟩ 1 :=
    ⟨⟨o1, by rw [o2]; rfl⟩, ⟨o1, by rw [o2]; rfl⟩, ⟨o1, by rw [o2]; rfl⟩, ⟨z1, by rw [z2]; rfl⟩⟩
  have hr : fib_matrix ⟨big_int_new_from_int 1, big_int_new_from_int 0, big_int_new_from_int 0,
      big_int_new_from_int 1⟩ 0 :=
    ⟨⟨o1, by rw [o2]; rfl⟩, ⟨z1, by rw [z2]; rfl⟩, ⟨z1, by rw [z2]; rfl⟩, ⟨o1, by rw [o2]; rfl⟩⟩
  obtain ⟨st, e, ⟨⟨p00, v00⟩, ⟨p01, v01⟩, _, _⟩⟩ := fibonacci_loop_spec fuel (n - 2) (by omega) fuel
    (n - 2) _ _ 1 0 (by omega) ha hr (by omega)
  simp only
  rw [e]
  obtain ⟨c1, c2⟩ := assign_pos p00
  obtain ⟨s1, s2⟩ := sum_pos_spec c1 p01
  refine ⟨_, rfl, s1, ?_⟩
  show magnitude (big_int_add_to (big_int_assign st.2.m00) st.2.m01).2 = _
  rw [s2, c2, v00, v01]
  have e2 : n = (n - 2) + 2 := by omega
  conv_rhs => rw [e2, Nat.fib_add_two]
  ring

/-! ## Powers with the exponents zero and one -/

theorem one_slot_of_magnitude_one {x : big_int} (hx : magnitude_canonical x)
    (h1 : magnitude x = 1) : x.slot_length = 1 ∧ rd x.slot 0 = 1 := by
  have hs : x.slot_length = 1 := by
    by_contra hne
    have hl := hx.one_le
    have h := hx.two_pow_le_magnitude (by omega)
    have h2 : 2 ^ 1 ≤ 2 ^ (32 * (x.slot_length - 1)) :=
      Nat.pow_le_pow_right (by norm_num) (by omega)
    rw [h1] at h
    omega
  exact ⟨hs, by rw [← magnitude_of_one_slot hs, h1]⟩

theorem dec_of_one {c : big_int} (hc : magnitude_canonical c) (h1 : c.slot_length = 1)
    (h0 : rd c.slot 0 = 1) :
    (big_int_dec c).slot_length = 1 ∧ rd (big_int_dec c).slot 0 = 0 := by
  have hl : 0 < c.slot.length := by
    have := hc.le_length
    omega
  have hd : dec_loop 1 0 c.slot = c.slot.set 0 0 := by
    unfold dec_loop
    rw [if_pos (by rw [h0]; norm_num), h0]
  have hz : size_sub 1 1 = 0 := by decide
  unfold big_int_dec
  simp only [h1, hd, hz, rd_set_self _ hl, if_true]
  exact ⟨trivial, trivial⟩

/-- The record `big_int_pow_to` leaves in `num1`: the fields of `result` with
the sign computed at the head of the function. -/
theorem pow_result_spec {r a : big_int} (hr : magnitude_canonical r) (ha : canonical a)
    (hm : magnitude r = magnitude a) :
    canonical
      ({ slot := r.slot, allocated_slot_length := r.allocated_slot_length,
         bit_length := r.bit_length, slot_length := r.slot_length, sign := a.sign } : big_int) ∧
    to_Int
      ({ slot := r.slot, allocated_slot_length := r.allocated_slot_length,
         bit_length := r.bit_length, slot_length := r.slot_length, sign := a.sign } : big_int) =
      to_Int a := by
  refine ⟨⟨hr, ha.2.1, fun h => ha.2.2 (hm ▸ h)⟩, ?_⟩
  unfold to_Int
  show (if a.sign = BIG_NUMBER_NEGATIVE then -(magnitude r : Int) else (magnitude r : Int)) = _
  rw [hm]

theorem pow_sign_even {a e : big_int} (he : rd e.slot 0 = 0) :
    pow_sign a e = BIG_NUMBER_POSITIVE := by
  unfold pow_sign
  rw [he]
  split_ifs <;> first | rfl | contradiction

theorem pow_sign_one {a e : big_int} (ha : canonical a) (he : rd e.slot 0 = 1) :
    pow_sign a e = a.sign := by
  unfold pow_sign
  rw [he]
  rcases ha.sign_cases with h | h
  · rw [if_pos h, h]
  · rw [if_neg (by rw [h]; exact pos_ne_neg.symm), if_neg (by decide), h]

/-- The function `big_int_pow_to` with an exponent of value zero. -/
theorem pow_to_zero_spec {a e : big_int} (ha : canonical a) (he : canonical e)
    (hE : magnitude e = 0) (fuel : Nat) (hf : 1 ≤ fuel) :
    ∃ r, big_int_pow_to fuel a e = some r ∧ canonical r ∧
      to_Int r = if magnitude a = 0 then 0 else 1 := by
  obtain ⟨e1, e0⟩ := one_slot_zero_of_magnitude he.1 hE
  obtain ⟨z1, z2, _, _⟩ := new_from_int_spec 0 (by norm_num)
  obtain ⟨w1, w2, _, _⟩ := new_from_int_spec 1 (by norm_num)
  obtain ⟨_, _, _, c4, _, _, c7⟩ := assign_spec he.1
  have hc : (big_int_assign e).slot_length = 1 ∧ rd (big_int_assign e).slot 0 = 0 :=
    ⟨by rw [c4, e1], by rw [c7, e0]⟩
  obtain ⟨f, rfl⟩ : ∃ f, fuel = f + 1 := ⟨fuel - 1, by omega⟩
  have hone : to_Int (big_int_new_from_int 1) = 1 := by rw [w1.to_Int, w2]; rfl
  unfold big_int_pow_to
  simp only
  rw [pow_sign_even e0]
  by_cases h0 : a.slot_length = 1 ∧ rd a.slot 0 = 0
  · rw [if_pos h0]
    simp only [Option.map_some']
    refine ⟨_, rfl, ?_, ?_⟩
    · rw [rebuild_pos _ _ z1.2]; exact z1.canonical
    · rw [rebuild_pos _ _ z1.2, z1.to_Int, z2, if_pos (by rw [magnitude_of_one_slot h0.1, h0.2])]
      rfl
  have hne : magnitude a ≠ 0 := fun h => h0 (one_slot_zero_of_magnitude ha.1 h)
  rw [if_neg h0, if_neg hne]
  by_cases h1 : a.slot_length = 1 ∧ rd a.slot 0 = 1
  · rw [if_pos h1]
    simp only [Option.map_some']
    refine ⟨_, rfl, ?_, ?_⟩
    · rw [rebuild_pos _ _ w1.2]; exact w1.canonical
    · rw [rebuild_pos _ _ w1.2, hone]
  rw [if_neg h1]
  by_cases h2 : a.slot_length = 1 ∧ rd a.slot 0 = 2
  · rw [if_pos h2]
    unfold pow_loop_two
    rw [if_pos hc]
    simp only [Option.map_some']
    refine ⟨_, rfl, ?_, ?_⟩
    · rw [rebuild_pos _ _ w1.2]; exact w1.canonical
    · rw [rebuild_pos _ _ w1.2, hone]
  · rw [if_neg h2]
    unfold pow_loop
    rw [if_pos hc]
    simp only [Option.map_some']
    refine ⟨_, rfl, ?_, ?_⟩
    · rw [rebuild_pos _ _ w1.2]; exact w1.canonical
    · rw [rebuild_pos _ _ w1.2, hone]

/-- The function `big_int_pow_to` with an exponent of value one. -/
theorem pow_to_one_spec {a e : big_int} (ha : canonical a) (he : pos_canonical e)
    (hE : magnitude e = 1) (fuel : Nat) (hf : a.bit_length + 2 ≤ fuel) :
    ∃ r, big_int_pow_to fuel a e = some r ∧ canonical r ∧ to_Int r = to_Int a := by
  obtain ⟨e1, e0⟩ := one_slot_of_magnitude_one he.1 hE
  obtain ⟨z1, z2, _, _⟩ := new_from_int_spec 0 (by norm_num)
  obtain ⟨w1, w2, _, _⟩ := new_from_int_spec 1 (by norm_num)
  obtain ⟨c1, c2, c3, c4, _, _, c7⟩ := assign_spec he.1
  have hcp : pos_canonical (big_int_assign e) := ⟨c1, by rw [c3]; exact he.2⟩
  have hc1 : (big_int_assign e).slot_length = 1 := by rw [c4, e1]
  have hc0 : rd (big_int_assign e).slot 0 = 1 := by rw [c7, e0]
  have hcn : ¬ ((big_int_assign e).slot_length = 1 ∧ rd (big_int_assign e).slot 0 = 0) := by
    rw [hc0]; simp
  obtain ⟨f, rfl⟩ : ∃ f, fuel = f + 2 := ⟨fuel - 2, by omega⟩
  unfold big_int_pow_to
  simp only
  rw [pow_sign_one ha e0]
  by_cases h0 : a.slot_length = 1 ∧ rd a.slot 0 = 0
  · rw [if_pos h0]
    exact ⟨_, rfl, pow_result_spec z1.1 ha (by rw [z2, magnitude_of_one_slot h0.1, h0.2])⟩
  rw [if_neg h0]
  by_cases h1 : a.slot_length = 1 ∧ rd a.slot 0 = 1
  · rw [if_pos h1]
    exact ⟨_, rfl, pow_result_spec w1.1 ha (by rw [w2, magnitude_of_one_slot h1.1, h1.2])⟩
  rw [if_neg h1]
  by_cases h2 : a.slot_length = 1 ∧ rd a.slot 0 = 2
  · rw [if_pos h2]
    obtain ⟨s1, s2, _⟩ := left_shift_core_spec w1.1 (by rw [w2]; norm_num) 1
    obtain ⟨d1, d2⟩ := sub_to_pos hcp w1 (by rw [w2, c2, hE])
    rw [w2, c2, hE] at d2
    have hd := one_slot_zero_of_magnitude d1.1 d2
    have hshift : big_int_left_shift (big_int_new_from_int 1) (to_int 1) =
        some (left_shift_core (big_int_new_from_int 1) 1) := rfl
    unfold pow_loop_two
    rw [if_neg hcn, if_pos (by rw [hc0]; norm_num), hc0, hshift]
    simp only [Option.some_bind]
    unfold pow_loop_two
    rw [if_pos hd]
    exact ⟨_, rfl, pow_result_spec s1 ha
      (by rw [s2, w2, magnitude_of_one_slot h2.1, h2.2]; rfl)⟩
  · rw [if_neg h2]
    have hb1 : (big_int_new_from_int 1).bit_length = 1 := by
      rw [w1.1.bits_eq, w2]; simp [bit_width_eq_size]
    obtain ⟨r, r1, r2, r3⟩ := @mul_to_spec false _ _ w1.canonical ha (by simp) (f + 2)
      (by omega) (by omega)
    have hm : magnitude r = magnitude a := by
      rw [magnitude_eq_natAbs r, r3, magnitude_eq_natAbs a, w1.to_Int, w2]
      simp
    unfold pow_loop
    rw [if_neg hcn, r1]
    simp only [Option.some_bind]
    unfold pow_loop
    rw [if_pos (dec_of_one c1 hc1 hc0)]
    exact ⟨_, rfl, pow_result_spec r2.1 ha hm⟩

/-! ## The addition of the demonstration program -/

theorem add_grow_one_slot (x : big_int) (hx1 : x.slot_length = 1) (hl : 0 < x.slot.length)
    (ns : Nat) :
    (add_grow x ns).slot_length = 1 ∧ 0 < (add_grow x ns).slot.length ∧
    rd (add_grow x ns).slot 0 = rd x.slot 0 ∧ (add_grow x ns).sign = x.sign := by
  unfold add_grow
  split_ifs with h
  · refine ⟨hx1, ?_, ?_, rfl⟩
    · show 0 < (copy_slots x.slot x.slot_length (ns + ALLOCATE_SLOT_SIZE)).length
      rw [length_copy_slots]
      unfold ALLOCATE_SLOT_SIZE
      omega
    · show rd (copy_slots x.slot x.slot_length (ns + ALLOCATE_SLOT_SIZE)) 0 = _
      rw [rd_copy_slots, if_pos ⟨by omega, by unfold ALLOCATE_SLOT_SIZE; omega⟩]
  · exact ⟨hx1, hl, rfl, rfl⟩

/-- The function `big_int_add_to_raw` on a one-slot `num1` and a `num2` of at
most one slot whose sum fits in a slot. -/
theorem add_to_raw_one_slot {x y : big_int} (hx1 : x.slot_length = 1) (hy1 : y.slot_length ≤ 1)
    (hl : 0 < x.slot.length) (hsum : rd x.slot 0 + rd y.slot 0 < 2 ^ 32) :
    (big_int_add_to_raw x y).2.slot_length = 1 ∧
    rd (big_int_add_to_raw x y).2.slot 0 = rd x.slot 0 + rd y.slot 0 ∧
    (big_int_add_to_raw x y).2.sign = x.sign := by
  unfold big_int_add_to_raw
  simp only
  generalize BIT_TO_SLOT (max x.bit_length y.bit_length + 1) = ns
  obtain ⟨g1, g2, g3, g4⟩ := add_grow_one_slot x hx1 hl ns
  generalize add_grow x ns = g at g1 g2 g3 g4
  rw [g1, Nat.max_eq_left hy1]
  have hloop : add_carry_loop g.slot y.slot 1 = (g.slot.set 0 (rd x.slot 0 + rd y.slot 0), 0) := by
    unfold add_carry_loop
    rw [for_up_succ, for_up_zero]
    unfold add_carry_step
    simp only [Nat.add_zero, g3, Nat.mod_eq_of_lt hsum, Nat.div_eq_of_lt hsum]
  rw [hloop]
  unfold add_finish
  simp only [Nat.add_zero]
  refine ⟨trivial, ?_, g4⟩
  rw [rd_set_ne _ (by norm_num), rd_set_self _ g2]

/-- The text `big_int_print` writes for the sum left by `big_int_add_to` in a
one-slot non-negative `num1`. -/
theorem print_add_one_slot {x y : big_int} (hx : x.sign = BIG_NUMBER_POSITIVE)
    (hy : y.sign = BIG_NUMBER_POSITIVE) (hx1 : x.slot_length = 1) (hy1 : y.slot_length ≤ 1)
    (hl : 0 < x.slot.length) (hsum : rd x.slot 0 + rd y.slot 0 < 2 ^ 32) :
    big_int_print (big_int_add_to x y).2 =
      ['0', 'x'] ++ printf_08X (rd x.slot 0 + rd y.slot 0) := by
  obtain ⟨r1, r2, r3⟩ := add_to_raw_one_slot hx1 hy1 hl hsum
  unfold big_int_add_to
  rw [if_pos hx, if_pos hy]
  simp only
  generalize (big_int_add_to_raw x y).2 = r at r1 r2 r3
  have hs : (set_sign BIG_NUMBER_POSITIVE r).sign = BIG_NUMBER_POSITIVE ∧
      (set_sign BIG_NUMBER_POSITIVE r).slot_length = 1 ∧
      (set_sign BIG_NUMBER_POSITIVE r).slot = r.slot := by
    unfold set_sign
    simp only
    split_ifs <;> exact ⟨rfl, r1, rfl⟩
  obtain ⟨s1, s2, s3⟩ := hs
  unfold big_int_print print_slots
  rw [if_neg (by rw [s1]; exact pos_ne_neg), s2, s3, for_down_succ, for_down_zero, r2]
  rfl

/-! ## Bytes of a bitmap -/

set_option maxRecDepth 100000 in
/-- The bit index computed by `mem_pool_malloc` from a byte that is not `0xFF`
is the position of its lowest zero bit; setting that bit adds `2 ^ bit_idx`,
and clearing it again as `mem_pool_free` does gives the byte back. -/
theorem malloc_bit_idx_spec : ∀ x, x < 256 → x ≠ 0xFF →
    malloc_bit_idx x < 8 ∧ x.testBit (malloc_bit_idx x) = false ∧
    (∀ j, j < malloc_bit_idx x → x.testBit j = true) ∧
    (x ||| (1 <<< malloc_bit_idx x)) % 256 < 256 ∧
    ((x ||| (1 <<< malloc_bit_idx x)) % 256) &&& (0xFF ^^^ (1 <<< malloc_bit_idx x)) = x ∧
    (∀ j, j < 8 → ((x ||| (1 <<< malloc_bit_idx x)) % 256).testBit j =
      (x.testBit j || decide (j = malloc_bit_idx x))) := by
  decide

set_option maxRecDepth 100000 in
theorem byte_full_iff : ∀ x, x < 256 → (x = 0xFF ↔ ∀ j, j < 8 → x.testBit j = true) := by
  decide

/-! ## The scan of `mem_pool_malloc` inside a block -/

theorem lowest_free_unique {block : mem_block} {k j : Nat} (hk : lowest_free block k)
    (hj : lowest_free block j) : k = j := by
  rcases Nat.lt_trichotomy k j with h | h | h
  · have := hj.2.2 k h
    rw [hk.2.1] at this
    contradiction
  · exact h
  · have := hk.2.2 j h
    rw [hj.2.1] at this
    contradiction

theorem malloc_bitmap_loop_spec (bitmap : List Nat) : ∀ n i,
    (malloc_bitmap_loop bitmap n i = none ∧ ∀ j, i ≤ j → j < i + n → rd bitmap j = 0xFF) ∨
    ∃ idx, i ≤ idx ∧ idx < i + n ∧ rd bitmap idx ≠ 0xFF ∧
      (∀ j, i ≤ j → j < idx → rd bitmap j = 0xFF) ∧ malloc_bitmap_loop bitmap n i = some idx := by
  intro n
  induction n with
  | zero =>
    intro i
    exact Or.inl ⟨rfl, fun j h1 h2 => by omega⟩
  | succ n ih =>
    intro i
    unfold malloc_bitmap_loop
    by_cases h : rd bitmap i ≠ 0xFF
    · rw [if_pos h]
      exact Or.inr ⟨i, le_rfl, by omega, h, fun j h1 h2 => by omega, rfl⟩
    · rw [if_neg h]
      have hi : rd bitmap i = 0xFF := not_not.mp h
      rcases ih (i + 1) with ⟨h1, h2⟩ | ⟨idx, h1, h2, h3, h4, h5⟩
      · refine Or.inl ⟨h1, fun j hj1 hj2 => ?_⟩
        by_cases hji : j = i
        · rw [hji, hi]
        · exact h2 j (by omega) (by omega)
      · refine Or.inr ⟨idx, by omega, by omega, h3, fun j hj1 hj2 => ?_, h5⟩
        by_cases hji : j = i
        · rw [hji, hi]
        · exact h4 j (by omega) hj2

theorem malloc_page_loop_none (block : mem_block)
    (h : malloc_bitmap_loop block.bitmap block.bitmap_size 0 = none) :
    ∀ n, malloc_page_loop block n = none := by
  intro n
  induction n with
  | zero => rfl
  | succ n ih =>
    unfold malloc_page_loop
    split_ifs
    · rw [h]; exact ih
    · rfl

theorem malloc_page_loop_some (block : mem_block) (idx : Nat)
    (h : malloc_bitmap_loop block.bitmap block.bitmap_size 0 = some idx)
    (hfree : PAGE_SIZE ≤ block.size_free) (n : Nat) :
    malloc_page_loop block (n + 1) = some idx := by
  unfold malloc_page_loop
  rw [if_pos hfree, h]

theorem page_used_eq (block : mem_block) (k : Nat) :
    page_used block k = (rd block.bitmap (k / 8)).testBit (k % 8) := rfl

theorem used_pages_le (block : mem_block) : used_pages block ≤ 32 := by
  have h := List.length_filter_le (page_used block) (List.range PAGE_PER_BLOCK)
  rw [List.length_range] at h
  exact h

theorem used_pages_lt {block : mem_block} {k : Nat} (hk : k < 32)
    (hfree : page_used block k = false) : used_pages block < 32 := by
  have h : ((List.range PAGE_PER_BLOCK).filter (page_used block)).length <
      (List.range PAGE_PER_BLOCK).length :=
    List.length_filter_lt_length_iff_exists.mpr ⟨k, List.mem_range.mpr hk, by rw [hfree]; simp⟩
  rw [List.length_range] at h
  exact h

theorem mem_block_ok.byte_lt {block : mem_block} (hok : mem_block_ok block) (i : Nat) :
    rd block.bitmap i < 256 :=
  rd_lt_of_forall_mem (by norm_num) hok.2.2.2.1 i

/-- The loop over the pages of a well-formed block: nothing when the block is
full, and otherwise the byte that holds the lowest free page. -/
theorem malloc_page_loop_spec {block : mem_block} (hok : mem_block_ok block) :
    (block_full block ∧ malloc_page_loop block block.page_count = none) ∨
    ∃ k, lowest_free block k ∧ malloc_page_loop block block.page_count = some (k / 8) ∧
      malloc_bit_idx (rd block.bitmap (k / 8)) = k % 8 ∧ PAGE_SIZE ≤ block.size_free := by
  obtain ⟨o1, o2, o3, o4, o5, o6, o7, o8⟩ := hok
  have hb := mem_block_ok.byte_lt ⟨o1, o2, o3, o4, o5, o6, o7, o8⟩
  rw [o3]
  rcases malloc_bitmap_loop_spec block.bitmap block.bitmap_size 0 with
    ⟨h1, h2⟩ | ⟨idx, _, h2, h3, h4, h5⟩
  · refine Or.inl ⟨fun k hk => ?_, malloc_page_loop_none block h1 _⟩
    have hk32 : k < 32 := hk
    have hbyte := h2 (k / 8) (Nat.zero_le _) (by rw [o2]; show k / 8 < 0 + 4; omega)
    rw [page_used_eq, hbyte]
    exact (byte_full_iff 0xFF (by norm_num)).mp rfl _ (Nat.mod_lt _ (by norm_num))
  · rw [o2] at h2
    have h24 : idx < 4 := by
      have : 0 + BLOCK_BITMAP_SIZE = 4 := rfl
      omega
    obtain ⟨m1, m2, m3, _⟩ := malloc_bit_idx_spec _ (hb idx) h3
    have hd : (idx * 8 + malloc_bit_idx (rd block.bitmap idx)) / 8 = idx := by omega
    have hm : (idx * 8 + malloc_bit_idx (rd block.bitmap idx)) % 8 =
        malloc_bit_idx (rd block.bitmap idx) := by omega
    have hlow : lowest_free block (idx * 8 + malloc_bit_idx (rd block.bitmap idx)) := by
      refine ⟨by show _ < 32; omega, by rw [page_used_eq, hd, hm, m2], fun j hj => ?_⟩
      rw [page_used_eq]
      by_cases hj8 : j / 8 = idx
      · rw [hj8]
        exact m3 _ (by omega)
      · rw [h4 (j / 8) (Nat.zero_le _) (by omega)]
        exact (byte_full_iff 0xFF (by norm_num)).mp rfl _ (Nat.mod_lt _ (by norm_num))
    have hfree : PAGE_SIZE ≤ block.size_free := by
      have := used_pages_lt hlow.1 hlow.2.1
      rw [o7]
      show 4096 ≤ 4096 * (32 - used_pages block)
      omega
    refine Or.inr ⟨_, hlow, ?_, by rw [hd, hm], hfree⟩
    rw [hd]
    exact malloc_page_loop_some block idx h5 hfree 31

theorem malloc_page_loop_full {block : mem_block} (hok : mem_block_ok block)
    (hfull : block_full block) : malloc_page_loop block block.page_count = none := by
  rcases malloc_page_loop_spec hok with ⟨_, h⟩ | ⟨k, hk, _⟩
  · exact h
  · have := hfull k hk.1
    rw [hk.2.1] at this
    contradiction

theorem malloc_page_loop_lowest {block : mem_block} (hok : mem_block_ok block) {k : Nat}
    (hk : lowest_free block k) :
    malloc_page_loop block block.page_count = some (k / 8) ∧
      malloc_bit_idx (rd block.bitmap (k / 8)) = k % 8 ∧ PAGE_SIZE ≤ block.size_free := by
  rcases malloc_page_loop_spec hok with ⟨hfull, _⟩ | ⟨j, hj, h1, h2, h3⟩
  · have := hfull k hk.1
    rw [hk.2.1] at this
    contradiction
  · rw [lowest_free_unique hk hj]
    exact ⟨h1, h2, h3⟩

/-! ## The page handed out by `mem_pool_malloc` -/

theorem malloc_take_eq {block : mem_block} (hok : mem_block_ok block) {k : Nat}
    (hk : lowest_free block k) :
    malloc_take block (k / 8) = (block.data + k * PAGE_SIZE, block_taken block k) := by
  obtain ⟨_, h2, h3⟩ := malloc_page_loop_lowest hok hk
  have hk32 : k < 32 := hk.1
  have hu := used_pages_le block
  have hsu : block.size_used = 4096 * used_pages block := hok.2.2.2.2.2.1
  have hp : (k / 8 * BIT_PER_BITMAP + k % 8) * PAGE_SIZE % 2 ^ 32 = k * PAGE_SIZE := by
    show (k / 8 * 8 + k % 8) * 4096 % 2 ^ 32 = k * 4096
    omega
  have hs : (block.size_used + PAGE_SIZE) % 2 ^ 64 = block.size_used + PAGE_SIZE := by
    apply Nat.mod_eq_of_lt
    show block.size_used + 4096 < 2 ^ 64
    omega
  unfold malloc_take block_taken
  simp only [h2, hp, hs, size_sub_of_le h3]

theorem page_used_block_taken {block : mem_block} (hok : mem_block_ok block) {k : Nat}
    (hk : lowest_free block k) (j : Nat) :
    page_used (block_taken block k) j = (page_used block j || decide (j = k)) := by
  obtain ⟨_, h2, _⟩ := malloc_page_loop_lowest hok hk
  have hk32 : k < 32 := hk.1
  have hx : rd block.bitmap (k / 8) ≠ 0xFF := by
    intro h
    have := (byte_full_iff 0xFF (by norm_num)).mp rfl (k % 8) (Nat.mod_lt _ (by norm_num))
    rw [← h, ← page_used_eq, hk.2.1] at this
    contradiction
  obtain ⟨_, _, _, _, _, m6⟩ := malloc_bit_idx_spec _ (hok.byte_lt (k / 8)) hx
  rw [h2] at m6
  have hlen : k / 8 < block.bitmap.length := by
    rw [hok.1]
    show k / 8 < 4
    omega
  rw [page_used_eq, page_used_eq]
  show (rd (block.bitmap.set (k / 8) _) (j / 8)).testBit (j % 8) = _
  by_cases hj : j / 8 = k / 8
  · rw [hj, rd_set_self _ hlen, m6 (j % 8) (Nat.mod_lt _ (by norm_num))]
    congr 1
    apply decide_eq_decide.mpr
    omega
  · rw [rd_set_ne _ (fun h => hj h.symm)]
    have : decide (j = k) = false := decide_eq_false (fun h => hj (by rw [h]))
    rw [this, Bool.or_false]

theorem length_block_taken (block : mem_block) (k : Nat) :
    (block_taken block k).bitmap.length = block.bitmap.length := by
  unfold block_taken
  simp only [List.length_set]

/-! ## The loop of `mem_pool_malloc` over the blocks -/

theorem malloc_block_loop_spec : ∀ (blocks : List mem_block) (i : Nat),
    (∀ b ∈ blocks, mem_block_ok b) →
    (malloc_block_loop blocks i = none ∧ ∀ b ∈ blocks, block_full b) ∨
    ∃ pre block post k, blocks = pre ++ block :: post ∧ (∀ b ∈ pre, block_full b) ∧
      lowest_free block k ∧
      malloc_block_loop blocks i =
        some (i + pre.length, block.data + k * PAGE_SIZE, block_taken block k) := by
  intro blocks
  induction blocks with
  | nil =>
    intro i _
    exact Or.inl ⟨rfl, fun b hb => absurd hb (List.not_mem_nil b)⟩
  | cons block rest ih =>
    intro i hok
    have hb := hok block (List.mem_cons_self _ _)
    unfold malloc_block_loop
    rcases malloc_page_loop_spec hb with ⟨hfull, hnone⟩ | ⟨k, hk, h1, _, _⟩
    · rw [hnone]
      rcases ih (i + 1) (fun b hb => hok b (List.mem_cons_of_mem _ hb)) with
        ⟨h1, h2⟩ | ⟨pre, blk, post, k, e1, e2, e3, e4⟩
      · refine Or.inl ⟨h1, fun b hb => ?_⟩
        rcases List.mem_cons.mp hb with h | h
        · rw [h]; exact hfull
        · exact h2 b h
      · refine Or.inr ⟨block :: pre, blk, post, k, by rw [e1]; rfl, fun b hb => ?_, e3, ?_⟩
        · rcases List.mem_cons.mp hb with h | h
          · rw [h]; exact hfull
          · exact e2 b h
        · rw [e4, List.length_cons, show i + 1 + pre.length = i + (pre.length + 1) by omega]
    · rw [h1]
      refine Or.inr ⟨[], block, rest, k, rfl, fun b hb => absurd hb (List.not_mem_nil b), hk, ?_⟩
      simp only [malloc_take_eq hb hk, List.length_nil, Nat.add_zero]

theorem malloc_block_loop_full (blocks : List mem_block) (i : Nat)
    (hok : ∀ b ∈ blocks, mem_block_ok b) (hfull : ∀ b ∈ blocks, block_full b) :
    malloc_block_loop blocks i = none := by
  rcases malloc_block_loop_spec blocks i hok with ⟨h, _⟩ | ⟨pre, block, post, k, e1, _, e3, _⟩
  · exact h
  · have := hfull block (by rw [e1]; simp) k e3.1
    rw [e3.2.1] at this
    contradiction

theorem malloc_block_loop_at (block : mem_block) (post : List mem_block) {k : Nat}
    (hok : mem_block_ok block) (hk : lowest_free block k) : ∀ (pre : List mem_block) (i : Nat),
    (∀ b ∈ pre, mem_block_ok b) → (∀ b ∈ pre, block_full b) →
    malloc_block_loop (pre ++ block :: post) i =
      some (i + pre.length, block.data + k * PAGE_SIZE, block_taken block k) := by
  intro pre
  induction pre with
  | nil =>
    intro i _ _
    show malloc_block_loop (block :: post) i = _
    unfold malloc_block_loop
    rw [(malloc_page_loop_lowest hok hk).1]
    simp only [malloc_take_eq hok hk, List.length_nil, Nat.add_zero]
  | cons b pre ih =>
    intro i h1 h2
    show malloc_block_loop (b :: (pre ++ block :: post)) i = _
    unfold malloc_block_loop
    rw [malloc_page_loop_full (h1 b (List.mem_cons_self _ _)) (h2 b (List.mem_cons_self _ _))]
    simp only
    rw [ih (i + 1) (fun x hx => h1 x (List.mem_cons_of_mem _ hx))
      (fun x hx => h2 x (List.mem_cons_of_mem _ hx)), List.length_cons,
      show i + 1 + pre.length = i + (pre.length + 1) by omega]

/-! ## `mem_pool_malloc` and `mem_pool_free` on a well-formed pool -/

theorem sum_used_free : ∀ blocks : List mem_block, (∀ b ∈ blocks, mem_block_ok b) →
    (blocks.map (fun block => block.size_used)).sum +
      (blocks.map (fun block => block.size_free)).sum = BLOCK_DATA_SIZE * blocks.length := by
  intro blocks
  induction blocks with
  | nil => intro _; rfl
  | cons b rest ih =>
    intro hok
    have h := ih (fun x hx => hok x (List.mem_cons_of_mem _ hx))
    obtain ⟨_, _, _, _, _, o6, o7, _⟩ := hok b (List.mem_cons_self _ _)
    have hu := used_pages_le b
    simp only [List.map_cons, List.sum_cons, List.length_cons]
    rw [o6, o7]
    have h' : (rest.map (fun block => block.size_used)).sum +
      (rest.map (fun block => block.size_free)).sum = 131072 * rest.length := h
    show 4096 * used_pages b + _ + (4096 * (32 - used_pages b) + _) = 131072 * (rest.length + 1)
    omega

theorem set_at_length {α : Type} (pre : List α) (x y : α) (post : List α) :
    (pre ++ x :: post).set pre.length y = pre ++ y :: post := by
  induction pre with
  | nil => rfl
  | cons a pre ih => simp only [List.cons_append, List.length_cons, List.set_cons_succ, ih]

theorem pool_free_ge {pool : mem_pool} (hok : mem_pool_ok pool) {pre post : List mem_block}
    {block : mem_block} (hdec : pool.blocks = pre ++ block :: post) :
    block.size_free ≤ pool.size_free ∧ pool.size_used + pool.size_free < 2 ^ 64 := by
  obtain ⟨p1, _, p3, p4, p5, p6⟩ := hok
  have hs := sum_used_free pool.blocks p1
  rw [← p3, ← p4, ← p5] at hs
  refine ⟨?_, by omega⟩
  rw [p4, hdec]
  simp only [List.map_append, List.map_cons, List.sum_append, List.sum_cons]
  omega

/-- The function `mem_pool_malloc` when the first block with a free page
follows the blocks `pre` and its lowest free page is `k`. -/
theorem mem_pool_malloc_at {pool : mem_pool} (hok : mem_pool_ok pool) {size : Nat}
    (hsize : size ≤ PAGE_SIZE) {pre post : List mem_block} {block : mem_block} {k : Nat}
    (hdec : pool.blocks = pre ++ block :: post) (hfull : ∀ b ∈ pre, block_full b)
    (hk : lowest_free block k) :
    mem_pool_malloc pool size =
      (some (block.data + k * PAGE_SIZE), pool_taken pool pre block post k) ∧
    PAGE_SIZE ≤ block.size_free ∧ PAGE_SIZE ≤ pool.size_free := by
  have hall : ∀ b ∈ pre ++ block :: post, mem_block_ok b := by rw [← hdec]; exact hok.1
  have hb : mem_block_ok block := hall block (by simp)
  obtain ⟨_, _, h3⟩ := malloc_page_loop_lowest hb hk
  obtain ⟨g1, g2⟩ := pool_free_ge hok hdec
  have hs : (pool.size_used + PAGE_SIZE) % 2 ^ 64 = pool.size_used + PAGE_SIZE :=
    Nat.mod_eq_of_lt (by omega)
  refine ⟨?_, h3, by omega⟩
  unfold mem_pool_malloc pool_taken
  rw [if_neg (by omega), hdec, malloc_block_loop_at block post hb hk pre 0
    (fun b hbm => hall b (List.mem_append_left _ hbm)) hfull]
  simp only [Nat.zero_add, set_at_length, hs, size_sub_of_le (show PAGE_SIZE ≤ pool.size_free by omega)]

theorem set_rd_self {s : List Nat} {i : Nat} (h : i < s.length) : s.set i (rd s i) = s := by
  induction s generalizing i with
  | nil => rfl
  | cons a s ih =>
    cases i with
    | zero => rfl
    | succ i =>
      have h' : i < s.length := by simpa using h
      show a :: s.set i (rd s i) = a :: s
      rw [ih h']

theorem free_give_block_taken {block : mem_block} (hok : mem_block_ok block) {k : Nat}
    (hk : lowest_free block k) :
    free_give (block_taken block k) (block.data + k * PAGE_SIZE) = block := by
  obtain ⟨_, h2, h3⟩ := malloc_page_loop_lowest hok hk
  have hk32 : k < 32 := hk.1
  have hx : rd block.bitmap (k / 8) ≠ 0xFF := by
    intro h
    have := (byte_full_iff 0xFF (by norm_num)).mp rfl (k % 8) (Nat.mod_lt _ (by norm_num))
    rw [← h, ← page_used_eq, hk.2.1] at this
    contradiction
  obtain ⟨_, _, _, _, m5, _⟩ := malloc_bit_idx_spec _ (hok.byte_lt (k / 8)) hx
  rw [h2] at m5
  have hlen : k / 8 < block.bitmap.length := by
    rw [hok.1]
    show k / 8 < 4
    omega
  have hu := used_pages_le block
  have hsf : block.size_free = 4096 * (32 - used_pages block) := hok.2.2.2.2.2.2.1
  have h3' : 4096 ≤ block.size_free := h3
  have hpage : (block.data + k * PAGE_SIZE - block.data) / PAGE_SIZE % 2 ^ 32 = k := by
    show (block.data + k * 4096 - block.data) / 4096 % 2 ^ 32 = k
    omega
  have hsu : size_sub (block.size_used + PAGE_SIZE) PAGE_SIZE = block.size_used := by
    rw [size_sub_of_le (by omega)]
    omega
  have hfree : (block.size_free - PAGE_SIZE + PAGE_SIZE) % 2 ^ 64 = block.size_free := by
    show (block.size_free - 4096 + 4096) % 2 ^ 64 = block.size_free
    omega
  unfold free_give
  simp only [show (block_taken block k).data = block.data from rfl, hpage]
  show ({ block with
    bitmap := (block.bitmap.set (k / 8) _).set (k / 8)
      (rd (block.bitmap.set (k / 8) _) (k / 8) &&& (0xFF ^^^ (1 <<< (k % 8)))),
    size_used := size_sub (block.size_used + PAGE_SIZE) PAGE_SIZE,
    size_free := (block.size_free - PAGE_SIZE + PAGE_SIZE) % 2 ^ 64 } : mem_block) = block
  rw [rd_set_self _ hlen, m5, List.set_set, set_rd_self hlen, hsu, hfree]

theorem free_block_loop_at (ptr : Nat) (block : mem_block) (post : List mem_block)
    (h1 : block.data ≤ ptr) (h2 : ptr < block.data + BLOCK_DATA_SIZE) :
    ∀ (pre : List mem_block) (i : Nat),
    (∀ b ∈ pre, ¬ (b.data ≤ ptr ∧ ptr < b.data + BLOCK_DATA_SIZE)) →
    free_block_loop ptr (pre ++ block :: post) i = some (i + pre.length, free_give block ptr) := by
  intro pre
  induction pre with
  | nil =>
    intro i _
    show free_block_loop ptr (block :: post) i = _
    unfold free_block_loop
    rw [if_pos ⟨h1, h2⟩]
    rfl
  | cons b pre ih =>
    intro i h
    show free_block_loop ptr (b :: (pre ++ block :: post)) i = _
    unfold free_block_loop
    rw [if_neg (h b (List.mem_cons_self _ _)), ih (i + 1) (fun x hx => h x (List.mem_cons_of_mem _ hx)),
      List.length_cons, show i + 1 + pre.length = i + (pre.length + 1) by omega]

theorem free_block_loop_none (ptr : Nat) : ∀ (blocks : List mem_block) (i : Nat),
    (∀ b ∈ blocks, ¬ (b.data ≤ ptr ∧ ptr < b.data + BLOCK_DATA_SIZE)) →
    free_block_loop ptr blocks i = none := by
  intro blocks
  induction blocks with
  | nil => intro _ _; rfl
  | cons b rest ih =>
    intro i h
    unfold free_block_loop
    rw [if_neg (h b (List.mem_cons_self _ _))]
    exact ih (i + 1) (fun x hx => h x (List.mem_cons_of_mem _ hx))

/-- The function `mem_pool_free` on the page `mem_pool_malloc` has just handed
out gives the pool back as it was. -/
theorem mem_pool_free_taken {pool : mem_pool} (hok : mem_pool_ok pool)
    {pre post : List mem_block} {block : mem_block} {k : Nat}
    (hdec : pool.blocks = pre ++ block :: post) (hk : lowest_free block k) :
    mem_pool_free (pool_taken pool pre block post k) (block.data + k * PAGE_SIZE) = (0, pool) := by
  have hall : ∀ b ∈ pre ++ block :: post, mem_block_ok b := by rw [← hdec]; exact hok.1
  have hb : mem_block_ok block := hall block (by simp)
  obtain ⟨_, _, h3⟩ := malloc_page_loop_lowest hb hk
  obtain ⟨g1, g2⟩ := pool_free_ge hok hdec
  have hk32 : k < 32 := hk.1
  have hpw := hok.2.1
  rw [hdec, List.pairwise_append] at hpw
  have hpre : ∀ b ∈ pre, ¬ (b.data ≤ block.data + k * PAGE_SIZE ∧
      block.data + k * PAGE_SIZE < b.data + BLOCK_DATA_SIZE) := by
    intro b hbm
    have := hpw.2.2 b hbm block (List.mem_cons_self _ _)
    show ¬ (b.data ≤ block.data + k * 4096 ∧ block.data + k * 4096 < b.data + 131072)
    have h' : b.data + 131072 ≤ block.data ∨ block.data + 131072 ≤ b.data := this
    omega
  have h3' : 4096 ≤ pool.size_free := le_trans h3 g1
  have hsu : size_sub (pool.size_used + PAGE_SIZE) PAGE_SIZE = pool.size_used := by
    rw [size_sub_of_le (by omega)]
    omega
  have hfree : (pool.size_free - PAGE_SIZE + PAGE_SIZE) % 2 ^ 64 = pool.size_free := by
    show (pool.size_free - 4096 + 4096) % 2 ^ 64 = pool.size_free
    omega
  unfold mem_pool_free pool_taken
  simp only
  rw [free_block_loop_at (block.data + k * PAGE_SIZE) (block_taken block k) post
    (Nat.le_add_right _ _) (by
      show block.data + k * 4096 < block.data + 131072
      omega) pre 0 hpre]
  simp only [Nat.zero_add, set_at_length, free_give_block_taken hb hk, hsu, hfree, ← hdec]

theorem mem_pool_malloc_full {pool : mem_pool} (hok : mem_pool_ok pool) (size : Nat)
    (hfull : ∀ b ∈ pool.blocks, block_full b) : mem_pool_malloc pool size = (none, pool) := by
  unfold mem_pool_malloc
  split_ifs
  · rfl
  · rw [malloc_block_loop_full pool.blocks 0 hok.1 hfull]

/-- A successful `mem_pool_malloc` is the one of `mem_pool_malloc_at`. -/
theorem mem_pool_malloc_some {pool : mem_pool} (hok : mem_pool_ok pool) {size p : Nat}
    {pool1 : mem_pool} (hm : mem_pool_malloc pool size = (some p, pool1)) :
    ∃ pre block post k, pool.blocks = pre ++ block :: post ∧ lowest_free block k ∧
      p = block.data + k * PAGE_SIZE ∧ pool1 = pool_taken pool pre block post k := by
  by_cases hsize : size > PAGE_SIZE
  · unfold mem_pool_malloc at hm
    rw [if_pos hsize] at hm
    exact absurd (congrArg Prod.fst hm) (by simp)
  · rcases malloc_block_loop_spec pool.blocks 0 hok.1 with
      ⟨_, hfull⟩ | ⟨pre, block, post, k, e1, e2, e3, _⟩
    · rw [mem_pool_malloc_full hok size hfull] at hm
      exact absurd (congrArg Prod.fst hm) (by simp)
    · obtain ⟨h, _⟩ := mem_pool_malloc_at hok (Nat.le_of_not_gt hsize) e1 e2 e3
      rw [h] at hm
      have h1 := congrArg Prod.fst hm
      have h2 := congrArg Prod.snd hm
      simp only [Option.some.injEq] at h1
      exact ⟨pre, block, post, k, e1, e3, h1.symm, h2.symm⟩

/-! ## Assignment in place when the buffer is available -/

theorem zero_range_spec (s : List Nat) (a b : Nat) :
    (for_range a b (fun idx s => s.set idx 0) s).length = s.length ∧
    ∀ i, rd (for_range a b (fun idx s => s.set idx 0) s) i =
      if a ≤ i ∧ i < b then 0 else rd s i := by
  by_cases hab : a ≤ b
  · have := for_range_induct
      (fun k (t : List Nat) => t.length = s.length ∧
        ∀ i, rd t i = if a ≤ i ∧ i < k then 0 else rd s i)
      a b hab (fun idx s => s.set idx 0) s
      ⟨rfl, fun i => by rw [if_neg (by omega)]⟩
      (by
        rintro k t hk1 _ ⟨hl, hr⟩
        refine ⟨by simp [hl], fun i => ?_⟩
        rw [rd_set, hr]
        by_cases h1 : k = i
        · subst h1
          by_cases h2 : k < t.length
          · simp [h2, hk1]
          · rw [if_neg (by simp [h2]), if_neg (by omega), if_pos (by omega)]
            exact rd_of_le (by omega)
        · by_cases h2 : a ≤ i ∧ i < k
          · rw [if_neg (by simp [h1]), if_pos h2, if_pos (by omega)]
          · rw [if_neg (by simp [h1]), if_neg h2, if_neg (by omega)])
    exact this
  · rw [for_range_of_ge a b (by omega)]
    exact ⟨rfl, fun i => by rw [if_neg (by omega)]⟩

/-- The function `big_int_assign_to` when no new buffer is needed or the
allocation succeeds: the destination becomes a canonical copy of the
source. -/
theorem assign_to_spec {dst src : big_int} (hd : magnitude_canonical dst) (hs : canonical src)
    (malloc_ok : Bool)
    (h : malloc_ok = true ∨ src.slot_length ≤ dst.allocated_slot_length) :
    (big_int_assign_to malloc_ok dst src).1 = 0 ∧
    canonical (big_int_assign_to malloc_ok dst src).2 ∧
    to_Int (big_int_assign_to malloc_ok dst src).2 = to_Int src ∧
    (big_int_assign_to malloc_ok dst src).2.bit_length = src.bit_length ∧
    (big_int_assign_to malloc_ok dst src).2.slot_length = src.slot_length := by
  unfold big_int_assign_to
  by_cases hlt : dst.allocated_slot_length < src.slot_length
  · have hok : malloc_ok = true := by
      rcases h with h | h
      · exact h
      · omega
    rw [if_pos hlt, hok, if_pos rfl]
    simp only
    obtain ⟨z1, z2⟩ := zero_range_spec (alloc src.allocated_slot_length) src.slot_length
      src.allocated_slot_length
    obtain ⟨f1, f2⟩ := fill_loop_spec (fun idx => rd src.slot idx) src.slot_length
      (for_range src.slot_length src.allocated_slot_length (fun idx s => s.set idx 0)
        (alloc src.allocated_slot_length))
    rw [z1, length_alloc] at f1
    obtain ⟨c1, c2⟩ := canonical_of_same_digits hs
      (y := { slot := for_up src.slot_length (fun idx s => s.set idx (rd src.slot idx))
                (for_range src.slot_length src.allocated_slot_length (fun idx s => s.set idx 0)
                  (alloc src.allocated_slot_length)),
              bit_length := src.bit_length, slot_length := src.slot_length,
              allocated_slot_length := src.allocated_slot_length, sign := src.sign })
      f1 rfl hs.1.le_alloc rfl rfl (fun i => by
        show rd (for_up _ _ _) i = _
        rw [f2, z1, length_alloc, z2, rd_alloc]
        have := hs.1.le_alloc
        by_cases hi : i < src.slot_length
        · rw [if_pos ⟨hi, by omega⟩]
        · rw [if_neg (by omega), hs.1.zero_above i (by omega)]
          simp)
    exact ⟨trivial, c1, c2, trivial, trivial⟩
  · rw [if_neg hlt]
    simp only
    obtain ⟨z1, z2⟩ := zero_range_spec dst.slot src.slot_length dst.slot_length
    obtain ⟨f1, f2⟩ := fill_loop_spec (fun idx => rd src.slot idx) src.slot_length
      (for_range src.slot_length dst.slot_length (fun idx s => s.set idx 0) dst.slot)
    rw [z1] at f1
    obtain ⟨c1, c2⟩ := canonical_of_same_digits hs
      (y := { slot := for_up src.slot_length (fun idx s => s.set idx (rd src.slot idx))
                (for_range src.slot_length dst.slot_length (fun idx s => s.set idx 0) dst.slot),
              bit_length := src.bit_length, slot_length := src.slot_length,
              allocated_slot_length := dst.allocated_slot_length, sign := src.sign })
      (by rw [f1]; exact hd.length_eq) rfl (by show src.slot_length ≤ dst.allocated_slot_length; omega) rfl rfl (fun i => by
        show rd (for_up _ _ _) i = _
        rw [f2, z1, z2, hd.length_eq]
        by_cases hi : i < src.slot_length
        · rw [if_pos ⟨hi, by omega⟩]
        · rw [if_neg (by omega), hs.1.zero_above i (by omega)]
          by_cases hi2 : src.slot_length ≤ i ∧ i < dst.slot_length
          · rw [if_pos hi2]
          · rw [if_neg hi2]
            exact hd.zero_above i (by omega))
    exact ⟨trivial, c1, c2, trivial, trivial⟩

/-! ## The pool invariant is established and kept -/

theorem filter_length_flip (p q : Nat → Bool) (k : Nat) : ∀ l : List Nat, l.Nodup → k ∈ l →
    (∀ j ∈ l, j ≠ k → q j = p j) → p k = false → q k = true →
    (l.filter q).length = (l.filter p).length + 1 := by
  intro l
  induction l with
  | nil => intro _ h; exact absurd h (List.not_mem_nil k)
  | cons a l ih =>
    intro hnd hk hpq hp hq
    obtain ⟨ha, hl⟩ := List.nodup_cons.mp hnd
    by_cases hak : a = k
    · subst hak
      have hsame : l.filter q = l.filter p :=
        List.filter_congr (fun j hj => hpq j (List.mem_cons_of_mem _ hj)
          (fun h => ha (h ▸ hj)))
      rw [List.filter_cons_of_pos (by rw [hq]), List.filter_cons_of_neg (by rw [hp]; simp),
        hsame, List.length_cons]
    · have hkl : k ∈ l := by
        rcases List.mem_cons.mp hk with h | h
        · exact absurd h.symm hak
        · exact h
      have h1 := ih hl hkl (fun j hj => hpq j (List.mem_cons_of_mem _ hj)) hp hq
      have hqa : q a = p a := hpq a (List.mem_cons_self _ _) hak
      by_cases hpa : p a = true
      · rw [List.filter_cons_of_pos (by rw [hqa, hpa]), List.filter_cons_of_pos hpa,
          List.length_cons, List.length_cons, h1]
      · rw [List.filter_cons_of_neg (by rw [hqa]; exact hpa), List.filter_cons_of_neg hpa, h1]

theorem used_pages_block_taken {block : mem_block} (hok : mem_block_ok block) {k : Nat}
    (hk : lowest_free block k) : used_pages (block_taken block k) = used_pages block + 1 := by
  unfold used_pages
  apply filter_length_flip _ _ k _ (List.nodup_range _) (List.mem_range.mpr hk.1)
  · intro j _ hjk
    rw [page_used_block_taken hok hk, decide_eq_false hjk, Bool.or_false]
  · exact hk.2.1
  · rw [page_used_block_taken hok hk]
    simp

theorem mem_block_ok_block_taken {block : mem_block} (hok : mem_block_ok block) {k : Nat}
    (hk : lowest_free block k) : mem_block_ok (block_taken block k) := by
  have hu := used_pages_block_taken hok hk
  have hlt := used_pages_lt hk.1 hk.2.1
  obtain ⟨o1, o2, o3, o4, o5, o6, o7, o8⟩ := hok
  refine ⟨by rw [length_block_taken]; exact o1, o2, o3, fun x hx => ?_, o5, ?_, ?_, o8⟩
  · rcases List.mem_or_eq_of_mem_set hx with h | h
    · exact o4 x h
    · rw [h]
      exact Nat.mod_lt _ (by norm_num)
  · show block.size_used + PAGE_SIZE = _
    rw [o6, hu]
    show 4096 * used_pages block + 4096 = 4096 * (used_pages block + 1)
    omega
  · show block.size_free - PAGE_SIZE = _
    rw [o7, hu]
    show 4096 * (32 - used_pages block) - 4096 = 4096 * (32 - (used_pages block + 1))
    omega

/-- A successful `mem_pool_malloc` keeps the pool well-formed. -/
theorem mem_pool_ok_malloc {pool : mem_pool} (hok : mem_pool_ok pool) {size p : Nat}
    {pool1 : mem_pool} (hm : mem_pool_malloc pool size = (some p, pool1)) :
    mem_pool_ok pool1 := by
  obtain ⟨pre, block, post, k, e1, e2, _, e4⟩ := mem_pool_malloc_some hok hm
  have hall : ∀ b ∈ pre ++ block :: post, mem_block_ok b := by rw [← e1]; exact hok.1
  have hb : mem_block_ok block := hall block (by simp)
  obtain ⟨_, _, h3⟩ := malloc_page_loop_lowest hb e2
  obtain ⟨g1, _⟩ := pool_free_ge hok e1
  obtain ⟨_, p2, p3, p4, p5, p6⟩ := hok
  rw [e4]
  unfold pool_taken
  refine ⟨fun b hbm => ?_, ?_, ?_, ?_, ?_, p6⟩
  · rcases List.mem_append.mp hbm with h | h
    · exact hall b (List.mem_append_left _ h)
    · rcases List.mem_cons.mp h with h | h
      · rw [h]; exact mem_block_ok_block_taken hb e2
      · exact hall b (List.mem_append_right _ (List.mem_cons_of_mem _ h))
  · rw [e1] at p2
    simp only [List.pairwise_append, List.pairwise_cons, List.mem_cons] at p2 ⊢
    obtain ⟨q1, ⟨q2, q3⟩, q4⟩ := p2
    refine ⟨q1, ⟨q2, q3⟩, fun a ha b hb => ?_⟩
    rcases hb with h | h
    · rw [h]; exact q4 a ha block (Or.inl rfl)
    · exact q4 a ha b (Or.inr h)
  · show pool.size_used + PAGE_SIZE = _
    rw [p3, e1]
    simp only [List.map_append, List.map_cons, List.sum_append, List.sum_cons]
    show _ = _ + (block.size_used + PAGE_SIZE + _)
    omega
  · show pool.size_free - PAGE_SIZE = _
    have hg : block.size_free ≤ pool.size_free := g1
    rw [p4, e1] at hg ⊢
    simp only [List.map_append, List.map_cons, List.sum_append, List.sum_cons] at hg ⊢
    show _ = _ + (block.size_free - PAGE_SIZE + _)
    omega
  · show pool.size_total = _
    rw [p5, e1]
    simp only [List.length_append, List.length_cons]

theorem used_pages_init (data : Nat) : used_pages (mem_block_init data) = 0 := by
  unfold used_pages
  rw [List.length_eq_zero, List.filter_eq_nil_iff]
  intro k _
  rw [page_used_eq]
  show ¬ ((rd (alloc BLOCK_BITMAP_SIZE) (k / 8)).testBit (k % 8) = true)
  rw [rd_alloc, Nat.zero_testBit]
  simp

theorem mem_block_ok_init {data : Nat} (h : data + BLOCK_DATA_SIZE ≤ 2 ^ 64) :
    mem_block_ok (mem_block_init data) := by
  refine ⟨rfl, rfl, rfl, fun x hx => ?_, h, ?_, ?_, rfl⟩
  · have : x = 0 := List.eq_of_mem_replicate hx
    omega
  · rw [used_pages_init]; rfl
  · rw [used_pages_init]; rfl

theorem sum_map_range_const (f : Nat → mem_block) (g : mem_block → Nat) (c : Nat)
    (h : ∀ idx, g (f idx) = c) : ∀ n, (((List.range n).map f).map g).sum = n * c := by
  intro n
  induction n with
  | zero => simp
  | succ n ih =>
    rw [List.range_succ, List.map_append, List.map_append, List.sum_append, ih]
    simp only [List.map_cons, List.map_nil, List.sum_cons, List.sum_nil, h]
    ring

/-- The pool built by `mem_pool_new` is well-formed when the data areas lie
in the address space and do not overlap. -/
theorem mem_pool_ok_new (size : Nat) (data : List Nat)
    (hsize : POOL_BLOCK_COUNT size * BLOCK_DATA_SIZE < 2 ^ 64)
    (hin : ∀ i, i < POOL_BLOCK_COUNT size → data.getD i 0 + BLOCK_DATA_SIZE ≤ 2 ^ 64)
    (hdis : ∀ i j, i < j → j < POOL_BLOCK_COUNT size →
      data.getD i 0 + BLOCK_DATA_SIZE ≤ data.getD j 0 ∨
      data.getD j 0 + BLOCK_DATA_SIZE ≤ data.getD i 0) :
    mem_pool_ok (mem_pool_new size data) := by
  unfold mem_pool_new
  simp only [Nat.mod_eq_of_lt hsize]
  refine ⟨fun b hb => ?_, ?_, ?_, ?_, ?_, hsize⟩
  · obtain ⟨idx, h1, h2⟩ := List.mem_map.mp hb
    rw [← h2]
    exact mem_block_ok_init (hin idx (List.mem_range.mp h1))
  · rw [List.pairwise_map]
    exact List.Pairwise.imp_of_mem (fun {i j} _ hj hij => hdis i j hij (List.mem_range.mp hj))
      (List.pairwise_lt_range _)
  · exact (sum_map_range_const _ (fun block => block.size_used) 0 (fun _ => rfl) _).symm
  · exact (sum_map_range_const _ (fun block => block.size_free) BLOCK_DATA_SIZE
      (fun _ => rfl) _).symm
  · show POOL_BLOCK_COUNT size * BLOCK_DATA_SIZE = BLOCK_DATA_SIZE * List.length _
    rw [List.length_map, List.length_range, Nat.mul_comm]

/-! ## `mem_pool_free` of a page in use -/

set_option maxRecDepth 100000 in
/-- Clearing bit `m` of a byte as `mem_pool_free` does. -/
theorem clear_bit_spec : ∀ x, x < 256 → ∀ m, m < 8 →
    x &&& (0xFF ^^^ (1 <<< m)) < 256 ∧
    ∀ j, j < 8 → (x &&& (0xFF ^^^ (1 <<< m))).testBit j = (x.testBit j && !decide (j = m)) := by
  decide

theorem page_used_block_given {block : mem_block} (hok : mem_block_ok block) {k : Nat}
    (hk : k < 32) (j : Nat) :
    page_used (block_given block k) j = (page_used block j && !decide (j = k)) := by
  obtain ⟨_, m2⟩ := clear_bit_spec _ (hok.byte_lt (k / 8)) (k % 8) (Nat.mod_lt _ (by norm_num))
  have hlen : k / 8 < block.bitmap.length := by
    rw [hok.1]
    show k / 8 < 4
    omega
  rw [page_used_eq, page_used_eq]
  show (rd (block.bitmap.set (k / 8) _) (j / 8)).testBit (j % 8) = _
  by_cases hj : j / 8 = k / 8
  · rw [hj, rd_set_self _ hlen, m2 (j % 8) (Nat.mod_lt _ (by norm_num))]
    congr 2
    apply decide_eq_decide.mpr
    omega
  · rw [rd_set_ne _ (fun h => hj h.symm)]
    have : decide (j = k) = false := decide_eq_false (fun h => hj (by rw [h]))
    rw [this]
    simp

theorem used_pages_block_given {block : mem_block} (hok : mem_block_ok block) {k : Nat}
    (hk : k < 32) (hused : page_used block k = true) :
    used_pages block = used_pages (block_given block k) + 1 := by
  unfold used_pages
  apply filter_length_flip _ _ k _ (List.nodup_range _) (List.mem_range.mpr hk)
  · intro j _ hjk
    rw [page_used_block_given hok hk, decide_eq_false hjk]
    simp
  · rw [page_used_block_given hok hk]
    simp
  · exact hused

theorem free_give_eq {block : mem_block} (hok : mem_block_ok block) {ptr : Nat}
    (h1 : block.data ≤ ptr) (h2 : ptr < block.data + BLOCK_DATA_SIZE)
    (hused : page_used block ((ptr - block.data) / PAGE_SIZE) = true) :
    free_give block ptr = block_given block ((ptr - block.data) / PAGE_SIZE) ∧
    mem_block_ok (block_given block ((ptr - block.data) / PAGE_SIZE)) ∧
    PAGE_SIZE ≤ block.size_used := by
  have h2' : ptr < block.data + 131072 := h2
  have hk : (ptr - block.data) / PAGE_SIZE < 32 := by
    show (ptr - block.data) / 4096 < 32
    omega
  have hu := used_pages_block_given hok hk hused
  have hle := used_pages_le block
  obtain ⟨m1, _⟩ := clear_bit_spec _ (hok.byte_lt ((ptr - block.data) / PAGE_SIZE / 8))
    ((ptr - block.data) / PAGE_SIZE % 8) (Nat.mod_lt _ (by norm_num))
  obtain ⟨o1, o2, o3, o4, o5, o6, o7, o8⟩ := hok
  have o6' : block.size_used = 4096 * used_pages block := o6
  have o7' : block.size_free = 4096 * (32 - used_pages block) := o7
  have hsu : PAGE_SIZE ≤ block.size_used := by
    show 4096 ≤ block.size_used
    omega
  refine ⟨?_, ⟨by show (List.set _ _ _).length = _; rw [List.length_set]; exact o1, o2, o3,
    fun x hx => ?_, o5, ?_, ?_, o8⟩, hsu⟩
  · unfold free_give block_given
    simp only [BIT_PER_BITMAP, Nat.mod_eq_of_lt (show (ptr - block.data) / PAGE_SIZE < 2 ^ 32 by omega),
      size_sub_of_le hsu,
      Nat.mod_eq_of_lt (show block.size_free + PAGE_SIZE < 2 ^ 64 by
        show block.size_free + 4096 < 2 ^ 64
        omega)]
  · rcases List.mem_or_eq_of_mem_set hx with h | h
    · exact o4 x h
    · rw [h]; exact m1
  · show block.size_used - PAGE_SIZE = PAGE_SIZE * used_pages (block_given block _)
    show block.size_used - 4096 = 4096 * used_pages (block_given block _)
    omega
  · show block.size_free + PAGE_SIZE = PAGE_SIZE * (PAGE_PER_BLOCK - used_pages (block_given block _))
    show block.size_free + 4096 = 4096 * (32 - used_pages (block_given block _))
    omega

/-- The function `mem_pool_free` on a page in use returns `0` and keeps the
pool well-formed. -/
theorem mem_pool_ok_free {pool : mem_pool} (hok : mem_pool_ok pool) {ptr : Nat}
    {pre post : List mem_block} {block : mem_block} (hdec : pool.blocks = pre ++ block :: post)
    (h1 : block.data ≤ ptr) (h2 : ptr < block.data + BLOCK_DATA_SIZE)
    (hused : page_used block ((ptr - block.data) / PAGE_SIZE) = true) :
    (mem_pool_free pool ptr).1 = 0 ∧ mem_pool_ok (mem_pool_free pool ptr).2 := by
  have hall : ∀ b ∈ pre ++ block :: post, mem_block_ok b := by rw [← hdec]; exact hok.1
  have hb : mem_block_ok block := hall block (by simp)
  obtain ⟨f1, f2, f3⟩ := free_give_eq hb h1 h2 hused
  obtain ⟨_, g2⟩ := pool_free_ge hok hdec
  obtain ⟨_, p2, p3, p4, p5, p6⟩ := hok
  have hpw := p2
  rw [hdec, List.pairwise_append] at hpw
  have hpre : ∀ b ∈ pre, ¬ (b.data ≤ ptr ∧ ptr < b.data + BLOCK_DATA_SIZE) := by
    intro b hbm
    have := hpw.2.2 b hbm block (List.mem_cons_self _ _)
    show ¬ (b.data ≤ ptr ∧ ptr < b.data + 131072)
    have h' : b.data + 131072 ≤ block.data ∨ block.data + 131072 ≤ b.data := this
    have h2' : ptr < block.data + 131072 := h2
    omega
  have hsum : block.size_used ≤ pool.size_used := by
    rw [p3, hdec]
    simp only [List.map_append, List.map_cons, List.sum_append, List.sum_cons]
    omega
  have hsu : size_sub pool.size_used PAGE_SIZE = pool.size_used - PAGE_SIZE :=
    size_sub_of_le (le_trans f3 hsum)
  have hsf : (pool.size_free + PAGE_SIZE) % 2 ^ 64 = pool.size_free + PAGE_SIZE := by
    apply Nat.mod_eq_of_lt
    have : PAGE_SIZE ≤ pool.size_used := le_trans f3 hsum
    omega
  unfold mem_pool_free
  rw [hdec, free_block_loop_at ptr block post h1 h2 pre 0 hpre]
  simp only [Nat.zero_add, set_at_length, f1, hsu, hsf]
  refine ⟨trivial, fun b hbm => ?_, ?_, ?_, ?_, ?_, p6⟩
  · rcases List.mem_append.mp hbm with h | h
    · exact hall b (List.mem_append_left _ h)
    · rcases List.mem_cons.mp h with h | h
      · rw [h]; exact f2
      · exact hall b (List.mem_append_right _ (List.mem_cons_of_mem _ h))
  · rw [hdec] at p2
    simp only [List.pairwise_append, List.pairwise_cons, List.mem_cons] at p2 ⊢
    obtain ⟨q1, ⟨q2, q3⟩, q4⟩ := p2
    refine ⟨q1, ⟨q2, q3⟩, fun a ha b hb => ?_⟩
    rcases hb with h | h
    · rw [h]; exact q4 a ha block (Or.inl rfl)
    · exact q4 a ha b (Or.inr h)
  · show pool.size_used - PAGE_SIZE = _
    have hg : PAGE_SIZE ≤ block.size_used := f3
    rw [p3, hdec]
    simp only [List.map_append, List.map_cons, List.sum_append, List.sum_cons]
    show _ = _ + (block.size_used - PAGE_SIZE + _)
    omega
  · show pool.size_free + PAGE_SIZE = _
    rw [p4, hdec]
    simp only [List.map_append, List.map_cons, List.sum_append, List.sum_cons]
    show _ = _ + (block.size_free + PAGE_SIZE + _)
    omega
  · show pool.size_total = _
    rw [p5, hdec]
    simp only [List.length_append, List.length_cons]

/-! ## Canonical form after the signed operations -/

/-- The invariants of the data model, read off a canonical big integer. -/
theorem canonical.form {x : big_int} (h : canonical x) :
    (magnitude x ≠ 0 → rd x.slot (x.slot_length - 1) ≠ 0) ∧
    x.bit_length = (if magnitude x = 0 then 1
      else 32 * (x.slot_length - 1) + bit_width (rd x.slot (x.slot_length - 1))) ∧
    (magnitude x = 0 → x.slot_length = 1 ∧ x.bit_length = 1 ∧ x.sign = BIG_NUMBER_POSITIVE) := by
  have hz := h.1.magnitude_eq_zero_iff
  refine ⟨fun h0 ht => h0 (hz.mpr ht), ?_, fun h0 =>
    ⟨slot_length_of_zero h.1 h0, h.1.bits_of_zero h0, h.2.2 h0⟩⟩
  rw [h.1.bits]
  by_cases h0 : magnitude x = 0
  · rw [if_pos h0, if_pos (hz.mp h0)]
  · rw [if_neg h0, if_neg (fun ht => h0 (hz.mpr ht))]

/-- The function `big_int_sub_to` keeps the canonical form in every branch. -/
theorem sub_to_canonical {a b : big_int} (ha : canonical a) (hb : canonical b) :
    canonical (big_int_sub_to a b).2 := by
  by_cases hcase : a.sign = BIG_NUMBER_NEGATIVE ∧ b.sign = BIG_NUMBER_NEGATIVE ∧
      magnitude a > magnitude b
  · obtain ⟨sa, sb, hgt⟩ := hcase
    have hcmp := compare_raw_eq ha.mc hb.mc
    obtain ⟨_, r2, _⟩ := add_to_raw_spec ha.mc hb.mc
    obtain ⟨q1, _⟩ := set_sign_spec r2 BIG_NUMBER_NEGATIVE (Or.inr rfl)
    have nsa : ¬ a.sign = BIG_NUMBER_POSITIVE := by rw [sa]; exact pos_ne_neg.symm
    have nsb : ¬ b.sign = BIG_NUMBER_POSITIVE := by rw [sb]; exact pos_ne_neg.symm
    unfold big_int_sub_to
    rw [if_neg nsa, if_neg nsb, hcmp, if_pos (cmp_nat_pos_iff.mpr hgt)]
    dsimp only
    exact q1
  · exact (sub_to_spec ha hb hcase).2.1

/-! ## The reciprocal of Barrett reduction -/

theorem barret_build_spec {n : big_int} (hn : pos_canonical n) (hN : 1 ≤ magnitude n)
    (fuel : Nat) (hf : 2 * n.bit_length + 2 ≤ fuel) :
    ∃ r, big_int_barret_build fuel n = some r ∧
      magnitude r = 2 ^ (2 * n.bit_length) / magnitude n := by
  obtain ⟨w1, w2, _, _⟩ := new_from_int_spec 1 (by norm_num)
  obtain ⟨s1, s2, s3⟩ := left_shift_core_spec w1.1 (by rw [w2]; norm_num) (n.bit_length <<< 1)
  have hsh : n.bit_length <<< 1 = 2 * n.bit_length := by
    rw [Nat.shiftLeft_eq]; omega
  have hp : pos_canonical (left_shift_core (big_int_new_from_int 1) (n.bit_length <<< 1)) :=
    ⟨s1, by rw [s3]; exact w1.2⟩
  have hbits : (left_shift_core (big_int_new_from_int 1) (n.bit_length <<< 1)).bit_length =
      2 * n.bit_length + 1 := by
    have hbw : bit_width (2 ^ (2 * n.bit_length)) = 2 * n.bit_length + 1 :=
      bit_width_eq_of_bounds (Nat.succ_pos _) (by simp)
        (Nat.pow_lt_pow_right (by norm_num) (Nat.lt_succ_self _))
    rw [s1.bits_eq, s2, w2, Nat.one_mul, hsh, hbw]
    omega
  obtain ⟨q, q1, q2⟩ := div_to_spec hp hn hN fuel (by rw [hbits]; omega)
  refine ⟨q, ?_, by rw [q2, s2, w2, Nat.one_mul, hsh]⟩
  unfold big_int_barret_build
  simp only
  rw [left_shift_spec, Option.some_bind, q1]

/-! ## Karatsuba against the schoolbook product -/

theorem plain_pos_spec {same : Bool} {a b : big_int} (ha : magnitude_canonical a)
    (hb : magnitude_canonical b) (hsame : same = true → b = a) (hb0 : magnitude b ≠ 0) :
    pos_canonical (__big_int_mul_plain same a b) ∧
    magnitude (__big_int_mul_plain same a b) = magnitude a * magnitude b := by
  cases same with
  | true =>
    have hba := hsame rfl
    subst hba
    obtain ⟨s1, s2⟩ := square_plain_spec hb.one_le hb.rd_lt
    have e : __big_int_mul_plain true b b = __big_int_square_plain b := by
      unfold __big_int_mul_plain; simp
    rw [e]
    exact ⟨s1, s2⟩
  | false =>
    obtain ⟨_, p2, p3, p4, _⟩ := mul_plain_spec ha hb
    exact ⟨⟨p4 hb0, p2⟩, p3⟩

theorem karatsuba_pos_spec {same : Bool} {a b : big_int} (ha : magnitude_canonical a)
    (hb : magnitude_canonical b) (hsame : same = true → b = a)
    (ha768 : 768 < a.bit_length) (hb768 : 768 < b.bit_length) (fuel : Nat)
    (hfa : a.bit_length ≤ 769 + fuel) (hfb : b.bit_length ≤ 769 + fuel) :
    ∃ r, __big_int_mul_karatsuba fuel same a b = some r ∧ pos_canonical r ∧
      magnitude r = magnitude a * magnitude b := by
  have hb0 : magnitude b ≠ 0 := by
    intro h0
    have := hb.bits_of_zero h0
    omega
  have hm := mwc_sound_fuel fuel
  unfold __big_int_mul_karatsuba karatsuba_with
  simp only
  split_ifs with hgt hfall hfall
  · obtain ⟨p1, p2⟩ := plain_pos_spec ha hb hsame hb0
    exact ⟨_, rfl, p1, p2⟩
  · obtain ⟨r, hr, rc, rv⟩ := karatsuba_body_spec hm hb ha (fun hs => (hsame hs).symm)
      (by omega) hb768 (by omega)
    exact ⟨r, hr, rc, by rw [rv, Nat.mul_comm]⟩
  · obtain ⟨p1, p2⟩ := plain_pos_spec ha hb hsame hb0
    exact ⟨_, rfl, p1, p2⟩
  · obtain ⟨r, hr, rc, rv⟩ := karatsuba_body_spec hm ha hb hsame (by omega) ha768 (by omega)
    exact ⟨r, hr, rc, rv⟩

/-! ## The record left by the division loop -/

theorem set_sign_fields (sign : Int) (x : big_int) :
    (set_sign sign x).slot = x.slot ∧ (set_sign sign x).bit_length = x.bit_length ∧
    (set_sign sign x).slot_length = x.slot_length ∧
    (set_sign sign x).allocated_slot_length = x.allocated_slot_length := by
  unfold set_sign
  simp only
  split_ifs <;> exact ⟨rfl, rfl, rfl, rfl⟩

/-- The record `big_int_div_to` leaves when the dividend is larger than the
divisor: the quotient has one bit more than the stored `bit_length`, and the
capacity field is the one of the dividend while the buffer is the one
allocated for the quotient. -/
theorem div_to_form {a b : big_int} (ha : pos_canonical a) (hb : pos_canonical b)
    (hgt : magnitude b < magnitude a) (hb1 : 1 ≤ magnitude b) (fuel : Nat)
    (hf : a.bit_length + 1 ≤ fuel) :
    ∃ q, big_int_div_to fuel a b = some q ∧ magnitude q = magnitude a / magnitude b ∧
      bit_width (magnitude q) = q.bit_length + 1 ∧
      q.slot_length = q.bit_length / 32 + 1 ∧
      q.allocated_slot_length = a.allocated_slot_length ∧
      q.slot.length = max (BIT_TO_SLOT (max a.bit_length 1)) ALLOCATE_SLOT_SIZE := by
  unfold big_int_div_to
  simp only
  rw [compare_pos ha hb]
  have h0 : ¬ cmp_nat (magnitude a) (magnitude b) = 0 := fun h => by
    have := cmp_nat_eq_zero_iff.mp h; omega
  have h1 : ¬ cmp_nat (magnitude a) (magnitude b) = -1 := fun h => by
    have := cmp_nat_eq_neg_one_iff.mp h; omega
  rw [if_neg h0, if_neg h1]
  obtain ⟨D0, D, δ, e1, e2, e3, e4, e5, e6, e7⟩ := div_head_spec ha hb hgt hb1 fuel hf
  rw [e1]
  simp only [Option.bind_eq_bind, Option.some_bind]
  rw [e2]
  simp only [Option.some_bind]
  have hqlen : (__big_int_new_zero a.bit_length).slot.length =
      max (BIT_TO_SLOT (max a.bit_length 1)) ALLOCATE_SLOT_SIZE := length_alloc _
  have hq0 : ∀ i, rd (__big_int_new_zero a.bit_length).slot i = 0 := fun i => rd_alloc _ i
  obtain ⟨q', r1, r2, r3, r4, r5⟩ := div_loop_spec (magnitude b) hb1 fuel (δ / 32 + 1) δ fuel
    (__big_int_new_zero a.bit_length).slot a D (by omega) (by omega) ha e3 e4 e6 e7
    (by omega) (by rw [hqlen, BIT_TO_SLOT_eq]; omega) (fun i => by rw [hq0]; norm_num)
    ⟨fun j _ => hq0 j, by rw [hq0]; simp⟩
  rw [r1]
  simp only [Option.some_bind]
  have ets : to_size ((δ : Int) + 1) = δ + 1 := by
    unfold to_size
    rw [if_neg (by omega)]
    omega
  have ets0 : to_size (δ : Int) = δ := by
    unfold to_size
    rw [if_neg (by omega)]
    omega
  obtain ⟨f1, f2, f3, f4⟩ := set_sign_fields
    (if a.sign = b.sign then BIG_NUMBER_POSITIVE else BIG_NUMBER_NEGATIVE)
    { a with slot := q', slot_length := BIT_TO_SLOT (to_size ((δ : Int) + 1)),
             bit_length := to_size (δ : Int) }
  have hmag : magnitude (set_sign
      (if a.sign = b.sign then BIG_NUMBER_POSITIVE else BIG_NUMBER_NEGATIVE)
      { a with slot := q', slot_length := BIT_TO_SLOT (to_size ((δ : Int) + 1)),
               bit_length := to_size (δ : Int) }) = magnitude a / magnitude b := by
    rw [magnitude_set_sign]
    show val q' (BIT_TO_SLOT (to_size ((δ : Int) + 1))) = _
    rw [ets, BIT_TO_SLOT_eq, show (δ + 1 + 31) / 32 = δ / 32 + 1 by omega, r5,
      val_eq_zero_of_forall (fun i _ => hq0 i)]
    simp
  refine ⟨_, rfl, hmag, ?_, ?_, ?_, ?_⟩
  · rw [hmag, f2]
    show _ = to_size (δ : Int) + 1
    rw [ets0]
    have hbpos : 0 < magnitude b := by omega
    apply bit_width_eq_of_bounds (by omega)
    · rw [Nat.add_sub_cancel, Nat.le_div_iff_mul_le hbpos, Nat.mul_comm, ← e4]; exact e6
    · rw [Nat.div_lt_iff_lt_mul hbpos, pow_succ]
      calc magnitude a < 2 * magnitude D := e7
        _ = 2 ^ δ * 2 * magnitude b := by rw [e4]; ring
  · rw [f3, f2]
    show BIT_TO_SLOT (to_size ((δ : Int) + 1)) = to_size (δ : Int) / 32 + 1
    rw [ets, ets0, BIT_TO_SLOT_eq]
    omega
  · rw [f4]
  · rw [f1]
    show q'.length = _
    rw [r2, hqlen]

/-! ## Operands that fill their blocks -/

/-- Canonical form from linear scans of the buffer, for a value that is not
zero. -/
theorem canonical_of_scan {x : big_int} (hlen : x.slot.length = x.allocated_slot_length)
    (h1 : 1 ≤ x.slot_length) (h2 : x.slot_length ≤ x.allocated_slot_length)
    (hlt : ∀ v ∈ x.slot, v < 2 ^ 32) (hz : ∀ v ∈ x.slot.drop x.slot_length, v = 0)
    (htop : rd x.slot (x.slot_length - 1) ≠ 0)
    (hb : x.bit_length = 32 * (x.slot_length - 1) + bit_width (rd x.slot (x.slot_length - 1)))
    (hs : x.sign = BIG_NUMBER_POSITIVE ∨ x.sign = BIG_NUMBER_NEGATIVE) : canonical x := by
  have hmc : magnitude_canonical x := by
    refine ⟨hlen, h1, h2, hlt, fun i hi hle => ?_, Or.inr htop, by rw [if_neg htop]; exact hb⟩
    rw [rd_eq_getElem hi]
    apply hz
    rw [List.mem_iff_getElem]
    refine ⟨i - x.slot_length, by rw [List.length_drop]; omega, ?_⟩
    rw [List.getElem_drop]
    congr 1
    omega
  refine ⟨hmc, hs, fun h0 => ?_⟩
  exact absurd (hmc.magnitude_eq_zero_iff.mp h0) htop

set_option maxRecDepth 100000 in
theorem canonical_two_pow_8192 : canonical two_pow_8192 :=
  canonical_of_scan (by decide) (by decide) (by decide) (by decide) (by decide) (by decide)
    (by decide) (by decide)

set_option maxRecDepth 100000 in
theorem canonical_two_pow_8160 : canonical two_pow_8160 :=
  canonical_of_scan (by decide) (by decide) (by decide) (by decide) (by decide) (by decide)
    (by decide) (by decide)

set_option maxRecDepth 100000 in
theorem canonical_two_pow_8128 : canonical two_pow_8128 :=
  canonical_of_scan (by decide) (by decide) (by decide) (by decide) (by decide) (by decide)
    (by decide) (by decide)

set_option maxRecDepth 100000 in
theorem canonical_two_pow_32 : canonical two_pow_32 :=
  canonical_of_scan (by decide) (by decide) (by decide) (by decide) (by decide) (by decide)
    (by decide) (by decide)

set_option maxRecDepth 100000 in
theorem canonical_two_pow_8191 : canonical two_pow_8191 :=
  canonical_of_scan (by decide) (by decide) (by decide) (by decide) (by decide) (by decide)
    (by decide) (by decide)

set_option maxRecDepth 100000 in
theorem canonical_two_pow_16383 : canonical two_pow_16383 :=
  canonical_of_scan (by decide) (by decide) (by decide) (by decide) (by decide) (by decide)
    (by decide) (by decide)

set_option maxRecDepth 100000 in
theorem canonical_two_pow_8191_plus_1 : canonical two_pow_8191_plus_1 :=
  canonical_of_scan (by decide) (by decide) (by decide) (by decide) (by decide) (by decide)
    (by decide) (by decide)

set_option maxRecDepth 100000 in
theorem canonical_neg_two_pow_16383_plus_1 : canonical neg_two_pow_16383_plus_1 :=
  canonical_of_scan (by decide) (by decide) (by decide) (by decide) (by decide) (by decide)
    (by decide) (by decide)

set_option maxRecDepth 100000 in
theorem canonical_two_pow_4096 : canonical two_pow_4096 :=
  canonical_of_scan (by decide) (by decide) (by decide) (by decide) (by decide) (by decide)
    (by decide) (by decide)

set_option maxRecDepth 100000 in
theorem canonical_mersenne_9689 : canonical mersenne_9689 :=
  canonical_of_scan (by decide) (by decide) (by decide) (by decide) (by decide) (by decide)
    (by decide) (by decide)

/-! ## The squares of powers of two, step by step -/

theorem outcome.bind_done {α β : Type} (a : α) (f : α → outcome β) :
    (outcome.done a).bind f = f a := rfl

theorem outcome.bind_outside {α β : Type} (f : α → outcome β) :
    (outcome.outside : outcome α).bind f = outcome.outside := rfl

theorem outcome.map_done {α β : Type} (f : α → β) (a : α) :
    outcome.map f (outcome.done a) = outcome.done (f a) := rfl

theorem outcome.map_outside {α β : Type} (f : α → β) :
    outcome.map f (outcome.outside : outcome α) = outcome.outside := rfl

/-- One level of `__big_int_mul_karatsuba` on a square whose low half is zero:
the outcome is the one of the last step. -/
theorem karatsuba_square_level
    (mwc : Bool → big_int → big_int → outcome (big_int × big_int)) (A H Z2 Z : big_int) (b : Nat)
    (hb : ((A.bit_length >>> 1) ||| 31) + 1 = b)
    (hsplit : __big_int_mul_karatsuba_split_checked A b = outcome.done (H, Z))
    (hH : mwc true H H = outcome.done (H, Z2))
    (hZ : mwc true Z Z = outcome.done (Z, Z))
    (hdiff : karatsuba_diff_checked H Z = outcome.done H)
    (hs : H.slot_length ≠ 1)
    (hmid : karatsuba_middle_checked Z2 Z Z2 = outcome.done Z) :
    karatsuba_body_checked mwc true A A = karatsuba_combine_checked Z2 Z Z b := by
  have hm : mul_to_with_checked mwc true H H = outcome.done Z2 := by
    unfold mul_to_with_checked
    rw [if_neg (fun h => hs h.1), if_neg (fun h => by simp at h), if_neg (fun h => hs h.1),
      if_neg (fun h => hs h.1), hH]
    rfl
  unfold karatsuba_body_checked
  dsimp only
  rw [hb, hsplit, outcome.bind_done]
  dsimp only
  rw [if_pos rfl, outcome.bind_done]
  dsimp only
  rw [hH, outcome.bind_done]
  dsimp only
  rw [hZ, outcome.bind_done]
  dsimp only
  rw [hdiff, outcome.bind_done, if_pos rfl, outcome.bind_done, hm, outcome.bind_done, hmid,
    outcome.bind_done]

/-- The function `__big_int_mul_without_check` on a square longer than 768
bits whose low half is zero. -/
theorem mwc_square_level (fuel : Nat) (A H Z2 Z : big_int) (b : Nat)
    (hbits : 768 < A.bit_length)
    (hb : ((A.bit_length >>> 1) ||| 31) + 1 = b)
    (hsplit : __big_int_mul_karatsuba_split_checked A b = outcome.done (H, Z))
    (hH : __big_int_mul_without_check_checked fuel true H H = outcome.done (H, Z2))
    (hZ : __big_int_mul_without_check_checked fuel true Z Z = outcome.done (Z, Z))
    (hdiff : karatsuba_diff_checked H Z = outcome.done H)
    (hs : H.slot_length ≠ 1)
    (hmid : karatsuba_middle_checked Z2 Z Z2 = outcome.done Z) :
    __big_int_mul_without_check_checked (fuel + 1) true A A =
      (karatsuba_combine_checked Z2 Z Z b).map (mul_finish A A) := by
  rw [__big_int_mul_without_check_checked]
  simp only
  rw [if_pos (by simpa [BIG_NUMBER_MUL_KARATSUBA_THRESHOLD] using hbits)]
  unfold karatsuba_with_checked
  simp only [lt_self_iff_false, if_false]
  rw [if_neg (by rw [Nat.shiftLeft_eq]; omega),
    karatsuba_square_level _ A H Z2 Z b hb hsplit hH hZ hdiff hs hmid]

/-- The square of zero, at every fuel. -/
theorem mwc_square_zero (fuel : Nat) :
    __big_int_mul_without_check_checked fuel true zero_rec zero_rec =
      outcome.done (zero_rec, zero_rec) := by
  have h : (__big_int_mul_plain_checked true zero_rec zero_rec).map
      (mul_finish zero_rec zero_rec) = outcome.done (zero_rec, zero_rec) := by decide!
  cases fuel <;>
  · rw [__big_int_mul_without_check_checked]
    simp only
    rw [if_neg (by decide)]
    exact h

set_option maxRecDepth 100000 in
/-- The square of `2 ^ 480`, by `__big_int_square_plain`, at every fuel. -/
theorem mwc_square_480 (fuel : Nat) :
    __big_int_mul_without_check_checked fuel true (pow2_rec 480 256) (pow2_rec 480 256) =
      outcome.done (pow2_rec 480 256, pow2_rec 960 256) := by
  have h : (__big_int_mul_plain_checked true (pow2_rec 480 256) (pow2_rec 480 256)).map
      (mul_finish (pow2_rec 480 256) (pow2_rec 480 256)) =
        outcome.done (pow2_rec 480 256, pow2_rec 960 256) := by decide!
  cases fuel <;>
  · rw [__big_int_mul_without_check_checked]
    simp only
    rw [if_neg (by decide)]
    exact h

set_option maxRecDepth 100000 in
/-- The square of `2 ^ 992`: one level of Karatsuba over the square of
`2 ^ 480`. -/
theorem mwc_square_992 (fuel : Nat) :
    __big_int_mul_without_check_checked (fuel + 1) true (pow2_rec 992 256) (pow2_rec 992 256) =
      outcome.done (pow2_rec 992 256, pow2_rec 1984 256) := by
  rw [mwc_square_level fuel (pow2_rec 992 256) (pow2_rec 480 256) (pow2_rec 960 256) zero_rec 512
    (by decide) (by decide) (by decide!) (mwc_square_480 fuel) (mwc_square_zero fuel)
    (by decide!) (by decide) (by decide!),
    show karatsuba_combine_checked (pow2_rec 960 256) zero_rec zero_rec 512 =
      outcome.done (pow2_rec 1984 256) by decide!,
    outcome.map_done,
    show mul_finish (pow2_rec 992 256) (pow2_rec 992 256) (pow2_rec 1984 256) =
      (pow2_rec 992 256, pow2_rec 1984 256) by decide!]

set_option maxRecDepth 100000 in
/-- The square of `2 ^ 2016`: one level of Karatsuba over the square of
`2 ^ 992`. -/
theorem mwc_square_2016 (fuel : Nat) :
    __big_int_mul_without_check_checked (fuel + 2) true (pow2_rec 2016 256)
      (pow2_rec 2016 256) = outcome.done (pow2_rec 2016 256, pow2_rec 4032 256) := by
  rw [mwc_square_level (fuel + 1) (pow2_rec 2016 256) (pow2_rec 992 256) (pow2_rec 1984 256)
    zero_rec 1024
    (by decide) (by decide) (by decide!) (mwc_square_992 fuel) (mwc_square_zero (fuel + 1))
    (by decide!) (by decide) (by decide!),
    show karatsuba_combine_checked (pow2_rec 1984 256) zero_rec zero_rec 1024 =
      outcome.done (pow2_rec 4032 256) by decide!,
    outcome.map_done,
    show mul_finish (pow2_rec 2016 256) (pow2_rec 2016 256) (pow2_rec 4032 256) =
      (pow2_rec 2016 256, pow2_rec 4032 256) by decide!]

set_option maxRecDepth 100000 in
/-- The square of `2 ^ 4096` leaves its blocks in the last step of
`__big_int_mul_karatsuba`, the sum `(z2 << (b << 1)) + (z1 << b) + z0`. -/
theorem mwc_square_4096 (fuel : Nat) :
    __big_int_mul_without_check_checked (fuel + 3) true (pow2_rec 4096 256)
      (pow2_rec 4096 256) = outcome.outside := by
  rw [mwc_square_level (fuel + 2) (pow2_rec 4096 256) (pow2_rec 2016 256) (pow2_rec 4032 256)
    zero_rec 2080
    (by decide) (by decide) (by decide!) (mwc_square_2016 fuel) (mwc_square_zero (fuel + 2))
    (by decide!) (by decide) (by decide!),
    show karatsuba_combine_checked (pow2_rec 4032 256) zero_rec zero_rec 2080 =
      outcome.outside by decide!,
    outcome.map_outside]

set_option maxRecDepth 100000 in
/-- The square of `2 ^ 1024`: one level of Karatsuba over the square of
`2 ^ 480`. -/
theorem mwc_square_1024 (fuel : Nat) :
    __big_int_mul_without_check_checked (fuel + 1) true (pow2_rec 1024 256)
      (pow2_rec 1024 256) = outcome.done (pow2_rec 1024 256, pow2_rec 2048 256) := by
  rw [mwc_square_level fuel (pow2_rec 1024 256) (pow2_rec 480 256) (pow2_rec 960 256) zero_rec 544
    (by decide) (by decide) (by decide!) (mwc_square_480 fuel) (mwc_square_zero fuel)
    (by decide!) (by decide) (by decide!),
    show karatsuba_combine_checked (pow2_rec 960 256) zero_rec zero_rec 544 =
      outcome.done (pow2_rec 2048 256) by decide!,
    outcome.map_done,
    show mul_finish (pow2_rec 1024 256) (pow2_rec 1024 256) (pow2_rec 2048 256) =
      (pow2_rec 1024 256, pow2_rec 2048 256) by decide!]

set_option maxRecDepth 100000 in
/-- The square of `2 ^ 2048`: one level of Karatsuba over the square of
`2 ^ 992`. -/
theorem mwc_square_2048 (fuel : Nat) :
    __big_int_mul_without_check_checked (fuel + 2) true (pow2_rec 2048 256)
      (pow2_rec 2048 256) = outcome.done (pow2_rec 2048 256, pow2_rec 4096 256) := by
  rw [mwc_square_level (fuel + 1) (pow2_rec 2048 256) (pow2_rec 992 256) (pow2_rec 1984 256)
    zero_rec 1056
    (by decide) (by decide) (by decide!) (mwc_square_992 fuel) (mwc_square_zero (fuel + 1))
    (by decide!) (by decide) (by decide!),
    show karatsuba_combine_checked (pow2_rec 1984 256) zero_rec zero_rec 1056 =
      outcome.done (pow2_rec 4096 256) by decide!,
    outcome.map_done,
    show mul_finish (pow2_rec 2048 256) (pow2_rec 2048 256) (pow2_rec 4096 256) =
      (pow2_rec 2048 256, pow2_rec 4096 256) by decide!]

/-- The function `big_int_mul_to` on a square that takes no short cut. -/
theorem mul_to_checked_square (fuel : Nat) (A A' R : big_int)
    (h0 : ¬ (A.slot_length = 1 ∧ rd A.slot 0 = 0))
    (h1 : ¬ (A.slot_length = 1 ∧ rd A.slot 0 = 1 ∧ A.sign = BIG_NUMBER_POSITIVE))
    (h : __big_int_mul_without_check_checked fuel true A A = outcome.done (A', R)) :
    big_int_mul_to_checked fuel true A A = outcome.done R := by
  unfold big_int_mul_to_checked mul_to_with_checked
  rw [if_neg h0, if_neg (fun h => by simp at h), if_neg h1, if_neg h0, h]
  rfl

theorem mul_to_checked_square_outside (fuel : Nat) (A : big_int)
    (h0 : ¬ (A.slot_length = 1 ∧ rd A.slot 0 = 0))
    (h1 : ¬ (A.slot_length = 1 ∧ rd A.slot 0 = 1 ∧ A.sign = BIG_NUMBER_POSITIVE))
    (h : __big_int_mul_without_check_checked fuel true A A = outcome.outside) :
    big_int_mul_to_checked fuel true A A = outcome.outside := by
  unfold big_int_mul_to_checked mul_to_with_checked
  rw [if_neg h0, if_neg (fun h => by simp at h), if_neg h1, if_neg h0, h]
  rfl

set_option maxRecDepth 100000 in
/-- The function `big_int_mul_to` leaves its blocks on the square of
`2 ^ 4096`, at every fuel that allows three levels of Karatsuba. -/
theorem mul_to_square_4096 (fuel : Nat) :
    big_int_mul_to_checked (fuel + 3) true (pow2_rec 4096 256) (pow2_rec 4096 256) =
      outcome.outside :=
  mul_to_checked_square_outside _ _ (by decide) (by decide) (mwc_square_4096 fuel)

/-- A pass of the loop of `big_int_pow_mod_to` on a clear bit of the exponent
ends outside the blocks when the square does. -/
theorem pow_mod_bits_checked_square_outside (fuel : Nat) (num3 : big_int) (w k bit_idx : Nat)
    (st : pow_mod_state) (hbit : w &&& (1 <<< bit_idx) = 0)
    (hsq : big_int_mul_to_checked fuel true st.num1 st.num1 = outcome.outside) :
    pow_mod_bits_checked fuel num3 w (k + 1) bit_idx st = outcome.outside := by
  rw [pow_mod_bits_checked]
  rw [if_neg (not_not.mpr hbit), outcome.bind_done, hsq, outcome.bind_outside]

/-- A pass of the loop of `big_int_pow_mod_to` on a clear bit of the
exponent. -/
theorem pow_mod_bits_checked_pass (fuel : Nat) (num3 : big_int) (w k bit_idx : Nat)
    (st : pow_mod_state) (sq num1 : big_int) (hbit : w &&& (1 <<< bit_idx) = 0)
    (hsq : big_int_mul_to_checked fuel true st.num1 st.num1 = outcome.done sq)
    (hmod : big_int_mod_to fuel sq num3 = some num1) (hcount : st.bit_count - 1 ≠ 0) :
    pow_mod_bits_checked fuel num3 w (k + 1) bit_idx st =
      pow_mod_bits_checked fuel num3 w k (bit_idx + 1)
        { result := st.result, num1 := num1, bit_count := st.bit_count - 1 } := by
  rw [pow_mod_bits_checked]
  rw [if_neg (not_not.mpr hbit), outcome.bind_done, hsq, outcome.bind_done, hmod]
  show (if st.bit_count - 1 = 0 then _ else _) = _
  rw [if_neg hcount]

/-! ## The squares of `big_int_pow_mod_to` on powers of two -/

set_option maxRecDepth 100000 in
/-- The squares of `2 ^ (2 ^ j)` for `j < 10`, by `__big_int_square_plain`. -/
theorem plain_square_small : ∀ j < 10,
    (__big_int_mul_plain_checked true (pow2_rec (2 ^ j) 256) (pow2_rec (2 ^ j) 256)).map
      (mul_finish (pow2_rec (2 ^ j) 256) (pow2_rec (2 ^ j) 256)) =
        outcome.done (pow2_rec (2 ^ j) 256, pow2_rec (2 ^ (j + 1)) 256) := by
  decide!

set_option maxRecDepth 100000 in
theorem mwc_square_small (fuel j : Nat) (hj : j < 10) :
    __big_int_mul_without_check_checked fuel true (pow2_rec (2 ^ j) 256) (pow2_rec (2 ^ j) 256) =
      outcome.done (pow2_rec (2 ^ j) 256, pow2_rec (2 ^ (j + 1)) 256) := by
  have h := plain_square_small j hj
  have hb : ¬ min (pow2_rec (2 ^ j) 256).bit_length (pow2_rec (2 ^ j) 256).bit_length >
      BIG_NUMBER_MUL_KARATSUBA_THRESHOLD := by
    interval_cases j <;> decide
  cases fuel <;>
  · rw [__big_int_mul_without_check_checked]
    simp only
    rw [if_neg hb]
    exact h

set_option maxRecDepth 100000 in
/-- The squares `big_int_pow_mod_to` takes on the way from `2` to `2 ^ 4096`. -/
theorem mul_to_square_chain (fuel j : Nat) (hj : j < 12) :
    big_int_mul_to_checked (fuel + 3) true (pow2_rec (2 ^ j) 256) (pow2_rec (2 ^ j) 256) =
      outcome.done (pow2_rec (2 ^ (j + 1)) 256) := by
  have h0 : ¬ ((pow2_rec (2 ^ j) 256).slot_length = 1 ∧ rd (pow2_rec (2 ^ j) 256).slot 0 = 0) := by
    interval_cases j <;> decide
  have h1 : ¬ ((pow2_rec (2 ^ j) 256).slot_length = 1 ∧ rd (pow2_rec (2 ^ j) 256).slot 0 = 1 ∧
      (pow2_rec (2 ^ j) 256).sign = BIG_NUMBER_POSITIVE) := by
    interval_cases j <;> decide
  by_cases hs : j < 10
  · exact mul_to_checked_square _ _ _ _ h0 h1 (mwc_square_small _ j hs)
  · obtain rfl | rfl : j = 10 ∨ j = 11 := by omega
    · exact mul_to_checked_square _ _ _ _ h0 h1 (mwc_square_1024 (fuel + 2))
    · exact mul_to_checked_square _ _ _ _ h0 h1 (mwc_square_2048 (fuel + 1))

set_option maxRecDepth 100000 in
/-- A power of two below `2 ^ 9689 - 1` is its own remainder: the function
`big_int_mod_to` returns at its comparison. -/
theorem mod_to_mersenne (fuel j : Nat) (hj : j ≤ 12) :
    big_int_mod_to fuel (pow2_rec (2 ^ j) 256) mersenne_9689 = some (pow2_rec (2 ^ j) 256) := by
  have hc : big_int_compare (pow2_rec (2 ^ j) 256) mersenne_9689 = -1 := by
    interval_cases j <;> decide!
  unfold big_int_mod_to
  simp only
  rw [hc, if_neg (by decide), if_pos rfl]

/-- The loop of `big_int_pow_mod_to` for the exponent `8192` and the modulus
`2 ^ 9689 - 1`, entered at the pass `j` with `num1 = 2 ^ (2 ^ j)`, leaves its
blocks: the pass 12 squares `2 ^ 4096`. -/
theorem pow_mod_bits_checked_mersenne (fuel : Nat) (result : big_int) :
    ∀ d j, j + d = 12 →
      pow_mod_bits_checked (fuel + 3) mersenne_9689 8192 (d + 20) j
        { result := result, num1 := pow2_rec (2 ^ j) 256, bit_count := 14 - (j : Int) } =
        outcome.outside := by
  intro d
  induction d with
  | zero =>
    intro j hj
    obtain rfl : j = 12 := by omega
    exact pow_mod_bits_checked_square_outside _ _ _ _ _ _ (by decide) (mul_to_square_4096 fuel)
  | succ d ih =>
    intro j hj
    have hbit : 8192 &&& (1 <<< j) = 0 := by
      have : j < 12 := by omega
      interval_cases j <;> decide
    rw [show d + 1 + 20 = (d + 20) + 1 by omega,
      pow_mod_bits_checked_pass _ _ _ _ _ _ _ _ hbit (mul_to_square_chain fuel j (by omega))
        (mod_to_mersenne _ (j + 1) (by omega)) (by dsimp only; omega)]
    have h := ih (j + 1) (by omega)
    rw [show (14 : Int) - ((j + 1 : Nat) : Int) = 14 - (j : Int) - 1 by push_cast; ring] at h
    exact h

/-- The function `big_int_pow_mod_to` leaves its blocks when the loop over a
one-slot exponent does. -/
theorem pow_mod_to_checked_outside (fuel : Nat) (num1 num2 num3 : big_int)
    (h0 : ¬(num1.slot_length = 1 ∧ rd num1.slot 0 = 0))
    (h1 : ¬(num1.slot_length = 1 ∧ rd num1.slot 0 = 1))
    (he : num2.slot_length = 1)
    (hloop : pow_mod_bits_checked fuel num3 (rd num2.slot 0) BIT_PER_SLOT 0
      { result := big_int_new_from_int 1, num1 := num1, bit_count := num2.bit_length } =
        outcome.outside) :
    big_int_pow_mod_to_checked fuel num1 num2 num3 = outcome.outside := by
  unfold big_int_pow_mod_to_checked
  dsimp only
  rw [if_neg h0, if_neg h1, he, for_up_succ, for_up_zero, outcome.bind_done, hloop]
  rfl

set_option maxRecDepth 100000 in
/-- The function `big_int_pow_mod_to` leaves its blocks on `2 ^ 8192` modulo
`2 ^ 9689 - 1`. -/
theorem pow_mod_to_checked_mersenne (fuel : Nat) :
    big_int_pow_mod_to_checked (fuel + 3) (big_int_assign (big_int_new_from_int 2))
      (big_int_new_from_int 8192) mersenne_9689 = outcome.outside := by
  have ha : big_int_assign (big_int_new_from_int 2) = pow2_rec (2 ^ 0) 256 := by decide!
  rw [ha]
  exact pow_mod_to_checked_outside _ _ _ _ (by decide) (by decide) (by decide)
    (pow_mod_bits_checked_mersenne fuel _ 12 0 (by omega))

set_option maxRecDepth 100000 in
/-- The function `big_int_pow_mod_to` leaves its blocks on the square of
`2 ^ 4096`. -/
theorem pow_mod_to_checked_square_4096 (fuel : Nat) (num3 : big_int) :
    big_int_pow_mod_to_checked (fuel + 3) (pow2_rec 4096 256) (big_int_new_from_int 2) num3 =
      outcome.outside :=
  pow_mod_to_checked_outside _ _ _ _ (by decide) (by decide) (by decide)
    (pow_mod_bits_checked_square_outside _ _ _ 31 _ _ (by decide) (mul_to_square_4096 fuel))

/-- The computation of `dh` leaves its blocks for the prime `2 ^ 9689 - 1` and
a private key `8192`. -/
theorem dh_checked_mersenne (fuel : Nat) (private_bob : big_int) :
    dh_checked (fuel + 3) mersenne_9689 (big_int_new_from_int 8192) private_bob =
      outcome.outside := by
  unfold dh_checked
  dsimp only
  rw [pow_mod_to_checked_mersenne]
  rfl

/-! ## A run that stays inside its blocks

The run with the slot accesses checked, when it ends with `outcome.done`, gives
the result of the run that reads `0` past a block and drops a store past it:
on such a run no access past a block takes place. -/

theorem outcome.bind_eq_done {α β : Type} {x : outcome α} {f : α → outcome β} {r : β}
    (h : x.bind f = outcome.done r) : ∃ a, x = outcome.done a ∧ f a = outcome.done r := by
  cases x with
  | done a => exact ⟨a, rfl, h⟩
  | outside => cases h
  | no_result => cases h

theorem outcome.map_eq_done {α β : Type} {x : outcome α} {f : α → β} {r : β}
    (h : x.map f = outcome.done r) : ∃ a, x = outcome.done a ∧ f a = r := by
  cases x with
  | done a => exact ⟨a, rfl, by injection h⟩
  | outside => cases h
  | no_result => cases h

theorem outcome.of_option_eq_done {α : Type} {x : Option α} {r : α}
    (h : outcome.of_option x = outcome.done r) : x = some r := by
  cases x with
  | none => cases h
  | some a => injection h with e; rw [e]

theorem add_to_raw_checked_done {num1 num2 : big_int} {r : Int × big_int}
    (h : big_int_add_to_raw_checked num1 num2 = outcome.done r) :
    big_int_add_to_raw num1 num2 = r := by
  unfold big_int_add_to_raw_checked at h
  dsimp only at h
  split at h
  · injection h
  · cases h

theorem add_to_checked_done {num1 num2 : big_int} {r : Int × big_int}
    (h : big_int_add_to_checked num1 num2 = outcome.done r) : big_int_add_to num1 num2 = r := by
  unfold big_int_add_to_checked at h
  unfold big_int_add_to
  dsimp only at h ⊢
  obtain ⟨p, hp, e⟩ := outcome.map_eq_done h
  subst e
  split_ifs at hp ⊢ <;>
    first
    | (obtain ⟨q, hq, e⟩ := outcome.map_eq_done hp
       rw [← e, add_to_raw_checked_done hq])
    | (injection hp with e
       rw [← e])

theorem sub_to_checked_done {num1 num2 : big_int} {r : Int × big_int}
    (h : big_int_sub_to_checked num1 num2 = outcome.done r) : big_int_sub_to num1 num2 = r := by
  unfold big_int_sub_to_checked at h
  unfold big_int_sub_to
  dsimp only at h ⊢
  obtain ⟨p, hp, e⟩ := outcome.map_eq_done h
  subst e
  split_ifs at hp ⊢ <;>
    first
    | (obtain ⟨q, hq, e⟩ := outcome.map_eq_done hp
       rw [← e, add_to_raw_checked_done hq])
    | (injection hp with e
       rw [← e])

theorem mul_plain_row_checked_done {num1 num2 : big_int} {idx : Nat} {st r : mul_plain_state}
    (h : mul_plain_row_checked num1 num2 idx st = outcome.done r) :
    mul_plain_row num1 num2 idx st = r := by
  unfold mul_plain_row_checked at h
  unfold mul_plain_row
  dsimp only at h ⊢
  split_ifs at h ⊢
  · obtain ⟨q, hq, e⟩ := outcome.map_eq_done h
    rw [← e, add_to_checked_done hq]
  · cases h
    rfl

theorem mul_plain_rows_checked_done (num1 num2 : big_int) (init : mul_plain_state) :
    ∀ n r, for_up n (fun idx (st : outcome mul_plain_state) =>
        st.bind (mul_plain_row_checked num1 num2 idx)) (outcome.done init) = outcome.done r →
      for_up n (fun idx st => mul_plain_row num1 num2 idx st) init = r := by
  intro n
  induction n with
  | zero =>
    intro r h
    rw [for_up_zero] at h ⊢
    injection h
  | succ n ih =>
    intro r h
    rw [for_up_succ] at h ⊢
    obtain ⟨a, ha, e⟩ := outcome.bind_eq_done h
    rw [ih a ha]
    exact mul_plain_row_checked_done e

theorem mul_plain_checked_done {same : Bool} {num1 num2 r : big_int}
    (h : __big_int_mul_plain_checked same num1 num2 = outcome.done r) :
    __big_int_mul_plain same num1 num2 = r := by
  unfold __big_int_mul_plain_checked at h
  unfold __big_int_mul_plain
  dsimp only at h ⊢
  split_ifs at h ⊢
  · cases h
    rfl
  · obtain ⟨a, ha, e⟩ := outcome.map_eq_done h
    rw [mul_plain_rows_checked_done _ _ _ _ _ ha, e]

theorem split_checked_done {num : big_int} {shift : Nat} {r : big_int × big_int}
    (h : __big_int_mul_karatsuba_split_checked num shift = outcome.done r) :
    __big_int_mul_karatsuba_split num shift = some r := by
  unfold __big_int_mul_karatsuba_split_checked at h
  split_ifs at h
  exact outcome.of_option_eq_done h

theorem mul_to_with_checked_done
    {mwc' : Bool → big_int → big_int → outcome (big_int × big_int)}
    {mwc : Bool → big_int → big_int → Option (big_int × big_int)}
    (hm : ∀ s x y r, mwc' s x y = outcome.done r → mwc s x y = some r)
    {same : Bool} {num1 num2 r : big_int}
    (h : mul_to_with_checked mwc' same num1 num2 = outcome.done r) :
    mul_to_with mwc same num1 num2 = some r := by
  unfold mul_to_with_checked at h
  unfold mul_to_with
  dsimp only at h ⊢
  split_ifs at h ⊢ <;>
    first
    | (injection h with e
       rw [← e])
    | (obtain ⟨q, hq, e⟩ := outcome.map_eq_done h
       rw [hm _ _ _ _ hq, ← e]
       rfl)

theorem karatsuba_diff_checked_done {high low r : big_int}
    (h : karatsuba_diff_checked high low = outcome.done r) : karatsuba_diff high low = r := by
  unfold karatsuba_diff_checked at h
  unfold karatsuba_diff
  obtain ⟨q, hq, e⟩ := outcome.map_eq_done h
  rw [sub_to_checked_done hq, e]

theorem karatsuba_middle_checked_done {z2 z0 t0 r : big_int}
    (h : karatsuba_middle_checked z2 z0 t0 = outcome.done r) : karatsuba_middle z2 z0 t0 = r := by
  unfold karatsuba_middle_checked at h
  unfold karatsuba_middle
  dsimp only at h ⊢
  obtain ⟨a, ha, h⟩ := outcome.bind_eq_done h
  obtain ⟨q, hq, e⟩ := outcome.map_eq_done h
  rw [add_to_checked_done ha, sub_to_checked_done hq, e]

theorem karatsuba_combine_checked_done {z2 z1 z0 r : big_int} {b : Nat}
    (h : karatsuba_combine_checked z2 z1 z0 b = outcome.done r) :
    karatsuba_combine z2 z1 z0 b = some r := by
  unfold karatsuba_combine_checked at h
  unfold karatsuba_combine
  obtain ⟨a, ha, h⟩ := outcome.bind_eq_done h
  obtain ⟨c, hc, h⟩ := outcome.bind_eq_done h
  dsimp only at h
  obtain ⟨d, hd, h⟩ := outcome.bind_eq_done h
  obtain ⟨q, hq, e⟩ := outcome.map_eq_done h
  rw [outcome.of_option_eq_done ha, Option.some_bind, outcome.of_option_eq_done hc,
    Option.some_bind]
  dsimp only
  rw [add_to_checked_done hd, add_to_checked_done hq, e]

theorem karatsuba_body_checked_done
    {mwc' : Bool → big_int → big_int → outcome (big_int × big_int)}
    {mwc : Bool → big_int → big_int → Option (big_int × big_int)}
    (hm : ∀ s x y r, mwc' s x y = outcome.done r → mwc s x y = some r)
    {same : Bool} {x y r : big_int}
    (h : karatsuba_body_checked mwc' same x y = outcome.done r) :
    karatsuba_body mwc same x y = some r := by
  unfold karatsuba_body_checked at h
  unfold karatsuba_body
  dsimp only at h ⊢
  obtain ⟨⟨x1, x0⟩, h1, h⟩ := outcome.bind_eq_done h
  obtain ⟨⟨y1, y0⟩, h2, h⟩ := outcome.bind_eq_done h
  obtain ⟨⟨x1', z2⟩, h3, h⟩ := outcome.bind_eq_done h
  obtain ⟨⟨x0', z0⟩, h4, h⟩ := outcome.bind_eq_done h
  obtain ⟨t0, h5, h⟩ := outcome.bind_eq_done h
  obtain ⟨t1, h6, h⟩ := outcome.bind_eq_done h
  obtain ⟨t, h7, h⟩ := outcome.bind_eq_done h
  obtain ⟨z1, h8, h⟩ := outcome.bind_eq_done h
  dsimp only at h3 h4 h5 h6 h7 h8 h
  have e2 : (if same then some (x1, x0) else __big_int_mul_karatsuba_split y
      (((y.bit_length >>> 1) ||| 31) + 1)) = some (y1, y0) := by
    split_ifs at h2 ⊢
    · injection h2 with e
      rw [e]
    · exact split_checked_done h2
  have e6 : (if same then karatsuba_diff x1' x0' else karatsuba_diff y1 y0) = t1 := by
    split_ifs at h6 ⊢
    · injection h6 with e
      rw [karatsuba_diff_checked_done h5, e]
    · exact karatsuba_diff_checked_done h6
  rw [split_checked_done h1, Option.some_bind, e2, Option.some_bind]
  dsimp only
  rw [hm _ _ _ _ h3, Option.some_bind]
  dsimp only
  rw [hm _ _ _ _ h4, Option.some_bind]
  dsimp only
  rw [e6, karatsuba_diff_checked_done h5, mul_to_with_checked_done hm h7, Option.some_bind,
    karatsuba_middle_checked_done h8]
  exact karatsuba_combine_checked_done h

theorem karatsuba_with_checked_done
    {mwc' : Bool → big_int → big_int → outcome (big_int × big_int)}
    {mwc : Bool → big_int → big_int → Option (big_int × big_int)}
    (hm : ∀ s x y r, mwc' s x y = outcome.done r → mwc s x y = some r)
    {same : Bool} {num1 num2 r : big_int}
    (h : karatsuba_with_checked mwc' same num1 num2 = outcome.done r) :
    karatsuba_with mwc same num1 num2 = some r := by
  unfold karatsuba_with_checked at h
  unfold karatsuba_with
  dsimp only at h ⊢
  split_ifs at h ⊢
  all_goals first
    | (rw [mul_plain_checked_done h])
    | exact karatsuba_body_checked_done hm h

theorem mwc_checked_done :
    ∀ fuel s x y r, __big_int_mul_without_check_checked fuel s x y = outcome.done r →
      __big_int_mul_without_check fuel s x y = some r := by
  intro fuel
  induction fuel with
  | zero =>
    intro s x y r h
    unfold __big_int_mul_without_check_checked at h
    unfold __big_int_mul_without_check
    split_ifs at h ⊢
    obtain ⟨q, hq, e⟩ := outcome.map_eq_done h
    rw [mul_plain_checked_done hq, e]
  | succ fuel ih =>
    intro s x y r h
    unfold __big_int_mul_without_check_checked at h
    unfold __big_int_mul_without_check
    split_ifs at h ⊢
    · obtain ⟨q, hq, e⟩ := outcome.map_eq_done h
      rw [karatsuba_with_checked_done ih hq, ← e]
      rfl
    · obtain ⟨q, hq, e⟩ := outcome.map_eq_done h
      rw [mul_plain_checked_done hq, e]

theorem mul_to_checked_done {fuel : Nat} {same : Bool} {num1 num2 r : big_int}
    (h : big_int_mul_to_checked fuel same num1 num2 = outcome.done r) :
    big_int_mul_to fuel same num1 num2 = some r :=
  mul_to_with_checked_done (mwc_checked_done fuel) h

theorem karatsuba_checked_done {fuel : Nat} {same : Bool} {num1 num2 r : big_int}
    (h : __big_int_mul_karatsuba_checked fuel same num1 num2 = outcome.done r) :
    __big_int_mul_karatsuba fuel same num1 num2 = some r :=
  karatsuba_with_checked_done (mwc_checked_done fuel) h

theorem mul_checked_done {fuel : Nat} {same : Bool} {num1 num2 : big_int}
    {r : big_int × big_int}
    (h : big_int_mul_checked fuel same num1 num2 = outcome.done r) :
    big_int_mul fuel same num1 num2 = some r := by
  unfold big_int_mul_checked at h
  unfold big_int_mul
  split_ifs at h ⊢ <;>
    first
    | (injection h with e
       rw [e])
    | exact mwc_checked_done _ _ _ _ _ h

theorem pow_mod_bits_checked_done (fuel : Nat) (num3 : big_int) (w : Nat) :
    ∀ n bit_idx st r, pow_mod_bits_checked fuel num3 w n bit_idx st = outcome.done r →
      pow_mod_bits fuel num3 w n bit_idx st = some r := by
  intro n
  induction n with
  | zero =>
    intro bit_idx st r h
    unfold pow_mod_bits_checked at h
    unfold pow_mod_bits
    injection h with e
    rw [e]
  | succ n ih =>
    intro bit_idx st r h
    unfold pow_mod_bits_checked at h
    unfold pow_mod_bits
    obtain ⟨result, h1, h⟩ := outcome.bind_eq_done h
    obtain ⟨sq, h2, h⟩ := outcome.bind_eq_done h
    obtain ⟨num1, h3, h⟩ := outcome.bind_eq_done h
    have e1 : (if w &&& (1 <<< bit_idx) ≠ 0 then
        (big_int_mul_to fuel false st.result st.num1).bind fun r => big_int_mod_to fuel r num3
      else some st.result) = some result := by
      split_ifs at h1 ⊢
      · obtain ⟨p, hp, h1⟩ := outcome.bind_eq_done h1
        rw [mul_to_checked_done hp, Option.some_bind]
        exact outcome.of_option_eq_done h1
      · injection h1 with e
        rw [e]
    rw [e1, Option.some_bind, mul_to_checked_done h2, Option.some_bind,
      outcome.of_option_eq_done h3, Option.some_bind]
    dsimp only at h ⊢
    split_ifs at h ⊢
    · injection h with e
      rw [e]
    · exact ih _ _ _ h

theorem pow_mod_slots_checked_done (fuel : Nat) (num2 num3 : big_int) (init : pow_mod_state) :
    ∀ n r, for_up n (fun slot_idx (st : outcome pow_mod_state) =>
        st.bind fun st =>
          pow_mod_bits_checked fuel num3 (rd num2.slot slot_idx) BIT_PER_SLOT 0 st)
        (outcome.done init) = outcome.done r →
      for_up n (fun slot_idx (st : Option pow_mod_state) =>
        st.bind fun st => pow_mod_bits fuel num3 (rd num2.slot slot_idx) BIT_PER_SLOT 0 st)
        (some init) = some r := by
  intro n
  induction n with
  | zero =>
    intro r h
    rw [for_up_zero] at h ⊢
    injection h with e
    rw [e]
  | succ n ih =>
    intro r h
    rw [for_up_succ] at h ⊢
    obtain ⟨a, ha, e⟩ := outcome.bind_eq_done h
    rw [ih a ha, Option.some_bind]
    exact pow_mod_bits_checked_done _ _ _ _ _ _ _ e

theorem pow_mod_to_checked_done {fuel : Nat} {num1 num2 num3 r : big_int}
    (h : big_int_pow_mod_to_checked fuel num1 num2 num3 = outcome.done r) :
    big_int_pow_mod_to fuel num1 num2 num3 = some r := by
  unfold big_int_pow_mod_to_checked at h
  unfold big_int_pow_mod_to
  dsimp only at h ⊢
  obtain ⟨q, hq, e⟩ := outcome.map_eq_done h
  rw [← e]
  split_ifs at hq ⊢ <;>
    first
    | (injection hq with e1
       rw [e1]
       rfl)
    | (obtain ⟨st, hst, e1⟩ := outcome.map_eq_done hq
       rw [pow_mod_slots_checked_done _ _ _ _ _ _ hst, ← e1]
       rfl)

theorem dh_checked_done {fuel : Nat} {p private_alice private_bob : big_int}
    {r : big_int × big_int}
    (h : dh_checked fuel p private_alice private_bob = outcome.done r) :
    dh fuel p private_alice private_bob = some r := by
  unfold dh_checked at h
  unfold dh
  dsimp only at h ⊢
  obtain ⟨a, ha, h⟩ := outcome.bind_eq_done h
  obtain ⟨b, hb, h⟩ := outcome.bind_eq_done h
  obtain ⟨c, hc, h⟩ := outcome.bind_eq_done h
  obtain ⟨d, hd, h⟩ := outcome.bind_eq_done h
  injection h with e
  rw [pow_mod_to_checked_done ha, Option.some_bind, pow_mod_to_checked_done hb,
    Option.some_bind, pow_mod_to_checked_done hc, Option.some_bind,
    pow_mod_to_checked_done hd, Option.some_bind, e]

theorem matrix_mul_exp_checked_done {fuel : Nat} {shared : Bool}
    {r1 r2 a1 a2 b1 b2 a3 a4 b3 b4 : Nat} {st r : matrix_2 × matrix_2 × matrix_2}
    (h : MATRIX_2_MUL_EXP_checked fuel shared r1 r2 a1 a2 b1 b2 a3 a4 b3 b4 st =
      outcome.done r) :
    MATRIX_2_MUL_EXP fuel shared r1 r2 a1 a2 b1 b2 a3 a4 b3 b4 st = some r := by
  unfold MATRIX_2_MUL_EXP_checked at h
  unfold MATRIX_2_MUL_EXP
  dsimp only at h ⊢
  obtain ⟨p1, h1, h⟩ := outcome.bind_eq_done h
  obtain ⟨p2, h2, h⟩ := outcome.bind_eq_done h
  obtain ⟨t1, h3, e⟩ := outcome.map_eq_done h
  rw [mul_checked_done h1, Option.some_bind, mul_checked_done h2, Option.some_bind,
    add_to_checked_done h3, e]

theorem matrix_2_mul_checked_done {fuel : Nat} {shared : Bool} {result a b r : matrix_2}
    (h : matrix_2_mul_checked fuel shared result a b = outcome.done r) :
    matrix_2_mul fuel shared result a b = some r := by
  unfold matrix_2_mul_checked at h
  unfold matrix_2_mul
  obtain ⟨s1, h1, h⟩ := outcome.bind_eq_done h
  obtain ⟨s2, h2, h⟩ := outcome.bind_eq_done h
  obtain ⟨s3, h3, h⟩ := outcome.bind_eq_done h
  obtain ⟨s4, h4, e⟩ := outcome.map_eq_done h
  rw [matrix_mul_exp_checked_done h1, Option.some_bind, matrix_mul_exp_checked_done h2,
    Option.some_bind, matrix_mul_exp_checked_done h3, Option.some_bind,
    matrix_mul_exp_checked_done h4, Option.map_some', e]

theorem fibonacci_loop_checked_done (fuel0 : Nat) :
    ∀ fuel n a r st, fibonacci_loop_checked fuel0 fuel n a r = outcome.done st →
      fibonacci_loop fuel0 fuel n a r = some st := by
  intro fuel
  induction fuel with
  | zero =>
    intro n a r st h
    cases h
  | succ fuel ih =>
    intro n a r st h
    unfold fibonacci_loop_checked at h
    unfold fibonacci_loop
    by_cases hn : n = 0
    · rw [if_pos hn] at h ⊢
      injection h with e
      rw [e]
    · rw [if_neg hn] at h ⊢
      obtain ⟨r1, h1, h⟩ := outcome.bind_eq_done h
      obtain ⟨a1, h2, h⟩ := outcome.bind_eq_done h
      have e1 : (if n &&& 1 = 1 then matrix_2_mul fuel0 false r r a else some r) = some r1 := by
        split_ifs at h1 ⊢
        · exact matrix_2_mul_checked_done h1
        · injection h1 with e
          rw [e]
      rw [e1, Option.some_bind, matrix_2_mul_checked_done h2, Option.some_bind]
      exact ih _ _ _ _ h

theorem fibonacci_checked_done {fuel n : Nat} {r : big_int}
    (h : fibonacci_checked fuel n = outcome.done r) : fibonacci fuel n = some r := by
  unfold fibonacci_checked at h
  unfold fibonacci
  dsimp only at h ⊢
  split_ifs at h ⊢
  · injection h with e
    rw [e]
  · injection h with e
    rw [e]
  · obtain ⟨st, hst, h⟩ := outcome.bind_eq_done h
    obtain ⟨q, hq, e⟩ := outcome.map_eq_done h
    rw [fibonacci_loop_checked_done _ _ _ _ _ _ hst, Option.map_some', add_to_checked_done hq, e]

/-! ## The claims -/

/-- With a read past a block giving `0` and a store past it dropped: for
canonical signed `a` and `b`, `big_int_add_to` returns `0` and
leaves in `a` a canonical big integer whose value is the integer `a + b`
(right magnitude and sign, zero positive).  The operand `b` is only read: the
function writes through `num1` and its private copy `temp`, so the embedding
hands `b` back to the caller as it was. -/
theorem big_int_add_to_correct (a b : big_int) (ha : canonical a) (hb : canonical b) :
    (big_int_add_to a b).1 = 0 ∧ canonical (big_int_add_to a b).2 ∧
      to_Int (big_int_add_to a b).2 = to_Int a + to_Int b :=
  add_to_spec ha hb

/-- Instance of `big_int_add_to_correct` at `-5 + 3`. -/
theorem big_int_add_to_correct_witness :
    canonical ⟨[5, 0], 3, 1, 2, 1⟩ ∧ canonical ⟨[3, 0], 2, 1, 2, 0⟩ ∧
      ((big_int_add_to ⟨[5, 0], 3, 1, 2, 1⟩ ⟨[3, 0], 2, 1, 2, 0⟩).1 = 0 ∧
        canonical (big_int_add_to ⟨[5, 0], 3, 1, 2, 1⟩ ⟨[3, 0], 2, 1, 2, 0⟩).2 ∧
        to_Int (big_int_add_to ⟨[5, 0], 3, 1, 2, 1⟩ ⟨[3, 0], 2, 1, 2, 0⟩).2 =
          to_Int ⟨[5, 0], 3, 1, 2, 1⟩ + to_Int ⟨[3, 0], 2, 1, 2, 0⟩) :=
  ⟨by decide, by decide,
    big_int_add_to_correct ⟨[5, 0], 3, 1, 2, 1⟩ ⟨[3, 0], 2, 1, 2, 0⟩ (by decide) (by decide)⟩

/-- C2: at `a = -5`, `b = -3` (both canonical) `big_int_sub_to` leaves `-8` in
`a`, not `a - b = -2`: the branch `'-' - '-'` with `|a| > |b|` adds the
magnitudes. -/
theorem big_int_sub_to_neg_neg_adds :
    canonical ⟨[5, 0], 3, 1, 2, 1⟩ ∧ canonical ⟨[3, 0], 2, 1, 2, 1⟩ ∧
      to_Int ⟨[5, 0], 3, 1, 2, 1⟩ - to_Int ⟨[3, 0], 2, 1, 2, 1⟩ = -2 ∧
      to_Int (big_int_sub_to ⟨[5, 0], 3, 1, 2, 1⟩ ⟨[3, 0], 2, 1, 2, 1⟩).2 = -8 := by
  decide

/-- C4: at `a = -1`, `b = 5` (both canonical) `big_int_mul` returns `5`, not
`a * b = -5`: the short cut for an operand of magnitude one returns a copy of
the other operand whatever the signs; with `a = 5`, `b = -1` it returns `5`
as well. -/
theorem big_int_mul_one_ignores_sign :
    canonical ⟨[1, 0], 1, 1, 2, 1⟩ ∧ canonical ⟨[5, 0], 3, 1, 2, 0⟩ ∧
      (∀ fuel, (big_int_mul fuel false ⟨[1, 0], 1, 1, 2, 1⟩ ⟨[5, 0], 3, 1, 2, 0⟩).map
        (fun r => to_Int r.2) = some 5) ∧
      (∀ fuel, (big_int_mul fuel false ⟨[5, 0], 3, 1, 2, 0⟩ ⟨[1, 0], 1, 1, 2, 1⟩).map
        (fun r => to_Int r.2) = some 5) :=
  ⟨by decide, by decide, fun _ => rfl, fun _ => rfl⟩

/-- C5: for canonical `a` and `b` of positive sign with `b > 0`,
`big_int_div_to` terminates (any fuel above the bit length of `a` is enough)
and leaves in `a` the magnitude `floor(a / b)`, which is `0` when `a < b` and
`1` when `a = b`. -/
theorem big_int_div_to_correct (a b : big_int) (ha : canonical a) (hb : canonical b)
    (hsa : a.sign = BIG_NUMBER_POSITIVE) (hsb : b.sign = BIG_NUMBER_POSITIVE)
    (hb0 : 0 < magnitude b) (fuel : Nat) (hf : a.bit_length + 1 ≤ fuel) :
    ∃ q, big_int_div_to fuel a b = some q ∧ magnitude q = magnitude a / magnitude b ∧
      (magnitude a < magnitude b → magnitude q = 0) ∧
      (magnitude a = magnitude b → magnitude q = 1) := by
  obtain ⟨q, h1, h2⟩ := div_to_spec ⟨ha.1, hsa⟩ ⟨hb.1, hsb⟩ hb0 fuel hf
  refine ⟨q, h1, h2, fun h => ?_, fun h => ?_⟩
  · rw [h2, Nat.div_eq_of_lt h]
  · rw [h2, h, Nat.div_self hb0]

/-- Witness of C5 at `7 / 2` with fuel `4`. -/
theorem big_int_div_to_correct_witness :
    ∃ q, big_int_div_to 4 ⟨[7, 0], 3, 1, 2, 0⟩ ⟨[2, 0], 2, 1, 2, 0⟩ = some q ∧
      magnitude q = magnitude ⟨[7, 0], 3, 1, 2, 0⟩ / magnitude ⟨[2, 0], 2, 1, 2, 0⟩ ∧
      (magnitude ⟨[7, 0], 3, 1, 2, 0⟩ < magnitude ⟨[2, 0], 2, 1, 2, 0⟩ → magnitude q = 0) ∧
      (magnitude ⟨[7, 0], 3, 1, 2, 0⟩ = magnitude ⟨[2, 0], 2, 1, 2, 0⟩ → magnitude q = 1) :=
  big_int_div_to_correct ⟨[7, 0], 3, 1, 2, 0⟩ ⟨[2, 0], 2, 1, 2, 0⟩ (by decide) (by decide)
    (by decide) (by decide) (by decide) 4 (by decide)

/-- C6: for canonical non-negative `a` and `b` with `b > 0`, `big_int_mod_to`
terminates (any fuel above the bit length of `a` is enough) and leaves in `a`
the canonical remainder `a mod b`, with `0 ≤ result < b`; `a` is left as it
was when `a < b`. -/
theorem big_int_mod_to_correct (a b : big_int) (ha : canonical a) (hb : canonical b)
    (hsa : a.sign = BIG_NUMBER_POSITIVE) (hsb : b.sign = BIG_NUMBER_POSITIVE)
    (hb0 : 0 < magnitude b) (fuel : Nat) (hf : a.bit_length + 1 ≤ fuel) :
    ∃ r, big_int_mod_to fuel a b = some r ∧ canonical r ∧
      to_Int r = to_Int a % to_Int b ∧ 0 ≤ to_Int r ∧ to_Int r < to_Int b ∧
      (to_Int a < to_Int b → r = a) := by
  have hpa : pos_canonical a := ⟨ha.1, hsa⟩
  have hpb : pos_canonical b := ⟨hb.1, hsb⟩
  obtain ⟨r, h1, h2, h3, h4⟩ := mod_to_spec hpa hpb hb0 fuel hf
  have hlt : magnitude r < magnitude b := by rw [h3]; exact Nat.mod_lt _ hb0
  rw [hpa.to_Int, hpb.to_Int]
  refine ⟨r, h1, h2.canonical, ?_, ?_, ?_, fun h => h4 ?_⟩ <;> try rw [h2.to_Int]
  · rw [h3]; norm_cast
  · exact Int.ofNat_nonneg _
  · exact_mod_cast hlt
  · exact_mod_cast h

/-- Witness of C6 at `7 mod 2` with fuel `4`. -/
theorem big_int_mod_to_correct_witness :
    ∃ r, big_int_mod_to 4 ⟨[7, 0], 3, 1, 2, 0⟩ ⟨[2, 0], 2, 1, 2, 0⟩ = some r ∧ canonical r ∧
      to_Int r = to_Int ⟨[7, 0], 3, 1, 2, 0⟩ % to_Int ⟨[2, 0], 2, 1, 2, 0⟩ ∧
      0 ≤ to_Int r ∧ to_Int r < to_Int ⟨[2, 0], 2, 1, 2, 0⟩ ∧
      (to_Int ⟨[7, 0], 3, 1, 2, 0⟩ < to_Int ⟨[2, 0], 2, 1, 2, 0⟩ → r = ⟨[7, 0], 3, 1, 2, 0⟩) :=
  big_int_mod_to_correct ⟨[7, 0], 3, 1, 2, 0⟩ ⟨[2, 0], 2, 1, 2, 0⟩ (by decide) (by decide)
    (by decide) (by decide) (by decide) 4 (by decide)

/-- C7: at `a = b = -5` (canonical) `big_int_div_to` leaves the quotient `-1`,
not `+1`; at `a = -7`, `b = 2` it leaves magnitude `0`, not `floor(7 / 2) = 3`.
The operands are compared with their signs, and the exits taken for
`a = b` and `a < b` never store the sign computed at the head of the
function. -/
theorem big_int_div_to_signed_operands :
    canonical ⟨[5, 0], 3, 1, 2, 1⟩ ∧ canonical ⟨[7, 0], 3, 1, 2, 1⟩ ∧
      canonical ⟨[2, 0], 2, 1, 2, 0⟩ ∧
      (∀ fuel, (big_int_div_to fuel ⟨[5, 0], 3, 1, 2, 1⟩ ⟨[5, 0], 3, 1, 2, 1⟩).map to_Int =
        some (-1)) ∧
      (∀ fuel, (big_int_div_to fuel ⟨[7, 0], 3, 1, 2, 1⟩ ⟨[2, 0], 2, 1, 2, 0⟩).map magnitude =
        some 0) :=
  ⟨by decide, by decide, by decide, fun _ => rfl, fun _ => rfl⟩

/-- C8: at `a = b = -5` (canonical) the quotient left by `big_int_div_to` is
`-1` and the remainder left by `big_int_mod_to` has value `0`, so
`q * b + r = 5` while `a = -5`. -/
theorem big_int_div_mod_identity_fails :
    canonical ⟨[5, 0], 3, 1, 2, 1⟩ ∧ to_Int ⟨[5, 0], 3, 1, 2, 1⟩ = -5 ∧
      ∀ fuel, ∃ q r, big_int_div_to fuel ⟨[5, 0], 3, 1, 2, 1⟩ ⟨[5, 0], 3, 1, 2, 1⟩ = some q ∧
        big_int_mod_to fuel ⟨[5, 0], 3, 1, 2, 1⟩ ⟨[5, 0], 3, 1, 2, 1⟩ = some r ∧
        to_Int q * to_Int ⟨[5, 0], 3, 1, 2, 1⟩ + to_Int r = 5 :=
  ⟨by decide, by decide, fun _ => ⟨_, _, rfl, rfl, by decide⟩⟩

/-- C10: at `a = 2` and the canonical one-slot exponent `e = 0x80000000`
`big_int_pow_to` has no result whatever the fuel: the fast path for base `2`
hands the low slot of the exponent to `big_int_left_shift` as an `int`, which
is negative here.  The same happens at `e = 2^32` (two slots): after one shift
and `big_int_dec` the low slot is `0xFFFFFFFF`, the `int` `-1`. -/
theorem big_int_pow_to_two_large_exponent :
    canonical ⟨[2, 0], 2, 1, 2, 0⟩ ∧ canonical ⟨[0x80000000, 0], 32, 1, 2, 0⟩ ∧
      canonical ⟨[0, 1, 0], 33, 2, 3, 0⟩ ∧
      (∀ fuel, big_int_pow_to fuel ⟨[2, 0], 2, 1, 2, 0⟩ ⟨[0x80000000, 0], 32, 1, 2, 0⟩ = none) ∧
      (∀ fuel, big_int_pow_to fuel ⟨[2, 0], 2, 1, 2, 0⟩ ⟨[0, 1, 0], 33, 2, 3, 0⟩ = none) := by
  refine ⟨by decide, by decide, by decide, fun fuel => ?_, fun fuel => ?_⟩
  · cases fuel <;> rfl
  · rcases fuel with _ | _ | fuel <;> rfl

/-- With a read past a block giving `0` and a store past it dropped: for
canonical signed `a` and `b` (`same` tells that both arguments are
one object), `big_int_mul_to` returns, with fuel for the Karatsuba recursion
of at least the bit lengths less 768, the canonical integer `a * b`: the
magnitude is `|a| * |b|`, the sign is negative iff the signs differ and the
product is non-zero, and a zero product is positive. -/
theorem big_int_mul_to_correct (same : Bool) (a b : big_int) (ha : canonical a)
    (hb : canonical b) (hsame : same = true → b = a) (fuel : Nat)
    (hfa : a.bit_length ≤ 768 + fuel) (hfb : b.bit_length ≤ 768 + fuel) :
    ∃ r, big_int_mul_to fuel same a b = some r ∧ canonical r ∧
      to_Int r = to_Int a * to_Int b ∧
      magnitude r = magnitude a * magnitude b ∧
      (r.sign = BIG_NUMBER_NEGATIVE ↔ a.sign ≠ b.sign ∧ magnitude r ≠ 0) ∧
      (magnitude r = 0 → r.sign = BIG_NUMBER_POSITIVE) := by
  obtain ⟨r, h1, h2, h3⟩ := mul_to_spec ha hb hsame fuel hfa hfb
  have hm : magnitude r = magnitude a * magnitude b := by
    rw [magnitude_eq_natAbs r, h3, Int.natAbs_mul, ← magnitude_eq_natAbs, ← magnitude_eq_natAbs]
  refine ⟨r, h1, h2, h3, hm, ?_, h2.2.2⟩
  have hpn := pos_ne_neg
  have hr0 : r.sign = BIG_NUMBER_NEGATIVE → magnitude r ≠ 0 := fun hs h0 =>
    hpn ((h2.2.2 h0).symm.trans hs)
  have ha0 : a.sign = BIG_NUMBER_NEGATIVE → magnitude a ≠ 0 := fun hs h0 =>
    hpn ((ha.2.2 h0).symm.trans hs)
  have hb0 : b.sign = BIG_NUMBER_NEGATIVE → magnitude b ≠ 0 := fun hs h0 =>
    hpn ((hb.2.2 h0).symm.trans hs)
  have hmi : (magnitude r : Int) = (magnitude a : Int) * (magnitude b : Int) := by
    exact_mod_cast hm
  have hnn : (0 : Int) ≤ (magnitude a : Int) * (magnitude b : Int) :=
    mul_nonneg (Int.ofNat_nonneg _) (Int.ofNat_nonneg _)
  have hrz : magnitude r ≠ 0 → (0 : Int) < (magnitude r : Int) := fun h => by omega
  rcases h2.2.1 with sr | sr <;> rcases ha.2.1 with sa | sa <;> rcases hb.2.1 with sb | sb
  all_goals first
    | rw [to_Int_of_pos sr] at h3
    | rw [to_Int_of_neg sr] at h3
  all_goals first
    | rw [to_Int_of_pos sa] at h3
    | rw [to_Int_of_neg sa] at h3
  all_goals first
    | rw [to_Int_of_pos sb] at h3
    | rw [to_Int_of_neg sb] at h3
  all_goals rw [sr, sa, sb]
  all_goals constructor
  all_goals intro h
  all_goals first
    | exact absurd h hpn
    | exact absurd rfl h.1
    | (refine ⟨hpn, ?_⟩; exact hr0 sr)
    | (refine ⟨hpn.symm, ?_⟩; exact hr0 sr)
    | rfl
    | (exfalso; have := hrz (hr0 sr); rw [neg_mul_neg, ← hmi] at h3; omega)
    | (exfalso; have := hrz (hr0 sr); rw [← hmi] at h3; omega)
    | (exfalso; have := hrz h.2; first
        | (rw [neg_mul, ← hmi] at h3; omega)
        | (rw [mul_neg, ← hmi] at h3; omega))

/-- Instance of `big_int_mul_to_correct` at `-5 * 3` in two-slot buffers with
fuel `0`. -/
theorem big_int_mul_to_correct_witness :
    ∃ r, big_int_mul_to 0 false ⟨[5, 0], 3, 1, 2, 1⟩ ⟨[3, 0], 2, 1, 2, 0⟩ = some r ∧
      canonical r ∧
      to_Int r = to_Int ⟨[5, 0], 3, 1, 2, 1⟩ * to_Int ⟨[3, 0], 2, 1, 2, 0⟩ ∧
      magnitude r = magnitude ⟨[5, 0], 3, 1, 2, 1⟩ * magnitude ⟨[3, 0], 2, 1, 2, 0⟩ ∧
      (r.sign = BIG_NUMBER_NEGATIVE ↔
        (⟨[5, 0], 3, 1, 2, 1⟩ : big_int).sign ≠ (⟨[3, 0], 2, 1, 2, 0⟩ : big_int).sign ∧
          magnitude r ≠ 0) ∧
      (magnitude r = 0 → r.sign = BIG_NUMBER_POSITIVE) :=
  big_int_mul_to_correct false ⟨[5, 0], 3, 1, 2, 1⟩ ⟨[3, 0], 2, 1, 2, 0⟩ (by decide) (by decide)
    (by simp) 0 (by decide) (by decide)

/-- With a read past a block giving `0` and a store past it dropped: for
canonical `a ≥ 0`, `e ≥ 1` and a modulus `n ≥ 2`,
`big_int_pow_mod_to` returns (any fuel above twice the bit lengths of `a` and
`n` is enough for the products and reductions) the canonical value
`a ^ e mod n`, which is the naive product of `e` factors `a` reduced modulo
`n`. -/
theorem big_int_pow_mod_to_correct (a e n : big_int) (ha : canonical a) (he : canonical e)
    (hn : canonical n) (ha0 : 0 ≤ to_Int a) (he1 : 1 ≤ to_Int e) (hn2 : 2 ≤ to_Int n)
    (fuel : Nat) (hf : 2 * (a.bit_length + n.bit_length) + 1 ≤ fuel) :
    ∃ r, big_int_pow_mod_to fuel a e n = some r ∧ canonical r ∧
      to_Int r = to_Int a ^ magnitude e % to_Int n ∧
      to_Int r = (List.replicate (magnitude e) (to_Int a)).prod % to_Int n := by
  have pa := pos_canonical_of_nonneg ha ha0
  have pe := pos_canonical_of_nonneg he (by omega)
  have pn := pos_canonical_of_nonneg hn (by omega)
  rw [pe.to_Int] at he1
  rw [pn.to_Int] at hn2
  obtain ⟨r, r1, r2, r3⟩ := pow_mod_to_spec pa pe (by exact_mod_cast he1) pn
    (by exact_mod_cast hn2) fuel hf
  have key : to_Int r = to_Int a ^ magnitude e % to_Int n := by
    rw [r2.to_Int, pa.to_Int, pn.to_Int, r3]; norm_cast
  exact ⟨r, r1, r2.canonical, key, by rw [List.prod_replicate]; exact key⟩

/-- Instance of `big_int_pow_mod_to_correct` at `3 ^ 5 mod 7` with fuel `11`. -/
theorem big_int_pow_mod_to_correct_witness :
    ∃ r, big_int_pow_mod_to 11 ⟨[3, 0], 2, 1, 2, 0⟩ ⟨[5, 0], 3, 1, 2, 0⟩ ⟨[7, 0], 3, 1, 2, 0⟩ =
        some r ∧ canonical r ∧
      to_Int r = to_Int ⟨[3, 0], 2, 1, 2, 0⟩ ^ magnitude ⟨[5, 0], 3, 1, 2, 0⟩ %
        to_Int ⟨[7, 0], 3, 1, 2, 0⟩ ∧
      to_Int r = (List.replicate (magnitude ⟨[5, 0], 3, 1, 2, 0⟩)
        (to_Int ⟨[3, 0], 2, 1, 2, 0⟩)).prod % to_Int ⟨[7, 0], 3, 1, 2, 0⟩ :=
  big_int_pow_mod_to_correct ⟨[3, 0], 2, 1, 2, 0⟩ ⟨[5, 0], 3, 1, 2, 0⟩ ⟨[7, 0], 3, 1, 2, 0⟩
    (by decide) (by decide) (by decide) (by decide) (by decide) (by decide) 11 (by decide)

/-- C12: for canonical signed `a` and `b`, `big_int_compare` returns `1`, `0`
or `-1` exactly when `a > b`, `a = b` or `a < b` as integers; two positives
compare by magnitude, two negatives by reversed magnitude, and a positive is
greater than a negative. -/
theorem big_int_compare_correct (a b : big_int) (ha : canonical a) (hb : canonical b) :
    (big_int_compare a b = 1 ↔ to_Int b < to_Int a) ∧
    (big_int_compare a b = 0 ↔ to_Int a = to_Int b) ∧
    (big_int_compare a b = -1 ↔ to_Int a < to_Int b) ∧
    (big_int_compare a b = 1 ∨ big_int_compare a b = 0 ∨ big_int_compare a b = -1) ∧
    (a.sign = BIG_NUMBER_POSITIVE → b.sign = BIG_NUMBER_POSITIVE →
      big_int_compare a b = cmp_nat (magnitude a) (magnitude b)) ∧
    (a.sign = BIG_NUMBER_NEGATIVE → b.sign = BIG_NUMBER_NEGATIVE →
      big_int_compare a b = cmp_nat (magnitude b) (magnitude a)) ∧
    (a.sign = BIG_NUMBER_POSITIVE → b.sign = BIG_NUMBER_NEGATIVE → big_int_compare a b = 1) ∧
    (a.sign = BIG_NUMBER_NEGATIVE → b.sign = BIG_NUMBER_POSITIVE → big_int_compare a b = -1) := by
  have hpn := pos_ne_neg
  have key := compare_eq ha hb
  refine ⟨?_, ?_, ?_, ?_, ?_, ?_, ?_, ?_⟩
  · rw [key]; split_ifs <;> constructor <;> intro h <;> first | omega | rfl | simp at h
  · rw [key]; split_ifs <;> constructor <;> intro h <;> first | omega | rfl | simp at h
  · rw [key]; split_ifs <;> constructor <;> intro h <;> first | omega | rfl | simp at h
  · rw [key]; split_ifs
    · exact Or.inl rfl
    · exact Or.inr (Or.inl rfl)
    · exact Or.inr (Or.inr rfl)
  · intro sa sb
    unfold big_int_compare
    rw [if_pos sa, if_pos sb, compare_raw_eq ha.1 hb.1]
  · intro sa sb
    unfold big_int_compare
    rw [if_neg (by rw [sa]; exact hpn.symm), if_pos sb, compare_raw_eq hb.1 ha.1]
  · intro sa sb
    unfold big_int_compare
    rw [if_pos sa, if_neg (by rw [sb]; exact hpn.symm)]
  · intro sa sb
    unfold big_int_compare
    rw [if_neg (by rw [sa]; exact hpn.symm), if_neg (by rw [sb]; exact hpn)]

/-- Witness of C12 at `-5` against `3`. -/
theorem big_int_compare_correct_witness :
    (big_int_compare ⟨[5, 0], 3, 1, 2, 1⟩ ⟨[3, 0], 2, 1, 2, 0⟩ = 1 ↔
      to_Int ⟨[3, 0], 2, 1, 2, 0⟩ < to_Int ⟨[5, 0], 3, 1, 2, 1⟩) ∧
    (big_int_compare ⟨[5, 0], 3, 1, 2, 1⟩ ⟨[3, 0], 2, 1, 2, 0⟩ = 0 ↔
      to_Int ⟨[5, 0], 3, 1, 2, 1⟩ = to_Int ⟨[3, 0], 2, 1, 2, 0⟩) ∧
    (big_int_compare ⟨[5, 0], 3, 1, 2, 1⟩ ⟨[3, 0], 2, 1, 2, 0⟩ = -1 ↔
      to_Int ⟨[5, 0], 3, 1, 2, 1⟩ < to_Int ⟨[3, 0], 2, 1, 2, 0⟩) :=
  have h := big_int_compare_correct ⟨[5, 0], 3, 1, 2, 1⟩ ⟨[3, 0], 2, 1, 2, 0⟩ (by decide)
    (by decide)
  ⟨h.1, h.2.1, h.2.2.1⟩

/-- C14: for canonical `x`, the text of `big_int_print` is a minus sign iff
`x` is negative, then `0x`, then `used` groups of eight upper-case
hexadecimal characters; the group of slot `i` stands `used - 1 - i` groups
from the left and reads back as that slot, so the most significant slot comes
first; the value zero prints as `0x00000000`. -/
theorem big_int_print_correct (x : big_int) (hx : canonical x) :
    big_int_print x =
      (if to_Int x < 0 then ['-'] else []) ++ ['0', 'x'] ++ print_slots x ∧
    (print_slots x).length = 8 * x.slot_length ∧
    (∀ c ∈ print_slots x, c ∈ hex_digits) ∧
    (∀ i, i < x.slot_length →
      hex_value (((print_slots x).drop (8 * (x.slot_length - 1 - i))).take 8) = rd x.slot i) ∧
    (to_Int x = 0 → big_int_print x = ['0', 'x', '0', '0', '0', '0', '0', '0', '0', '0']) := by
  have hps : print_slots x = print_groups x.slot x.slot_length := rfl
  have hsign : (x.sign = BIG_NUMBER_NEGATIVE) ↔ to_Int x < 0 := by
    constructor
    · intro hs
      have := neg_magnitude_ne_zero hx hs
      rw [to_Int_of_neg hs]; omega
    · intro hlt
      rcases hx.2.1 with s | s
      · rw [to_Int_of_pos s] at hlt; omega
      · exact s
  have hprint : big_int_print x =
      (if to_Int x < 0 then ['-'] else []) ++ ['0', 'x'] ++ print_slots x := by
    unfold big_int_print
    by_cases h : x.sign = BIG_NUMBER_NEGATIVE
    · rw [if_pos h, if_pos (hsign.mp h)]
    · rw [if_neg h, if_neg (fun h2 => h (hsign.mpr h2))]
  refine ⟨hprint, ?_, ?_, ?_, ?_⟩
  · rw [hps, length_print_groups]
  · rw [hps]; exact print_groups_mem _ _
  · intro i hi
    rw [hps, print_groups_group _ _ _ hi, hex_value_printf_08X _ (hx.1.rd_lt i)]
  · intro h0
    have hm : magnitude x = 0 := by
      rw [magnitude_eq_natAbs, h0]; rfl
    have h1 := slot_length_of_zero hx.1 hm
    have h2 : rd x.slot 0 = 0 := by
      have := hx.1.magnitude_eq_zero_iff.mp hm
      rw [h1] at this; exact this
    rw [hprint, h0, if_neg (by omega), hps, h1]
    show [] ++ ['0', 'x'] ++ print_groups x.slot (0 + 1) = _
    rw [print_groups_succ, h2]
    rfl

/-- Witness of C14 at `-5`, which prints as `-0x00000005`. -/
theorem big_int_print_correct_witness :
    big_int_print ⟨[5, 0], 3, 1, 2, 1⟩ =
      (if to_Int ⟨[5, 0], 3, 1, 2, 1⟩ < 0 then ['-'] else []) ++ ['0', 'x'] ++
        print_slots ⟨[5, 0], 3, 1, 2, 1⟩ ∧
    big_int_print ⟨[5, 0], 3, 1, 2, 1⟩ =
      ['-', '0', 'x', '0', '0', '0', '0', '0', '0', '0', '5'] :=
  ⟨(big_int_print_correct ⟨[5, 0], 3, 1, 2, 1⟩ (by decide)).1, by decide⟩

/-- C13: `big_int_new_from_str` on the one-character string `1` never reads
the text: the result holds what the fresh buffer held (`rd mem 0`), and on a
clean buffer it has `slot_length = 0`; on the string `00000000` it has
`slot_length = 0` whatever the buffer held; on the nine characters
`100000000` (the value `2 ^ 32`) and a clean buffer it holds `0x10000000`. -/
theorem big_int_new_from_str_short_or_zero :
    (∀ mem, magnitude (big_int_new_from_str ['1'] mem) = rd mem 0) ∧
    (big_int_new_from_str ['1'] []).slot_length = 0 ∧
    (∀ mem, (big_int_new_from_str ['0', '0', '0', '0', '0', '0', '0', '0'] mem).slot_length = 0) ∧
    hex_value ['1', '0', '0', '0', '0', '0', '0', '0', '0'] = 2 ^ 32 ∧
    magnitude (big_int_new_from_str ['1', '0', '0', '0', '0', '0', '0', '0', '0'] []) =
      0x10000000 := by
  refine ⟨?_, by decide, ?_, by decide, by decide⟩
  · intro mem
    have h0 : rd ((List.range 256).map (fun i => rd mem i)) 0 = rd mem 0 :=
      rd_map_range mem 256 0 (by norm_num)
    show val ((List.range 256).map (fun i => rd mem i))
      (trim_tail_scan ((List.range 256).map (fun i => rd mem i)) 1) = rd mem 0
    unfold trim_tail_scan
    rw [h0]
    split_ifs with h
    · rw [h]; rfl
    · rw [val_succ, h0]; simp [val]
  · intro mem
    show trim_tail_scan (((List.range 256).map (fun i => rd mem i)).set 0 0) 1 = 0
    unfold trim_tail_scan
    rw [rd_set_self _ (by simp), if_pos rfl]
    rfl

/-- C15: the canonical zero prints the digits `00000000`, and
`big_int_new_from_str` on these digits returns `slot_length = 0` whatever the
fresh buffer held, which is not canonical (used is at least 1, and zero is one
zero slot with bits 1). -/
theorem big_int_print_parse_zero :
    canonical ⟨[0, 0], 1, 1, 2, 0⟩ ∧
    print_slots ⟨[0, 0], 1, 1, 2, 0⟩ = ['0', '0', '0', '0', '0', '0', '0', '0'] ∧
    (∀ mem, (big_int_new_from_str (print_slots ⟨[0, 0], 1, 1, 2, 0⟩) mem).slot_length = 0 ∧
      ¬ canonical (big_int_new_from_str (print_slots ⟨[0, 0], 1, 1, 2, 0⟩) mem)) := by
  have hp : print_slots ⟨[0, 0], 1, 1, 2, 0⟩ = ['0', '0', '0', '0', '0', '0', '0', '0'] := by
    decide
  refine ⟨by decide, hp, fun mem => ?_⟩
  rw [hp]
  have h0 : (big_int_new_from_str ['0', '0', '0', '0', '0', '0', '0', '0'] mem).slot_length =
      0 := by
    show trim_tail_scan (((List.range 256).map (fun i => rd mem i)).set 0 0) 1 = 0
    unfold trim_tail_scan
    rw [rd_set_self _ (by simp), if_pos rfl]
    rfl
  refine ⟨h0, fun hc => ?_⟩
  have := hc.1.one_le
  omega

/-- C16: `big_int_left_shift` of the canonical zero by `1` leaves the value
zero with `bit_length = 2`, and by `32` it leaves `slot_length = 2` and
`bit_length = 33` with a zero top slot; neither result is canonical (zero is
one slot with bits 1). -/
theorem big_int_left_shift_zero_inflates :
    canonical ⟨[0, 0, 0, 0], 1, 1, 4, 0⟩ ∧
    (big_int_left_shift ⟨[0, 0, 0, 0], 1, 1, 4, 0⟩ 1).map
      (fun r => (r.slot_length, r.bit_length, magnitude r, decide (canonical r))) =
        some (1, 2, 0, false) ∧
    (big_int_left_shift ⟨[0, 0, 0, 0], 1, 1, 4, 0⟩ 32).map
      (fun r => (r.slot_length, r.bit_length, magnitude r, decide (canonical r))) =
        some (2, 33, 0, false) := by
  decide

/-- C17: `big_int_right_shift` of `1` by `1` and of `10` by `4` (every bit
shifted out) leaves `slot_length = 0` and a bit length that is not `1`; of `1`
by `64` (more than `32 * used`) it leaves a `slot_length` of at least
`2 ^ 64 - 2`. -/
theorem big_int_right_shift_to_zero :
    canonical ⟨[1, 0], 1, 1, 2, 0⟩ ∧ canonical ⟨[10, 0], 4, 1, 2, 0⟩ ∧
    (big_int_right_shift ⟨[1, 0], 1, 1, 2, 0⟩ 1).map
      (fun r => (r.slot_length, decide (r.bit_length = 1))) = some (0, false) ∧
    (big_int_right_shift ⟨[10, 0], 4, 1, 2, 0⟩ 4).map
      (fun r => (r.slot_length, decide (r.bit_length = 1))) = some (0, false) ∧
    (big_int_right_shift ⟨[1, 0], 1, 1, 2, 0⟩ 64).map
      (fun r => decide (2 ^ 64 - 2 ≤ r.slot_length)) = some true := by
  decide

/-- C20: `big_int_new_random 8` on the random word `0xFF` returns the digit
`0xFF` with `bit_length = 2 ^ 64 - 16`; for `33` bits and the words `5`, `1`
it returns two slots with `bit_length = 2`; for `64` bits and the words `5`,
`0` it returns one slot with `bit_length = 35`; for `32` bits and the word `0`
it returns `slot_length = 0`, `bit_length = 32` and the value `0`, not `1`. -/
theorem big_int_new_random_bits_inconsistent :
    ((big_int_new_random 8 [0xFF] []).slot_length = 1 ∧
      rd (big_int_new_random 8 [0xFF] []).slot 0 = 0xFF ∧
      (big_int_new_random 8 [0xFF] []).bit_length = 2 ^ 64 - 16) ∧
    ((big_int_new_random 33 [5, 1] []).slot_length = 2 ∧
      rd (big_int_new_random 33 [5, 1] []).slot 1 = 1 ∧
      (big_int_new_random 33 [5, 1] []).bit_length = 2) ∧
    ((big_int_new_random 64 [5, 0] []).slot_length = 1 ∧
      rd (big_int_new_random 64 [5, 0] []).slot 0 = 5 ∧
      (big_int_new_random 64 [5, 0] []).bit_length = 35) ∧
    ((big_int_new_random 32 [0] []).slot_length = 0 ∧
      (big_int_new_random 32 [0] []).bit_length = 32 ∧
      magnitude (big_int_new_random 32 [0] []) = 0) := by
  decide

/-- With a read past a block giving `0` and a store past it dropped: 
`fibonacci n` returns (any fuel of at least `n` is enough for the
loop and the products) the canonical `n`-th Fibonacci number `F(n)`, where
`F(0) = 0`, `F(1) = F(2) = 1` and `F(n) = F(n - 1) + F(n - 2)`. -/
theorem fibonacci_correct (n fuel : Nat) (hf : n ≤ fuel) :
    ∃ r, fibonacci fuel n = some r ∧ canonical r ∧ to_Int r = (Nat.fib n : Int) ∧
      Nat.fib 0 = 0 ∧ Nat.fib 1 = 1 ∧ Nat.fib 2 = 1 ∧
      (2 ≤ n → Nat.fib n = Nat.fib (n - 1) + Nat.fib (n - 2)) := by
  obtain ⟨r, r1, r2, r3⟩ := fibonacci_spec n fuel hf
  refine ⟨r, r1, r2.canonical, by rw [r2.to_Int, r3], rfl, rfl, rfl, fun h2 => ?_⟩
  have e : n = (n - 2) + 2 := by omega
  conv_lhs => rw [e, Nat.fib_add_two]
  rw [show n - 1 = (n - 2) + 1 by omega]
  ring

/-- Instance of `fibonacci_correct` at `n = 100`: the result is
`354224848179261915075`. -/
theorem fibonacci_correct_witness :
    ∃ r, fibonacci 100 100 = some r ∧ canonical r ∧ to_Int r = 354224848179261915075 := by
  obtain ⟨r, h1, h2, h3, _⟩ := fibonacci_correct 100 100 (by decide)
  refine ⟨r, h1, h2, ?_⟩
  rw [h3]
  norm_num

/-- With a read past a block giving `0` and a store past it dropped: for
canonical `p ≥ 2` (every prime modulus is one) and private
exponents `a ≥ 1`, `b ≥ 1`, the computation of `dh` with the generator `2`
gives (any fuel of at least `4 * bits(p) + 5` is enough) two canonical
passwords of the same value, `2 ^ (a * b) mod p`. -/
theorem dh_agreement (p a b : big_int) (hp : canonical p) (ha : canonical a) (hb : canonical b)
    (hp2 : 2 ≤ to_Int p) (ha1 : 1 ≤ to_Int a) (hb1 : 1 ≤ to_Int b) (fuel : Nat)
    (hf : 4 * p.bit_length + 5 ≤ fuel) :
    ∃ ka kb, dh fuel p a b = some (ka, kb) ∧ canonical ka ∧ canonical kb ∧
      to_Int ka = to_Int kb ∧
      to_Int ka = 2 ^ (magnitude a * magnitude b) % to_Int p := by
  have pp := pos_canonical_of_nonneg hp (by omega)
  have pa := pos_canonical_of_nonneg ha (by omega)
  have pb := pos_canonical_of_nonneg hb (by omega)
  rw [pp.to_Int] at hp2
  rw [pa.to_Int] at ha1
  rw [pb.to_Int] at hb1
  obtain ⟨ka, kb, e, k1, k2, k3, k4⟩ := dh_spec pp (by exact_mod_cast hp2) pa
    (by exact_mod_cast ha1) pb (by exact_mod_cast hb1) fuel hf
  refine ⟨ka, kb, e, k1.canonical, k2.canonical, ?_, ?_⟩
  · rw [k1.to_Int, k2.to_Int, k3, k4]
  · rw [k1.to_Int, pp.to_Int, k3]; norm_cast

/-- Instance of `dh_agreement` at `p = 23`, `a = 6`, `b = 15` with fuel `25`. -/
theorem dh_agreement_witness :
    ∃ ka kb, dh 25 ⟨[23, 0], 5, 1, 2, 0⟩ ⟨[6, 0], 3, 1, 2, 0⟩ ⟨[15, 0], 4, 1, 2, 0⟩ =
        some (ka, kb) ∧ canonical ka ∧ canonical kb ∧ to_Int ka = to_Int kb ∧
      to_Int ka = 2 ^ (magnitude ⟨[6, 0], 3, 1, 2, 0⟩ * magnitude ⟨[15, 0], 4, 1, 2, 0⟩) %
        to_Int ⟨[23, 0], 5, 1, 2, 0⟩ :=
  dh_agreement ⟨[23, 0], 5, 1, 2, 0⟩ ⟨[6, 0], 3, 1, 2, 0⟩ ⟨[15, 0], 4, 1, 2, 0⟩ (by decide)
    (by decide) (by decide) (by decide) (by decide) (by decide) 25 (by decide)

/-- C21: for every 32-bit `v`, `big_int_new_from_int v` is canonical and
positive with `slot_length = 1`, slot 0 equal to `v`, a buffer of
`allocated_slot_length` slots that are zero from index 1 on, and `bit_length`
equal to the bit length of `v` (the `k` with `2 ^ (k - 1) ≤ v < 2 ^ k`), which
is `1` for `v = 0`. -/
theorem big_int_new_from_int_correct (v : Nat) (hv : v < 2 ^ 32) :
    canonical (big_int_new_from_int v) ∧
    (big_int_new_from_int v).sign = BIG_NUMBER_POSITIVE ∧
    (big_int_new_from_int v).slot_length = 1 ∧
    rd (big_int_new_from_int v).slot 0 = v ∧
    (big_int_new_from_int v).slot.length = (big_int_new_from_int v).allocated_slot_length ∧
    (∀ i, 1 ≤ i → i < (big_int_new_from_int v).allocated_slot_length →
      rd (big_int_new_from_int v).slot i = 0) ∧
    (big_int_new_from_int v).bit_length = (if v = 0 then 1 else bit_width v) ∧
    (v ≠ 0 → 2 ^ (bit_width v - 1) ≤ v ∧ v < 2 ^ bit_width v) := by
  obtain ⟨h1, _, h3, h4⟩ := new_from_int_spec v hv
  obtain ⟨m1, _, _, _, m5, _, m7⟩ := h1.1
  refine ⟨h1.canonical, h1.2, h3, h4, m1, fun i hi hlt => ?_, ?_,
    fun h0 => ⟨two_pow_le_of_bit_width h0, lt_two_pow_bit_width v⟩⟩
  · exact m5 i (by rw [m1]; exact hlt) (by rw [h3]; exact hi)
  · rw [m7, h3, h4]
    by_cases h0 : v = 0
    · rw [if_pos h0, if_pos h0]
    · rw [if_neg h0, if_neg h0]; omega

/-- Witness of C21 at `v = 5`. -/
theorem big_int_new_from_int_correct_witness :
    canonical (big_int_new_from_int 5) ∧
    (big_int_new_from_int 5).sign = BIG_NUMBER_POSITIVE ∧
    (big_int_new_from_int 5).slot_length = 1 ∧
    rd (big_int_new_from_int 5).slot 0 = 5 ∧
    (big_int_new_from_int 5).slot.length = (big_int_new_from_int 5).allocated_slot_length ∧
    (∀ i, 1 ≤ i → i < (big_int_new_from_int 5).allocated_slot_length →
      rd (big_int_new_from_int 5).slot i = 0) ∧
    (big_int_new_from_int 5).bit_length = (if 5 = 0 then 1 else bit_width 5) ∧
    (5 ≠ 0 → 2 ^ (bit_width 5 - 1) ≤ 5 ∧ 5 < 2 ^ bit_width 5) :=
  big_int_new_from_int_correct 5 (by decide)

/-- C22: `big_int_new_from_int_with_sign` stores the sign it is given whatever
the value: with the negative sign and `v = 0` it returns the magnitude `0`
with the negative sign, which is not canonical. -/
theorem big_int_new_from_int_with_sign_negative_zero :
    (∀ sign, (big_int_new_from_int_with_sign sign 0).sign = sign) ∧
    magnitude (big_int_new_from_int_with_sign BIG_NUMBER_NEGATIVE 0) = 0 ∧
    to_Int (big_int_new_from_int_with_sign BIG_NUMBER_NEGATIVE 5) = -5 ∧
    ¬ canonical (big_int_new_from_int_with_sign BIG_NUMBER_NEGATIVE 0) := by
  have h0 : magnitude (big_int_new_from_int_with_sign BIG_NUMBER_NEGATIVE 0) = 0 := by decide
  exact ⟨fun _ => rfl, h0, by decide, fun hc => absurd (hc.2.2 h0) (by decide)⟩

/-- C24: at the canonical `a = 1`, `b = -1` the function `big_int_mul`
returns `-1` for `(a, b)` and `+1` for `(b, a)`: each short cut for an operand
of magnitude one returns a copy of the other operand with that operand's
sign. -/
theorem big_int_mul_order_changes_sign :
    canonical ⟨[1, 0], 1, 1, 2, 0⟩ ∧ canonical ⟨[1, 0], 1, 1, 2, 1⟩ ∧
      (∀ fuel, (big_int_mul fuel false ⟨[1, 0], 1, 1, 2, 0⟩ ⟨[1, 0], 1, 1, 2, 1⟩).map
        (fun r => to_Int r.2) = some (-1)) ∧
      (∀ fuel, (big_int_mul fuel false ⟨[1, 0], 1, 1, 2, 1⟩ ⟨[1, 0], 1, 1, 2, 0⟩).map
        (fun r => to_Int r.2) = some 1) :=
  ⟨by decide, by decide, fun _ => rfl, fun _ => rfl⟩

/-- C30: with a destination `5` of capacity one slot and the two-slot source
`-(3 * 2 ^ 32 + 7)`, both canonical, a failing allocation makes
`big_int_assign_to` return `-1` and leave the destination with no buffer (the
old one was cleared and released before the request): the record is not
canonical and its digits are lost.  With the buffers the library hands out
(256 slots) the same happens for a source of 257 slots. -/
theorem big_int_assign_to_failure_tears :
    canonical ⟨[5], 3, 1, 1, 0⟩ ∧ canonical ⟨[7, 3, 0], 34, 2, 3, 1⟩ ∧
    big_int_assign_to false ⟨[5], 3, 1, 1, 0⟩ ⟨[7, 3, 0], 34, 2, 3, 1⟩ =
      (-1, ⟨[], 3, 1, 1, 0⟩) ∧
    to_Int ⟨[5], 3, 1, 1, 0⟩ = 5 ∧ to_Int ⟨[], 3, 1, 1, 0⟩ = 0 ∧
    ¬ canonical ⟨[], 3, 1, 1, 0⟩ ∧
    (big_int_assign_to false (big_int_new_from_int 5)
      ⟨List.replicate 256 0 ++ 1 :: List.replicate 256 0, 8193, 257, 513, 0⟩).1 = -1 ∧
    (big_int_assign_to false (big_int_new_from_int 5)
      ⟨List.replicate 256 0 ++ 1 :: List.replicate 256 0, 8193, 257, 513, 0⟩).2.slot = [] := by
  refine ⟨by decide, by decide, by decide, by decide, by decide, by decide, by decide, by decide⟩

/-- C26 fails as stated: on the canonical dividend `0x100000000` and divisor
`0xFF`, `big_int_div_to` does not leave `0x01010102` and `big_int_mod_to` does
not leave `0x02`. -/
theorem claimed_div_mod_values_fail :
    canonical ⟨[0, 1, 0], 33, 2, 3, 0⟩ ∧ canonical ⟨[0xFF, 0], 8, 1, 2, 0⟩ ∧
    to_Int ⟨[0, 1, 0], 33, 2, 3, 0⟩ = 0x100000000 ∧ to_Int ⟨[0xFF, 0], 8, 1, 2, 0⟩ = 0xFF ∧
    (big_int_div_to 34 ⟨[0, 1, 0], 33, 2, 3, 0⟩ ⟨[0xFF, 0], 8, 1, 2, 0⟩).map magnitude ≠
      some 0x01010102 ∧
    (big_int_mod_to 34 ⟨[0, 1, 0], 33, 2, 3, 0⟩ ⟨[0xFF, 0], 8, 1, 2, 0⟩).map magnitude ≠
      some 0x02 := by
  refine ⟨by decide, by decide, by decide, by decide, by decide, by decide⟩

/-- C26, amended: for every canonical dividend of value `0x100000000` and
canonical divisor of value `0xFF`, `big_int_div_to` terminates (fuel 34 is
enough) and leaves the magnitude `0x01010101`, and `big_int_mod_to` terminates
and leaves the canonical remainder `0x01`; indeed
`0x100000000 = 0xFF * 0x01010101 + 1`. -/
theorem big_int_div_mod_scenario (a b : big_int) (ha : canonical a) (hb : canonical b)
    (hva : to_Int a = 0x100000000) (hvb : to_Int b = 0xFF) (fuel : Nat) (hf : 34 ≤ fuel) :
    (∃ q, big_int_div_to fuel a b = some q ∧ magnitude q = 0x01010101) ∧
    (∃ r, big_int_mod_to fuel a b = some r ∧ canonical r ∧ to_Int r = 0x01) := by
  have hpa : pos_canonical a := pos_canonical_of_nonneg ha (by rw [hva]; norm_num)
  have hpb : pos_canonical b := pos_canonical_of_nonneg hb (by rw [hvb]; norm_num)
  have hma : magnitude a = 0x100000000 := by
    have := hpa.to_Int; rw [hva] at this; exact_mod_cast this.symm
  have hmb : magnitude b = 0xFF := by
    have := hpb.to_Int; rw [hvb] at this; exact_mod_cast this.symm
  have hbits : a.bit_length = 33 := by
    rw [hpa.1.bits_eq, hma, bit_width_eq_of_bounds (by norm_num : 0 < 33) (by norm_num) (by norm_num)]
    rfl
  obtain ⟨q, q1, q2⟩ := div_to_spec hpa hpb (by rw [hmb]; norm_num) fuel (by omega)
  obtain ⟨r, r1, r2, r3, _⟩ := mod_to_spec hpa hpb (by rw [hmb]; norm_num) fuel (by omega)
  refine ⟨⟨q, q1, ?_⟩, ⟨r, r1, r2.canonical, ?_⟩⟩
  · rw [q2, hma, hmb]
  · rw [r2.to_Int, r3, hma, hmb]; norm_num

/-- Witness of C26 (amended) on records of three and two slots. -/
theorem big_int_div_mod_scenario_witness :
    (∃ q, big_int_div_to 34 ⟨[0, 1, 0], 33, 2, 3, 0⟩ ⟨[0xFF, 0], 8, 1, 2, 0⟩ = some q ∧
      magnitude q = 0x01010101) ∧
    (∃ r, big_int_mod_to 34 ⟨[0, 1, 0], 33, 2, 3, 0⟩ ⟨[0xFF, 0], 8, 1, 2, 0⟩ = some r ∧
      canonical r ∧ to_Int r = 0x01) :=
  big_int_div_mod_scenario ⟨[0, 1, 0], 33, 2, 3, 0⟩ ⟨[0xFF, 0], 8, 1, 2, 0⟩ (by decide) (by decide)
    (by decide) (by decide) 34 (by decide)

/-- C27 fails as stated: on the canonical base `2`, exponent `0xFF` and
modulus `0x101`, `big_int_pow_mod_to` does not leave the value `2`. -/
theorem claimed_pow_mod_value_fails :
    canonical ⟨[2, 0], 2, 1, 2, 0⟩ ∧ canonical ⟨[0xFF, 0], 8, 1, 2, 0⟩ ∧
    canonical ⟨[0x101, 0, 0], 9, 1, 3, 0⟩ ∧
    (big_int_pow_mod_to 23 ⟨[2, 0], 2, 1, 2, 0⟩ ⟨[0xFF, 0], 8, 1, 2, 0⟩
      ⟨[0x101, 0, 0], 9, 1, 3, 0⟩).map to_Int ≠ some 2 := by
  refine ⟨by decide, by decide, by decide, by decide⟩

/-- C27, amended: for every canonical base of value `2`, exponent of value
`0xFF` and modulus of value `0x101`, `big_int_pow_mod_to` terminates (fuel 23
is enough) and leaves the canonical value `0x81 = 2 ^ 255 mod 257`. -/
theorem big_int_pow_mod_scenario (a e n : big_int) (ha : canonical a) (he : canonical e)
    (hn : canonical n) (hva : to_Int a = 2) (hve : to_Int e = 0xFF) (hvn : to_Int n = 0x101)
    (fuel : Nat) (hf : 23 ≤ fuel) :
    ∃ r, big_int_pow_mod_to fuel a e n = some r ∧ canonical r ∧ to_Int r = 0x81 := by
  have hpa : pos_canonical a := pos_canonical_of_nonneg ha (by rw [hva]; norm_num)
  have hpe : pos_canonical e := pos_canonical_of_nonneg he (by rw [hve]; norm_num)
  have hpn : pos_canonical n := pos_canonical_of_nonneg hn (by rw [hvn]; norm_num)
  have hma : magnitude a = 2 := by
    have := hpa.to_Int; rw [hva] at this; exact_mod_cast this.symm
  have hme : magnitude e = 0xFF := by
    have := hpe.to_Int; rw [hve] at this; exact_mod_cast this.symm
  have hmn : magnitude n = 0x101 := by
    have := hpn.to_Int; rw [hvn] at this; exact_mod_cast this.symm
  have hba : a.bit_length = 2 := by
    rw [hpa.1.bits_eq, hma, bit_width_eq_of_bounds (by norm_num : 0 < 2) (by norm_num) (by norm_num)]
    rfl
  have hbn : n.bit_length = 9 := by
    rw [hpn.1.bits_eq, hmn, bit_width_eq_of_bounds (by norm_num : 0 < 9) (by norm_num) (by norm_num)]
    rfl
  obtain ⟨r, r1, r2, r3⟩ := pow_mod_to_spec hpa hpe (by rw [hme]; norm_num) hpn
    (by rw [hmn]; norm_num) fuel (by omega)
  refine ⟨r, r1, r2.canonical, ?_⟩
  rw [r2.to_Int, r3, hma, hme, hmn]; norm_num

/-- Witness of C27 (amended) on records of two and three slots. -/
theorem big_int_pow_mod_scenario_witness :
    ∃ r, big_int_pow_mod_to 23 ⟨[2, 0], 2, 1, 2, 0⟩ ⟨[0xFF, 0], 8, 1, 2, 0⟩
      ⟨[0x101, 0, 0], 9, 1, 3, 0⟩ = some r ∧ canonical r ∧ to_Int r = 0x81 :=
  big_int_pow_mod_scenario ⟨[2, 0], 2, 1, 2, 0⟩ ⟨[0xFF, 0], 8, 1, 2, 0⟩ ⟨[0x101, 0, 0], 9, 1, 3, 0⟩
    (by decide) (by decide) (by decide) (by decide) (by decide) (by decide) 23 (by decide)

/-- C23 fails as stated at `a = 0`: with the canonical zero as base and as
exponent, `big_int_pow_to` leaves the value `0`, not `1`, whatever the fuel
(the first test of the function returns `0` for the base `0` before the
exponent is looked at). -/
theorem big_int_pow_to_zero_zero :
    canonical ⟨[0, 0], 1, 1, 2, 0⟩ ∧
    ∀ fuel, (big_int_pow_to fuel ⟨[0, 0], 1, 1, 2, 0⟩ ⟨[0, 0], 1, 1, 2, 0⟩).map to_Int = some 0 :=
  ⟨by decide, fun _ => rfl⟩

/-- C23, amended: for canonical `a` and a canonical exponent `e`,
`big_int_pow_to` terminates (fuel `bits(a) + 2` is enough) and leaves a
canonical value, which for `e = 0` is `1` when `a ≠ 0` and `0` when `a = 0`,
and for `e = 1` is `a` (also for `a = 0`). -/
theorem big_int_pow_to_exponent_zero_one (a e : big_int) (ha : canonical a) (he : canonical e)
    (fuel : Nat) (hf : a.bit_length + 2 ≤ fuel) :
    (to_Int e = 0 → ∃ r, big_int_pow_to fuel a e = some r ∧ canonical r ∧
      to_Int r = if to_Int a = 0 then 0 else 1) ∧
    (to_Int e = 1 → ∃ r, big_int_pow_to fuel a e = some r ∧ canonical r ∧
      to_Int r = to_Int a) := by
  constructor
  · intro h0
    have hE : magnitude e = 0 := by rw [magnitude_eq_natAbs, h0]; rfl
    obtain ⟨r, r1, r2, r3⟩ := pow_to_zero_spec ha he hE fuel (by omega)
    refine ⟨r, r1, r2, ?_⟩
    rw [r3]
    have hiff : magnitude a = 0 ↔ to_Int a = 0 := by
      rw [magnitude_eq_natAbs]; exact Int.natAbs_eq_zero
    by_cases hz : magnitude a = 0
    · rw [if_pos hz, if_pos (hiff.mp hz)]
    · rw [if_neg hz, if_neg (fun h => hz (hiff.mpr h))]
  · intro h1
    have hp : pos_canonical e := pos_canonical_of_nonneg he (by rw [h1]; norm_num)
    have hE : magnitude e = 1 := by rw [magnitude_eq_natAbs, h1]; rfl
    exact pow_to_one_spec ha hp hE fuel hf

/-- Witness of C23 (amended) at `a = -5` with the exponent `1` and fuel 5. -/
theorem big_int_pow_to_exponent_zero_one_witness :
    (to_Int ⟨[1, 0], 1, 1, 2, 0⟩ = 0 →
      ∃ r, big_int_pow_to 5 ⟨[5, 0], 3, 1, 2, 1⟩ ⟨[1, 0], 1, 1, 2, 0⟩ = some r ∧ canonical r ∧
        to_Int r = if to_Int ⟨[5, 0], 3, 1, 2, 1⟩ = 0 then 0 else 1) ∧
    (to_Int ⟨[1, 0], 1, 1, 2, 0⟩ = 1 →
      ∃ r, big_int_pow_to 5 ⟨[5, 0], 3, 1, 2, 1⟩ ⟨[1, 0], 1, 1, 2, 0⟩ = some r ∧ canonical r ∧
        to_Int r = to_Int ⟨[5, 0], 3, 1, 2, 1⟩) :=
  big_int_pow_to_exponent_zero_one ⟨[5, 0], 3, 1, 2, 1⟩ ⟨[1, 0], 1, 1, 2, 0⟩ (by decide) (by decide)
    5 (by decide)

/-- C25: on the texts `FFFFFFFF` and `1`, with the clean buffers the pool of
the program hands out, `add_op` writes `0xFFFFFFFF` and a line feed, not
`0x0000000100000000`: `big_int_new_from_str` never reads the one-character
text and returns what the buffer held, here `0` with `slot_length = 0`.  On
the texts `FFFFFFFF` and `00000001` it writes `0x0000000100000000`. -/
theorem add_op_short_operand :
    add_op ['F', 'F', 'F', 'F', 'F', 'F', 'F', 'F'] ['1'] [] [] =
      ['0', 'x', 'F', 'F', 'F', 'F', 'F', 'F', 'F', 'F', Char.ofNat 10] ∧
    add_op ['F', 'F', 'F', 'F', 'F', 'F', 'F', 'F'] ['0', '0', '0', '0', '0', '0', '0', '1'] [] [] =
      ['0', 'x', '0', '0', '0', '0', '0', '0', '0', '1', '0', '0', '0', '0', '0', '0', '0', '0',
        Char.ofNat 10] := by
  constructor
  · unfold add_op
    simp only
    rw [print_add_one_slot (by decide) (by decide) (by decide) (by decide)
      (List.length_pos.mpr (by decide)) (by decide)]
    have h : rd (big_int_new_from_str ['F', 'F', 'F', 'F', 'F', 'F', 'F', 'F'] []).slot 0 +
        rd (big_int_new_from_str ['1'] []).slot 0 = 0xFFFFFFFF := by decide
    rw [h]
    decide
  · decide

/-- C28: on a well-formed pool, `mem_pool_malloc` returns `NULL` and leaves
the pool as it was when `size > 4096` and when no page is free; otherwise,
with `block` the first block that has a free page and `k` its lowest free
page, it returns the address of page `k` of `block`, sets the bit of that page
and no other (the other blocks are left as they were), and moves exactly 4096
bytes from `size_free` to `size_used` in the block and in the pool, whatever
the size asked for.  The bit index computed from a byte `x ≠ 0xFF` is the
position of the lowest zero bit of `x`. -/
theorem mem_pool_malloc_correct (pool : mem_pool) (size : Nat) (hok : mem_pool_ok pool) :
    (PAGE_SIZE < size → mem_pool_malloc pool size = (none, pool)) ∧
    (size ≤ PAGE_SIZE →
      (∀ block ∈ pool.blocks, ∀ k, k < PAGE_PER_BLOCK → page_used block k = true) →
      mem_pool_malloc pool size = (none, pool)) ∧
    (size ≤ PAGE_SIZE → ∀ pre block post k, pool.blocks = pre ++ block :: post →
      (∀ b ∈ pre, ∀ j, j < PAGE_PER_BLOCK → page_used b j = true) →
      k < PAGE_PER_BLOCK → page_used block k = false →
      (∀ j, j < k → page_used block j = true) →
      ∃ bitmap,
        mem_pool_malloc pool size =
          (some (block.data + k * PAGE_SIZE),
            { pool with
              blocks := pre ++
                { block with
                  bitmap := bitmap,
                  size_used := block.size_used + PAGE_SIZE,
                  size_free := block.size_free - PAGE_SIZE } :: post,
              size_used := pool.size_used + PAGE_SIZE,
              size_free := pool.size_free - PAGE_SIZE }) ∧
        PAGE_SIZE ≤ block.size_free ∧ PAGE_SIZE ≤ pool.size_free ∧
        bitmap.length = block.bitmap.length ∧
        ∀ j, page_used { block with bitmap := bitmap } j =
          (page_used block j || decide (j = k))) ∧
    (∀ x, x < 256 → x ≠ 0xFF → malloc_bit_idx x < 8 ∧
      x.testBit (malloc_bit_idx x) = false ∧ ∀ j, j < malloc_bit_idx x → x.testBit j = true) := by
  refine ⟨fun h => ?_, fun _ hfull => mem_pool_malloc_full hok size hfull, ?_, fun x h1 h2 => ?_⟩
  · unfold mem_pool_malloc
    rw [if_pos h]
  · intro hsize pre block post k hdec hpre hk1 hk2 hk3
    have hb : mem_block_ok block := hok.1 block (by rw [hdec]; simp)
    have hk : lowest_free block k := ⟨hk1, hk2, hk3⟩
    obtain ⟨h1, h2, h3⟩ := mem_pool_malloc_at hok hsize hdec hpre hk
    exact ⟨_, h1, h2, h3, length_block_taken block k, page_used_block_taken hb hk⟩
  · obtain ⟨m1, m2, m3, _⟩ := malloc_bit_idx_spec x h1 h2
    exact ⟨m1, m2, m3⟩

/-- Witness of C28 on a pool of two blocks and a request of 100 bytes. -/
theorem mem_pool_malloc_correct_witness :
    (PAGE_SIZE < 100 → mem_pool_malloc pool_two_blocks 100 = (none, pool_two_blocks)) ∧
    (100 ≤ PAGE_SIZE →
      (∀ block ∈ pool_two_blocks.blocks, ∀ k, k < PAGE_PER_BLOCK → page_used block k = true) →
      mem_pool_malloc pool_two_blocks 100 = (none, pool_two_blocks)) ∧
    (100 ≤ PAGE_SIZE → ∀ pre block post k, pool_two_blocks.blocks = pre ++ block :: post →
      (∀ b ∈ pre, ∀ j, j < PAGE_PER_BLOCK → page_used b j = true) →
      k < PAGE_PER_BLOCK → page_used block k = false →
      (∀ j, j < k → page_used block j = true) →
      ∃ bitmap,
        mem_pool_malloc pool_two_blocks 100 =
          (some (block.data + k * PAGE_SIZE),
            { pool_two_blocks with
              blocks := pre ++
                { block with
                  bitmap := bitmap,
                  size_used := block.size_used + PAGE_SIZE,
                  size_free := block.size_free - PAGE_SIZE } :: post,
              size_used := pool_two_blocks.size_used + PAGE_SIZE,
              size_free := pool_two_blocks.size_free - PAGE_SIZE }) ∧
        PAGE_SIZE ≤ block.size_free ∧ PAGE_SIZE ≤ pool_two_blocks.size_free ∧
        bitmap.length = block.bitmap.length ∧
        ∀ j, page_used { block with bitmap := bitmap } j =
          (page_used block j || decide (j = k))) ∧
    (∀ x, x < 256 → x ≠ 0xFF → malloc_bit_idx x < 8 ∧
      x.testBit (malloc_bit_idx x) = false ∧ ∀ j, j < malloc_bit_idx x → x.testBit j = true) :=
  mem_pool_malloc_correct pool_two_blocks 100 (by decide)

/-- C29: on a well-formed pool, when `mem_pool_malloc` returns the page `p`,
the call `mem_pool_free` on `p` that follows returns `0` and gives back the
pool as it was before the allocation (every bitmap and every counter, of the
blocks and of the pool); and on any pool, `mem_pool_free` returns `-1` and
leaves the pool as it was for a pointer in no block's data area. -/
theorem mem_pool_free_correct (pool : mem_pool) :
    (mem_pool_ok pool → ∀ size p pool1, mem_pool_malloc pool size = (some p, pool1) →
      mem_pool_free pool1 p = (0, pool)) ∧
    (∀ ptr, (∀ block ∈ pool.blocks,
        ¬ (block.data ≤ ptr ∧ ptr < block.data + BLOCK_DATA_SIZE)) →
      mem_pool_free pool ptr = (-1, pool)) := by
  constructor
  · intro hok size p pool1 hm
    obtain ⟨pre, block, post, k, e1, e2, e3, e4⟩ := mem_pool_malloc_some hok hm
    rw [e3, e4]
    exact mem_pool_free_taken hok e1 e2
  · intro ptr h
    unfold mem_pool_free
    rw [free_block_loop_none ptr pool.blocks 0 h]

/-- Witness of C29 on a pool of two blocks: the page at `0x1B000` handed out
for a request of 100 bytes is given back, and the pointer `5` is in no
block. -/
theorem mem_pool_free_correct_witness :
    (mem_pool_malloc pool_two_blocks 100).1 = some 0x1B000 ∧
    mem_pool_free (mem_pool_malloc pool_two_blocks 100).2 0x1B000 = (0, pool_two_blocks) ∧
    mem_pool_free pool_two_blocks 5 = (-1, pool_two_blocks) :=
  ⟨by decide,
   (mem_pool_free_correct pool_two_blocks).1 (by decide) 100 0x1B000
     (mem_pool_malloc pool_two_blocks 100).2 (by decide),
   (mem_pool_free_correct pool_two_blocks).2 5 (by decide)⟩

/-- With a read past a block giving `0` and a store past it dropped: for
canonical `a` and `b`, the first operand left by `big_int_add_to`,
by `big_int_sub_to` and by `big_int_mul_to` (which returns with fuel for the
Karatsuba recursion of at least the bit lengths less 768; `same` tells that
both arguments are one object) is canonical again: its top used slot is
non-zero unless its value is zero, its `bit_length` is `32 * (used - 1)` plus
the bit length of the top slot, with `used = 1` and `bit_length = 1` for zero,
and a zero has the positive sign. -/
theorem signed_operations_keep_canonical (same : Bool) (a b : big_int) (ha : canonical a)
    (hb : canonical b) (hsame : same = true → b = a) (fuel : Nat)
    (hfa : a.bit_length ≤ 768 + fuel) (hfb : b.bit_length ≤ 768 + fuel) :
    canonical (big_int_add_to a b).2 ∧ canonical (big_int_sub_to a b).2 ∧
    (∃ r, big_int_mul_to fuel same a b = some r ∧ canonical r) ∧
    ∀ r, (r = (big_int_add_to a b).2 ∨ r = (big_int_sub_to a b).2 ∨
        big_int_mul_to fuel same a b = some r) →
      (magnitude r ≠ 0 → rd r.slot (r.slot_length - 1) ≠ 0) ∧
      r.bit_length = (if magnitude r = 0 then 1
        else 32 * (r.slot_length - 1) + bit_width (rd r.slot (r.slot_length - 1))) ∧
      (magnitude r = 0 → r.slot_length = 1 ∧ r.bit_length = 1 ∧
        r.sign = BIG_NUMBER_POSITIVE) := by
  have h1 := (add_to_spec ha hb).2.1
  have h2 := sub_to_canonical ha hb
  obtain ⟨m, m1, m2, _⟩ := mul_to_spec ha hb hsame fuel hfa hfb
  refine ⟨h1, h2, ⟨m, m1, m2⟩, fun r hr => ?_⟩
  rcases hr with e | e | e
  · rw [e]; exact h1.form
  · rw [e]; exact h2.form
  · rw [m1] at e
    rw [← Option.some.inj e]
    exact m2.form

/-- Instance of `signed_operations_keep_canonical` at `a = -5`, `b = 3` in
two-slot buffers. -/
theorem signed_operations_keep_canonical_witness :
    canonical (big_int_add_to ⟨[5, 0], 3, 1, 2, 1⟩ ⟨[3, 0], 2, 1, 2, 0⟩).2 ∧
    canonical (big_int_sub_to ⟨[5, 0], 3, 1, 2, 1⟩ ⟨[3, 0], 2, 1, 2, 0⟩).2 ∧
    (∃ r, big_int_mul_to 0 false ⟨[5, 0], 3, 1, 2, 1⟩ ⟨[3, 0], 2, 1, 2, 0⟩ = some r ∧
      canonical r) ∧
    ∀ r, (r = (big_int_add_to ⟨[5, 0], 3, 1, 2, 1⟩ ⟨[3, 0], 2, 1, 2, 0⟩).2 ∨
        r = (big_int_sub_to ⟨[5, 0], 3, 1, 2, 1⟩ ⟨[3, 0], 2, 1, 2, 0⟩).2 ∨
        big_int_mul_to 0 false ⟨[5, 0], 3, 1, 2, 1⟩ ⟨[3, 0], 2, 1, 2, 0⟩ = some r) →
      (magnitude r ≠ 0 → rd r.slot (r.slot_length - 1) ≠ 0) ∧
      r.bit_length = (if magnitude r = 0 then 1
        else 32 * (r.slot_length - 1) + bit_width (rd r.slot (r.slot_length - 1))) ∧
      (magnitude r = 0 → r.slot_length = 1 ∧ r.bit_length = 1 ∧
        r.sign = BIG_NUMBER_POSITIVE) :=
  signed_operations_keep_canonical false ⟨[5, 0], 3, 1, 2, 1⟩ ⟨[3, 0], 2, 1, 2, 0⟩ (by decide)
    (by decide) (by decide) 0 (by decide) (by decide)

/-- C33: for every canonical `n > 0`, whose `bit_length` `k` is the bit
length of its value, `big_int_barret_build` terminates (fuel `2 * k + 2` is
enough for the division) and returns the magnitude `floor(2 ^ (2 * k) / n)`. -/
theorem big_int_barret_build_correct (n : big_int) (hn : canonical n) (hpos : 0 < to_Int n)
    (fuel : Nat) (hf : 2 * n.bit_length + 2 ≤ fuel) :
    n.bit_length = bit_width (magnitude n) ∧
    ∃ r, big_int_barret_build fuel n = some r ∧
      magnitude r = 2 ^ (2 * n.bit_length) / magnitude n := by
  have hp : pos_canonical n := pos_canonical_of_nonneg hn (le_of_lt hpos)
  have hN : 1 ≤ magnitude n := by
    have h := hp.to_Int
    rw [h] at hpos
    exact_mod_cast hpos
  refine ⟨?_, barret_build_spec hp hN fuel hf⟩
  rw [hn.1.bits_eq]
  have := bit_width_pos (show magnitude n ≠ 0 by omega)
  omega

/-- Witness of C33 at `n = 5` (three bits) with fuel 8: the result is
`floor(64 / 5)`. -/
theorem big_int_barret_build_correct_witness :
    (⟨[5, 0], 3, 1, 2, 0⟩ : big_int).bit_length = bit_width (magnitude ⟨[5, 0], 3, 1, 2, 0⟩) ∧
    ∃ r, big_int_barret_build 8 ⟨[5, 0], 3, 1, 2, 0⟩ = some r ∧
      magnitude r = 2 ^ (2 * (⟨[5, 0], 3, 1, 2, 0⟩ : big_int).bit_length) /
        magnitude ⟨[5, 0], 3, 1, 2, 0⟩ :=
  big_int_barret_build_correct ⟨[5, 0], 3, 1, 2, 0⟩ (by decide) (by decide) 8 (by decide)

/-- C36: for every canonical `x`, `__big_int_square_plain` returns a canonical
integer of magnitude `|x| ^ 2`, the value `x * x`. -/
theorem big_int_square_plain_correct (x : big_int) (hx : canonical x) :
    canonical (__big_int_square_plain x) ∧
    magnitude (__big_int_square_plain x) = magnitude x ^ 2 ∧
    to_Int (__big_int_square_plain x) = to_Int x * to_Int x := by
  obtain ⟨s1, s2⟩ := square_plain_spec hx.1.one_le hx.1.rd_lt
  refine ⟨s1.canonical, by rw [s2, sq], ?_⟩
  rw [s1.to_Int, s2]
  have h := magnitude_eq_natAbs x
  rw [h]
  push_cast
  exact abs_mul_abs_self _

/-- Witness of C36 at the two-slot `x` whose slots are both `0xFFFFFFFF`. -/
theorem big_int_square_plain_correct_witness :
    canonical (__big_int_square_plain ⟨[0xFFFFFFFF, 0xFFFFFFFF, 0], 64, 2, 3, 0⟩) ∧
    magnitude (__big_int_square_plain ⟨[0xFFFFFFFF, 0xFFFFFFFF, 0], 64, 2, 3, 0⟩) =
      magnitude ⟨[0xFFFFFFFF, 0xFFFFFFFF, 0], 64, 2, 3, 0⟩ ^ 2 ∧
    to_Int (__big_int_square_plain ⟨[0xFFFFFFFF, 0xFFFFFFFF, 0], 64, 2, 3, 0⟩) =
      to_Int ⟨[0xFFFFFFFF, 0xFFFFFFFF, 0], 64, 2, 3, 0⟩ *
        to_Int ⟨[0xFFFFFFFF, 0xFFFFFFFF, 0], 64, 2, 3, 0⟩ :=
  big_int_square_plain_correct ⟨[0xFFFFFFFF, 0xFFFFFFFF, 0], 64, 2, 3, 0⟩ (by decide)

/-- With a read past a block giving `0` and a store past it dropped: for
canonical `a` and `b` that are both longer than 768 bits (`same`
tells that both arguments are one object), `__big_int_mul_karatsuba` returns,
with fuel for its recursion of at least the bit lengths less 769, a canonical
integer of magnitude `|a| * |b|`, and so does `__big_int_mul_plain`: the two
magnitudes are equal. -/
theorem karatsuba_matches_plain (same : Bool) (a b : big_int) (ha : canonical a)
    (hb : canonical b) (hsame : same = true → b = a) (ha768 : 768 < a.bit_length)
    (hb768 : 768 < b.bit_length) (fuel : Nat) (hfa : a.bit_length ≤ 769 + fuel)
    (hfb : b.bit_length ≤ 769 + fuel) :
    ∃ r, __big_int_mul_karatsuba fuel same a b = some r ∧ canonical r ∧
      magnitude r = magnitude a * magnitude b ∧
      canonical (__big_int_mul_plain same a b) ∧
      magnitude (__big_int_mul_plain same a b) = magnitude a * magnitude b ∧
      magnitude r = magnitude (__big_int_mul_plain same a b) := by
  have hb0 : magnitude b ≠ 0 := by
    intro h0
    have := hb.1.bits_of_zero h0
    omega
  obtain ⟨r, r1, r2, r3⟩ := karatsuba_pos_spec ha.1 hb.1 hsame ha768 hb768 fuel hfa hfb
  obtain ⟨p1, p2⟩ := plain_pos_spec ha.1 hb.1 hsame hb0
  exact ⟨r, r1, r2.canonical, r3, p1.canonical, p2, by rw [r3, p2]⟩

set_option exponentiation.threshold 1024 in
/-- Instance of `karatsuba_matches_plain` at `a = 2 ^ 768`, whose low half is
all zero, and a
negative `b` of 770 bits, with fuel 1. -/
theorem karatsuba_matches_plain_witness :
    ∃ r, __big_int_mul_karatsuba 1 false karatsuba_operand_high karatsuba_operand_full =
        some r ∧ canonical r ∧
      magnitude r = magnitude karatsuba_operand_high * magnitude karatsuba_operand_full ∧
      canonical (__big_int_mul_plain false karatsuba_operand_high karatsuba_operand_full) ∧
      magnitude (__big_int_mul_plain false karatsuba_operand_high karatsuba_operand_full) =
        magnitude karatsuba_operand_high * magnitude karatsuba_operand_full ∧
      magnitude r =
        magnitude (__big_int_mul_plain false karatsuba_operand_high karatsuba_operand_full) :=
  karatsuba_matches_plain false karatsuba_operand_high karatsuba_operand_full (by decide)
    (by decide) (by decide) (by decide) (by decide) 1 (by decide) (by decide)

set_option maxRecDepth 100000 in
/-- C32: at the canonical positive `a = 7`, `b = 2` the quotient left by
`big_int_div_to` has magnitude `3`, two bits, with `bit_length = 1`; at
`a = 5`, `b = 3` it has magnitude `1` with `bit_length = 0`; neither is
canonical.  The function stores `bit_length = bit_delta`, the index of the top
bit, next to `slot_length = BIT_TO_SLOT(bit_delta + 1)`. -/
theorem big_int_div_to_bits_one_short :
    canonical ⟨[7, 0], 3, 1, 2, 0⟩ ∧ canonical ⟨[2, 0], 2, 1, 2, 0⟩ ∧
    canonical ⟨[5, 0], 3, 1, 2, 0⟩ ∧ canonical ⟨[3, 0], 2, 1, 2, 0⟩ ∧
    (big_int_div_to 4 ⟨[7, 0], 3, 1, 2, 0⟩ ⟨[2, 0], 2, 1, 2, 0⟩).map
      (fun q => (magnitude q, q.slot_length, q.bit_length, decide (canonical q))) =
        some (3, 1, 1, false) ∧
    (big_int_div_to 4 ⟨[5, 0], 3, 1, 2, 0⟩ ⟨[3, 0], 2, 1, 2, 0⟩).map
      (fun q => (magnitude q, q.slot_length, q.bit_length, decide (canonical q))) =
        some (1, 1, 0, false) := by
  decide

/-- C38: `big_int_add_to_u16` of the canonical `0x5FFFFFFFF` and `1` leaves
`0x500000000`, not `0x600000000`: the carry out of the lowest slot is lost.
Of the canonical `0xFFFFFFFF` and `1` it leaves the value `0` with
`slot_length = 0`, not `0x100000000`.  The carry is computed from the slot
before the addition, shifted right by 32, which is always `0`. -/
theorem big_int_add_to_u16_drops_carry :
    canonical ⟨[0xFFFFFFFF, 5, 0], 35, 2, 3, 0⟩ ∧ canonical ⟨[0xFFFFFFFF, 0], 32, 1, 2, 0⟩ ∧
    magnitude ⟨[0xFFFFFFFF, 5, 0], 35, 2, 3, 0⟩ + 1 = 0x600000000 ∧
    magnitude (big_int_add_to_u16 ⟨[0xFFFFFFFF, 5, 0], 35, 2, 3, 0⟩ 1) = 0x500000000 ∧
    magnitude (big_int_add_to_u16 ⟨[0xFFFFFFFF, 0], 32, 1, 2, 0⟩ 1) = 0 ∧
    (big_int_add_to_u16 ⟨[0xFFFFFFFF, 0], 32, 1, 2, 0⟩ 1).slot_length = 0 ∧
    ¬ canonical (big_int_add_to_u16 ⟨[0xFFFFFFFF, 0], 32, 1, 2, 0⟩ 1) := by
  decide

/-- C39: `big_int_dec` of the canonical `4` (three bits) leaves the value `3`
with `bit_length = 3`, not `2`; of the canonical `2 ^ 32` (33 bits, two slots)
it leaves `0xFFFFFFFF` in one slot with `bit_length = 33`, not `32`; neither
is canonical.  The function trims `slot_length` and never writes
`bit_length`. -/
theorem big_int_dec_keeps_bit_length :
    canonical ⟨[4, 0], 3, 1, 2, 0⟩ ∧ canonical ⟨[0, 1, 0], 33, 2, 3, 0⟩ ∧
    big_int_dec ⟨[4, 0], 3, 1, 2, 0⟩ = ⟨[3, 0], 3, 1, 2, 0⟩ ∧
    ¬ canonical (big_int_dec ⟨[4, 0], 3, 1, 2, 0⟩) ∧
    big_int_dec ⟨[0, 1, 0], 33, 2, 3, 0⟩ = ⟨[0xFFFFFFFF, 0, 0], 33, 1, 3, 0⟩ ∧
    ¬ canonical (big_int_dec ⟨[0, 1, 0], 33, 2, 3, 0⟩) := by
  decide

set_option maxRecDepth 100000 in
/-- C40: for `a = 7` in a buffer of 300 slots (canonical, positive) and
`b = 2`, `big_int_div_to` leaves `a` with `allocated_slot_length = 300` and
the buffer of 256 slots allocated for the quotient: the capacity field is
larger than the buffer.  The function takes the slots, `slot_length` and
`bit_length` of the quotient and keeps its own `allocated_slot_length`. -/
theorem big_int_div_to_keeps_capacity :
    canonical seven_in_300_slots ∧ canonical ⟨[2, 0], 2, 1, 2, 0⟩ ∧
    seven_in_300_slots.slot.length = seven_in_300_slots.allocated_slot_length ∧
    (big_int_div_to 4 seven_in_300_slots ⟨[2, 0], 2, 1, 2, 0⟩).map
      (fun q => (magnitude q, q.allocated_slot_length, q.slot.length)) = some (3, 300, 256) := by
  decide

/-! ## Runs that stay inside the blocks

On a run that stays inside its blocks the functions compute what the
embedding computes, so the results proved for the embedding hold for it. -/

/-- A run of `big_int_add_to` on canonical operands that stays inside its
blocks returns `0` and leaves the canonical integer `a + b`. -/
theorem big_int_add_to_inside_blocks (a b : big_int) (ha : canonical a) (hb : canonical b)
    (r : Int × big_int) (h : big_int_add_to_checked a b = outcome.done r) :
    r.1 = 0 ∧ canonical r.2 ∧ to_Int r.2 = to_Int a + to_Int b := by
  rw [← add_to_checked_done h]
  exact big_int_add_to_correct a b ha hb

/-- Instance of `big_int_add_to_inside_blocks` at `-5 + 3` in two-slot
buffers: the run stays inside the blocks. -/
theorem big_int_add_to_inside_blocks_instance :
    big_int_add_to_checked ⟨[5, 0], 3, 1, 2, 1⟩ ⟨[3, 0], 2, 1, 2, 0⟩ =
      outcome.done (0, ⟨[2, 0], 2, 1, 2, 1⟩) ∧
    to_Int ⟨[2, 0], 2, 1, 2, 1⟩ = to_Int ⟨[5, 0], 3, 1, 2, 1⟩ + to_Int ⟨[3, 0], 2, 1, 2, 0⟩ :=
  ⟨by decide,
    (big_int_add_to_inside_blocks ⟨[5, 0], 3, 1, 2, 1⟩ ⟨[3, 0], 2, 1, 2, 0⟩ (by decide)
      (by decide) (0, ⟨[2, 0], 2, 1, 2, 1⟩) (by decide)).2.2⟩

/-- A run of `big_int_mul_to` on canonical operands that stays inside its
blocks leaves the canonical integer `a * b`. -/
theorem big_int_mul_to_inside_blocks (same : Bool) (a b : big_int) (ha : canonical a)
    (hb : canonical b) (hsame : same = true → b = a) (fuel : Nat)
    (hfa : a.bit_length ≤ 768 + fuel) (hfb : b.bit_length ≤ 768 + fuel)
    (r : big_int) (h : big_int_mul_to_checked fuel same a b = outcome.done r) :
    canonical r ∧ to_Int r = to_Int a * to_Int b ∧
      magnitude r = magnitude a * magnitude b := by
  obtain ⟨r', h1, h2, h3, h4, _⟩ := big_int_mul_to_correct same a b ha hb hsame fuel hfa hfb
  rw [mul_to_checked_done h] at h1
  injection h1 with e
  subst e
  exact ⟨h2, h3, h4⟩

/-- Instance of `big_int_mul_to_inside_blocks` at `5 * 3` in blocks of 256
slots. -/
theorem big_int_mul_to_inside_blocks_instance :
    big_int_mul_to_checked 0 false (big_int_new_from_int 5) (big_int_new_from_int 3) =
      outcome.done (big_int_new_from_int 15) := by
  decide!

/-- After a run of `big_int_add_to`, `big_int_sub_to` or `big_int_mul_to` on
canonical operands that stays inside its blocks the first operand is
canonical. -/
theorem signed_operations_inside_blocks (same : Bool) (a b : big_int) (ha : canonical a)
    (hb : canonical b) (hsame : same = true → b = a) (fuel : Nat)
    (hfa : a.bit_length ≤ 768 + fuel) (hfb : b.bit_length ≤ 768 + fuel) :
    (∀ r, big_int_add_to_checked a b = outcome.done r → canonical r.2) ∧
    (∀ r, big_int_sub_to_checked a b = outcome.done r → canonical r.2) ∧
    (∀ r, big_int_mul_to_checked fuel same a b = outcome.done r → canonical r) := by
  obtain ⟨h1, h2, ⟨m, m1, m2⟩, _⟩ :=
    signed_operations_keep_canonical same a b ha hb hsame fuel hfa hfb
  refine ⟨fun r h => ?_, fun r h => ?_, fun r h => ?_⟩
  · rw [← add_to_checked_done h]
    exact h1
  · rw [← sub_to_checked_done h]
    exact h2
  · rw [mul_to_checked_done h] at m1
    injection m1 with e
    rw [e]
    exact m2

/-- A run of `__big_int_mul_karatsuba` on canonical operands longer than 768
bits that stays inside its blocks returns the magnitude `|a| * |b|`, the one
of `__big_int_mul_plain`. -/
theorem karatsuba_inside_blocks (same : Bool) (a b : big_int) (ha : canonical a)
    (hb : canonical b) (hsame : same = true → b = a) (ha768 : 768 < a.bit_length)
    (hb768 : 768 < b.bit_length) (fuel : Nat) (hfa : a.bit_length ≤ 769 + fuel)
    (hfb : b.bit_length ≤ 769 + fuel)
    (r : big_int) (h : __big_int_mul_karatsuba_checked fuel same a b = outcome.done r) :
    canonical r ∧ magnitude r = magnitude a * magnitude b ∧
      magnitude r = magnitude (__big_int_mul_plain same a b) := by
  obtain ⟨r', h1, h2, h3, _, _, h6⟩ :=
    karatsuba_matches_plain same a b ha hb hsame ha768 hb768 fuel hfa hfb
  rw [karatsuba_checked_done h] at h1
  injection h1 with e
  subst e
  exact ⟨h2, h3, h6⟩

/-- A run of `big_int_pow_mod_to` on canonical `a ≥ 0`, `e ≥ 1`, `n ≥ 2` that
stays inside its blocks leaves the canonical value `a ^ e mod n`. -/
theorem big_int_pow_mod_to_inside_blocks (a e n : big_int) (ha : canonical a)
    (he : canonical e) (hn : canonical n) (ha0 : 0 ≤ to_Int a) (he1 : 1 ≤ to_Int e)
    (hn2 : 2 ≤ to_Int n) (fuel : Nat) (hf : 2 * (a.bit_length + n.bit_length) + 1 ≤ fuel)
    (r : big_int) (h : big_int_pow_mod_to_checked fuel a e n = outcome.done r) :
    canonical r ∧ to_Int r = to_Int a ^ magnitude e % to_Int n := by
  obtain ⟨r', h1, h2, h3, _⟩ := big_int_pow_mod_to_correct a e n ha he hn ha0 he1 hn2 fuel hf
  rw [pow_mod_to_checked_done h] at h1
  injection h1 with e'
  subst e'
  exact ⟨h2, h3⟩

/-- A run of `dh` on a canonical modulus `p ≥ 2` and private exponents
`a ≥ 1`, `b ≥ 1` that stays inside its blocks gives two passwords of the same
value, `2 ^ (a * b) mod p`. -/
theorem dh_inside_blocks (p a b : big_int) (hp : canonical p) (ha : canonical a)
    (hb : canonical b) (hp2 : 2 ≤ to_Int p) (ha1 : 1 ≤ to_Int a) (hb1 : 1 ≤ to_Int b)
    (fuel : Nat) (hf : 4 * p.bit_length + 5 ≤ fuel)
    (r : big_int × big_int) (h : dh_checked fuel p a b = outcome.done r) :
    to_Int r.1 = to_Int r.2 ∧ to_Int r.1 = 2 ^ (magnitude a * magnitude b) % to_Int p := by
  obtain ⟨ka, kb, h1, _, _, h4, h5⟩ := dh_agreement p a b hp ha hb hp2 ha1 hb1 fuel hf
  rw [dh_checked_done h] at h1
  injection h1 with e
  subst e
  exact ⟨h4, h5⟩

/-- A run of `fibonacci` that stays inside its blocks returns the canonical
`n`-th Fibonacci number. -/
theorem fibonacci_inside_blocks (n fuel : Nat) (hf : n ≤ fuel) (r : big_int)
    (h : fibonacci_checked fuel n = outcome.done r) :
    canonical r ∧ to_Int r = (Nat.fib n : Int) := by
  obtain ⟨r', h1, h2, h3, _⟩ := fibonacci_correct n fuel hf
  rw [fibonacci_checked_done h] at h1
  injection h1 with e
  subst e
  exact ⟨h2, h3⟩

set_option maxRecDepth 100000 in
/-- C1: `big_int_add_to` reads outside a block.  The canonical `a = 2 ^ 8192`
sits in the block of 513 slots that `big_int_left_shift` of `1` by `8192`
leaves, with 257 used slots, and the canonical `b = 1` in the block of 256
slots of `big_int_new_from_int`.  The loop of `big_int_add_to_raw` runs over
`MAX(257, 1)` slots and reads `num2->slot[slot_idx]` in every pass, so it
reads `b->slot[256]`, one slot past the block of `b`. -/
theorem big_int_add_to_reads_past_block :
    big_int_left_shift (big_int_new_from_int 1) 8192 = some two_pow_8192 ∧
    canonical two_pow_8192 ∧ canonical (big_int_new_from_int 1) ∧
    two_pow_8192.slot_length = 257 ∧ (big_int_new_from_int 1).slot.length = 256 ∧
    big_int_add_to_checked two_pow_8192 (big_int_new_from_int 1) = outcome.outside :=
  ⟨by decide!, canonical_two_pow_8192, (new_from_int_spec 1 (by norm_num)).1.canonical,
    by decide, by decide, by decide⟩

set_option maxRecDepth 100000 in
/-- C3: `big_int_mul_to` reads outside a block.  For the canonical
`x = 2 ^ 8191` (8192 bits, a block of 256 slots, all used) and
`y = 2 ^ 16383` (16384 bits, a block of 512 slots), in either order, the
product goes to `__big_int_mul_karatsuba` with the split point
`b = ((16384 >> 1) | 31) + 1 = 8224`, and the loop of the low part of
`__big_int_mul_karatsuba_split` copies `8224 / 32 = 257` slots of `x`: it
reads `x->slot[256]`, one slot past the block of `x`.  The fuel plays no part:
the read comes before the first recursive call. -/
theorem big_int_mul_to_reads_past_block :
    canonical two_pow_8191 ∧ canonical two_pow_16383 ∧
    two_pow_8191.slot.length = 256 ∧
    (∀ fuel, big_int_mul_to_checked (fuel + 1) false two_pow_8191 two_pow_16383 =
      outcome.outside) ∧
    (∀ fuel, big_int_mul_to_checked (fuel + 1) false two_pow_16383 two_pow_8191 =
      outcome.outside) :=
  ⟨canonical_two_pow_8191, canonical_two_pow_16383, by decide, fun _ => rfl,
    fun _ => rfl⟩

set_option maxRecDepth 100000 in
/-- C31: each of the three operations leaves its blocks on canonical operands.
`big_int_add_to` of `a = 2 ^ 8160`, which uses all 256 slots of its block, and
`b = 1` stores the carry in `a->slot[256]`: `big_int_add_to_raw` reallocates
only when `BIT_TO_SLOT(8162) = 256` exceeds the capacity 256.
`big_int_sub_to` of `a = 2 ^ 8192` (257 used slots) and `b = -1` (a block of
256 slots) calls `big_int_add_to_raw`, whose loop reads `b->slot[256]`.
`big_int_mul_to` of `a = 2 ^ 8128` (255 used slots) and `b = 2 ^ 32` (2 used
slots) goes to `__big_int_mul_plain`, which allocates `num_term` with
`BIT_TO_SLOT(8129 + 33) = 256` slots and stores the carry of the row of
`a->slot[254]` in `num_term->slot[254 + 2]`. -/
theorem signed_operations_leave_block :
    canonical two_pow_8160 ∧ canonical two_pow_8192 ∧ canonical two_pow_8128 ∧
    canonical two_pow_32 ∧ canonical (big_int_new_from_int 1) ∧
    canonical (big_int_new_from_int_with_sign BIG_NUMBER_NEGATIVE 1) ∧
    big_int_add_to_checked two_pow_8160 (big_int_new_from_int 1) = outcome.outside ∧
    big_int_sub_to_checked two_pow_8192
      (big_int_new_from_int_with_sign BIG_NUMBER_NEGATIVE 1) = outcome.outside ∧
    (∀ fuel, big_int_mul_to_checked fuel false two_pow_8128 two_pow_32 = outcome.outside) :=
  ⟨canonical_two_pow_8160, canonical_two_pow_8192, canonical_two_pow_8128,
    canonical_two_pow_32, (new_from_int_spec 1 (by norm_num)).1.canonical,
    canonical_of_scan (by decide) (by decide) (by decide) (by decide) (by decide) (by decide)
      (by decide) (by decide),
    by decide, by decide, fun fuel => by cases fuel <;> rfl⟩

set_option maxRecDepth 100000 in
/-- C35: `__big_int_mul_karatsuba` reads outside a block.  For the canonical
`x = 2 ^ 8191 + 1` (8192 bits, a block of 256 slots, all used) and
`y = -(2 ^ 16383 + 1)` (16384 bits, a block of 512 slots), in either order,
the split point is `b = ((16384 >> 1) | 31) + 1 = 8224` and the loop of the
low part of `__big_int_mul_karatsuba_split` copies `8224 / 32 = 257` slots of
`x`: it reads `x->slot[256]`, one slot past the block of `x`, before the first
recursive call. -/
theorem karatsuba_split_reads_past_block :
    canonical two_pow_8191_plus_1 ∧ canonical neg_two_pow_16383_plus_1 ∧
    768 < two_pow_8191_plus_1.bit_length ∧ 768 < neg_two_pow_16383_plus_1.bit_length ∧
    two_pow_8191_plus_1.slot.length = 256 ∧
    (((neg_two_pow_16383_plus_1.bit_length >>> 1) ||| 31) + 1) / BIT_PER_SLOT = 257 ∧
    (∀ fuel, __big_int_mul_karatsuba_checked fuel false two_pow_8191_plus_1
      neg_two_pow_16383_plus_1 = outcome.outside) ∧
    (∀ fuel, __big_int_mul_karatsuba_checked fuel false neg_two_pow_16383_plus_1
      two_pow_8191_plus_1 = outcome.outside) :=
  ⟨canonical_two_pow_8191_plus_1, canonical_neg_two_pow_16383_plus_1, by decide, by decide,
    by decide, by decide, fun _ => rfl, fun _ => rfl⟩

set_option maxRecDepth 1000000 in
/-- C9: `big_int_pow_mod_to` reads outside a block.  For the canonical
`a = 2 ^ 4096` (129 used slots in a block of 256 slots, as
`big_int_left_shift` of `1` by `4096` leaves it), `e = 2` and `n = 3`
the first pass of the loop squares `a` with `big_int_mul_to(num1, num1)`,
which goes to `__big_int_mul_karatsuba`; its last step adds `z1` and `z0`
into `result = z2 << (b << 1)`, which has 257 used slots, and the loop of
`big_int_add_to_raw` reads `num2->slot[256]` of an operand that sits in a
block of 256 slots.  The run ends there whatever fuel is left. -/
theorem big_int_pow_mod_to_reads_past_block :
    big_int_left_shift (big_int_new_from_int 1) 4096 = some two_pow_4096 ∧
    canonical two_pow_4096 ∧ magnitude two_pow_4096 = 2 ^ 4096 ∧
    canonical (big_int_new_from_int 2) ∧ canonical (big_int_new_from_int 3) ∧
    two_pow_4096.slot.length = 256 ∧
    ∀ fuel, big_int_pow_mod_to_checked (fuel + 3) two_pow_4096 (big_int_new_from_int 2)
      (big_int_new_from_int 3) = outcome.outside :=
  ⟨by decide!, canonical_two_pow_4096, by decide!,
    (new_from_int_spec 2 (by norm_num)).1.canonical,
    (new_from_int_spec 3 (by norm_num)).1.canonical, by decide,
    fun fuel => pow_mod_to_checked_square_4096 fuel (big_int_new_from_int 3)⟩

set_option maxRecDepth 1000000 in
/-- C19: the computation of `dh` reads outside a block.  For the prime modulus
`p = 2 ^ 9689 - 1` (303 slots) and the private keys `8192` and `3`, the public
key of Alice is computed by `big_int_pow_mod_to(2, 8192, p)`, which squares
`2` thirteen times; no square is reduced, being below `p`, and the thirteenth
squares `2 ^ 4096` (129 used slots in a block of 256 slots) with
`__big_int_mul_karatsuba`, whose last step reads `num2->slot[256]` of an
operand that sits in a block of 256 slots.  The run ends there whatever fuel
is left. -/
theorem dh_reads_past_block :
    canonical mersenne_9689 ∧ magnitude mersenne_9689 = 2 ^ 9689 - 1 ∧
    canonical (big_int_new_from_int 8192) ∧ canonical (big_int_new_from_int 3) ∧
    ∀ fuel, dh_checked (fuel + 3) mersenne_9689 (big_int_new_from_int 8192)
      (big_int_new_from_int 3) = outcome.outside :=
  ⟨canonical_mersenne_9689, by decide!, (new_from_int_spec 8192 (by norm_num)).1.canonical,
    (new_from_int_spec 3 (by norm_num)).1.canonical,
    fun fuel => dh_checked_mersenne fuel (big_int_new_from_int 3)⟩

end Libbigint
